import Mathlib

/-!
# GoCli: a shallow embedding of the package `beurive.com/cli`

The development embeds the Go package `cli` (files `cli.go`, `option.go`, `spec.go`,
`index.go`, `errors.go`) and states its properties.

Modelling conventions.

* A Go `string` is a Lean `String` (valid UTF-8 text); `len(s)` is `String.utf8ByteSize`.
* A value holder is an `interface{}` that carries a typed pointer.  It is modelled by the pair of
  its dynamic type (`typeOption`, `TypeUnexpected` for every dynamic type that is not one of the
  27 supported pointer types) and the address it points to (`none` is the nil pointer).
  Two pointers are the same variable iff they have the same type and the same address, which is
  the equality Go uses for interface values used as map keys.
* The memory the holders point to is the record `Heap`, with one address space per type of
  variable.  A slice is a window (first element, length, capacity) on the variables of its
  element type, so that two slices may share an array and a pointer may point to an element of
  a slice, as in Go.
* An `*Option` is the position of the option in the backing array of the `Spec` slice.
* A run-time panic (nil dereference) is the result `none` of the outer `Option`.
* An `error` value is modelled by the type `Error`, with one constructor per format string of
  `errors.go` carrying the arguments of the format, and one constructor for `*strconv.NumError`.
-/

set_option autoImplicit false

namespace cli

/-! ## option.go: types of holders -/

/-- The "GO type" of the option's value holder (`typeOption` in option.go). -/
inductive typeOption
  | TypeUnexpected
  | TypeBool
  | TypeString
  | TypeInteger
  | TypeInteger8
  | TypeInteger16
  | TypeInteger32
  | TypeInteger64
  | TypeFloat32
  | TypeFloat64
  | TypeStrings
  | TypeIntegers
  | TypeIntegers8
  | TypeIntegers16
  | TypeIntegers32
  | TypeIntegers64
  | TypeFloats32
  | TypeFloats64
  | TypeUInteger
  | TypeUInteger8
  | TypeUInteger16
  | TypeUInteger32
  | TypeUInteger64
  | TypeUIntegers
  | TypeUIntegers8
  | TypeUIntegers16
  | TypeUIntegers32
  | TypeUIntegers64
  deriving DecidableEq, Repr

open typeOption

/-- The constraints that apply to a type of holder (`typeConstraints` in option.go). -/
structure typeConstraints where
  singleton : Bool
  value : Bool
  deriving DecidableEq, Repr

/-- The map `typesConstraints` of option.go.  A key that is absent from the Go map
(`TypeUnexpected`) yields the zero value of `typeConstraints`. -/
def typesConstraints : typeOption → typeConstraints
  | TypeBool => ⟨true, false⟩
  | TypeString => ⟨true, true⟩
  | TypeInteger => ⟨true, true⟩
  | TypeInteger8 => ⟨true, true⟩
  | TypeInteger16 => ⟨true, true⟩
  | TypeInteger32 => ⟨true, true⟩
  | TypeInteger64 => ⟨true, true⟩
  | TypeFloat32 => ⟨true, true⟩
  | TypeFloat64 => ⟨true, true⟩
  | TypeStrings => ⟨false, true⟩
  | TypeIntegers => ⟨false, true⟩
  | TypeIntegers8 => ⟨false, true⟩
  | TypeIntegers16 => ⟨false, true⟩
  | TypeIntegers32 => ⟨false, true⟩
  | TypeIntegers64 => ⟨false, true⟩
  | TypeFloats32 => ⟨false, true⟩
  | TypeFloats64 => ⟨false, true⟩
  | TypeUInteger => ⟨true, true⟩
  | TypeUInteger8 => ⟨true, true⟩
  | TypeUInteger16 => ⟨true, true⟩
  | TypeUInteger32 => ⟨true, true⟩
  | TypeUInteger64 => ⟨true, true⟩
  | TypeUIntegers => ⟨false, true⟩
  | TypeUIntegers8 => ⟨false, true⟩
  | TypeUIntegers16 => ⟨false, true⟩
  | TypeUIntegers32 => ⟨false, true⟩
  | TypeUIntegers64 => ⟨false, true⟩
  | TypeUnexpected => ⟨false, false⟩

/-! ## errors.go -/

/-- The two sentinel errors of the Go package strconv. -/
inductive NumErrKind
  | ErrSyntax
  | ErrRange
  deriving DecidableEq, Repr

/-- The Go type `strconv.NumError`: the failing function, the input and the reason. -/
structure NumError where
  Func : String
  Num : String
  Err : NumErrKind
  deriving DecidableEq, Repr

/-- An error value: one constructor per format string of errors.go, with the arguments
given to `fmt.Sprintf`, and `numError` for an error returned by strconv. -/
inductive Error
  | errorDuplicatedFlagOption (name : String)
  | errorDuplicatedNonFlagOption (name : String)
  | errorUnexpectedShortNamedOption (name : String)
  | errorUnexpectedLongNamedOption (name : String)
  | errorNonFlagOptionWithinCompound (name : String)
  | errorInvalidOptionSpecifier (param : String) (i : Nat)
  | errorUnexpectedEndOfOptionsListSpec
  | errorValueExpectedOptionEncountered
  | errorInvalidOptionSpecificationNoName
  | errorInvalidOptionSpecificationUnexpectedHolderType
  | errorShortNameTooLong (short : String)
  | errorShortNameUnexpectedCharacter (short : String)
  | errorLongNameUnexpectedCharacter (long : String)
  | errorUnexpectedType
  | errorInvalidValueBoolExpected
  | errorInvalidValueStringExpected
  | errorInvalidCmdLineSpecInvalidOptionDefinition (i : Nat) (cause : Error)
  | errorInvalidCmdLineSpecDuplicatedShortNamedOption (i : Nat) (short : String)
  | errorInvalidCmdLineSpecDuplicatedLongNamedOption (i : Nat) (long : String)
  | errorInvalidCmdLineSpecReuseOfValueHolder (i : Nat)
  | numError (e : NumError)
  deriving DecidableEq, Repr

/-! ## The Go package strconv -/

/-- A floating point number, as returned by `strconv.ParseFloat` (its IEEE-754 bit pattern). -/
structure FloatVal where
  bits : Nat
  deriving DecidableEq, Repr

/-- The parts of the Go package strconv the development takes as parameters: the size in bits of
the types `int` and `uint` on the platform, and the function `ParseFloat` (text, bit size). -/
structure Strconv where
  IntSize : Nat
  ParseFloat : String → Nat → Except NumError FloatVal

/-- The loop of `strconv.ParseUint` for base 10: `n` is the value read so far, `maxVal` is
`2^bitSize - 1`.  The first offending character decides the error. -/
def ParseUint.loop (maxVal : Nat) : List Char → Nat → Except NumErrKind Nat
  | [], n => .ok n
  | d :: s, n =>
    if 48 ≤ d.toNat ∧ d.toNat ≤ 57 then
      let v := d.toNat - 48
      -- cutoff is the smallest number such that cutoff*base > maxUint64
      if n ≥ (2 ^ 64 - 1) / 10 + 1 then .error .ErrRange
      else
        let n1 := n * 10 + v
        if n1 ≥ 2 ^ 64 ∨ n1 > maxVal then .error .ErrRange
        else ParseUint.loop maxVal s n1
    else .error .ErrSyntax

/-- The Go function `strconv.ParseUint(s, 10, bitSize)`. -/
def ParseUint (P : Strconv) (s : String) (bitSize : Nat) : Except NumError Nat :=
  let bitSize := if bitSize = 0 then P.IntSize else bitSize
  if s.data = [] then .error ⟨"ParseUint", s, .ErrSyntax⟩
  else
    match ParseUint.loop (2 ^ bitSize - 1) s.data 0 with
    | .ok n => .ok n
    | .error e => .error ⟨"ParseUint", s, e⟩

/-- The Go function `strconv.ParseInt(s, 10, bitSize)`: an optional sign, then `ParseUint`,
then the check against the range of a signed integer of `bitSize` bits. -/
def ParseInt (P : Strconv) (s : String) (bitSize : Nat) : Except NumError Int :=
  match s.data with
  | [] => .error ⟨"ParseInt", s, .ErrSyntax⟩
  | c :: r =>
    let neg : Bool := c = '-'
    let body : List Char := if c = '+' ∨ c = '-' then r else c :: r
    let bits := if bitSize = 0 then P.IntSize else bitSize
    let cutoff : Nat := 2 ^ (bits - 1)
    match ParseUint P (String.mk body) bitSize with
    | .error e =>
      if e.Err = .ErrRange then .error ⟨"ParseInt", s, .ErrRange⟩
      else .error ⟨"ParseInt", s, e.Err⟩
    | .ok un =>
      if !neg ∧ un ≥ cutoff then .error ⟨"ParseInt", s, .ErrRange⟩
      else if neg ∧ un > cutoff then .error ⟨"ParseInt", s, .ErrRange⟩
      else .ok (if neg then -(un : Int) else (un : Int))

/-! ## Holders and memory -/

/-- A value holder: the dynamic type of the interface value and the pointer it carries. -/
structure Holder where
  kind : typeOption
  ptr : Option Nat
  deriving DecidableEq, Repr

/-- The value of a slice variable: the address of its first element among the variables of
the element type, its length, and the room left in its array after these elements, so that
its capacity is `len + room`.  The nil slice has length 0 and capacity 0. -/
structure Slice where
  base : Nat
  len : Nat
  room : Nat
  deriving DecidableEq, Repr

/-- The capacity `cap(s)` of a slice. -/
def Slice.cap (s : Slice) : Nat := s.len + s.room

/-- The elements of a slice, read in the variables `mem` of the element type. -/
def Slice.read {α : Type} (s : Slice) (mem : Nat → α) : List α :=
  (List.range s.len).map fun i => mem (s.base + i)

/-- Expression `append(s, v)` on the variables `mem` of the element type: the new slice, the
variables and the next free address after the call.  When the capacity allows, `v` is written
in the array right after the elements of `s`, in a variable that another slice on this array,
or a pointer to this element, sees too.  Otherwise an array is allocated at the next free
address for `len + 1` elements and the spare capacity `spare (len + 1)` that the runtime adds,
the elements are copied to it and `v` is written after them. -/
def Slice.append {α : Type} (s : Slice) (mem : Nat → α) (next : Nat) (spare : Nat → Nat)
    (v : α) : Slice × (Nat → α) × Nat :=
  if 0 < s.room then
    (⟨s.base, s.len + 1, s.room - 1⟩, (fun a => if a = s.base + s.len then v else mem a), next)
  else
    (⟨next, s.len + 1, spare (s.len + 1)⟩,
      (fun a => if next ≤ a ∧ a < next + s.len then mem (s.base + (a - next))
        else if a = next + s.len then v else mem a),
      next + (s.len + 1 + spare (s.len + 1)))

/-- The holder type of the elements of a slice holder type: `TypeInteger8` for `TypeIntegers8`,
and so on; the other types are left as they are. -/
def elemType : typeOption → typeOption
  | TypeStrings => TypeString
  | TypeIntegers => TypeInteger
  | TypeIntegers8 => TypeInteger8
  | TypeIntegers16 => TypeInteger16
  | TypeIntegers32 => TypeInteger32
  | TypeIntegers64 => TypeInteger64
  | TypeUIntegers => TypeUInteger
  | TypeUIntegers8 => TypeUInteger8
  | TypeUIntegers16 => TypeUInteger16
  | TypeUIntegers32 => TypeUInteger32
  | TypeUIntegers64 => TypeUInteger64
  | TypeFloats32 => TypeFloat32
  | TypeFloats64 => TypeFloat64
  | k => k

/-- The memory the holders point to, one address space per type of variable.  `strings` holds
the variables of type `string`: those a `*string` points to and the elements of the arrays of
the slices of strings alike, so that two slices may share elements and a `*string` may point
to an element of a slice; `ints` and `floats` do the same for each numeric type and are
indexed by the holder type of the scalar (`TypeInteger8` for the variables of type `int8`).
`stringSlices`, `intSlices` and `floatSlices` hold the slice variables, indexed by the holder
type of the slice (`TypeIntegers8` for those of type `[]int8`).  `spare n` is the capacity that
the runtime adds when `append` allocates an array for `n` elements (the language leaves it to
the implementation).  `next` is the next free address. -/
structure Heap where
  bools : Nat → Bool
  strings : Nat → String
  ints : typeOption → Nat → Int
  floats : typeOption → Nat → FloatVal
  stringSlices : Nat → Slice
  intSlices : typeOption → Nat → Slice
  floatSlices : typeOption → Nat → Slice
  spare : Nat → Nat
  next : Nat

/-- The contents `*p` of the slice of strings at address `p`. -/
def Heap.stringLists (h : Heap) (p : Nat) : List String :=
  (h.stringSlices p).read h.strings

/-- The contents `*p` of the slice of integers of holder type `k` at address `p`. -/
def Heap.intLists (h : Heap) (k : typeOption) (p : Nat) : List Int :=
  (h.intSlices k p).read (h.ints (elemType k))

/-- The contents `*p` of the slice of floats of holder type `k` at address `p`. -/
def Heap.floatLists (h : Heap) (k : typeOption) (p : Nat) : List FloatVal :=
  (h.floatSlices k p).read (h.floats (elemType k))

/-- Assignment `*p = v` through a `*bool`. -/
def Heap.setBool (h : Heap) (p : Nat) (v : Bool) : Heap :=
  { h with bools := fun a => if a = p then v else h.bools a }

/-- Assignment `*p = v` through a `*string`. -/
def Heap.setString (h : Heap) (p : Nat) (v : String) : Heap :=
  { h with strings := fun a => if a = p then v else h.strings a }

/-- Assignment `*p = v` through a pointer to an integer type `k`. -/
def Heap.setInt (h : Heap) (k : typeOption) (p : Nat) (v : Int) : Heap :=
  { h with ints := fun k' a => if k' = k ∧ a = p then v else h.ints k' a }

/-- Assignment `*p = v` through a pointer to a float type `k`. -/
def Heap.setFloat (h : Heap) (k : typeOption) (p : Nat) (v : FloatVal) : Heap :=
  { h with floats := fun k' a => if k' = k ∧ a = p then v else h.floats k' a }

/-- Statement `*p = append(*p, v)` through a `*[]string`. -/
def Heap.appendString (h : Heap) (p : Nat) (v : String) : Heap :=
  let r := (h.stringSlices p).append h.strings h.next h.spare v
  { h with
    strings := r.2.1
    stringSlices := fun q => if q = p then r.1 else h.stringSlices q
    next := r.2.2 }

/-- Statement `*p = append(*p, v)` through a pointer to a slice of integers of type `k`. -/
def Heap.appendInt (h : Heap) (k : typeOption) (p : Nat) (v : Int) : Heap :=
  let r := (h.intSlices k p).append (h.ints (elemType k)) h.next h.spare v
  { h with
    ints := fun k' a => if k' = elemType k then r.2.1 a else h.ints k' a
    intSlices := fun k' q => if k' = k ∧ q = p then r.1 else h.intSlices k' q
    next := r.2.2 }

/-- Statement `*p = append(*p, v)` through a pointer to a slice of floats of type `k`. -/
def Heap.appendFloat (h : Heap) (k : typeOption) (p : Nat) (v : FloatVal) : Heap :=
  let r := (h.floatSlices k p).append (h.floats (elemType k)) h.next h.spare v
  { h with
    floats := fun k' a => if k' = elemType k then r.2.1 a else h.floats k' a
    floatSlices := fun k' q => if k' = k ∧ q = p then r.1 else h.floatSlices k' q
    next := r.2.2 }

/-- Expression `new(bool)`: a fresh variable holding the zero value. -/
def Heap.newBool (h : Heap) : Nat × Heap :=
  (h.next, { h.setBool h.next false with next := h.next + 1 })

/-- Expression `new(string)`. -/
def Heap.newString (h : Heap) : Nat × Heap :=
  (h.next, { h.setString h.next "" with next := h.next + 1 })

/-- Expression `new(T)` for an integer type `T` of holder type `k`. -/
def Heap.newInt (h : Heap) (k : typeOption) : Nat × Heap :=
  (h.next, { h.setInt k h.next 0 with next := h.next + 1 })

/-- Expression `new(T)` for a float type `T` of holder type `k`. -/
def Heap.newFloat (h : Heap) (k : typeOption) : Nat × Heap :=
  (h.next, { h.setFloat k h.next ⟨0⟩ with next := h.next + 1 })

/-! ## option.go: options -/

/-- The Go structure `Option` of option.go (the name `Option` is taken in Lean). -/
structure CliOption where
  Short : String
  Long : String
  Holder : Holder
  set : Bool
  deriving DecidableEq, Repr

/-- The value given to `addValue`, of static type `interface{}`: a bool, a string, or a value
of another dynamic type. -/
inductive Value
  | bool (b : Bool)
  | string (s : String)
  | other
  deriving DecidableEq, Repr

/-- The Go method `Option.getType`: the chain of type assertions on the holder. -/
def CliOption.getType (o : CliOption) : typeOption × Option Error :=
  if o.Holder.kind = TypeUnexpected then (TypeUnexpected, some .errorUnexpectedType)
  else (o.Holder.kind, none)

/-- The Go method `Option.isSet`. -/
def CliOption.isSet (o : CliOption) : Bool := o.set

/-- The Go method `Option.setIt` (pointer receiver): the option after the call. -/
def CliOption.setIt (o : CliOption) : CliOption := { o with set := true }

/-- The Go method `Option.isSingleton`. -/
def CliOption.isSingleton (o : CliOption) : Bool :=
  (typesConstraints o.getType.1).singleton

/-- The Go method `Option.requireValue`. -/
def CliOption.requireValue (o : CliOption) : Bool :=
  (typesConstraints o.getType.1).value

/-- The cases of `addValue` for a scalar signed integer holder of type `k`: allocate the
variable when the pointer is nil, parse, and store on success. -/
def CliOption.addInt (P : Strconv) (o : CliOption) (k : typeOption) (bitSize : Nat)
    (v : String) (h : Heap) : Option Error × CliOption × Heap :=
  let (p, o, h) := match o.Holder.ptr with
    | some p => (p, o, h)
    | none => let (p, h) := h.newInt k; (p, { o with Holder := ⟨k, some p⟩ }, h)
  match ParseInt P v bitSize with
  | .error err => (some (.numError err), o, h)
  | .ok n => (none, o, h.setInt k p n)

/-- The cases of `addValue` for a scalar unsigned integer holder of type `k`. -/
def CliOption.addUint (P : Strconv) (o : CliOption) (k : typeOption) (bitSize : Nat)
    (v : String) (h : Heap) : Option Error × CliOption × Heap :=
  let (p, o, h) := match o.Holder.ptr with
    | some p => (p, o, h)
    | none => let (p, h) := h.newInt k; (p, { o with Holder := ⟨k, some p⟩ }, h)
  match ParseUint P v bitSize with
  | .error err => (some (.numError err), o, h)
  | .ok n => (none, o, h.setInt k p (n : Int))

/-- The cases of `addValue` for a scalar float holder of type `k`. -/
def CliOption.addFloat (P : Strconv) (o : CliOption) (k : typeOption) (bitSize : Nat)
    (v : String) (h : Heap) : Option Error × CliOption × Heap :=
  let (p, o, h) := match o.Holder.ptr with
    | some p => (p, o, h)
    | none => let (p, h) := h.newFloat k; (p, { o with Holder := ⟨k, some p⟩ }, h)
  match P.ParseFloat v bitSize with
  | .error err => (some (.numError err), o, h)
  | .ok x => (none, o, h.setFloat k p x)

/-- The cases of `addValue` for a holder of type `k` that points to a slice of signed integers:
parse, then `if nil == p { *p = make(...) }` (a nil dereference), then append. -/
def CliOption.addInts (P : Strconv) (o : CliOption) (k : typeOption) (bitSize : Nat)
    (v : String) (h : Heap) : Option (Option Error × CliOption × Heap) :=
  match ParseInt P v bitSize with
  | .error err => some (some (.numError err), o, h)
  | .ok n =>
    match o.Holder.ptr with
    | none => none
    | some p => some (none, o, h.appendInt k p n)

/-- The cases of `addValue` for a holder that points to a slice of unsigned integers. -/
def CliOption.addUints (P : Strconv) (o : CliOption) (k : typeOption) (bitSize : Nat)
    (v : String) (h : Heap) : Option (Option Error × CliOption × Heap) :=
  match ParseUint P v bitSize with
  | .error err => some (some (.numError err), o, h)
  | .ok n =>
    match o.Holder.ptr with
    | none => none
    | some p => some (none, o, h.appendInt k p (n : Int))

/-- The cases of `addValue` for a holder that points to a slice of floats. -/
def CliOption.addFloats (P : Strconv) (o : CliOption) (k : typeOption) (bitSize : Nat)
    (v : String) (h : Heap) : Option (Option Error × CliOption × Heap) :=
  match P.ParseFloat v bitSize with
  | .error err => some (some (.numError err), o, h)
  | .ok x =>
    match o.Holder.ptr with
    | none => none
    | some p => some (none, o, h.appendFloat k p x)

/-- The Go method `Option.addValue` (pointer receiver).  The result is `none` when the call
panics; otherwise it is the returned error, the option after the call (its field `Holder` is
reassigned when the pointer was nil) and the memory after the call. -/
def CliOption.addValue (P : Strconv) (o : CliOption) (inValue : Value) (h : Heap) :
    Option (Option Error × CliOption × Heap) :=
  let typeOption := o.getType.1
  if typeOption = TypeBool then
    match inValue with
    | .bool v =>
      match o.Holder.ptr with
      | some p => some (none, o, h.setBool p v)
      | none =>
        let (p, h) := h.newBool
        some (none, { o with Holder := ⟨TypeBool, some p⟩ }, h.setBool p v)
    | _ => some (some .errorInvalidValueBoolExpected, o, h)
  else
    match inValue with
    | .string v =>
      match typeOption with
      | TypeString =>
        match o.Holder.ptr with
        | some p => some (none, o, h.setString p v)
        | none =>
          let (p, h) := h.newString
          some (none, { o with Holder := ⟨TypeString, some p⟩ }, h.setString p v)
      | TypeInteger => some (o.addInt P TypeInteger 0 v h)
      | TypeInteger8 => some (o.addInt P TypeInteger8 8 v h)
      | TypeInteger16 => some (o.addInt P TypeInteger16 16 v h)
      | TypeInteger32 => some (o.addInt P TypeInteger32 32 v h)
      | TypeInteger64 => some (o.addInt P TypeInteger64 64 v h)
      | TypeUInteger => some (o.addUint P TypeUInteger 0 v h)
      | TypeUInteger8 => some (o.addUint P TypeUInteger8 8 v h)
      | TypeUInteger16 => some (o.addUint P TypeUInteger16 16 v h)
      | TypeUInteger32 => some (o.addUint P TypeUInteger32 32 v h)
      | TypeUInteger64 => some (o.addUint P TypeUInteger64 64 v h)
      | TypeFloat32 => some (o.addFloat P TypeFloat32 32 v h)
      | TypeFloat64 => some (o.addFloat P TypeFloat64 64 v h)
      | TypeStrings =>
        match o.Holder.ptr with
        | none => none
        | some p => some (none, o, h.appendString p v)
      | TypeIntegers => o.addInts P TypeIntegers 0 v h
      | TypeIntegers8 => o.addInts P TypeIntegers8 8 v h
      | TypeIntegers16 => o.addInts P TypeIntegers16 16 v h
      | TypeIntegers32 => o.addInts P TypeIntegers32 32 v h
      | TypeIntegers64 => o.addInts P TypeIntegers64 64 v h
      | TypeUIntegers => o.addUints P TypeUIntegers 0 v h
      | TypeUIntegers8 => o.addUints P TypeUIntegers8 8 v h
      | TypeUIntegers16 => o.addUints P TypeUIntegers16 16 v h
      | TypeUIntegers32 => o.addUints P TypeUIntegers32 32 v h
      | TypeUIntegers64 => o.addUints P TypeUIntegers64 64 v h
      | TypeFloats32 => o.addFloats P TypeFloats32 32 v h
      | TypeFloats64 => o.addFloats P TypeFloats64 64 v h
      | _ => some (none, o, h)
    | _ => some (some .errorInvalidValueStringExpected, o, h)

/-! ## cli.go: the token classifier -/

/-- The Go function `isOption`: the regular expression `^--?` matches `inString`, that is,
`inString` starts with a dash. -/
def isOption (inString : String) : Bool :=
  match inString.data with
  | c :: _ => c = '-'
  | [] => false

/-- The characters matched by the class `[!?a-z0-9]` under the flag `(?i)`.  Go adds to a class
every character that is a simple case folding of one of its members: the upper case letters,
and also U+017F (long s, folded with `s`) and U+212A (Kelvin sign, folded with `k`). -/
def isNameStart (c : Char) : Bool :=
  c = '!' || c = '?' || (97 ≤ c.toNat && c.toNat ≤ 122) || (65 ≤ c.toNat && c.toNat ≤ 90)
    || (48 ≤ c.toNat && c.toNat ≤ 57) || c.toNat = 0x17F || c.toNat = 0x212A

/-- The characters matched by the class `[a-z0-9_\-.]` under the flag `(?i)`. -/
def isNameChar (c : Char) : Bool :=
  (97 ≤ c.toNat && c.toNat ≤ 122) || (65 ≤ c.toNat && c.toNat ≤ 90)
    || (48 ≤ c.toNat && c.toNat ≤ 57) || c = '_' || c = '-' || c = '.'
    || c.toNat = 0x17F || c.toNat = 0x212A

/-- The group `(-)?` at the start of the text: the text without one leading dash. -/
def dropDash : List Char → List Char
  | c :: r => if c = '-' then r else c :: r
  | [] => []

/-- The group `(--)?` at the start of the text: the text without two leading dashes. -/
def dropDashDash : List Char → List Char
  | c :: d :: r => if c = '-' ∧ d = '-' then r else c :: d :: r
  | l => l

/-- The Go function `isOptionShort`, regular expression `(?i)^(-)?([!?a-z0-9]+)$`.  No member of
the class is a dash, so the second group is the text without its leading dash when it has one,
and the whole text otherwise.  The value `nil` is the empty list. -/
def isOptionShort (inString : String) : Bool × List String :=
  let m2 := dropDash inString.data
  if m2 ≠ [] ∧ m2.all isNameStart then
    if (String.mk m2).utf8ByteSize = 1 then (true, [String.mk m2])
    else (true, m2.map fun c => String.singleton c)
  else (false, [])

/-- The Go function `isOptionLong`, regular expression `(?i)^(--)?([!?a-z0-9][a-z0-9_\-.]*)$`.
The second group cannot start with a dash, so it is the text without its two leading dashes when
it has them, and the whole text otherwise. -/
def isOptionLong (inString : String) : Bool × String :=
  match dropDashDash inString.data with
  | c :: r => if isNameStart c ∧ r.all isNameChar then (true, String.mk (c :: r)) else (false, "")
  | [] => (false, "")

/-- The Go function `isEndOfOptionSpecifier`. -/
def isEndOfOptionSpecifier (inString : String) : Bool := inString = "--"

/-- The Go method `Option.init`.  The receiver is a value: the method works on a copy `o` of the
option, so the assignment `o.set = false` changes the copy only, whereas `*p = false` writes
through the holder of a flag (and panics when that pointer is nil).  The result is `none` for a
panic, else the returned error and the memory after the call. -/
def CliOption.init (o : CliOption) (h : Heap) : Option (Option Error × Heap) :=
  if o.Short = "" ∧ o.Long = "" then some (some .errorInvalidOptionSpecificationNoName, h)
  else if o.Short ≠ "" ∧ o.Short.utf8ByteSize > 1 then
    some (some (.errorShortNameTooLong o.Short), h)
  else if o.Short ≠ "" ∧ (isOptionShort o.Short).1 = false then
    some (some (.errorShortNameUnexpectedCharacter o.Short), h)
  else if o.Long ≠ "" ∧ (isOptionLong o.Long).1 = false then
    some (some (.errorLongNameUnexpectedCharacter o.Long), h)
  else if o.getType.2 ≠ none then
    some (some .errorInvalidOptionSpecificationUnexpectedHolderType, h)
  else
    let o : CliOption := { o with set := false }
    if o.getType.1 = TypeBool then
      match o.Holder.ptr with
      | some p => some (none, h.setBool p false)
      | none => none
    else some (none, h)

/-! ## index.go and spec.go -/

/-- The Go structure `specIndex`: two maps from a name to a pointer to an option, that is, to
the position of the option in the specification.  A Go map is a list of (key, value) pairs
with at most one pair per key. -/
structure specIndex where
  Short : List (String × Nat)
  Long : List (String × Nat)
  deriving DecidableEq, Repr

/-- The Go method `specIndex.getShortByName` (`none` is the nil pointer). -/
def specIndex.getShortByName (s : specIndex) (inName : String) : Option Nat :=
  s.Short.lookup inName

/-- The Go method `specIndex.getLongByName` (`none` is the nil pointer). -/
def specIndex.getLongByName (s : specIndex) (inName : String) : Option Nat :=
  s.Long.lookup inName

/-- The Go type `Spec`: a slice of options. -/
abbrev Spec := List CliOption

/-- The loop of `Spec.init`, at position `i`, over the options that remain, with the three maps
built so far.  The result is `none` for a panic, else the returned index or error and the
memory after the call. -/
def Spec.initLoop : Nat → List CliOption → List (String × Nat) → List (String × Nat) →
    List (Holder × Nat) → Heap → Option (Except Error specIndex × Heap)
  | _, [], shorts, longs, _, h => some (.ok ⟨shorts, longs⟩, h)
  | i, option :: rest, shorts, longs, holders, h =>
    match option.init h with
    | none => none
    | some (some err, h) => some (.error (.errorInvalidCmdLineSpecInvalidOptionDefinition i err), h)
    | some (none, h) =>
      if option.Short ≠ "" ∧ (shorts.lookup option.Short).isSome then
        some (.error (.errorInvalidCmdLineSpecDuplicatedShortNamedOption i option.Short), h)
      else
        let shorts := if option.Short ≠ "" then (option.Short, i) :: shorts else shorts
        if option.Long ≠ "" ∧ (longs.lookup option.Long).isSome then
          some (.error (.errorInvalidCmdLineSpecDuplicatedLongNamedOption i option.Long), h)
        else
          let longs := if option.Long ≠ "" then (option.Long, i) :: longs else longs
          if (holders.lookup option.Holder).isSome then
            some (.error (.errorInvalidCmdLineSpecReuseOfValueHolder i), h)
          else
            Spec.initLoop (i + 1) rest shorts longs ((option.Holder, i) :: holders) h

/-- The Go method `Spec.init`. -/
def Spec.init (s : Spec) (h : Heap) : Option (Except Error specIndex × Heap) :=
  Spec.initLoop 0 s [] [] [] h

/-! ## cli.go: the parser -/

/-- The Go function `recordOption`: the returned error and the option after the call. -/
def recordOption (inOption : CliOption) (inName : String) : Option Error × CliOption :=
  if !inOption.requireValue || inOption.isSingleton then
    if inOption.isSet then
      if !inOption.requireValue then (some (.errorDuplicatedFlagOption inName), inOption)
      else (some (.errorDuplicatedNonFlagOption inName), inOption)
    else (none, inOption.setIt)
  else (none, inOption.setIt)

/-- The state the parser shares with its caller: the options of the specification (their
fields `set` and `Holder` change) and the memory the holders point to. -/
structure State where
  spec : Spec
  heap : Heap

/-- The local variables of the loop of `Parse`. -/
structure Vars where
  cliAll : List String
  nextShouldBeValue : Bool
  lastOption : Option Nat
  deriving DecidableEq, Repr

/-- The three results of `Parse`; `none` is `nil`. -/
structure Return where
  cli : Option (List String)
  args : Option (List String)
  err : Option Error
  deriving DecidableEq, Repr

/-- What one iteration of a loop of `Parse` does: go on with the next iteration (with the
new values `a` of the variables the loop changes), return from `Parse`, or panic. -/
inductive Step (α : Type)
  | next (a : α) (st : State)
  | ret (r : Return) (st : State)
  | panic

/-- The call `o.addValue(inValue)` in `Parse`, on the option at position `j`; the returned
error is dropped by the caller.  `none` is a panic. -/
def State.addValue (P : Strconv) (st : State) (j : Nat) (inValue : Value) : Option State :=
  match st.spec[j]? with
  | none => none
  | some o =>
    match o.addValue P inValue st.heap with
    | none => none
    | some (_, o, h) => some ⟨st.spec.set j o, h⟩

/-- The loop `for _, name := range options` of `Parse`; `n` is `len(options)`.  The only local
variable the loop changes is `cliAll`. -/
def Parse.shortLoop (P : Strconv) (index : specIndex) (n : Nat) :
    List String → List String → State → Step (List String)
  | [], cliAll, st => .next cliAll st
  | name :: rest, cliAll, st =>
    match index.getShortByName name with
    | none => .ret ⟨none, none, some (.errorUnexpectedShortNamedOption name)⟩ st
    | some j =>
      match st.spec[j]? with
      | none => .panic
      | some o =>
        if o.requireValue ∧ n > 1 then
          .ret ⟨none, none, some (.errorNonFlagOptionWithinCompound name)⟩ st
        else
          match recordOption o name with
          | (some err, o) => .ret ⟨none, none, some err⟩ ⟨st.spec.set j o, st.heap⟩
          | (none, o) =>
            match State.addValue P ⟨st.spec.set j o, st.heap⟩ j (.bool true) with
            | none => .panic
            | some st => Parse.shortLoop P index n rest (cliAll ++ ["-" ++ name]) st

/-- The statements that follow the loop over the names of a short option specifier. -/
def Parse.afterShort (index : specIndex) (options : List String) (cliAll : List String)
    (st : State) : Step Vars :=
  if options.length > 1 then .next ⟨cliAll, false, none⟩ st
  else
    match options.head? with
    | none => .panic
    | some name =>
      match index.getShortByName name with
      | none => .panic
      | some j =>
        match st.spec[j]? with
        | none => .panic
        | some o =>
          if o.requireValue then .next ⟨cliAll, true, some j⟩ st
          else .next ⟨cliAll, false, none⟩ st

/-- The branch of `Parse` for a long option specifier of name `name`. -/
def Parse.longOption (P : Strconv) (index : specIndex) (name : String) (cliAll : List String)
    (st : State) : Step Vars :=
  match index.getLongByName name with
  | none => .ret ⟨none, none, some (.errorUnexpectedLongNamedOption name)⟩ st
  | some j =>
    match st.spec[j]? with
    | none => .panic
    | some o =>
      match recordOption o name with
      | (some err, o) => .ret ⟨none, none, some err⟩ ⟨st.spec.set j o, st.heap⟩
      | (none, o) =>
        if o.requireValue then
          .next ⟨cliAll ++ ["--" ++ name], true, some j⟩ ⟨st.spec.set j o, st.heap⟩
        else
          match State.addValue P ⟨st.spec.set j o, st.heap⟩ j (.bool true) with
          | none => .panic
          | some st => .next ⟨cliAll ++ ["--" ++ name], false, none⟩ st

/-- The body of the loop `for i, param := range inCliParams` of `Parse`, when a value is
expected (`nextShouldBeValue` is true). -/
def Parse.value (P : Strconv) (param : String) (cliAll : List String)
    (lastOption : Option Nat) (st : State) : Step Vars :=
  if isEndOfOptionSpecifier param then
    .ret ⟨none, none, some .errorUnexpectedEndOfOptionsListSpec⟩ st
  else if isOption param then
    .ret ⟨none, none, some .errorValueExpectedOptionEncountered⟩ st
  else
    match lastOption with
    | none => .panic
    | some j =>
      match State.addValue P st j (.string param) with
      | none => .panic
      | some st => .next ⟨cliAll ++ [param], false, lastOption⟩ st

/-- The body of the loop `for i, param := range inCliParams` of `Parse`, when no value is
expected; `rest` is `inCliParams[i+1:]`, so that `inCliParams[i:]` is `param :: rest`. -/
def Parse.token (P : Strconv) (index : specIndex) (i : Nat) (param : String)
    (rest : List String) (cliAll : List String) (st : State) : Step Vars :=
  if isEndOfOptionSpecifier param then
    .ret ⟨some (cliAll ++ param :: rest), some rest, none⟩ st
  else if isOption param then
    if (isOptionShort param).1 then
      match Parse.shortLoop P index (isOptionShort param).2.length (isOptionShort param).2
          cliAll st with
      | .next cliAll st => Parse.afterShort index (isOptionShort param).2 cliAll st
      | .ret r st => .ret r st
      | .panic => .panic
    else if (isOptionLong param).1 then
      Parse.longOption P index (isOptionLong param).2 cliAll st
    else .ret ⟨none, none, some (.errorInvalidOptionSpecifier param i)⟩ st
  else .ret ⟨some (cliAll ++ param :: rest), some (param :: rest), none⟩ st

/-- The body of the loop `for i, param := range inCliParams` of `Parse`. -/
def Parse.body (P : Strconv) (index : specIndex) (i : Nat) (param : String)
    (rest : List String) (v : Vars) (st : State) : Step Vars :=
  if v.nextShouldBeValue then Parse.value P param v.cliAll v.lastOption st
  else Parse.token P index i param rest v.cliAll st

/-- The loop `for i, param := range inCliParams` of `Parse`, from position `i`, over the
tokens that remain, followed by the statements after the loop.  `none` is a panic. -/
def Parse.loop (P : Strconv) (index : specIndex) :
    Nat → List String → Vars → State → Option (Return × State)
  | _, [], v, st => some (⟨some v.cliAll, some [], none⟩, st)
  | i, param :: rest, v, st =>
    match Parse.body P index i param rest v st with
    | .next v st => Parse.loop P index (i + 1) rest v st
    | .ret r st => some (r, st)
    | .panic => none

/-- The Go function `Parse`, run on the options `inSpec` and the memory `h`.  The result is
`none` when the call panics, else the three returned values and the options and the memory
after the call. -/
def Parse (P : Strconv) (inCliParams : List String) (inSpec : Spec) (h : Heap) :
    Option (Return × State) :=
  match Spec.init inSpec h with
  | none => none
  | some (.error error, h) => some (⟨none, none, some error⟩, ⟨inSpec, h⟩)
  | some (.ok index, h) => Parse.loop P index 0 inCliParams ⟨[], false, none⟩ ⟨inSpec, h⟩

/-- The iterations of the loop of `Parse` over the tokens `pre`, which are followed by the
tokens `post`: the variables and the state at the start of the iteration that follows `pre`,
when every iteration over `pre` goes on to the next one; `none` when one of them returns or
panics. -/
def Parse.through (P : Strconv) (index : specIndex) :
    Nat → List String → List String → Vars → State → Option (Vars × State)
  | _, [], _, v, st => some (v, st)
  | i, param :: pre, post, v, st =>
    match Parse.body P index i param (pre ++ post) v st with
    | .next v st => Parse.through P index (i + 1) pre post v st
    | _ => none

/-! ## Notions used to state the properties -/

/-- The map `m` holds exactly the keys `f o` of the options `o` of `done` that have one, each
bound to the position of its option. -/
def MapOf {κ : Type} [BEq κ] (f : CliOption → Option κ) (done : List CliOption)
    (m : List (κ × Nat)) : Prop :=
  ∀ (k : κ) (j : Nat), m.lookup k = some j ↔ ∃ o, done[j]? = some o ∧ f o = some k

/-- The key of an option in the map of the short names. -/
def shortKey (o : CliOption) : Option String := if o.Short ≠ "" then some o.Short else none

/-- The key of an option in the map of the long names. -/
def longKey (o : CliOption) : Option String := if o.Long ≠ "" then some o.Long else none

/-- The checks of `Option.init` that a declaration passes when `Option.init` returns no error:
the names are well formed and the holder has a supported type; the holder of a flag is not
nil (else `Option.init` panics). -/
structure CliOption.Checked (o : CliOption) : Prop where
  named : ¬(o.Short = "" ∧ o.Long = "")
  short : o.Short = "" ∨ ∃ c, o.Short = String.singleton c ∧ isNameStart c = true
  long : o.Long = "" ∨ (isOptionLong o.Long).1 = true
  kind : o.Holder.kind ≠ TypeUnexpected
  flag : o.Holder.kind = TypeBool → o.Holder.ptr ≠ none

/-- What `Spec.init` establishes when it returns an index: every option passes the checks of
`Option.init`, and the two maps of the index and the map of the holders bind each short name,
long name and holder to the position of the one option that declares it. -/
structure ValidSpec (spec : Spec) (index : specIndex) : Prop where
  checked : ∀ o ∈ spec, o.Checked
  shorts : MapOf shortKey spec index.Short
  longs : MapOf longKey spec index.Long
  holders : ∀ (i j : Nat) (a b : CliOption), spec[i]? = some a → spec[j]? = some b →
    a.Holder = b.Holder → i = j

/-- The option `o'` is a later state of the option `o`: the names and the type of the holder
are the same, a holder that was not nil is the same, a flag `set` that was true is true, and
the holder of an option that is not a singleton is the same. -/
structure CliOption.Evolves (o o' : CliOption) : Prop where
  short : o'.Short = o.Short
  long : o'.Long = o.Long
  kind : o'.Holder.kind = o.Holder.kind
  ptr : ∀ p, o.Holder.ptr = some p → o'.Holder.ptr = some p
  set : o.set = true → o'.set = true
  list : o.isSingleton = false → o'.Holder = o.Holder

/-- The options `s'` are a later state of the options `s`, position by position. -/
def Spec.Evolves (s s' : Spec) : Prop :=
  s'.length = s.length ∧ ∀ (j : Nat) (o o' : CliOption), s[j]? = some o → s'[j]? = some o' →
    o.Evolves o'

/-- The error without the position of the token it reports. -/
def Error.erasePosition : Error → Error
  | .errorInvalidOptionSpecifier param _ => .errorInvalidOptionSpecifier param 0
  | e => e

/-- The result of a call without the position reported by its error. -/
def erasePosition (r : Option (Return × State)) : Option (Return × State) :=
  r.map fun x => (⟨x.1.cli, x.1.args, x.1.err.map Error.erasePosition⟩, x.2)

/-- The outcome of an iteration without the position reported by its error. -/
def Step.erasePosition : Step Vars → Step Vars
  | .ret r st => .ret ⟨r.cli, r.args, r.err.map Error.erasePosition⟩ st
  | s => s

/-- Two calls of `Parse` have the same outcome: both panic, or both return an error, or both
return no error and the same expanded tokens, the same arguments, and leave the options and
the memory in the same state. -/
def sameOutcome (a b : Option (Return × State)) : Prop :=
  match a, b with
  | none, none => True
  | some (ra, sa), some (rb, sb) =>
    (ra.err ≠ none ∧ rb.err ≠ none) ∨
      (ra.err = none ∧ rb.err = none ∧ ra.cli = rb.cli ∧ ra.args = rb.args ∧ sa = sb)
  | _, _ => False

/-- The token `tok` uses the option `o` again, under the name `name`, when it is met in the
state `st` while no value is expected: it is the short name of `o` after one dash, or the long
name of `o` (which does not start with two dashes) after two dashes, or, when `o` is a flag, a
compound that holds the short name of `o` after the short names of distinct declared flags that
are not set. -/
inductive SecondUse (st : State) (o : CliOption) : String → String → Prop
  | short : o.Short ≠ "" → SecondUse st o ("-" ++ o.Short) o.Short
  | long : o.Long ≠ "" → dropDashDash o.Long.data = o.Long.data →
      SecondUse st o ("--" ++ o.Long) o.Long
  | compound (cs1 cs2 : List Char) (c : Char) : o.Short = String.singleton c →
      o.Holder.kind = TypeBool → 2 ≤ (cs1 ++ c :: cs2).length → cs1.Nodup →
      (∀ d ∈ cs1, ∃ o' ∈ st.spec, o'.Short = String.singleton d ∧ o'.Holder.kind = TypeBool ∧
        o'.set = false) →
      (∀ d ∈ cs2, isNameStart d = true) →
      SecondUse st o ("-" ++ String.mk (cs1 ++ c :: cs2)) o.Short

/-- Two calls of `Parse` have the same effect: both panic, or both return, either both with an
error or both without, and leave the options and the memory in the same state. -/
def sameEffect (a b : Option (Return × State)) : Prop :=
  match a, b with
  | none, none => True
  | some (ra, sa), some (rb, sb) => (ra.err = none ↔ rb.err = none) ∧ sa = sb
  | _, _ => False

/-- An element of the slice a repeatable holder points to. -/
inductive Elem
  | str (s : String)
  | int (n : Int)
  | float (x : FloatVal)
  deriving DecidableEq, Repr

/-- The contents of the slice the holder `hd` points to; the empty list when the pointer is
nil and when the holder is not a pointer to a slice. -/
def Heap.list (h : Heap) (hd : Holder) : List Elem :=
  match hd.ptr with
  | none => []
  | some p =>
    match hd.kind with
    | TypeStrings => (h.stringLists p).map .str
    | TypeIntegers => (h.intLists TypeIntegers p).map .int
    | TypeIntegers8 => (h.intLists TypeIntegers8 p).map .int
    | TypeIntegers16 => (h.intLists TypeIntegers16 p).map .int
    | TypeIntegers32 => (h.intLists TypeIntegers32 p).map .int
    | TypeIntegers64 => (h.intLists TypeIntegers64 p).map .int
    | TypeUIntegers => (h.intLists TypeUIntegers p).map .int
    | TypeUIntegers8 => (h.intLists TypeUIntegers8 p).map .int
    | TypeUIntegers16 => (h.intLists TypeUIntegers16 p).map .int
    | TypeUIntegers32 => (h.intLists TypeUIntegers32 p).map .int
    | TypeUIntegers64 => (h.intLists TypeUIntegers64 p).map .int
    | TypeFloats32 => (h.floatLists TypeFloats32 p).map .float
    | TypeFloats64 => (h.floatLists TypeFloats64 p).map .float
    | _ => []

/-- The element that the text `v` stands for in a repeatable holder of type `k`: the text
itself for a slice of strings, the number it denotes for a slice of numbers of the width of
`k`; `none` when the text is malformed or out of range. -/
def parseElem (P : Strconv) (k : typeOption) (v : String) : Option Elem :=
  match k with
  | TypeStrings => some (.str v)
  | TypeIntegers => (ParseInt P v 0).toOption.map .int
  | TypeIntegers8 => (ParseInt P v 8).toOption.map .int
  | TypeIntegers16 => (ParseInt P v 16).toOption.map .int
  | TypeIntegers32 => (ParseInt P v 32).toOption.map .int
  | TypeIntegers64 => (ParseInt P v 64).toOption.map .int
  | TypeUIntegers => (ParseUint P v 0).toOption.map fun n => .int n
  | TypeUIntegers8 => (ParseUint P v 8).toOption.map fun n => .int n
  | TypeUIntegers16 => (ParseUint P v 16).toOption.map fun n => .int n
  | TypeUIntegers32 => (ParseUint P v 32).toOption.map fun n => .int n
  | TypeUIntegers64 => (ParseUint P v 64).toOption.map fun n => .int n
  | TypeFloats32 => (P.ParseFloat v 32).toOption.map .float
  | TypeFloats64 => (P.ParseFloat v 64).toOption.map .float
  | _ => none

/-- The elements that the value `v` given to `addValue` adds to a repeatable holder of type
`k`: the element a well formed text stands for; nothing for a malformed text and for a value
that is not a string. -/
def Value.elems (P : Strconv) (k : typeOption) : Value → List Elem
  | .string val => (parseElem P k val).toList
  | _ => []

/-- The variable at address `a` among the variables of the element type `e`, as an element. -/
def Heap.cell (h : Heap) (e : typeOption) (a : Nat) : Elem :=
  match e with
  | TypeString => .str (h.strings a)
  | TypeFloat32 => .float (h.floats TypeFloat32 a)
  | TypeFloat64 => .float (h.floats TypeFloat64 a)
  | _ => .int (h.ints e a)

/-- The slice variable at address `p` for the holder type `k`. -/
def Heap.slice (h : Heap) (k : typeOption) (p : Nat) : Slice :=
  match k with
  | TypeStrings => h.stringSlices p
  | TypeFloats32 => h.floatSlices TypeFloats32 p
  | TypeFloats64 => h.floatSlices TypeFloats64 p
  | _ => h.intSlices k p

/-- The storage of a holder: the addresses, among the variables of its element type, that the
holder gives access to.  For a pointer to a scalar it is the address the pointer holds; for a
pointer to a slice it is the part of the array that the slice may use, its elements and its
spare capacity; a nil pointer has no storage. -/
def Heap.storage (h : Heap) (hd : Holder) (a : Nat) : Prop :=
  match hd.ptr with
  | none => False
  | some p =>
    if (typesConstraints hd.kind).singleton then a = p
    else (h.slice hd.kind p).base ≤ a ∧ a < (h.slice hd.kind p).base + (h.slice hd.kind p).cap

/-- The holder `hd` shares no storage with the holders of the options `s`: its storage is
allocated (below the next free address), and every holder of `s` other than `hd` with the same
element type has its storage allocated too and apart from the storage of `hd`. -/
def Spec.unshared (s : Spec) (h : Heap) (hd : Holder) : Prop :=
  (∀ a, h.storage hd a → a < h.next) ∧
  ∀ o ∈ s, o.Holder ≠ hd → elemType o.Holder.kind = elemType hd.kind →
    ∀ a, h.storage o.Holder a → a < h.next ∧ ¬ h.storage hd a

/-- The memory `h'` comes from the memory `h` by a step made through the holder `hd`, which
the step leaves as `hd'`: the next free address does not decrease; the allocated variables
outside the storage of `hd` and the slice variables other than the one `hd` points to are
unchanged; the storage of `hd'` is made of storage of `hd` and of addresses allocated by the
step; the step keeps the type of the holder, and the holder itself unless it is a nil pointer
to a scalar. -/
structure Heap.Frame (h h' : Heap) (hd hd' : Holder) : Prop where
  next : h.next ≤ h'.next
  cell : ∀ e a, a < h.next → ¬ (e = elemType hd.kind ∧ h.storage hd a) →
    h'.cell e a = h.cell e a
  slice : ∀ k p, (⟨k, some p⟩ : Holder) ≠ hd → h'.slice k p = h.slice k p
  storage : ∀ a, h'.storage hd' a → h.storage hd a ∨ (h.next ≤ a ∧ a < h'.next)
  kind : hd'.kind = hd.kind
  same : hd.ptr ≠ none ∨ (typesConstraints hd.kind).singleton = false → hd' = hd

/-- The token `tok` is the option `o` as written on the command line: its short name after one
dash, or its long name (which does not start with two dashes) after two dashes. -/
def designates (o : CliOption) (tok : String) : Prop :=
  (o.Short ≠ "" ∧ tok = "-" ++ o.Short) ∨
    (o.Long ≠ "" ∧ dropDashDash o.Long.data = o.Long.data ∧ tok = "--" ++ o.Long)

instance (o : CliOption) (tok : String) : Decidable (designates o tok) := by
  unfold designates
  infer_instance

/-- The tokens use the option at position `j` of the specification with the values `vs`, in
this order, each use followed by its value.  The options section is read from left to right:
it ends with the marker `--` or with the first token that does not start with a dash; a token
that designates an option that takes a value is followed by the value of this option; every
other token that starts with a dash (a flag, a compound) stands alone. -/
inductive Uses (spec : Spec) (j : Nat) : List String → List String → Prop
  | done : Uses spec j [] []
  | stop (tok : String) (rest : List String) : tok = "--" ∨ isOption tok = false →
      Uses spec j (tok :: rest) []
  | use (tok val : String) (rest vs : List String) (o : CliOption) : spec[j]? = some o →
      designates o tok → Uses spec j rest vs → Uses spec j (tok :: val :: rest) (val :: vs)
  | other (tok val : String) (rest vs : List String) (k : Nat) (o : CliOption) : k ≠ j →
      spec[k]? = some o → o.requireValue = true → designates o tok → Uses spec j rest vs →
      Uses spec j (tok :: val :: rest) vs
  | otherLast (tok : String) (k : Nat) (o : CliOption) : k ≠ j → spec[k]? = some o →
      o.requireValue = true → designates o tok → Uses spec j [tok] []
  | skip (tok : String) (rest vs : List String) : tok ≠ "--" → isOption tok = true →
      (∀ o ∈ spec, o.requireValue = true → ¬ designates o tok) →
      Uses spec j rest vs → Uses spec j (tok :: rest) vs

/-- The tokens give the option at position `j` of the specification the values `vs`, in this
order.  The options section is read as for `Uses`; in addition the last token may be a use of
any option that takes a value, the option at position `j` included: this use has no value. -/
inductive Receives (spec : Spec) (j : Nat) : List String → List String → Prop
  | done : Receives spec j [] []
  | stop (tok : String) (rest : List String) : tok = "--" ∨ isOption tok = false →
      Receives spec j (tok :: rest) []
  | use (tok val : String) (rest vs : List String) (o : CliOption) : spec[j]? = some o →
      designates o tok → Receives spec j rest vs →
      Receives spec j (tok :: val :: rest) (val :: vs)
  | other (tok val : String) (rest vs : List String) (k : Nat) (o : CliOption) : k ≠ j →
      spec[k]? = some o → o.requireValue = true → designates o tok → Receives spec j rest vs →
      Receives spec j (tok :: val :: rest) vs
  | last (tok : String) (k : Nat) (o : CliOption) : spec[k]? = some o →
      o.requireValue = true → designates o tok → Receives spec j [tok] []
  | skip (tok : String) (rest vs : List String) : tok ≠ "--" → isOption tok = true →
      (∀ o ∈ spec, o.requireValue = true → ¬ designates o tok) →
      Receives spec j rest vs → Receives spec j (tok :: rest) vs

/-- The invariant of the loop of `Parse` on its variables `nextShouldBeValue` and `lastOption`:
when a value is expected, `lastOption` points to an option that requires a value. -/
def Pending (v : Vars) (st : State) : Prop :=
  v.nextShouldBeValue = true →
    ∃ (j : Nat) (o : CliOption),
      v.lastOption = some j ∧ st.spec[j]? = some o ∧ o.requireValue = true

/-- The option specifier `tok` names the option `o`: the short name of `o` is one of the names
of the short form `tok`, or `tok` is a long form and its name is the long name of `o`. -/
def mentions (o : CliOption) (tok : String) : Bool :=
  if (isOptionShort tok).1 then decide (o.Short ∈ (isOptionShort tok).2)
  else (isOptionLong tok).1 && decide ((isOptionLong tok).2 = o.Long)

/-- The token `tok` designates an option of the specification that takes a value. -/
def takesValue (spec : Spec) (tok : String) : Bool :=
  spec.any fun o => o.requireValue && decide (designates o tok)

/-- The option `o` appears in the options section of the tokens, read from left to right; the
boolean tells whether the first token is the value of an option.  The options section ends
with the marker `--` or with the first token, not a value, that does not start with a dash; a
token that designates an option that takes a value is followed by the value of this option. -/
def appearsFrom (spec : Spec) (o : CliOption) : Bool → List String → Bool
  | _, [] => false
  | true, _ :: rest => appearsFrom spec o false rest
  | false, tok :: rest =>
    if tok = "--" ∨ isOption tok = false then false
    else if mentions o tok then true
    else appearsFrom spec o (takesValue spec tok) rest

/-- The option `o` appears in the options section of the command line. -/
def appears (spec : Spec) (o : CliOption) (tokens : List String) : Bool :=
  appearsFrom spec o false tokens

/-- The token `tok` is a compound: a short option specifier of two names or more. -/
def compound (tok : String) : Bool :=
  isOption tok && (isOptionShort tok).1 && decide ((isOptionShort tok).2.length > 1)

/-! ## Notions used to state the properties of the predicates, of the checks and of the
conversions -/

/-- The class `[A-Za-z0-9!?]` of the specification of the short names. -/
def asciiNameStart (c : Char) : Bool :=
  c = '!' || c = '?' || (97 ≤ c.toNat && c.toNat ≤ 122) || (65 ≤ c.toNat && c.toNat ≤ 90)
    || (48 ≤ c.toNat && c.toNat ≤ 57)

/-- The class `[A-Za-z0-9_.-]` of the specification of the long names. -/
def asciiNameChar (c : Char) : Bool :=
  (97 ≤ c.toNat && c.toNat ≤ 122) || (65 ≤ c.toNat && c.toNat ≤ 90)
    || (48 ≤ c.toNat && c.toNat ≤ 57) || c = '_' || c = '.' || c = '-'

/-- The two characters that are not ASCII letters and that are equal to an ASCII letter when
case is ignored: U+017F (long s) and U+212A (Kelvin sign). -/
def foldedLetter (c : Char) : Bool := c.toNat = 0x17F || c.toNat = 0x212A

/-- The option passes `Option.init`: the call returns no error, whatever the memory is. -/
def CliOption.accepted (o : CliOption) : Prop := ∀ h : Heap, ∃ h', o.init h = some (none, h')

/-- The options are jointly valid: each one passes `Option.init`, the short names that are not
empty are pairwise distinct, so are the long names that are not empty, and so are the
holders. -/
structure Spec.JointlyValid (spec : Spec) : Prop where
  accepted : ∀ o ∈ spec, o.accepted
  shorts : ∀ (i j : Nat) (a b : CliOption), spec[i]? = some a → spec[j]? = some b →
    a.Short ≠ "" → a.Short = b.Short → i = j
  longs : ∀ (i j : Nat) (a b : CliOption), spec[i]? = some a → spec[j]? = some b →
    a.Long ≠ "" → a.Long = b.Long → i = j
  holders : ∀ (i j : Nat) (a b : CliOption), spec[i]? = some a → spec[j]? = some b →
    a.Holder = b.Holder → i = j

/-- The short name `name`, not empty, is declared by an option before position `i`. -/
def Spec.shortDeclaredBefore (spec : Spec) (i : Nat) (name : String) : Prop :=
  name ≠ "" ∧ ∃ (j : Nat) (a : CliOption), j < i ∧ spec[j]? = some a ∧ a.Short = name

/-- The long name `name`, not empty, is declared by an option before position `i`. -/
def Spec.longDeclaredBefore (spec : Spec) (i : Nat) (name : String) : Prop :=
  name ≠ "" ∧ ∃ (j : Nat) (a : CliOption), j < i ∧ spec[j]? = some a ∧ a.Long = name

/-- The holder `hd` is the holder of an option before position `i`. -/
def Spec.holderBoundBefore (spec : Spec) (i : Nat) (hd : Holder) : Prop :=
  ∃ (j : Nat) (a : CliOption), j < i ∧ spec[j]? = some a ∧ a.Holder = hd

/-- The error `e` is the one of the first check that fails for the option `o`, at position
`i` of the specification, in this order: the option does not pass `Option.init` (the error
carries the cause), its short name is declared before `i`, its long name is declared before
`i`, its holder is the holder of an option before `i`. -/
def Spec.firstFailure (spec : Spec) (i : Nat) (o : CliOption) (e : Error) : Prop :=
  (∃ cause, (∀ h : Heap, ∃ h', o.init h = some (some cause, h')) ∧
    e = .errorInvalidCmdLineSpecInvalidOptionDefinition i cause) ∨
  (o.accepted ∧ spec.shortDeclaredBefore i o.Short ∧
    e = .errorInvalidCmdLineSpecDuplicatedShortNamedOption i o.Short) ∨
  (o.accepted ∧ ¬ spec.shortDeclaredBefore i o.Short ∧ spec.longDeclaredBefore i o.Long ∧
    e = .errorInvalidCmdLineSpecDuplicatedLongNamedOption i o.Long) ∨
  (o.accepted ∧ ¬ spec.shortDeclaredBefore i o.Short ∧ ¬ spec.longDeclaredBefore i o.Long ∧
    spec.holderBoundBefore i o.Holder ∧ e = .errorInvalidCmdLineSpecReuseOfValueHolder i)

/-- The text is made of one decimal digit or more. -/
def isDecimal (ds : List Char) : Bool :=
  !ds.isEmpty && ds.all fun d => 48 ≤ d.toNat && d.toNat ≤ 57

/-- The number a list of decimal digits denotes in base 10. -/
def decimalValue (ds : List Char) : Nat :=
  ds.foldl (fun n d => n * 10 + (d.toNat - 48)) 0

/-- The integer the text denotes for an unsigned holder of `w` bits, as the specification
states it: one decimal digit or more, whose value is at most `2^w - 1`. -/
def readUnsigned (w : Nat) (text : String) : Option Nat :=
  if isDecimal text.data ∧ decimalValue text.data ≤ 2 ^ w - 1 then some (decimalValue text.data)
  else none

/-- The integer the text denotes for a signed holder of `w` bits, as the specification states
it: an optional sign, then one decimal digit or more, with a value between `-2^(w-1)` and
`2^(w-1) - 1`. -/
def readSigned (w : Nat) (text : String) : Option Int :=
  match text.data with
  | [] => none
  | c :: ds =>
    if c = '-' then
      if isDecimal ds ∧ decimalValue ds ≤ 2 ^ (w - 1) then some (-(decimalValue ds : Int))
      else none
    else if c = '+' then
      if isDecimal ds ∧ decimalValue ds ≤ 2 ^ (w - 1) - 1 then some (decimalValue ds : Int)
      else none
    else
      if isDecimal (c :: ds) ∧ decimalValue (c :: ds) ≤ 2 ^ (w - 1) - 1 then
        some (decimalValue (c :: ds) : Int)
      else none

/-- The tokens have no option before their arguments: there is no token, or the first token is
the marker `--` or does not start with a dash. -/
def noOptions (tokens : List String) : Bool :=
  match tokens with
  | [] => true
  | tok :: _ => decide (tok = "--") || !isOption tok

/-- The holders of the options are not nil. -/
def Spec.holdersAllocated (s : Spec) : Prop := ∀ o ∈ s, o.Holder.ptr ≠ none

/-- The body of the loop of `Parse` when no value is expected, with the two tests of lines
200-244 of cli.go in the other order: the long form is tried before the short form. -/
def Parse.tokenLongFirst (P : Strconv) (index : specIndex) (i : Nat) (param : String)
    (rest : List String) (cliAll : List String) (st : State) : Step Vars :=
  if isEndOfOptionSpecifier param then
    .ret ⟨some (cliAll ++ param :: rest), some rest, none⟩ st
  else if isOption param then
    if (isOptionLong param).1 then
      Parse.longOption P index (isOptionLong param).2 cliAll st
    else if (isOptionShort param).1 then
      match Parse.shortLoop P index (isOptionShort param).2.length (isOptionShort param).2
          cliAll st with
      | .next cliAll st => Parse.afterShort index (isOptionShort param).2 cliAll st
      | .ret r st => .ret r st
      | .panic => .panic
    else .ret ⟨none, none, some (.errorInvalidOptionSpecifier param i)⟩ st
  else .ret ⟨some (cliAll ++ param :: rest), some (param :: rest), none⟩ st

/-! ## Sample values -/

/-- A sample instance of the parameters: a platform with 64-bit integers, and a function
`ParseFloat` that rejects every text (no sample below has a float holder). -/
def sampleStrconv : Strconv := ⟨64, fun s _ => .error ⟨"ParseFloat", s, .ErrSyntax⟩⟩

/-- A sample memory: every variable holds the zero value of its type (every slice is nil), the
runtime adds no spare capacity to the arrays it allocates, and the next free address is 8. -/
def sampleHeap : Heap :=
  ⟨fun _ => false, fun _ => "", fun _ _ => 0, fun _ _ => ⟨0⟩, fun _ => ⟨0, 0, 0⟩,
    fun _ _ => ⟨0, 0, 0⟩, fun _ _ => ⟨0, 0, 0⟩, fun _ => 0, 8⟩

/-- A sample specification: the flags `-v` and `-h`, the string option `-i`/`--input`, the
repeatable string option `-p`/`--path` and the `int8` option `-n`/`--int8`, all unset. -/
def sampleSpec : Spec :=
  [⟨"v", "", ⟨TypeBool, some 0⟩, false⟩,
   ⟨"h", "", ⟨TypeBool, some 1⟩, false⟩,
   ⟨"i", "input", ⟨TypeString, some 0⟩, false⟩,
   ⟨"p", "path", ⟨TypeStrings, some 0⟩, false⟩,
   ⟨"n", "int8", ⟨TypeInteger8, some 0⟩, false⟩]

/-- A sample specification whose only option is declared with a long name that starts with
two dashes. -/
def sampleSpecDashed : Spec := [⟨"i", "--input", ⟨TypeString, some 0⟩, false⟩]

/-- A sample specification whose only option is repeatable and holds numbers of type `int8`. -/
def sampleSpecNumbers : Spec := [⟨"n", "num", ⟨TypeIntegers8, some 0⟩, false⟩]

/-- A sample specification of two repeatable options, `-a` and `-b`, that hold strings through
the slice variables at addresses 0 and 1. -/
def sampleSpecPair : Spec :=
  [⟨"a", "", ⟨TypeStrings, some 0⟩, false⟩, ⟨"b", "", ⟨TypeStrings, some 1⟩, false⟩]

/-- A sample memory where the slices of strings are empty slices on one array of capacity 2 at
address 0, as after `s := make([]string, 0, 2)`, `a := s` and `b := s`: the two holders of
`sampleSpecPair` are distinct pointers and share this array. -/
def sampleHeapShared : Heap := { sampleHeap with stringSlices := fun _ => ⟨0, 0, 2⟩ }

/-- A sample specification of two repeatable options, `-n` and `-m`, that hold numbers of type
`int8` through the slice variables at addresses 0 and 1. -/
def sampleSpecNumberPair : Spec :=
  [⟨"n", "", ⟨TypeIntegers8, some 0⟩, false⟩, ⟨"m", "", ⟨TypeIntegers8, some 1⟩, false⟩]

/-- A sample memory where the slices of numbers are empty slices on one array of capacity 2 at
address 0: the two holders of `sampleSpecNumberPair` share this array. -/
def sampleHeapSharedNumbers : Heap := { sampleHeap with intSlices := fun _ _ => ⟨0, 0, 2⟩ }

/-- A sample specification where the option `-s` holds a string through a pointer to the
variable of address 3, and the repeatable option `-p` holds strings. -/
def sampleSpecInside : Spec :=
  [⟨"p", "", ⟨TypeStrings, some 0⟩, false⟩, ⟨"s", "", ⟨TypeString, some 3⟩, false⟩]

/-- A sample memory where the slices of strings hold the one element `old`, at address 3, as
after `p := []string{"old"}`; the holder of `-s` in `sampleSpecInside` is then `&p[0]`. -/
def sampleHeapInside : Heap :=
  { sampleHeap with
    strings := fun a => if a = 3 then "old" else ""
    stringSlices := fun _ => ⟨3, 1, 0⟩ }

/-- A sample memory where the slices of strings hold the one element `z`, at address 4, in an
array of capacity 2. -/
def sampleHeapPath : Heap :=
  { sampleHeap with
    strings := fun a => if a = 4 then "z" else ""
    stringSlices := fun _ => ⟨4, 1, 1⟩ }

/-- The index `Spec.init` builds for `sampleSpec`. -/
def sampleIndex : specIndex :=
  ⟨[("n", 4), ("p", 3), ("i", 2), ("h", 1), ("v", 0)], [("int8", 4), ("path", 3), ("input", 2)]⟩

/-- The memory after `Spec.init` on `sampleSpec` and `sampleHeap`. -/
def sampleHeapInit : Heap := (sampleHeap.setBool 0 false).setBool 1 false

/-! ## The loop of `Parse` over a prefix of the tokens -/

theorem Parse.token_next_irrel (P : Strconv) (index : specIndex) (i i' : Nat) (param : String)
    (rest rest' cliAll : List String) (st : State) (v' : Vars) (st' : State)
    (h : Parse.token P index i param rest cliAll st = .next v' st') :
    Parse.token P index i' param rest' cliAll st = .next v' st' := by
  unfold Parse.token at h ⊢
  split_ifs at h ⊢
  all_goals exact h

theorem Parse.body_next_irrel (P : Strconv) (index : specIndex) (i i' : Nat) (param : String)
    (rest rest' : List String) (v : Vars) (st : State) (v' : Vars) (st' : State)
    (h : Parse.body P index i param rest v st = .next v' st') :
    Parse.body P index i' param rest' v st = .next v' st' := by
  unfold Parse.body at h ⊢
  split_ifs at h ⊢
  · exact h
  · exact Parse.token_next_irrel P index i i' param rest rest' v.cliAll st v' st' h

theorem Parse.through_irrel (P : Strconv) (index : specIndex) (pre : List String) :
    ∀ (i i' : Nat) (post post' : List String) (v : Vars) (st : State) (r : Vars × State),
      Parse.through P index i pre post v st = some r →
      Parse.through P index i' pre post' v st = some r := by
  induction pre with
  | nil => intro i i' post post' v st r h; simpa [Parse.through] using h
  | cons param pre ih =>
    intro i i' post post' v st r h
    simp only [Parse.through] at h ⊢
    cases hb : Parse.body P index i param (pre ++ post) v st with
    | next v1 st1 =>
      rw [hb] at h
      rw [Parse.body_next_irrel P index i i' param _ (pre ++ post') v st v1 st1 hb]
      exact ih (i + 1) (i' + 1) post post' v1 st1 r h
    | ret r1 st1 => rw [hb] at h; cases h
    | panic => rw [hb] at h; cases h

theorem Parse.loop_append (P : Strconv) (index : specIndex) (pre : List String) :
    ∀ (i : Nat) (post : List String) (v : Vars) (st : State) (v' : Vars) (st' : State),
      Parse.through P index i pre post v st = some (v', st') →
      Parse.loop P index i (pre ++ post) v st = Parse.loop P index (i + pre.length) post v' st' := by
  induction pre with
  | nil =>
    intro i post v st v' st' h
    simp only [Parse.through, Option.some.injEq, Prod.mk.injEq] at h
    obtain ⟨rfl, rfl⟩ := h
    simp
  | cons param pre ih =>
    intro i post v st v' st' h
    simp only [Parse.through] at h
    rw [List.cons_append, Parse.loop, List.length_cons]
    cases hb : Parse.body P index i param (pre ++ post) v st with
    | next v1 st1 =>
      rw [hb] at h
      simp only
      rw [ih (i + 1) post v1 st1 v' st' h]
      congr 1
      omega
    | ret r1 st1 => rw [hb] at h; cases h
    | panic => rw [hb] at h; cases h

/-- C1. When the loop of `Parse` reaches the token `--` while no value is expected, `Parse`
returns without an error: the expanded tokens are the expansion of the tokens before the marker
(what `Parse` returns for these tokens alone), then the marker and the tokens after it, verbatim;
the arguments are the tokens after the marker; the options and the holders are left as they were
when the marker was reached, whatever the tokens after the marker are. -/
theorem C1_end_of_options_marker (P : Strconv) (spec : Spec) (h h' : Heap) (index : specIndex)
    (pre post : List String) (v : Vars) (st : State)
    (hinit : Spec.init spec h = some (.ok index, h'))
    (hreach : Parse.through P index 0 pre ("--" :: post) ⟨[], false, none⟩ ⟨spec, h'⟩
      = some (v, st))
    (hvalue : v.nextShouldBeValue = false) :
    Parse P pre spec h = some (⟨some v.cliAll, some [], none⟩, st) ∧
    Parse P (pre ++ "--" :: post) spec h
      = some (⟨some (v.cliAll ++ "--" :: post), some post, none⟩, st) := by
  constructor
  · have h0 := Parse.through_irrel P index pre 0 0 _ [] _ _ _ hreach
    have h1 := Parse.loop_append P index pre 0 [] _ _ _ _ h0
    simp only [List.append_nil] at h1
    simp only [Parse, hinit, h1, Parse.loop]
  · have h1 := Parse.loop_append P index pre 0 _ _ _ _ _ hreach
    simp only [Parse, hinit, h1, Parse.loop, Parse.body, hvalue, Parse.token,
      isEndOfOptionSpecifier]
    simp

/-- C2. When the loop of `Parse` reaches, while no value is expected, a token `a` that does not
start with a dash, `Parse` returns without an error: the expanded tokens are the expansion of
the tokens before `a`, then `a` and the tokens after it, verbatim; the arguments are `a` and the
tokens after it; the options and the holders are left as they were when `a` was reached. -/
theorem C2_first_argument (P : Strconv) (spec : Spec) (h h' : Heap) (index : specIndex)
    (pre post : List String) (a : String) (v : Vars) (st : State)
    (hinit : Spec.init spec h = some (.ok index, h'))
    (hreach : Parse.through P index 0 pre (a :: post) ⟨[], false, none⟩ ⟨spec, h'⟩
      = some (v, st))
    (hvalue : v.nextShouldBeValue = false)
    (hdash : a.data.head? ≠ some '-') :
    Parse P pre spec h = some (⟨some v.cliAll, some [], none⟩, st) ∧
    Parse P (pre ++ a :: post) spec h
      = some (⟨some (v.cliAll ++ a :: post), some (a :: post), none⟩, st) := by
  have hopt : isOption a = false := by
    unfold isOption
    cases hd : a.data with
    | nil => rfl
    | cons c r =>
      have : c ≠ '-' := fun hc => hdash (by rw [hd, hc]; rfl)
      simp [this]
  have hend : isEndOfOptionSpecifier a = false := by
    unfold isEndOfOptionSpecifier
    have : a ≠ "--" := fun ha => hdash (by rw [ha]; rfl)
    simp [this]
  constructor
  · have h0 := Parse.through_irrel P index pre 0 0 _ [] _ _ _ hreach
    have h1 := Parse.loop_append P index pre 0 [] _ _ _ _ h0
    simp only [List.append_nil] at h1
    simp only [Parse, hinit, h1, Parse.loop]
  · have h1 := Parse.loop_append P index pre 0 _ _ _ _ _ hreach
    simp [Parse, hinit, h1, Parse.loop, Parse.body, hvalue, Parse.token, hopt, hend]

/-! ## Strings and the token classifier -/

theorem utf8ByteSize_go_ge (cs : List Char) : cs.length ≤ String.utf8ByteSize.go cs := by
  induction cs with
  | nil => simp [String.utf8ByteSize.go]
  | cons c cs ih =>
    have := Char.utf8Size_pos c
    simp only [String.utf8ByteSize.go, List.length_cons]
    omega

theorem utf8ByteSize_mk (cs : List Char) : (String.mk cs).utf8ByteSize = String.utf8ByteSize.go cs := rfl

theorem data_dash_append (s : String) : ("-" ++ s).data = '-' :: s.data := by
  simp [String.data_append]

theorem data_dashdash_append (s : String) : ("--" ++ s).data = '-' :: '-' :: s.data := by
  simp [String.data_append]

theorem isNameStart_ne_dash (c : Char) (h : isNameStart c = true) : c ≠ '-' := by
  rintro rfl
  revert h
  decide

theorem isOptionShort_dash (cs : List Char) (hne : cs ≠ []) (hall : cs.all isNameStart = true) :
    isOptionShort ("-" ++ String.mk cs) = (true, cs.map fun c => String.singleton c) := by
  unfold isOptionShort
  simp only [data_dash_append, dropDash, if_true]
  rw [if_pos ⟨hne, hall⟩]
  split_ifs with h1
  · rw [utf8ByteSize_mk] at h1
    have := utf8ByteSize_go_ge cs
    match cs, hne with
    | [c], _ => rfl
    | c :: d :: r, _ =>
      have h2 := utf8ByteSize_go_ge r
      have hc := Char.utf8Size_pos c
      have hd := Char.utf8Size_pos d
      simp only [String.utf8ByteSize.go] at h1
      omega
  · rfl

theorem String.singleton_data (c : Char) : (String.singleton c).data = [c] := rfl

theorem short_name_shape (s : String) (hne : s ≠ "") (hlen : ¬ s.utf8ByteSize > 1)
    (hok : ¬ (isOptionShort s).1 = false) :
    ∃ c, s = String.singleton c ∧ isNameStart c = true := by
  obtain ⟨cs⟩ := s
  match cs with
  | [] => exact absurd rfl hne
  | c :: d :: r =>
    exfalso
    apply hlen
    have h2 := utf8ByteSize_go_ge r
    have hc := Char.utf8Size_pos c
    have hd := Char.utf8Size_pos d
    show String.utf8ByteSize.go (c :: d :: r) > 1
    simp only [String.utf8ByteSize.go]
    omega
  | [c] =>
    refine ⟨c, rfl, ?_⟩
    unfold isOptionShort at hok
    simp only [dropDash] at hok
    by_cases hc : c = '-'
    · simp [hc] at hok
    · simp [hc] at hok
      split_ifs at hok <;> simp_all

theorem isOption_dash (s : String) : isOption ("-" ++ s) = true := by
  simp [isOption, data_dash_append]

theorem isEnd_dash_singleton (c : Char) (hc : isNameStart c = true) :
    isEndOfOptionSpecifier ("-" ++ String.singleton c) = false := by
  have hne := isNameStart_ne_dash c hc
  unfold isEndOfOptionSpecifier
  simp only [decide_eq_false_iff_not]
  intro h
  have := congrArg String.data h
  rw [data_dash_append] at this
  simp [String.singleton_data] at this
  exact hne this

theorem isOptionShort_dash_singleton (c : Char) (hc : isNameStart c = true) :
    isOptionShort ("-" ++ String.singleton c) = (true, [String.singleton c]) := by
  have := isOptionShort_dash [c] (by simp) (by simp [hc])
  simpa using this

theorem isEnd_dashdash (l : String) (hne : l ≠ "") :
    isEndOfOptionSpecifier ("--" ++ l) = false := by
  unfold isEndOfOptionSpecifier
  simp only [decide_eq_false_iff_not]
  intro h
  have := congrArg String.data h
  rw [data_dashdash_append] at this
  apply hne
  obtain ⟨cs⟩ := l
  simp at this
  simp [this]

theorem isOptionShort_dashdash (l : String) : (isOptionShort ("--" ++ l)).1 = false := by
  unfold isOptionShort
  simp [data_dashdash_append, dropDash, isNameStart]

theorem isOptionLong_dashdash (l : String) (hok : (isOptionLong l).1 = true)
    (hstd : dropDashDash l.data = l.data) :
    isOptionLong ("--" ++ l) = (true, l) := by
  unfold isOptionLong at hok ⊢
  rw [data_dashdash_append]
  simp only [dropDashDash, and_self, if_true]
  rw [hstd] at hok
  obtain ⟨cs⟩ := l
  match cs with
  | [] => simp at hok
  | c :: r =>
    simp only at hok ⊢
    split_ifs at hok ⊢ with h1
    rfl

/-! ## `Spec.init` -/

theorem MapOf.nil {κ : Type} [BEq κ] (f : CliOption → Option κ) : MapOf f [] ([] : List (κ × Nat)) := by
  intro k j
  simp

theorem MapOf.step_none {κ : Type} [BEq κ] {f : CliOption → Option κ} {done : List CliOption}
    {m : List (κ × Nat)} {o : CliOption} (hm : MapOf f done m) (hk : f o = none) :
    MapOf f (done ++ [o]) m := by
  intro k j
  rw [hm k j]
  constructor
  · rintro ⟨a, ha, hfa⟩
    refine ⟨a, ?_, hfa⟩
    have hj : j < done.length := (List.getElem?_eq_some.mp ha).1
    rw [List.getElem?_append_left hj]
    exact ha
  · rintro ⟨a, ha, hfa⟩
    rcases Nat.lt_or_ge j done.length with hj | hj
    · rw [List.getElem?_append_left hj] at ha
      exact ⟨a, ha, hfa⟩
    · rw [List.getElem?_append_right hj] at ha
      have : a = o := by
        cases hjj : j - done.length with
        | zero => rw [hjj] at ha; simpa using ha.symm
        | succ n => rw [hjj] at ha; simp at ha
      rw [this, hk] at hfa
      cases hfa

theorem MapOf.step_some {κ : Type} [BEq κ] [LawfulBEq κ] {f : CliOption → Option κ}
    {done : List CliOption} {m : List (κ × Nat)} {o : CliOption} {k : κ}
    (hm : MapOf f done m) (hk : f o = some k) (hnew : ¬ (m.lookup k).isSome = true) :
    MapOf f (done ++ [o]) ((k, done.length) :: m) := by
  intro k' j
  rw [List.lookup_cons]
  by_cases hkk : k' = k
  · subst hkk
    simp only [beq_self_eq_true, Option.some.injEq]
    constructor
    · rintro rfl
      exact ⟨o, by simp, hk⟩
    · rintro ⟨a, ha, hfa⟩
      rcases Nat.lt_or_ge j done.length with hj | hj
      · rw [List.getElem?_append_left hj] at ha
        exfalso
        apply hnew
        rw [(hm k' j).mpr ⟨a, ha, hfa⟩]
        rfl
      · rw [List.getElem?_append_right hj] at ha
        cases hjj : j - done.length with
        | zero => omega
        | succ n => rw [hjj] at ha; simp at ha
  · have hb : (k' == k) = false := by simpa using hkk
    simp only [hb]
    rw [hm k' j]
    constructor
    · rintro ⟨a, ha, hfa⟩
      refine ⟨a, ?_, hfa⟩
      have hj : j < done.length := (List.getElem?_eq_some.mp ha).1
      rw [List.getElem?_append_left hj]
      exact ha
    · rintro ⟨a, ha, hfa⟩
      rcases Nat.lt_or_ge j done.length with hj | hj
      · rw [List.getElem?_append_left hj] at ha
        exact ⟨a, ha, hfa⟩
      · rw [List.getElem?_append_right hj] at ha
        have : a = o := by
          cases hjj : j - done.length with
          | zero => rw [hjj] at ha; simpa using ha.symm
          | succ n => rw [hjj] at ha; simp at ha
        rw [this, hk] at hfa
        exact absurd (Option.some.inj hfa).symm hkk

theorem MapOf.unique {κ : Type} [BEq κ] {f : CliOption → Option κ} {done : List CliOption}
    {m : List (κ × Nat)} (hm : MapOf f done m) {i j : Nat} {a b : CliOption} {k : κ}
    (ha : done[i]? = some a) (hb : done[j]? = some b) (hfa : f a = some k) (hfb : f b = some k) :
    i = j := by
  have h1 := (hm k i).mpr ⟨a, ha, hfa⟩
  have h2 := (hm k j).mpr ⟨b, hb, hfb⟩
  rw [h1] at h2
  exact Option.some.inj h2

theorem CliOption.init_ok (o : CliOption) (h h' : Heap) (hi : o.init h = some (none, h')) :
    o.Checked ∧ h' = (match o.Holder.kind, o.Holder.ptr with
      | TypeBool, some p => h.setBool p false
      | _, _ => h) := by
  unfold CliOption.init at hi
  split_ifs at hi with h1 h2 h3 h4 h5
  · simp at hi
  · simp at hi
  · simp at hi
  · simp at hi
  · simp at hi
  have hshort : o.Short = "" ∨ ∃ c, o.Short = String.singleton c ∧ isNameStart c = true := by
    by_cases hs : o.Short = ""
    · exact Or.inl hs
    · exact Or.inr (short_name_shape o.Short hs (fun hh => h2 ⟨hs, hh⟩) (fun hh => h3 ⟨hs, hh⟩))
  have hlong : o.Long = "" ∨ (isOptionLong o.Long).1 = true := by
    by_cases hl : o.Long = ""
    · exact Or.inl hl
    · right
      have := fun hh => h4 ⟨hl, hh⟩
      simpa using this
  have hk : o.Holder.kind ≠ TypeUnexpected := by
    intro hk
    simp [CliOption.getType, hk] at h5
  simp only [CliOption.getType, hk, if_false] at hi
  by_cases hb : o.Holder.kind = TypeBool
  · simp only [hb, if_true] at hi
    cases hp : o.Holder.ptr with
    | none => simp [hp] at hi
    | some p =>
      simp only [hp, Option.some.injEq, Prod.mk.injEq, true_and] at hi
      refine ⟨⟨h1, hshort, hlong, hk, ?_⟩, ?_⟩
      · intro _; rw [hp]; simp
      · rw [hb]; exact hi.symm
  · simp only [hb, if_false, Option.some.injEq, Prod.mk.injEq, true_and] at hi
    refine ⟨⟨h1, hshort, hlong, hk, fun hh => absurd hh hb⟩, ?_⟩
    subst hi
    split
    · rename_i hkk _; exact absurd hkk hb
    · rfl

theorem Spec.initLoop_valid (rest : List CliOption) :
    ∀ (done : List CliOption) (shorts longs : List (String × Nat)) (holders : List (Holder × Nat))
      (h h' : Heap) (index : specIndex),
      (∀ o ∈ done, o.Checked) → MapOf shortKey done shorts → MapOf longKey done longs →
      MapOf (fun o => some o.Holder) done holders →
      Spec.initLoop done.length rest shorts longs holders h = some (.ok index, h') →
      (∀ o ∈ done ++ rest, o.Checked) ∧ MapOf shortKey (done ++ rest) index.Short ∧
        MapOf longKey (done ++ rest) index.Long ∧
        ∃ holders', MapOf (fun o => some o.Holder) (done ++ rest) holders' := by
  induction rest with
  | nil =>
    intro done shorts longs holders h h' index hc hs hl hh hi
    simp only [Spec.initLoop, Option.some.injEq, Prod.mk.injEq, Except.ok.injEq] at hi
    obtain ⟨rfl, _⟩ := hi
    simp only [List.append_nil]
    exact ⟨hc, hs, hl, holders, hh⟩
  | cons o rest ih =>
    intro done shorts longs holders h h' index hc hs hl hh hi
    rw [Spec.initLoop] at hi
    cases hoi : o.init h with
    | none => rw [hoi] at hi; cases hi
    | some r =>
      obtain ⟨e, h1⟩ := r
      cases e with
      | some err => rw [hoi] at hi; simp at hi
      | none =>
        rw [hoi] at hi
        simp only at hi
        have hchk := (CliOption.init_ok o h h1 hoi).1
        by_cases c1 : o.Short ≠ "" ∧ (List.lookup o.Short shorts).isSome = true
        · rw [if_pos c1] at hi; simp at hi
        rw [if_neg c1] at hi
        by_cases c2 : o.Long ≠ "" ∧ (List.lookup o.Long longs).isSome = true
        · rw [if_pos c2] at hi; simp at hi
        rw [if_neg c2] at hi
        by_cases c3 : (List.lookup o.Holder holders).isSome = true
        · rw [if_pos c3] at hi; simp at hi
        rw [if_neg c3] at hi
        have hlen : (done ++ [o]).length = done.length + 1 := by simp
        have hs' : MapOf shortKey (done ++ [o])
            (if o.Short ≠ "" then (o.Short, done.length) :: shorts else shorts) := by
          by_cases hn : o.Short = ""
          · simp only [hn, ne_eq, not_true_eq_false, if_false]
            exact MapOf.step_none hs (by simp [shortKey, hn])
          · simp only [hn, ne_eq, not_false_eq_true, if_true]
            exact MapOf.step_some hs (by simp [shortKey, hn]) (fun hh => c1 ⟨hn, hh⟩)
        have hl' : MapOf longKey (done ++ [o])
            (if o.Long ≠ "" then (o.Long, done.length) :: longs else longs) := by
          by_cases hn : o.Long = ""
          · simp only [hn, ne_eq, not_true_eq_false, if_false]
            exact MapOf.step_none hl (by simp [longKey, hn])
          · simp only [hn, ne_eq, not_false_eq_true, if_true]
            exact MapOf.step_some hl (by simp [longKey, hn]) (fun hh => c2 ⟨hn, hh⟩)
        have hh' : MapOf (fun o => some o.Holder) (done ++ [o])
            ((o.Holder, done.length) :: holders) :=
          MapOf.step_some hh rfl c3
        have hc' : ∀ a ∈ done ++ [o], a.Checked := by
          intro a ha
          rcases List.mem_append.mp ha with ha | ha
          · exact hc a ha
          · rw [List.mem_singleton.mp ha]; exact hchk
        rw [← hlen] at hi
        have := ih (done ++ [o]) _ _ _ h1 h' index hc' hs' hl' hh' hi
        simpa using this

theorem Spec.init_valid (spec : Spec) (h h' : Heap) (index : specIndex)
    (hi : Spec.init spec h = some (.ok index, h')) : ValidSpec spec index := by
  have := Spec.initLoop_valid spec [] [] [] [] h h' index (by simp) (MapOf.nil _) (MapOf.nil _)
    (MapOf.nil _) hi
  simp only [List.nil_append] at this
  obtain ⟨hc, hs, hl, holders, hh⟩ := this
  exact ⟨hc, hs, hl, fun i j a b ha hb hab => MapOf.unique hh ha hb rfl (by rw [hab])⟩

/-! ## The options during a call of `Parse` -/

theorem CliOption.getType_fst (o : CliOption) : o.getType.1 = o.Holder.kind := by
  unfold CliOption.getType
  split_ifs with h
  · exact h.symm
  · rfl

theorem CliOption.requireValue_eq (o : CliOption) :
    o.requireValue = (typesConstraints o.Holder.kind).value := by
  unfold CliOption.requireValue
  rw [CliOption.getType_fst]

theorem CliOption.isSingleton_eq (o : CliOption) :
    o.isSingleton = (typesConstraints o.Holder.kind).singleton := by
  unfold CliOption.isSingleton
  rw [CliOption.getType_fst]

theorem CliOption.evolves_refl (o : CliOption) : o.Evolves o :=
  ⟨rfl, rfl, rfl, fun _ h => h, fun h => h, fun _ => rfl⟩

theorem CliOption.evolves_trans {a b c : CliOption} (h1 : a.Evolves b) (h2 : b.Evolves c) :
    a.Evolves c :=
  ⟨h2.short.trans h1.short, h2.long.trans h1.long, h2.kind.trans h1.kind,
    fun p hp => h2.ptr p (h1.ptr p hp), fun hs => h2.set (h1.set hs), fun hs => by
      have e1 := h1.list hs
      have hb : b.isSingleton = false := by
        rw [CliOption.isSingleton_eq, e1, ← CliOption.isSingleton_eq]
        exact hs
      exact (h2.list hb).trans e1⟩

theorem Spec.specEvolves_refl (s : Spec) : Spec.Evolves s s :=
  ⟨rfl, fun j o o' h h' => by
    rw [h] at h'
    cases h'
    exact CliOption.evolves_refl o⟩

theorem Spec.specEvolves_trans {a b c : Spec} (h1 : Spec.Evolves a b) (h2 : Spec.Evolves b c) :
    Spec.Evolves a c := by
  refine ⟨h2.1.trans h1.1, fun j o o'' ho ho'' => ?_⟩
  have hj : j < a.length := (List.getElem?_eq_some.mp ho).1
  have hjb : j < b.length := by rw [h1.1]; exact hj
  have hb : b[j]? = some b[j] := List.getElem?_eq_getElem hjb
  exact CliOption.evolves_trans (h1.2 j o _ ho hb) (h2.2 j _ o'' hb ho'')

theorem Spec.specEvolves_set {s : Spec} {j : Nat} {o o' : CliOption} (ho : s[j]? = some o)
    (h : o.Evolves o') : Spec.Evolves s (s.set j o') := by
  refine ⟨by simp, fun i a a' ha ha' => ?_⟩
  have hj : j < s.length := (List.getElem?_eq_some.mp ho).1
  by_cases hij : j = i
  · subst hij
    rw [List.getElem?_set_self hj] at ha'
    rw [ho] at ha
    cases ha; cases ha'
    exact h
  · rw [List.getElem?_set_ne hij] at ha'
    rw [ha] at ha'
    cases ha'
    exact CliOption.evolves_refl a

theorem CliOption.addInt_evolves (P : Strconv) (o : CliOption) (bitSize : Nat) (v : String)
    (h : Heap) (hsing : o.isSingleton = true) :
    o.Evolves (o.addInt P o.Holder.kind bitSize v h).2.1 := by
  unfold CliOption.addInt
  cases hp : o.Holder.ptr with
  | some p =>
    simp only
    split <;> exact CliOption.evolves_refl o
  | none =>
    simp only [Heap.newInt]
    split <;> exact ⟨rfl, rfl, rfl, fun _ hh => by simp [hp] at hh, fun hs => hs,
      fun hs => by rw [hsing] at hs; cases hs⟩

theorem CliOption.addUint_evolves (P : Strconv) (o : CliOption) (bitSize : Nat) (v : String)
    (h : Heap) (hsing : o.isSingleton = true) :
    o.Evolves (o.addUint P o.Holder.kind bitSize v h).2.1 := by
  unfold CliOption.addUint
  cases hp : o.Holder.ptr with
  | some p =>
    simp only
    split <;> exact CliOption.evolves_refl o
  | none =>
    simp only [Heap.newInt]
    split <;> exact ⟨rfl, rfl, rfl, fun _ hh => by simp [hp] at hh, fun hs => hs,
      fun hs => by rw [hsing] at hs; cases hs⟩

theorem CliOption.addFloat_evolves (P : Strconv) (o : CliOption) (bitSize : Nat) (v : String)
    (h : Heap) (hsing : o.isSingleton = true) :
    o.Evolves (o.addFloat P o.Holder.kind bitSize v h).2.1 := by
  unfold CliOption.addFloat
  cases hp : o.Holder.ptr with
  | some p =>
    simp only
    split <;> exact CliOption.evolves_refl o
  | none =>
    simp only [Heap.newFloat]
    split <;> exact ⟨rfl, rfl, rfl, fun _ hh => by simp [hp] at hh, fun hs => hs,
      fun hs => by rw [hsing] at hs; cases hs⟩

theorem CliOption.addInts_same (P : Strconv) (o : CliOption) (k : typeOption) (bitSize : Nat)
    (v : String) (h : Heap) (e : Option Error) (o' : CliOption) (h' : Heap)
    (ha : o.addInts P k bitSize v h = some (e, o', h')) : o' = o := by
  unfold CliOption.addInts at ha
  split at ha
  · simp at ha; exact ha.2.1.symm
  · split at ha
    · cases ha
    · simp at ha; exact ha.2.1.symm

theorem CliOption.addUints_same (P : Strconv) (o : CliOption) (k : typeOption) (bitSize : Nat)
    (v : String) (h : Heap) (e : Option Error) (o' : CliOption) (h' : Heap)
    (ha : o.addUints P k bitSize v h = some (e, o', h')) : o' = o := by
  unfold CliOption.addUints at ha
  split at ha
  · simp at ha; exact ha.2.1.symm
  · split at ha
    · cases ha
    · simp at ha; exact ha.2.1.symm

theorem CliOption.addFloats_same (P : Strconv) (o : CliOption) (k : typeOption) (bitSize : Nat)
    (v : String) (h : Heap) (e : Option Error) (o' : CliOption) (h' : Heap)
    (ha : o.addFloats P k bitSize v h = some (e, o', h')) : o' = o := by
  unfold CliOption.addFloats at ha
  split at ha
  · simp at ha; exact ha.2.1.symm
  · split at ha
    · cases ha
    · simp at ha; exact ha.2.1.symm

theorem CliOption.addValue_evolves (P : Strconv) (o : CliOption) (v : Value) (h : Heap)
    (e : Option Error) (o' : CliOption) (h' : Heap)
    (ha : o.addValue P v h = some (e, o', h')) : o.Evolves o' := by
  unfold CliOption.addValue at ha
  simp only [CliOption.getType_fst] at ha
  split_ifs at ha with hb
  · -- flag
    split at ha
    · split at ha
      · simp at ha; rw [← ha.2.1]; exact CliOption.evolves_refl o
      · rename_i hp
        simp [Heap.newBool] at ha
        rw [← ha.2.1]
        exact ⟨rfl, rfl, hb.symm, fun _ hh => by simp [hp] at hh, fun hs => hs,
          fun hs => by rw [CliOption.isSingleton_eq, hb] at hs; cases hs⟩
    · simp at ha; rw [← ha.2.1]; exact CliOption.evolves_refl o
  · split at ha
    · split at ha
      all_goals first
        | (rename_i hk
           split at ha
           · simp at ha; rw [← ha.2.1]; exact CliOption.evolves_refl o
           · rename_i hp
             simp [Heap.newString] at ha
             rw [← ha.2.1]
             exact ⟨rfl, rfl, hk.symm, fun _ hh => by simp [hp] at hh, fun hs => hs,
               fun hs => by rw [CliOption.isSingleton_eq, hk] at hs; cases hs⟩)
        | (rename_i v _ hk
           try simp only [Option.some.injEq] at ha
           show o.Evolves (e, o', h').2.1
           rw [← ha, ← hk]
           have hsing : o.isSingleton = true := by
             rw [CliOption.isSingleton_eq, hk]
             rfl
           first
             | exact CliOption.addInt_evolves P o _ v h hsing
             | exact CliOption.addUint_evolves P o _ v h hsing
             | exact CliOption.addFloat_evolves P o _ v h hsing)
        | (rw [CliOption.addInts_same P o _ _ _ _ _ _ _ ha]; exact CliOption.evolves_refl o)
        | (rw [CliOption.addUints_same P o _ _ _ _ _ _ _ ha]; exact CliOption.evolves_refl o)
        | (rw [CliOption.addFloats_same P o _ _ _ _ _ _ _ ha]; exact CliOption.evolves_refl o)
        | (split at ha
           · cases ha
           · simp at ha; rw [← ha.2.1]; exact CliOption.evolves_refl o)
        | (simp at ha; rw [← ha.2.1]; exact CliOption.evolves_refl o)
    · simp at ha; rw [← ha.2.1]; exact CliOption.evolves_refl o

theorem State.addValue_specEvolves (P : Strconv) (st st' : State) (j : Nat) (v : Value)
    (ha : State.addValue P st j v = some st') : Spec.Evolves st.spec st'.spec := by
  unfold State.addValue at ha
  split at ha
  · cases ha
  · rename_i o ho
    split at ha
    · cases ha
    · rename_i e o' h' hav
      cases ha
      exact Spec.specEvolves_set ho (CliOption.addValue_evolves P o v st.heap e o' h' hav)

theorem recordOption_evolves (o : CliOption) (name : String) :
    o.Evolves (recordOption o name).2 := by
  unfold recordOption
  split_ifs <;>
    first
      | exact CliOption.evolves_refl o
      | exact ⟨rfl, rfl, rfl, fun _ hh => hh, fun _ => rfl, fun _ => rfl⟩

theorem Parse.shortLoop_evolves (P : Strconv) (index : specIndex) (n : Nat)
    (names : List String) : ∀ (cliAll : List String) (st : State) (c : List String) (st' : State),
      Parse.shortLoop P index n names cliAll st = .next c st' →
      Spec.Evolves st.spec st'.spec := by
  induction names with
  | nil =>
    intro cliAll st c st' h
    simp only [Parse.shortLoop, Step.next.injEq] at h
    rw [← h.2]
    exact Spec.specEvolves_refl _
  | cons name rest ih =>
    intro cliAll st c st' h
    rw [Parse.shortLoop] at h
    split at h
    · cases h
    · rename_i j hj
      split at h
      · cases h
      · rename_i o ho
        split_ifs at h
        split at h
        · cases h
        · rename_i o1 hr
          split at h
          · cases h
          · rename_i st1 hadd
            have h1 : Spec.Evolves st.spec (st.spec.set j o1) := by
              have := recordOption_evolves o name
              rw [hr] at this
              exact Spec.specEvolves_set ho this
            have h2 := State.addValue_specEvolves P _ st1 j _ hadd
            exact Spec.specEvolves_trans (Spec.specEvolves_trans h1 h2) (ih _ st1 c st' h)

theorem Parse.afterShort_evolves (index : specIndex) (options cliAll : List String)
    (st : State) (v : Vars) (st' : State)
    (h : Parse.afterShort index options cliAll st = .next v st') : st' = st := by
  unfold Parse.afterShort at h
  split_ifs at h
  · cases h; rfl
  · split at h
    · cases h
    · split at h
      · cases h
      · split at h
        · cases h
        · split_ifs at h <;> (cases h; rfl)

theorem Parse.longOption_evolves (P : Strconv) (index : specIndex) (name : String)
    (cliAll : List String) (st : State) (v : Vars) (st' : State)
    (h : Parse.longOption P index name cliAll st = .next v st') :
    Spec.Evolves st.spec st'.spec := by
  unfold Parse.longOption at h
  split at h
  · cases h
  · rename_i j hj
    split at h
    · cases h
    · rename_i o ho
      split at h
      · cases h
      · rename_i o1 hr
        have h1 : Spec.Evolves st.spec (st.spec.set j o1) := by
          have := recordOption_evolves o name
          rw [hr] at this
          exact Spec.specEvolves_set ho this
        split_ifs at h
        · cases h; exact h1
        · split at h
          · cases h
          · rename_i st1 hadd
            cases h
            exact Spec.specEvolves_trans h1 (State.addValue_specEvolves P _ _ j _ hadd)

theorem Parse.value_evolves (P : Strconv) (param : String) (cliAll : List String)
    (lastOption : Option Nat) (st : State) (v : Vars) (st' : State)
    (h : Parse.value P param cliAll lastOption st = .next v st') :
    Spec.Evolves st.spec st'.spec := by
  unfold Parse.value at h
  split_ifs at h
  split at h
  · cases h
  · split at h
    · cases h
    · rename_i st1 hadd
      cases h
      exact State.addValue_specEvolves P _ _ _ _ hadd

theorem Parse.token_evolves (P : Strconv) (index : specIndex) (i : Nat) (param : String)
    (rest cliAll : List String) (st : State) (v : Vars) (st' : State)
    (h : Parse.token P index i param rest cliAll st = .next v st') :
    Spec.Evolves st.spec st'.spec := by
  unfold Parse.token at h
  split_ifs at h
  · split at h
    · rename_i c st1 hs
      have h1 := Parse.shortLoop_evolves P index _ _ _ _ _ _ hs
      rw [Parse.afterShort_evolves index _ _ _ _ _ h]
      exact h1
    · cases h
    · cases h
  · exact Parse.longOption_evolves P index _ _ _ _ _ h

theorem Parse.body_evolves (P : Strconv) (index : specIndex) (i : Nat) (param : String)
    (rest : List String) (v : Vars) (st : State) (v' : Vars) (st' : State)
    (h : Parse.body P index i param rest v st = .next v' st') :
    Spec.Evolves st.spec st'.spec := by
  unfold Parse.body at h
  split_ifs at h
  · exact Parse.value_evolves P _ _ _ _ _ _ h
  · exact Parse.token_evolves P index _ _ _ _ _ _ _ h

theorem Parse.through_evolves (P : Strconv) (index : specIndex) (pre : List String) :
    ∀ (i : Nat) (post : List String) (v : Vars) (st : State) (v' : Vars) (st' : State),
      Parse.through P index i pre post v st = some (v', st') →
      Spec.Evolves st.spec st'.spec := by
  induction pre with
  | nil =>
    intro i post v st v' st' h
    simp only [Parse.through, Option.some.injEq, Prod.mk.injEq] at h
    rw [← h.2]
    exact Spec.specEvolves_refl _
  | cons param pre ih =>
    intro i post v st v' st' h
    simp only [Parse.through] at h
    split at h
    · rename_i v1 st1 hb
      exact Spec.specEvolves_trans (Parse.body_evolves P index _ _ _ _ _ _ _ hb) (ih _ _ _ _ _ _ h)
    · cases h

theorem List.set_same {α : Type} (l : List α) (j : Nat) (a : α) (h : l[j]? = some a) :
    l.set j a = l := by
  apply List.ext_getElem?
  intro i
  by_cases hij : j = i
  · subst hij
    rw [List.getElem?_set_self (List.getElem?_eq_some.mp h).1, h]
  · rw [List.getElem?_set_ne hij]

theorem ValidSpec.short_at {spec s : Spec} {index : specIndex} (hv : ValidSpec spec index)
    (he : Spec.Evolves spec s) {name : String} {j : Nat}
    (hl : index.getShortByName name = some j) :
    ∃ o0 o, spec[j]? = some o0 ∧ s[j]? = some o ∧ o0.Evolves o ∧ o0.Short = name ∧ name ≠ "" := by
  obtain ⟨o0, ho0, hk⟩ := (hv.shorts name j).mp hl
  have hj : j < spec.length := (List.getElem?_eq_some.mp ho0).1
  have hjs : j < s.length := by rw [he.1]; exact hj
  have hs : s[j]? = some s[j] := List.getElem?_eq_getElem hjs
  unfold shortKey at hk
  split_ifs at hk with hne
  cases hk
  exact ⟨o0, s[j], ho0, hs, he.2 j _ _ ho0 hs, rfl, hne⟩

theorem ValidSpec.short_of {spec : Spec} {index : specIndex} (hv : ValidSpec spec index)
    {j : Nat} {o : CliOption} (ho : spec[j]? = some o) (hne : o.Short ≠ "") :
    index.getShortByName o.Short = some j :=
  (hv.shorts o.Short j).mpr ⟨o, ho, by simp [shortKey, hne]⟩

theorem ValidSpec.long_at {spec s : Spec} {index : specIndex} (hv : ValidSpec spec index)
    (he : Spec.Evolves spec s) {name : String} {j : Nat}
    (hl : index.getLongByName name = some j) :
    ∃ o0 o, spec[j]? = some o0 ∧ s[j]? = some o ∧ o0.Evolves o ∧ o0.Long = name ∧ name ≠ "" := by
  obtain ⟨o0, ho0, hk⟩ := (hv.longs name j).mp hl
  have hj : j < spec.length := (List.getElem?_eq_some.mp ho0).1
  have hjs : j < s.length := by rw [he.1]; exact hj
  have hs : s[j]? = some s[j] := List.getElem?_eq_getElem hjs
  unfold longKey at hk
  split_ifs at hk with hne
  cases hk
  exact ⟨o0, s[j], ho0, hs, he.2 j _ _ ho0 hs, rfl, hne⟩

theorem ValidSpec.long_of {spec : Spec} {index : specIndex} (hv : ValidSpec spec index)
    {j : Nat} {o : CliOption} (ho : spec[j]? = some o) (hne : o.Long ≠ "") :
    index.getLongByName o.Long = some j :=
  (hv.longs o.Long j).mpr ⟨o, ho, by simp [longKey, hne]⟩

theorem recordOption_flag (o : CliOption) (name : String) (hk : o.Holder.kind = TypeBool) :
    recordOption o name =
      if o.set then (some (.errorDuplicatedFlagOption name), o) else (none, o.setIt) := by
  unfold recordOption
  simp [CliOption.requireValue_eq, CliOption.isSingleton_eq, hk, typesConstraints,
    CliOption.isSet]

theorem State.addValue_flag (P : Strconv) (st : State) (j : Nat) (o : CliOption) (p : Nat)
    (b : Bool) (ho : st.spec[j]? = some o) (hk : o.Holder.kind = TypeBool)
    (hp : o.Holder.ptr = some p) :
    State.addValue P st j (.bool b) = some ⟨st.spec, st.heap.setBool p b⟩ := by
  unfold State.addValue
  rw [ho]
  simp only [CliOption.addValue, CliOption.getType_fst, hk, if_true, hp]
  rw [List.set_same _ _ _ ho]

/-! ## Flags in a short option specifier -/

theorem Parse.shortLoop_cons_flag (P : Strconv) (index : specIndex) (n : Nat) (name : String)
    (rest cliAll : List String) (st : State) (j : Nat) (o : CliOption) (p : Nat)
    (hl : index.getShortByName name = some j) (ho : st.spec[j]? = some o)
    (hk : o.Holder.kind = TypeBool) (hp : o.Holder.ptr = some p) :
    Parse.shortLoop P index n (name :: rest) cliAll st =
      if o.set then .ret ⟨none, none, some (.errorDuplicatedFlagOption name)⟩ st
      else Parse.shortLoop P index n rest (cliAll ++ ["-" ++ name])
        ⟨st.spec.set j o.setIt, st.heap.setBool p true⟩ := by
  have hj : j < st.spec.length := (List.getElem?_eq_some.mp ho).1
  rw [Parse.shortLoop, hl]
  simp only [ho, CliOption.requireValue_eq, hk, typesConstraints, recordOption_flag o name hk]
  by_cases hs : o.set = true
  · simp only [hs, if_true, List.set_same _ _ _ ho]
    simp
  · simp only [hs]
    have ho' : (⟨st.spec.set j o.setIt, st.heap⟩ : State).spec[j]? = some o.setIt := by
      simp [List.getElem?_set_self hj]
    have := State.addValue_flag P ⟨st.spec.set j o.setIt, st.heap⟩ j o.setIt p true ho'
      (by simpa [CliOption.setIt] using hk) (by simpa [CliOption.setIt] using hp)
    simp [this]

theorem Parse.shortLoop_fresh_flags (P : Strconv) (index : specIndex) (n : Nat)
    (names : List String) : names.Nodup → ∀ (cliAll : List String) (st : State),
      (∀ name ∈ names, ∃ j o p, index.getShortByName name = some j ∧ st.spec[j]? = some o ∧
        o.Short = name ∧ o.Holder.kind = TypeBool ∧ o.Holder.ptr = some p ∧ o.set = false) →
      ∃ st', Parse.shortLoop P index n names cliAll st
          = .next (cliAll ++ names.map fun name => "-" ++ name) st' ∧
        (∀ j, (∀ name ∈ names, index.getShortByName name ≠ some j) →
          st'.spec[j]? = st.spec[j]?) ∧
        (∀ name ∈ names, ∀ j o, index.getShortByName name = some j → st.spec[j]? = some o →
          st'.spec[j]? = some { o with set := true } ∧
            ∀ p, o.Holder.ptr = some p → st'.heap.bools p = true) ∧
        (∀ p, st.heap.bools p = true → st'.heap.bools p = true) := by
  induction names with
  | nil =>
    intro _ cliAll st _
    exact ⟨st, by simp [Parse.shortLoop], fun _ _ => rfl, fun _ h => by simp at h, fun _ h => h⟩
  | cons name rest ih =>
    intro hnd cliAll st hflags
    obtain ⟨hnotin, hnd'⟩ := List.nodup_cons.mp hnd
    obtain ⟨j, o, p, hl, ho, hsn, hk, hp, hset⟩ := hflags name (List.mem_cons_self _ _)
    have hj : j < st.spec.length := (List.getElem?_eq_some.mp ho).1
    have hne : ∀ name' ∈ rest, index.getShortByName name' ≠ some j := by
      intro name' hmem hl'
      obtain ⟨j', o', p', hl2, ho2, hsn2, _⟩ := hflags name' (List.mem_cons_of_mem _ hmem)
      rw [hl'] at hl2
      cases hl2
      rw [ho] at ho2
      cases ho2
      rw [hsn] at hsn2
      rw [hsn2] at hnotin
      exact hnotin hmem
    have hflags' : ∀ name' ∈ rest, ∃ j' o' p', index.getShortByName name' = some j' ∧
        (⟨st.spec.set j o.setIt, st.heap.setBool p true⟩ : State).spec[j']? = some o' ∧
        o'.Short = name' ∧ o'.Holder.kind = TypeBool ∧ o'.Holder.ptr = some p' ∧
        o'.set = false := by
      intro name' hmem
      obtain ⟨j', o', p', hl2, ho2, rest2⟩ := hflags name' (List.mem_cons_of_mem _ hmem)
      refine ⟨j', o', p', hl2, ?_, rest2⟩
      have : j ≠ j' := fun hjj => hne name' hmem (hjj ▸ hl2)
      simp only [List.getElem?_set_ne this]
      exact ho2
    obtain ⟨st', hrun, hframe, hsetq, hmono⟩ :=
      ih hnd' (cliAll ++ ["-" ++ name]) ⟨st.spec.set j o.setIt, st.heap.setBool p true⟩ hflags'
    refine ⟨st', ?_, ?_, ?_, ?_⟩
    · rw [Parse.shortLoop_cons_flag P index n name rest cliAll st j o p hl ho hk hp, hset]
      simp only [Bool.false_eq_true, if_false, hrun]
      simp
    · intro j' hj'
      rw [hframe j' (fun name' hmem => hj' name' (List.mem_cons_of_mem _ hmem))]
      have : j ≠ j' := fun hjj => hj' name (List.mem_cons_self _ _) (hjj ▸ hl)
      simp only [List.getElem?_set_ne this]
    · intro name' hmem j' o' hl' ho'
      rcases List.mem_cons.mp hmem with rfl | hmem'
      · rw [hl] at hl'
        cases hl'
        rw [ho] at ho'
        cases ho'
        constructor
        · rw [hframe j hne]
          simp only [List.getElem?_set_self hj]
          rfl
        · intro q hq
          rw [hp] at hq
          have hpq : q = p := (Option.some.inj hq).symm
          rw [hpq]
          exact hmono p (by simp [Heap.setBool])
      · have : j ≠ j' := fun hjj => hne name' hmem' (hjj ▸ hl')
        exact hsetq name' hmem' j' o' hl' (by simp only [List.getElem?_set_ne this]; exact ho')
    · intro q hq
      apply hmono
      simp only [Heap.setBool]
      split_ifs
      · rfl
      · exact hq

theorem String.singleton_inj {c d : Char} (h : String.singleton c = String.singleton d) :
    c = d := by
  have := congrArg String.data h
  simpa [String.singleton_data] using this

theorem String.singleton_ne_empty (c : Char) : String.singleton c ≠ "" := by
  intro h
  have := congrArg String.data h
  simp [String.singleton_data] at this

theorem isEnd_dash_mk (cs : List Char) (h : 2 ≤ cs.length) :
    isEndOfOptionSpecifier ("-" ++ String.mk cs) = false := by
  unfold isEndOfOptionSpecifier
  simp only [decide_eq_false_iff_not]
  intro he
  have := congrArg String.data he
  rw [data_dash_append] at this
  have h2 : cs = ['-'] := by simpa using this
  rw [h2] at h
  simp at h

/-- C3. For a specification accepted by `Spec.init` whose options are all unset, a token made of
a dash and of two or more distinct characters, each the short name of a declared flag, is
expanded into one token per flag, in the same order; `Parse` returns these tokens, no argument
and no error, and each of these flags is then set and its holder holds true. -/
theorem C3_compound_of_flags (P : Strconv) (spec : Spec) (h h' : Heap) (index : specIndex)
    (cs : List Char)
    (hinit : Spec.init spec h = some (.ok index, h'))
    (hunset : ∀ o ∈ spec, o.set = false)
    (hlen : 2 ≤ cs.length) (hnodup : cs.Nodup)
    (hflags : ∀ c ∈ cs, ∃ o ∈ spec, o.Short = String.singleton c ∧ o.Holder.kind = TypeBool) :
    ∃ st, Parse P ["-" ++ String.mk cs] spec h
        = some (⟨some (cs.map fun c => "-" ++ String.singleton c), some [], none⟩, st) ∧
      ∀ c ∈ cs, ∀ (j : Nat) (o : CliOption), spec[j]? = some o → o.Short = String.singleton c →
        st.spec[j]? = some { o with set := true } ∧
          ∃ p, o.Holder.ptr = some p ∧ st.heap.bools p = true := by
  have hv := Spec.init_valid spec h h' index hinit
  have hne : cs ≠ [] := by
    intro h0
    rw [h0] at hlen
    simp at hlen
  have hall : cs.all isNameStart = true := by
    rw [List.all_eq_true]
    intro c hc
    obtain ⟨o, ho, hs, _⟩ := hflags c hc
    rcases (hv.checked o ho).short with h0 | ⟨c', hc', hstart⟩
    · rw [hs] at h0
      exact absurd h0 (String.singleton_ne_empty c)
    · rw [hs] at hc'
      rw [String.singleton_inj hc']
      exact hstart
  have hshort := isOptionShort_dash cs hne hall
  have hnd : (cs.map fun c => String.singleton c).Nodup :=
    List.Nodup.map (fun _ _ hcd => String.singleton_inj hcd) hnodup
  have hfl : ∀ name ∈ cs.map fun c => String.singleton c, ∃ j o p,
      index.getShortByName name = some j ∧ (⟨spec, h'⟩ : State).spec[j]? = some o ∧
      o.Short = name ∧ o.Holder.kind = TypeBool ∧ o.Holder.ptr = some p ∧ o.set = false := by
    intro name hname
    obtain ⟨c, hc, rfl⟩ := List.mem_map.mp hname
    obtain ⟨o, ho, hs, hk⟩ := hflags c hc
    obtain ⟨j, hj⟩ := List.mem_iff_getElem?.mp ho
    have hl := hv.short_of hj (by rw [hs]; exact String.singleton_ne_empty c)
    rw [hs] at hl
    cases hp : o.Holder.ptr with
    | none => exact absurd hp ((hv.checked o ho).flag hk)
    | some p => exact ⟨j, o, p, hl, hj, hs, hk, hp, hunset o ho⟩
  obtain ⟨st, hrun, _, hset, _⟩ :=
    Parse.shortLoop_fresh_flags P index (cs.map fun c => String.singleton c).length _ hnd []
      ⟨spec, h'⟩ hfl
  refine ⟨st, ?_, ?_⟩
  · have hl2 : (cs.map fun c => String.singleton c).length > 1 := by
      simp only [List.length_map]
      omega
    simp only [Parse, hinit, Parse.loop, Parse.body, Parse.token, isEnd_dash_mk cs hlen,
      isOption_dash, hshort, hrun, Parse.afterShort, hl2]
    simp [Function.comp_def]
  · intro c hc j o hj hs
    have hl := hv.short_of hj (by rw [hs]; exact String.singleton_ne_empty c)
    rw [hs] at hl
    obtain ⟨h1, h2⟩ := hset (String.singleton c) (List.mem_map.mpr ⟨c, hc, rfl⟩) j o hl hj
    refine ⟨h1, ?_⟩
    obtain ⟨o', ho', hs', hk'⟩ := hflags c hc
    obtain ⟨j', hj'⟩ := List.mem_iff_getElem?.mp ho'
    have hl' := hv.short_of hj' (by rw [hs']; exact String.singleton_ne_empty c)
    rw [hs', hl] at hl'
    cases hl'
    rw [hj] at hj'
    cases hj'
    cases hp : o.Holder.ptr with
    | none => exact absurd hp ((hv.checked o ho').flag hk')
    | some p => exact ⟨p, rfl, h2 p hp⟩

/-! ## The position of a token and the outcome of `Parse` -/

theorem Parse.token_shift (P : Strconv) (index : specIndex) (i i' : Nat) (param : String)
    (rest cliAll : List String) (st : State) :
    (Parse.token P index i param rest cliAll st).erasePosition
      = (Parse.token P index i' param rest cliAll st).erasePosition := by
  unfold Parse.token
  split_ifs <;> rfl

theorem Parse.body_shift (P : Strconv) (index : specIndex) (i i' : Nat) (param : String)
    (rest : List String) (v : Vars) (st : State) :
    (Parse.body P index i param rest v st).erasePosition
      = (Parse.body P index i' param rest v st).erasePosition := by
  unfold Parse.body
  split_ifs
  · rfl
  · exact Parse.token_shift P index i i' param rest v.cliAll st

theorem Parse.loop_shift (P : Strconv) (index : specIndex) (l : List String) :
    ∀ (i i' : Nat) (v : Vars) (st : State),
      erasePosition (Parse.loop P index i l v st) = erasePosition (Parse.loop P index i' l v st) := by
  induction l with
  | nil => intro i i' v st; rfl
  | cons param rest ih =>
    intro i i' v st
    have hb := Parse.body_shift P index i i' param rest v st
    rw [Parse.loop, Parse.loop]
    cases h1 : Parse.body P index i param rest v st <;>
      cases h2 : Parse.body P index i' param rest v st <;>
      rw [h1, h2] at hb <;>
      simp only [Step.erasePosition, Step.next.injEq, Step.ret.injEq, reduceCtorEq] at hb
    · obtain ⟨rfl, rfl⟩ := hb
      exact ih _ _ _ _
    · obtain ⟨hr, rfl⟩ := hb
      simp only [erasePosition, Option.map_some']
      rw [hr]

theorem Parse.loop_lastOption (P : Strconv) (index : specIndex) (i : Nat) (l : List String)
    (cliAll : List String) (lo lo' : Option Nat) (st : State) :
    Parse.loop P index i l ⟨cliAll, false, lo⟩ st = Parse.loop P index i l ⟨cliAll, false, lo'⟩ st := by
  cases l with
  | nil => rfl
  | cons param rest => simp [Parse.loop, Parse.body]

theorem sameOutcome_of_erasePosition (a b : Option (Return × State))
    (h : erasePosition a = erasePosition b) : sameOutcome a b := by
  unfold erasePosition at h
  cases a with
  | none =>
    cases b with
    | none => trivial
    | some y => simp at h
  | some x =>
    cases b with
    | none => simp at h
    | some y =>
      obtain ⟨⟨ca, aa, ea⟩, sa⟩ := x
      obtain ⟨⟨cb, ab, eb⟩, sb⟩ := y
      simp only [Option.map_some', Option.some.injEq, Prod.mk.injEq, Return.mk.injEq] at h
      obtain ⟨⟨hc, ha, he⟩, hs⟩ := h
      unfold sameOutcome
      simp only
      cases ea with
      | none =>
        cases eb with
        | none => exact Or.inr ⟨rfl, rfl, hc, ha, hs⟩
        | some e => simp at he
      | some e =>
        cases eb with
        | none => simp at he
        | some e' => exact Or.inl ⟨by simp, by simp⟩

/-! ## A compound and its separated form -/

theorem Parse.token_flag (P : Strconv) (index : specIndex) (i : Nat) (c : Char)
    (rest cliAll : List String) (st : State) (j : Nat) (o : CliOption) (p : Nat)
    (hc : isNameStart c = true)
    (hl : index.getShortByName (String.singleton c) = some j) (ho : st.spec[j]? = some o)
    (hk : o.Holder.kind = TypeBool) (hp : o.Holder.ptr = some p) :
    Parse.token P index i ("-" ++ String.singleton c) rest cliAll st =
      if o.set then .ret ⟨none, none, some (.errorDuplicatedFlagOption (String.singleton c))⟩ st
      else .next ⟨cliAll ++ ["-" ++ String.singleton c], false, none⟩
        ⟨st.spec.set j o.setIt, st.heap.setBool p true⟩ := by
  have hj : j < st.spec.length := (List.getElem?_eq_some.mp ho).1
  unfold Parse.token
  simp only [isEnd_dash_singleton c hc, isOption_dash, isOptionShort_dash_singleton c hc,
    Parse.shortLoop_cons_flag P index _ _ _ cliAll st j o p hl ho hk hp]
  by_cases hs : o.set = true
  · simp [hs]
  · simp only [hs, Parse.shortLoop, Parse.afterShort]
    simp [hl, List.getElem?_set_self hj, CliOption.requireValue_eq, CliOption.setIt, hk,
      typesConstraints]

theorem Parse.loop_flags (P : Strconv) (index : specIndex) (n : Nat) (post : List String)
    (cs : List Char) : ∀ (i i' : Nat) (cliAll : List String) (lo : Option Nat) (st : State),
      (∀ c ∈ cs, isNameStart c = true ∧ ∃ j o p,
        index.getShortByName (String.singleton c) = some j ∧ st.spec[j]? = some o ∧
        o.Holder.kind = TypeBool ∧ o.Holder.ptr = some p) →
      erasePosition (Parse.loop P index i
          ((cs.map fun c => "-" ++ String.singleton c) ++ post) ⟨cliAll, false, lo⟩ st)
        = erasePosition (match Parse.shortLoop P index n (cs.map fun c => String.singleton c)
            cliAll st with
          | .next c s => Parse.loop P index i' post ⟨c, false, none⟩ s
          | .ret r s => some (r, s)
          | .panic => none) := by
  induction cs with
  | nil =>
    intro i i' cliAll lo st _
    simp only [List.map_nil, List.nil_append, Parse.shortLoop]
    rw [Parse.loop_lastOption P index i post cliAll lo none st]
    exact Parse.loop_shift P index post i i' _ st
  | cons c cs ih =>
    intro i i' cliAll lo st hfl
    obtain ⟨hc, j, o, p, hl, ho, hk, hp⟩ := hfl c (List.mem_cons_self _ _)
    have hj : j < st.spec.length := (List.getElem?_eq_some.mp ho).1
    simp only [List.map_cons, List.cons_append, Parse.loop, Parse.body, Bool.false_eq_true,
      if_false, Parse.token_flag P index i c _ cliAll st j o p hc hl ho hk hp,
      Parse.shortLoop_cons_flag P index n _ _ cliAll st j o p hl ho hk hp]
    by_cases hs : o.set = true
    · simp [hs]
    · simp only [hs, if_false]
      apply ih
      intro c' hc'
      obtain ⟨hcc, j', o', p', hl', ho', hk', hp'⟩ := hfl c' (List.mem_cons_of_mem _ hc')
      refine ⟨hcc, j', ?_⟩
      by_cases hjj : j = j'
      · subst hjj
        rw [ho] at ho'
        cases ho'
        refine ⟨o.setIt, p, hl', ?_, hk, hp⟩
        simp [List.getElem?_set_self hj]
      · refine ⟨o', p', hl', ?_, hk', hp'⟩
        simp only [List.getElem?_set_ne hjj]
        exact ho'

theorem sameOutcome_cli (a b : Option (Return × State)) (ra rb : Return)
    (h : sameOutcome a b) (ha : a.map (fun x => x.1) = some ra)
    (hb : b.map (fun x => x.1) = some rb) (he : ra.err = none) : ra.cli = rb.cli := by
  cases a with
  | none => simp at ha
  | some x =>
    cases b with
    | none => simp at hb
    | some y =>
      simp only [Option.map_some', Option.some.injEq] at ha hb
      subst ha hb
      obtain ⟨rx, sx⟩ := x
      obtain ⟨ry, sy⟩ := y
      simp only [sameOutcome] at h
      rcases h with ⟨h1, _⟩ | ⟨_, _, h3, _⟩
      · exact absurd he h1
      · exact h3

/-- C4, as stated, fails: after the marker `--` the compound `-vh` and its separated form
`-v -h` are both copied verbatim, so the two calls succeed with different expanded tokens and
different arguments. -/
theorem C4_counterexample :
    ¬ sameOutcome (Parse sampleStrconv (["--"] ++ ["-" ++ String.mk ['v', 'h']] ++ []) sampleSpec sampleHeap)
      (Parse sampleStrconv (["--"] ++ ["-v", "-h"] ++ []) sampleSpec sampleHeap) := by
  intro h
  have := sameOutcome_cli _ _ ⟨some ["--", "-vh"], some ["-vh"], none⟩
    ⟨some ["--", "-v", "-h"], some ["-v", "-h"], none⟩ h rfl rfl rfl
  revert this
  decide

/-- C4, amended. When the loop of `Parse` goes through the tokens `pre` without returning, a
compound of two or more declared flags that follows `pre` is equivalent to its separated form:
the two calls both panic, or both return an error, or both return no error, the same expanded
tokens and the same arguments, and leave the options and the holders in the same state. -/
theorem C4_compound_equivalent (P : Strconv) (spec : Spec) (h h' : Heap) (index : specIndex)
    (pre post : List String) (cs : List Char) (v : Vars) (st : State)
    (hinit : Spec.init spec h = some (.ok index, h'))
    (hreach : Parse.through P index 0 pre [] ⟨[], false, none⟩ ⟨spec, h'⟩ = some (v, st))
    (hlen : 2 ≤ cs.length)
    (hflags : ∀ c ∈ cs, ∃ o ∈ spec, o.Short = String.singleton c ∧ o.Holder.kind = TypeBool) :
    sameOutcome (Parse P (pre ++ ["-" ++ String.mk cs] ++ post) spec h)
      (Parse P (pre ++ (cs.map fun c => "-" ++ String.singleton c) ++ post) spec h) := by
  have hv := Spec.init_valid spec h h' index hinit
  have hev := Parse.through_evolves P index pre 0 [] _ _ _ _ hreach
  have hne : cs ≠ [] := by
    intro h0
    rw [h0] at hlen
    simp at hlen
  have hfl : ∀ c ∈ cs, isNameStart c = true ∧ ∃ j o p,
      index.getShortByName (String.singleton c) = some j ∧ st.spec[j]? = some o ∧
      o.Holder.kind = TypeBool ∧ o.Holder.ptr = some p := by
    intro c hc
    obtain ⟨o0, ho0, hs, hk⟩ := hflags c hc
    obtain ⟨j, hj⟩ := List.mem_iff_getElem?.mp ho0
    have hl := hv.short_of hj (by rw [hs]; exact String.singleton_ne_empty c)
    rw [hs] at hl
    obtain ⟨o0', o, ho0', ho, hevo, _, _⟩ := hv.short_at hev hl
    rw [hj] at ho0'
    cases ho0'
    constructor
    · rcases (hv.checked o0 ho0).short with h0 | ⟨c', hc', hstart⟩
      · rw [hs] at h0
        exact absurd h0 (String.singleton_ne_empty c)
      · rw [hs] at hc'
        rw [String.singleton_inj hc']
        exact hstart
    · cases hp : o0.Holder.ptr with
      | none => exact absurd hp ((hv.checked o0 ho0).flag hk)
      | some p => exact ⟨j, o, p, hl, ho, hevo.kind.trans hk, hevo.ptr p hp⟩
  have hall : cs.all isNameStart = true := by
    rw [List.all_eq_true]
    exact fun c hc => (hfl c hc).1
  have h1 := Parse.loop_append P index pre 0 (("-" ++ String.mk cs) :: post) _ _ _ _
    (Parse.through_irrel P index pre 0 0 _ _ _ _ _ hreach)
  have h2 := Parse.loop_append P index pre 0
    ((cs.map fun c => "-" ++ String.singleton c) ++ post) _ _ _ _
    (Parse.through_irrel P index pre 0 0 _ _ _ _ _ hreach)
  simp only [Parse, hinit, List.append_assoc, List.singleton_append, h1, h2]
  apply sameOutcome_of_erasePosition
  obtain ⟨cliAll, nsv, lo⟩ := v
  cases nsv with
  | true =>
    match cs, hne with
    | c :: cs', _ =>
      simp [Parse.loop, Parse.body, Parse.value, isEnd_dash_mk _ hlen, isOption_dash,
        isEnd_dash_singleton c (hfl c (List.mem_cons_self _ _)).1]
  | false =>
    rw [Parse.loop_flags P index cs.length post cs (0 + pre.length) (0 + pre.length + 1)
      cliAll lo st hfl]
    have hl2 : (cs.map fun c => String.singleton c).length > 1 := by
      simp only [List.length_map]
      omega
    simp only [Parse.loop, Parse.body, Parse.token, Bool.false_eq_true, if_false,
      isEnd_dash_mk cs hlen,
      isOption_dash, isOptionShort_dash cs hne hall, if_true, List.length_map]
    cases hsl : Parse.shortLoop P index cs.length (cs.map fun c => String.singleton c) cliAll st with
    | next c s =>
      simp only [Parse.afterShort, hl2, if_true]
    | ret r s => rfl
    | panic => rfl

/-! ## The first properties on the sample values -/

/-- `Spec.init` accepts the sample specification. -/
theorem sampleSpec_init : Spec.init sampleSpec sampleHeap = some (.ok sampleIndex, sampleHeapInit) :=
  rfl

/-- The property C1 on the sample values: the flag `-v`, the marker, then two tokens. -/
theorem C1_end_of_options_marker_witness :
    Parse sampleStrconv ["-v"] sampleSpec sampleHeap
      = some (⟨some ["-v"], some [], none⟩,
          ⟨sampleSpec.set 0 ⟨"v", "", ⟨TypeBool, some 0⟩, true⟩, sampleHeapInit.setBool 0 true⟩) ∧
    Parse sampleStrconv (["-v"] ++ "--" :: ["-x", "y"]) sampleSpec sampleHeap
      = some (⟨some (["-v"] ++ "--" :: ["-x", "y"]), some ["-x", "y"], none⟩,
          ⟨sampleSpec.set 0 ⟨"v", "", ⟨TypeBool, some 0⟩, true⟩, sampleHeapInit.setBool 0 true⟩) :=
  C1_end_of_options_marker sampleStrconv sampleSpec sampleHeap sampleHeapInit sampleIndex
    ["-v"] ["-x", "y"] ⟨["-v"], false, none⟩
    ⟨sampleSpec.set 0 ⟨"v", "", ⟨TypeBool, some 0⟩, true⟩, sampleHeapInit.setBool 0 true⟩
    rfl rfl rfl

/-- The property C2 on the sample values: the flag `-v`, the argument `a`, then two tokens. -/
theorem C2_first_argument_witness :
    Parse sampleStrconv ["-v"] sampleSpec sampleHeap
      = some (⟨some ["-v"], some [], none⟩,
          ⟨sampleSpec.set 0 ⟨"v", "", ⟨TypeBool, some 0⟩, true⟩, sampleHeapInit.setBool 0 true⟩) ∧
    Parse sampleStrconv (["-v"] ++ "a" :: ["-x", "y"]) sampleSpec sampleHeap
      = some (⟨some (["-v"] ++ "a" :: ["-x", "y"]), some ("a" :: ["-x", "y"]), none⟩,
          ⟨sampleSpec.set 0 ⟨"v", "", ⟨TypeBool, some 0⟩, true⟩, sampleHeapInit.setBool 0 true⟩) :=
  C2_first_argument sampleStrconv sampleSpec sampleHeap sampleHeapInit sampleIndex
    ["-v"] ["-x", "y"] "a" ⟨["-v"], false, none⟩
    ⟨sampleSpec.set 0 ⟨"v", "", ⟨TypeBool, some 0⟩, true⟩, sampleHeapInit.setBool 0 true⟩
    rfl rfl rfl (by decide)

/-- The property C3 on the sample values: the compound `-vh`. -/
theorem C3_compound_of_flags_witness :
    ∃ st, Parse sampleStrconv ["-" ++ String.mk ['v', 'h']] sampleSpec sampleHeap
        = some (⟨some (['v', 'h'].map fun c => "-" ++ String.singleton c), some [], none⟩, st) ∧
      ∀ c ∈ ['v', 'h'], ∀ (j : Nat) (o : CliOption), sampleSpec[j]? = some o →
        o.Short = String.singleton c →
        st.spec[j]? = some { o with set := true } ∧
          ∃ p, o.Holder.ptr = some p ∧ st.heap.bools p = true :=
  C3_compound_of_flags sampleStrconv sampleSpec sampleHeap sampleHeapInit sampleIndex ['v', 'h']
    rfl (by decide) (by decide) (by decide) (by decide)

/-- The amended property C4 on the sample values: the compound `-vh` after `-i x`. -/
theorem C4_compound_equivalent_witness :
    sameOutcome
      (Parse sampleStrconv (["-i", "x"] ++ ["-" ++ String.mk ['v', 'h']] ++ ["a"]) sampleSpec
        sampleHeap)
      (Parse sampleStrconv
        (["-i", "x"] ++ (['v', 'h'].map fun c => "-" ++ String.singleton c) ++ ["a"]) sampleSpec
        sampleHeap) :=
  C4_compound_equivalent sampleStrconv sampleSpec sampleHeap sampleHeapInit sampleIndex
    ["-i", "x"] ["a"] ['v', 'h'] ⟨["-i", "x"], false, some 2⟩
    ⟨sampleSpec.set 2 ⟨"i", "input", ⟨TypeString, some 0⟩, true⟩,
      sampleHeapInit.setString 0 "x"⟩
    rfl rfl (by decide) (by decide)

/-! ## A second use of an option -/

theorem Parse.shortLoop_append (P : Strconv) (index : specIndex) (n : Nat) (a b : List String) :
    ∀ (cliAll : List String) (st : State),
      Parse.shortLoop P index n (a ++ b) cliAll st =
        match Parse.shortLoop P index n a cliAll st with
        | .next c s => Parse.shortLoop P index n b c s
        | .ret r s => .ret r s
        | .panic => .panic := by
  induction a with
  | nil => intro cliAll st; simp [Parse.shortLoop]
  | cons name rest ih =>
    intro cliAll st
    simp only [List.cons_append, Parse.shortLoop]
    split
    · rfl
    · split
      · rfl
      · split_ifs
        · rfl
        · split
          · rfl
          · split
            · rfl
            · exact ih _ _

theorem recordOption_set (o : CliOption) (name : String) (hset : o.set = true)
    (hrep : o.isSingleton = true ∨ o.requireValue = false) :
    recordOption o name =
      (some (if o.requireValue then .errorDuplicatedNonFlagOption name
        else .errorDuplicatedFlagOption name), o) := by
  unfold recordOption
  have h1 : (!o.requireValue || o.isSingleton) = true := by
    rcases hrep with h | h <;> simp [h]
  simp only [h1, if_true, CliOption.isSet, hset]
  cases o.requireValue <;> simp

theorem Parse.shortLoop_cons_set (P : Strconv) (index : specIndex) (n : Nat) (name : String)
    (rest cliAll : List String) (st : State) (j : Nat) (o : CliOption)
    (hl : index.getShortByName name = some j) (ho : st.spec[j]? = some o)
    (hn : ¬ (o.requireValue = true ∧ n > 1)) (hset : o.set = true)
    (hrep : o.isSingleton = true ∨ o.requireValue = false) :
    Parse.shortLoop P index n (name :: rest) cliAll st =
      .ret ⟨none, none, some (if o.requireValue then .errorDuplicatedNonFlagOption name
        else .errorDuplicatedFlagOption name)⟩ st := by
  rw [Parse.shortLoop, hl]
  simp only [ho, hn, if_false, recordOption_set o name hset hrep, List.set_same _ _ _ ho]

theorem Parse.longOption_set (P : Strconv) (index : specIndex) (name : String)
    (cliAll : List String) (st : State) (j : Nat) (o : CliOption)
    (hl : index.getLongByName name = some j) (ho : st.spec[j]? = some o)
    (hset : o.set = true) (hrep : o.isSingleton = true ∨ o.requireValue = false) :
    Parse.longOption P index name cliAll st =
      .ret ⟨none, none, some (if o.requireValue then .errorDuplicatedNonFlagOption name
        else .errorDuplicatedFlagOption name)⟩ st := by
  unfold Parse.longOption
  rw [hl]
  simp only [ho, recordOption_set o name hset hrep, List.set_same _ _ _ ho]

theorem Spec.specEvolves_back {s s' : Spec} (he : Spec.Evolves s s') {j : Nat} {o : CliOption}
    (ho : s'[j]? = some o) : ∃ o0, s[j]? = some o0 ∧ o0.Evolves o := by
  have hj : j < s'.length := (List.getElem?_eq_some.mp ho).1
  have hjs : j < s.length := by rw [← he.1]; exact hj
  have hs : s[j]? = some s[j] := List.getElem?_eq_getElem hjs
  exact ⟨s[j], hs, he.2 j _ _ hs ho⟩

theorem isOption_dashdash (s : String) : isOption ("--" ++ s) = true := by
  simp [isOption, data_dashdash_append]

theorem ValidSpec.short_char {spec : Spec} {index : specIndex} (hv : ValidSpec spec index)
    {o : CliOption} (ho : o ∈ spec) (hne : o.Short ≠ "") :
    ∃ c, o.Short = String.singleton c ∧ isNameStart c = true := by
  rcases (hv.checked o ho).short with h0 | h1
  · exact absurd h0 hne
  · exact h1

/-- C8, as stated, fails: a scalar option used a second time inside a compound makes `Parse`
fail with the error of a value option within a compound, and one used a second time where a
value is expected makes it fail with the error of an option found in place of a value; neither
is a duplication error. -/
theorem C8_counterexample :
    (Parse sampleStrconv ["-i", "a", "-vi"] sampleSpec sampleHeap).map (fun x => x.1)
      = some ⟨none, none, some (.errorNonFlagOptionWithinCompound "i")⟩ ∧
    (Parse sampleStrconv ["-i", "-i"] sampleSpec sampleHeap).map (fun x => x.1)
      = some ⟨none, none, some .errorValueExpectedOptionEncountered⟩ := by
  constructor <;> rfl

/-- C8, amended. When the loop of `Parse` reaches, while no value is expected, a token that
uses again (see `SecondUse`) an option that is already set and whose type is not repeatable,
`Parse` returns no token, no argument, and a duplication error that carries the name as
written in the token: the error of a duplicated flag when the option takes no value, the error
of a duplicated non flag option otherwise. -/
theorem C8_duplicate_use (P : Strconv) (spec : Spec) (h h' : Heap) (index : specIndex)
    (pre post : List String) (tok name : String) (v : Vars) (st : State) (j : Nat)
    (o : CliOption)
    (hinit : Spec.init spec h = some (.ok index, h'))
    (hreach : Parse.through P index 0 pre (tok :: post) ⟨[], false, none⟩ ⟨spec, h'⟩
      = some (v, st))
    (hvalue : v.nextShouldBeValue = false)
    (ho : st.spec[j]? = some o) (hset : o.set = true)
    (hrep : o.isSingleton = true ∨ o.requireValue = false)
    (huse : SecondUse st o tok name) :
    ∃ st', Parse P (pre ++ tok :: post) spec h
      = some (⟨none, none, some (if o.requireValue then .errorDuplicatedNonFlagOption name
          else .errorDuplicatedFlagOption name)⟩, st') := by
  have hv := Spec.init_valid spec h h' index hinit
  have hev := Parse.through_evolves P index pre 0 _ _ _ _ _ hreach
  have h1 := Parse.loop_append P index pre 0 _ _ _ _ _ hreach
  obtain ⟨o0, ho0, hevo⟩ := Spec.specEvolves_back hev ho
  have ho0m : o0 ∈ spec := List.mem_iff_getElem?.mpr ⟨j, ho0⟩
  simp only [Parse, hinit, h1, Parse.loop, Parse.body, hvalue, Bool.false_eq_true, if_false]
  cases huse with
  | short hne =>
    have hne0 : o0.Short ≠ "" := by rw [← hevo.short]; exact hne
    obtain ⟨c, hc, hstart⟩ := hv.short_char ho0m hne0
    have hl := hv.short_of ho0 hne0
    rw [← hevo.short] at hl hc
    rw [hc] at hl ⊢
    refine ⟨st, ?_⟩
    simp only [Parse.token, isEnd_dash_singleton c hstart, isOption_dash,
      isOptionShort_dash_singleton c hstart, List.length_singleton,
      Parse.shortLoop_cons_set P index 1 _ [] v.cliAll st j o hl ho (by simp) hset hrep]
    simp
  | long hne hstd =>
    have hne0 : o0.Long ≠ "" := by rw [← hevo.long]; exact hne
    have hl := hv.long_of ho0 hne0
    have hok : (isOptionLong o.Long).1 = true := by
      rcases (hv.checked o0 ho0m).long with h0 | h0
      · exact absurd h0 hne0
      · rw [hevo.long]; exact h0
    rw [← hevo.long] at hl
    refine ⟨st, ?_⟩
    simp only [Parse.token, isEnd_dashdash o.Long hne, isOption_dashdash, isOptionShort_dashdash,
      isOptionLong_dashdash o.Long hok hstd,
      Parse.longOption_set P index _ v.cliAll st j o hl ho hset hrep]
    simp
  | compound cs1 cs2 c hsc hk hlen hnd hfresh hcs2 =>
    have hne : o.Short ≠ "" := by rw [hsc]; exact String.singleton_ne_empty c
    have hne0 : o0.Short ≠ "" := by rw [← hevo.short]; exact hne
    have hl := hv.short_of ho0 hne0
    rw [← hevo.short, hsc] at hl
    have hstart : isNameStart c = true := by
      obtain ⟨c', hc', hst'⟩ := hv.short_char ho0m hne0
      rw [← hevo.short, hsc] at hc'
      rw [String.singleton_inj hc']
      exact hst'
    -- the flags before the name of `o`
    have hfl : ∀ name ∈ cs1.map fun d => String.singleton d, ∃ j' o' p,
        index.getShortByName name = some j' ∧ st.spec[j']? = some o' ∧
        o'.Short = name ∧ o'.Holder.kind = TypeBool ∧ o'.Holder.ptr = some p ∧
        o'.set = false := by
      intro nm hnm
      obtain ⟨d, hd, rfl⟩ := List.mem_map.mp hnm
      obtain ⟨o', ho', hs', hk', hset'⟩ := hfresh d hd
      obtain ⟨j', hj'⟩ := List.mem_iff_getElem?.mp ho'
      obtain ⟨o0', ho0', hevo'⟩ := Spec.specEvolves_back hev hj'
      have hne' : o0'.Short ≠ "" := by
        rw [← hevo'.short, hs']; exact String.singleton_ne_empty d
      have hl' := hv.short_of ho0' hne'
      rw [← hevo'.short, hs'] at hl'
      have hk0 : o0'.Holder.kind = TypeBool := by rw [← hevo'.kind]; exact hk'
      cases hp : o0'.Holder.ptr with
      | none =>
        exact absurd hp ((hv.checked o0' (List.mem_iff_getElem?.mpr ⟨j', ho0'⟩)).flag hk0)
      | some p => exact ⟨j', o', p, hl', hj', hs', hk', hevo'.ptr p hp, hset'⟩
    have hall : (cs1 ++ c :: cs2).all isNameStart = true := by
      rw [List.all_eq_true]
      intro d hd
      rcases List.mem_append.mp hd with hd1 | hd2
      · obtain ⟨o', ho', hs', _, _⟩ := hfresh d hd1
        obtain ⟨j', hj'⟩ := List.mem_iff_getElem?.mp ho'
        obtain ⟨o0', ho0', hevo'⟩ := Spec.specEvolves_back hev hj'
        have hne' : o0'.Short ≠ "" := by
          rw [← hevo'.short, hs']; exact String.singleton_ne_empty d
        obtain ⟨d', hd', hst'⟩ := hv.short_char (List.mem_iff_getElem?.mpr ⟨j', ho0'⟩) hne'
        rw [← hevo'.short, hs'] at hd'
        rw [String.singleton_inj hd']
        exact hst'
      · rcases List.mem_cons.mp hd2 with rfl | hd3
        · exact hstart
        · exact hcs2 d hd3
    have hnd' : (cs1.map fun d => String.singleton d).Nodup :=
      List.Nodup.map (fun _ _ hcd => String.singleton_inj hcd) hnd
    have hne2 : cs1 ++ c :: cs2 ≠ [] := by simp
    simp only [Parse.token, isEnd_dash_mk _ hlen, isOption_dash,
      isOptionShort_dash _ hne2 hall, if_true]
    generalize ((cs1 ++ c :: cs2).map fun d => String.singleton d).length = n
    obtain ⟨st1, hrun, hframe, _, _⟩ := Parse.shortLoop_fresh_flags P index
      n _ hnd' v.cliAll st hfl
    have hj1 : st1.spec[j]? = some o := by
      rw [hframe j]
      · exact ho
      · intro nm hnm hlj
        obtain ⟨j', o', p, hl', ho', _, _, _, hset'⟩ := hfl nm hnm
        rw [hlj] at hl'
        cases hl'
        rw [ho] at ho'
        cases ho'
        rw [hset] at hset'
        cases hset'
    have hreq : o.requireValue = false := by
      rw [CliOption.requireValue_eq, hk]; rfl
    refine ⟨st1, ?_⟩
    rw [List.map_append, Parse.shortLoop_append, hrun]
    simp only [List.map_cons]
    rw [Parse.shortLoop_cons_set P index _ _ _ _ st1 j o hl hj1 (by simp [hreq]) hset hrep]
    simp [hsc]

/-! ## Repeated calls and dropped errors -/

/-- C5 fails on the code: a first call of `Parse` with the flag `-v` succeeds and leaves the
flag set; `Option.init` works on a copy of the option and does not clear the flag, so a second
call with the same specification and the same tokens returns the error of a duplicated flag. -/
theorem C5_second_call_differs :
    ∃ st, Parse sampleStrconv ["-v"] sampleSpec sampleHeap
        = some (⟨some ["-v"], some [], none⟩, st) ∧
      (Parse sampleStrconv ["-v"] st.spec st.heap).map (fun x => x.1)
        = some ⟨none, none, some (.errorDuplicatedFlagOption "v")⟩ :=
  ⟨_, rfl, rfl⟩

/-- C6 fails on the code: on a flag that is set and whose holder holds true, `Spec.init`
returns an index and `Parse` of no token returns without an error; the holder then holds false
but the flag `set` of the option is still true. -/
theorem C6_set_not_cleared :
    ∃ index h', Spec.init [⟨"v", "", ⟨TypeBool, some 0⟩, true⟩] (sampleHeap.setBool 0 true)
        = some (.ok index, h') ∧
      ∃ st, Parse sampleStrconv [] [⟨"v", "", ⟨TypeBool, some 0⟩, true⟩] (sampleHeap.setBool 0 true)
        = some (⟨some [], some [], none⟩, st) ∧
      st.spec.map (fun o => o.set) = [true] ∧ st.heap.bools 0 = false :=
  ⟨_, _, rfl, _, rfl, rfl, rfl⟩

/-- C7 fails on the code: for the `int8` option `-n` and the value `128`, `addValue` returns
the range error of `strconv.ParseInt`, but `Parse` drops it: it returns the expanded tokens and
no error, and the holder is left unchanged. -/
theorem C7_conversion_error_dropped :
    (CliOption.addValue sampleStrconv ⟨"n", "int8", ⟨TypeInteger8, some 0⟩, true⟩ (.string "128")
        sampleHeapInit).map (fun x => x.1)
      = some (some (.numError ⟨"ParseInt", "128", .ErrRange⟩)) ∧
    ∃ st, Parse sampleStrconv ["-n", "128"] sampleSpec sampleHeap
        = some (⟨some ["-n", "128"], some [], none⟩, st) ∧
      st.heap.ints TypeInteger8 0 = sampleHeap.ints TypeInteger8 0 :=
  ⟨rfl, _, rfl, rfl⟩

/-! ## Options that take a value -/

theorem recordOption_value (o : CliOption) (name : String) (hreq : o.requireValue = true) :
    recordOption o name =
      if o.isSingleton = true ∧ o.set = true then (some (.errorDuplicatedNonFlagOption name), o)
      else (none, o.setIt) := by
  unfold recordOption
  simp only [hreq, CliOption.isSet]
  cases o.isSingleton <;> cases o.set <;> simp

theorem CliOption.addValue_bool_value (P : Strconv) (o : CliOption) (b : Bool) (h : Heap)
    (hreq : o.requireValue = true) :
    o.addValue P (.bool b) h = some (some .errorInvalidValueStringExpected, o, h) := by
  have hk : o.Holder.kind ≠ TypeBool := by
    intro hk
    rw [CliOption.requireValue_eq, hk] at hreq
    simp [typesConstraints] at hreq
  unfold CliOption.addValue
  simp [CliOption.getType_fst, hk]

theorem Parse.token_short_value (P : Strconv) (index : specIndex) (i : Nat) (c : Char)
    (rest cliAll : List String) (st : State) (j : Nat) (o : CliOption)
    (hc : isNameStart c = true)
    (hl : index.getShortByName (String.singleton c) = some j) (ho : st.spec[j]? = some o)
    (hreq : o.requireValue = true) :
    Parse.token P index i ("-" ++ String.singleton c) rest cliAll st =
      if o.isSingleton = true ∧ o.set = true then
        .ret ⟨none, none, some (.errorDuplicatedNonFlagOption (String.singleton c))⟩ st
      else .next ⟨cliAll ++ ["-" ++ String.singleton c], true, some j⟩
        ⟨st.spec.set j o.setIt, st.heap⟩ := by
  have hj : j < st.spec.length := (List.getElem?_eq_some.mp ho).1
  have hreq' : o.setIt.requireValue = true := by
    rw [CliOption.requireValue_eq] at hreq ⊢
    exact hreq
  unfold Parse.token
  simp only [isEnd_dash_singleton c hc, isOption_dash, isOptionShort_dash_singleton c hc,
    Parse.shortLoop, hl, ho, List.length_singleton, recordOption_value o _ hreq]
  by_cases hd : o.isSingleton = true ∧ o.set = true
  · simp [hd, List.set_same _ _ _ ho]
  · simp only [hd, if_false, State.addValue, List.getElem?_set_self hj,
      CliOption.addValue_bool_value P _ true _ hreq', List.set_set, Parse.afterShort]
    simp [hl, List.getElem?_set_self hj, hreq']

theorem Parse.token_long_value (P : Strconv) (index : specIndex) (i : Nat) (l : String)
    (rest cliAll : List String) (st : State) (j : Nat) (o : CliOption)
    (hne : l ≠ "") (hok : (isOptionLong l).1 = true) (hstd : dropDashDash l.data = l.data)
    (hl : index.getLongByName l = some j) (ho : st.spec[j]? = some o)
    (hreq : o.requireValue = true) :
    Parse.token P index i ("--" ++ l) rest cliAll st =
      if o.isSingleton = true ∧ o.set = true then
        .ret ⟨none, none, some (.errorDuplicatedNonFlagOption l)⟩ st
      else .next ⟨cliAll ++ ["--" ++ l], true, some j⟩ ⟨st.spec.set j o.setIt, st.heap⟩ := by
  have hreq' : o.setIt.requireValue = true := by
    rw [CliOption.requireValue_eq] at hreq ⊢
    exact hreq
  unfold Parse.token
  simp only [isEnd_dashdash l hne, isOption_dashdash, isOptionShort_dashdash,
    isOptionLong_dashdash l hok hstd, Parse.longOption, hl, ho, recordOption_value o _ hreq]
  by_cases hd : o.isSingleton = true ∧ o.set = true
  · simp [hd, List.set_same _ _ _ ho]
  · simp [hd, hreq']

/-- C10, as stated, fails: `Spec.init` accepts the long name `--input` (the predicate of the
long names accepts a name with its two leading dashes); for the option declared with the short
name `i` and this long name, `-i a` is parsed without an error whereas `----input a` is an
invalid option specifier. -/
theorem C10_counterexample :
    (Parse sampleStrconv ["-" ++ "i", "a"] sampleSpecDashed sampleHeap).map (fun x => x.1)
      = some ⟨some ["-i", "a"], some [], none⟩ ∧
    (Parse sampleStrconv ["--" ++ "--input", "a"] sampleSpecDashed sampleHeap).map (fun x => x.1)
      = some ⟨none, none, some (.errorInvalidOptionSpecifier "----input" 0)⟩ := by
  constructor <;> rfl

/-- C10, amended. For an option of a specification accepted by `Spec.init` that takes a value
and is declared with a short name and with a long name that does not start with two dashes,
the short form and the long form followed by the same token have the same effect: the two calls
both panic, or both return an error, or both return no error, and they leave the options and
the holders in the same state. -/
theorem C10_short_long_agree (P : Strconv) (spec : Spec) (h h' : Heap) (index : specIndex)
    (o : CliOption) (val : String)
    (hinit : Spec.init spec h = some (.ok index, h'))
    (ho : o ∈ spec) (hs : o.Short ≠ "") (hl : o.Long ≠ "")
    (hstd : dropDashDash o.Long.data = o.Long.data) (hreq : o.requireValue = true) :
    sameEffect (Parse P ["-" ++ o.Short, val] spec h) (Parse P ["--" ++ o.Long, val] spec h) := by
  have hv := Spec.init_valid spec h h' index hinit
  obtain ⟨j, hj⟩ := List.mem_iff_getElem?.mp ho
  obtain ⟨c, hc, hstart⟩ := hv.short_char ho hs
  have hls := hv.short_of hj hs
  have hll := hv.long_of hj hl
  have hok : (isOptionLong o.Long).1 = true := by
    rcases (hv.checked o ho).long with h0 | h0
    · exact absurd h0 hl
    · exact h0
  rw [hc] at hls ⊢
  simp only [Parse, hinit, Parse.loop, Parse.body, Bool.false_eq_true, if_false,
    Parse.token_short_value P index 0 c _ [] ⟨spec, h'⟩ j o hstart hls hj hreq,
    Parse.token_long_value P index 0 o.Long _ [] ⟨spec, h'⟩ j o hl hok hstd hll hj hreq]
  by_cases hd : o.isSingleton = true ∧ o.set = true
  · simp [hd, sameEffect]
  · simp only [hd, if_false, if_true, Parse.value]
    split_ifs
    · simp [sameEffect]
    · simp [sameEffect]
    · cases State.addValue P ⟨spec.set j o.setIt, h'⟩ j (.string val) with
      | none => simp [sameEffect]
      | some st => simp [sameEffect, Parse.loop]

/-- The amended property C8 on the sample values: the compound `-hv` after `-v`. -/
theorem C8_duplicate_use_witness :
    ∃ st', Parse sampleStrconv (["-v"] ++ ("-" ++ String.mk (['h'] ++ 'v' :: [])) :: ["x"])
        sampleSpec sampleHeap
      = some (⟨none, none, some (.errorDuplicatedFlagOption "v")⟩, st') :=
  C8_duplicate_use sampleStrconv sampleSpec sampleHeap sampleHeapInit sampleIndex
    ["-v"] ["x"] ("-" ++ String.mk (['h'] ++ 'v' :: [])) "v" ⟨["-v"], false, none⟩
    ⟨sampleSpec.set 0 ⟨"v", "", ⟨TypeBool, some 0⟩, true⟩, sampleHeapInit.setBool 0 true⟩
    0 ⟨"v", "", ⟨TypeBool, some 0⟩, true⟩ rfl rfl rfl rfl rfl (Or.inl rfl)
    (SecondUse.compound ['h'] [] 'v' rfl rfl (by decide) (by decide) (by decide) (by decide))

/-- The amended property C10 on the sample values: `-i a` and `--input a`. -/
theorem C10_short_long_agree_witness :
    sameEffect (Parse sampleStrconv ["-" ++ "i", "a"] sampleSpec sampleHeap)
      (Parse sampleStrconv ["--" ++ "input", "a"] sampleSpec sampleHeap) :=
  C10_short_long_agree sampleStrconv sampleSpec sampleHeap sampleHeapInit sampleIndex
    ⟨"i", "input", ⟨TypeString, some 0⟩, false⟩ "a" rfl (by decide) (by decide) (by decide)
    (by decide) rfl

/-! ## Repeatable holders -/

theorem Heap.list_setBool (h : Heap) (p : Nat) (b : Bool) (hd : Holder) :
    (h.setBool p b).list hd = h.list hd := rfl

theorem Heap.list_newBool (h : Heap) (hd : Holder) : h.newBool.2.list hd = h.list hd := rfl

theorem CliOption.addValue_bool_list (P : Strconv) (o : CliOption) (b : Bool) (h : Heap)
    (e : Option Error) (o' : CliOption) (h' : Heap) (hd : cli.Holder)
    (ha : o.addValue P (.bool b) h = some (e, o', h')) : h'.list hd = h.list hd := by
  unfold CliOption.addValue at ha
  simp only [CliOption.getType_fst] at ha
  split_ifs at ha with hb
  · split at ha
    · simp only [Heap.newBool, Option.some.injEq, Prod.mk.injEq] at ha
      rw [← ha.2.2]
      rfl
    · simp only [Heap.newBool, Option.some.injEq, Prod.mk.injEq] at ha
      rw [← ha.2.2]
      rfl
  · simp only [Option.some.injEq, Prod.mk.injEq] at ha
    rw [ha.2.2]

theorem State.addValue_bool_heapList (P : Strconv) (st st' : State) (k : Nat) (b : Bool)
    (hd : Holder) (ha : State.addValue P st k (.bool b) = some st') :
    st'.heap.list hd = st.heap.list hd := by
  unfold State.addValue at ha
  split at ha
  · cases ha
  · split at ha
    · cases ha
    · rename_i e o' h' hav
      cases ha
      exact CliOption.addValue_bool_list P _ b st.heap e o' h' hd hav

theorem Parse.shortLoop_list (P : Strconv) (index : specIndex) (n : Nat) (hd : Holder)
    (names : List String) : ∀ (cliAll : List String) (st : State) (c : List String) (st' : State),
      Parse.shortLoop P index n names cliAll st = .next c st' →
      st'.heap.list hd = st.heap.list hd := by
  induction names with
  | nil =>
    intro cliAll st c st' h
    simp only [Parse.shortLoop, Step.next.injEq] at h
    rw [← h.2]
  | cons name rest ih =>
    intro cliAll st c st' h
    rw [Parse.shortLoop] at h
    split at h
    · cases h
    · split at h
      · cases h
      · split_ifs at h
        split at h
        · cases h
        · split at h
          · cases h
          · rename_i st1 hadd
            have := State.addValue_bool_heapList P _ st1 _ true hd hadd
            rw [ih _ st1 c st' h, this]

theorem Parse.longOption_list (P : Strconv) (index : specIndex) (name : String)
    (cliAll : List String) (st : State) (v : Vars) (st' : State) (hd : Holder)
    (h : Parse.longOption P index name cliAll st = .next v st') :
    st'.heap.list hd = st.heap.list hd := by
  unfold Parse.longOption at h
  split at h
  · cases h
  · split at h
    · cases h
    · split at h
      · cases h
      · split_ifs at h
        · cases h; rfl
        · split at h
          · cases h
          · rename_i st1 hadd
            cases h
            have := State.addValue_bool_heapList P _ _ _ true hd hadd
            exact this

theorem CliOption.init_list (o : CliOption) (h h' : Heap) (e : Option Error) (hd : cli.Holder)
    (hi : o.init h = some (e, h')) : h'.list hd = h.list hd := by
  unfold CliOption.init at hi
  split_ifs at hi
  all_goals first
    | (simp only [Option.some.injEq, Prod.mk.injEq] at hi; rw [← hi.2])
    | (simp only at hi
       split_ifs at hi
       · split at hi
         · simp only [Option.some.injEq, Prod.mk.injEq] at hi
           rw [← hi.2]
           rfl
         · cases hi
       · simp only [Option.some.injEq, Prod.mk.injEq] at hi
         rw [← hi.2])

theorem Spec.initLoop_list (hd : Holder) (rest : List CliOption) :
    ∀ (i : Nat) (shorts longs : List (String × Nat)) (holders : List (Holder × Nat))
      (h h' : Heap) (x : Except Error specIndex),
      Spec.initLoop i rest shorts longs holders h = some (x, h') →
      h'.list hd = h.list hd := by
  induction rest with
  | nil =>
    intro i shorts longs holders h h' x hi
    simp only [Spec.initLoop, Option.some.injEq, Prod.mk.injEq] at hi
    rw [← hi.2]
  | cons o rest ih =>
    intro i shorts longs holders h h' x hi
    rw [Spec.initLoop] at hi
    cases hoi : o.init h with
    | none => rw [hoi] at hi; cases hi
    | some r =>
      obtain ⟨e, h1⟩ := r
      have hl := CliOption.init_list o h h1 e hd hoi
      rw [hoi] at hi
      cases e with
      | some err =>
        simp only [Option.some.injEq, Prod.mk.injEq] at hi
        rw [← hi.2, hl]
      | none =>
        simp only at hi
        split_ifs at hi
        all_goals first
          | (simp only [Option.some.injEq, Prod.mk.injEq] at hi; rw [← hi.2, hl])
          | (rw [ih _ _ _ _ _ _ _ hi, hl])

theorem String.eq_of_data {s t : String} (h : s.data = t.data) : s = t := by
  obtain ⟨a⟩ := s
  obtain ⟨b⟩ := t
  simp only at h
  rw [h]

theorem isOption_data (tok : String) (h : isOption tok = true) :
    ∃ r, tok.data = '-' :: r := by
  unfold isOption at h
  cases hd : tok.data with
  | nil => rw [hd] at h; simp at h
  | cons c r =>
    rw [hd] at h
    simp only [decide_eq_true_eq] at h
    exact ⟨r, by rw [h]⟩

theorem isOptionShort_single (tok : String) (hopt : isOption tok = true)
    (hs : (isOptionShort tok).1 = true) (hlen : ¬ (isOptionShort tok).2.length > 1) :
    ∃ c, tok = "-" ++ String.singleton c ∧ (isOptionShort tok).2 = [String.singleton c] := by
  obtain ⟨r, hr⟩ := isOption_data tok hopt
  unfold isOptionShort at hs hlen ⊢
  simp only [hr, dropDash, if_true] at hs hlen ⊢
  by_cases hc : r ≠ [] ∧ r.all isNameStart = true
  · rw [if_pos hc] at hlen ⊢
    have hr1 : ∃ c, r = [c] := by
      match r, hc.1 with
      | [c], _ => exact ⟨c, rfl⟩
      | c :: d :: r', _ =>
        exfalso
        apply hlen
        have hb : ¬ (String.mk (c :: d :: r')).utf8ByteSize = 1 := by
          intro hb
          have h2 := utf8ByteSize_go_ge r'
          have hc' := Char.utf8Size_pos c
          have hd' := Char.utf8Size_pos d
          rw [utf8ByteSize_mk] at hb
          simp only [String.utf8ByteSize.go] at hb
          omega
        rw [if_neg hb]
        simp
    obtain ⟨c, rfl⟩ := hr1
    refine ⟨c, String.eq_of_data ?_, ?_⟩
    · rw [hr, data_dash_append, String.singleton_data]
    · by_cases hb : (String.mk [c]).utf8ByteSize = 1
      · rw [if_pos hb]; rfl
      · rw [if_neg hb]; rfl
  · rw [if_neg hc] at hs
    simp at hs

theorem isOptionLong_inv (tok : String) (hopt : isOption tok = true)
    (hl : (isOptionLong tok).1 = true) :
    tok = "--" ++ (isOptionLong tok).2 ∧ (isOptionLong tok).2 ≠ "" ∧
      dropDashDash (isOptionLong tok).2.data = (isOptionLong tok).2.data := by
  obtain ⟨r, hr⟩ := isOption_data tok hopt
  unfold isOptionLong at hl ⊢
  rw [hr] at hl ⊢
  match r with
  | [] => simp [dropDashDash, isNameStart] at hl
  | d :: r' =>
    by_cases hd : d = '-'
    · subst hd
      simp only [dropDashDash, and_self, if_true] at hl ⊢
      match r' with
      | [] => simp at hl
      | c :: r'' =>
        simp only at hl ⊢
        by_cases hc : isNameStart c = true ∧ r''.all isNameChar = true
        · rw [if_pos hc]
          simp only
          have hcd : c ≠ '-' := isNameStart_ne_dash c hc.1
          refine ⟨String.eq_of_data ?_, ?_, ?_⟩
          · rw [hr, data_dashdash_append]
          · intro h0
            have := congrArg String.data h0
            simp at this
          · cases r'' with
            | nil => rfl
            | cons e r3 => simp [dropDashDash, hcd]
        · rw [if_neg hc] at hl
          simp at hl
    · simp [dropDashDash, hd, isNameStart] at hl

/-! ## The tokens that do not designate an option that takes a value -/

theorem CliOption.Evolves.requireValue_same {o o' : CliOption} (h : o.Evolves o') :
    o'.requireValue = o.requireValue := by
  rw [CliOption.requireValue_eq, CliOption.requireValue_eq, h.kind]

theorem CliOption.Evolves.isSingleton_same {o o' : CliOption} (h : o.Evolves o') :
    o'.isSingleton = o.isSingleton := by
  rw [CliOption.isSingleton_eq, CliOption.isSingleton_eq, h.kind]

theorem Parse.shortLoop_ret (P : Strconv) (index : specIndex) (n : Nat)
    (names : List String) : ∀ (cliAll : List String) (st : State) (r : Return) (st' : State),
      Parse.shortLoop P index n names cliAll st = .ret r st' → r.err ≠ none := by
  induction names with
  | nil => intro cliAll st r st' h; simp [Parse.shortLoop] at h
  | cons name rest ih =>
    intro cliAll st r st' h
    rw [Parse.shortLoop] at h
    split at h
    · cases h; simp
    · split at h
      · cases h
      · split_ifs at h
        · cases h; simp
        · split at h
          · cases h; simp
          · split at h
            · cases h
            · exact ih _ _ _ _ h

theorem Parse.longOption_ret (P : Strconv) (index : specIndex) (name : String)
    (cliAll : List String) (st : State) (r : Return) (st' : State)
    (h : Parse.longOption P index name cliAll st = .ret r st') : r.err ≠ none := by
  unfold Parse.longOption at h
  split at h
  · cases h; simp
  · split at h
    · cases h
    · split at h
      · cases h; simp
      · split_ifs at h
        split at h <;> cases h

theorem Parse.token_ret (P : Strconv) (index : specIndex) (i : Nat) (tok : String)
    (rest cliAll : List String) (st : State) (r : Return) (st' : State)
    (hne : tok ≠ "--") (hopt : isOption tok = true)
    (h : Parse.token P index i tok rest cliAll st = .ret r st') : r.err ≠ none := by
  have hend : isEndOfOptionSpecifier tok = false := by simp [isEndOfOptionSpecifier, hne]
  unfold Parse.token at h
  simp only [hend, hopt, Bool.false_eq_true, if_false, if_true] at h
  split_ifs at h
  · split at h
    · rename_i c s hs
      unfold Parse.afterShort at h
      split_ifs at h
      split at h
      · cases h
      · split at h
        · cases h
        · split at h
          · cases h
          · split_ifs at h
    · rename_i r1 s hs
      cases h
      exact Parse.shortLoop_ret P index _ _ _ _ _ _ hs
    · cases h
  · exact Parse.longOption_ret P index _ _ _ _ _ h
  · cases h; simp

theorem Parse.token_skip (P : Strconv) (spec : Spec) (index : specIndex)
    (hv : ValidSpec spec index) (i : Nat) (tok : String)
    (rest cliAll : List String) (st : State) (v : Vars) (st' : State) (hd : Holder)
    (hev : Spec.Evolves spec st.spec)
    (hne : tok ≠ "--") (hopt : isOption tok = true)
    (hnd : ∀ (k : Nat) (o : CliOption), spec[k]? = some o → o.requireValue = true →
      ¬ designates o tok)
    (h : Parse.token P index i tok rest cliAll st = .next v st') :
    v.nextShouldBeValue = false ∧ st'.heap.list hd = st.heap.list hd := by
  have hev' := Spec.specEvolves_trans hev (Parse.token_evolves P index i tok rest cliAll st v st' h)
  have hend : isEndOfOptionSpecifier tok = false := by simp [isEndOfOptionSpecifier, hne]
  unfold Parse.token at h
  simp only [hend, hopt, Bool.false_eq_true, if_false, if_true] at h
  split_ifs at h with hs hl
  · split at h
    · rename_i c s hsl
      have hlist := Parse.shortLoop_list P index _ hd _ _ _ _ _ hsl
      have hst := Parse.afterShort_evolves index _ _ _ _ _ h
      subst hst
      refine ⟨?_, hlist⟩
      unfold Parse.afterShort at h
      split_ifs at h with hlen
      · cases h; rfl
      · split at h
        · cases h
        · rename_i name hname
          split at h
          · cases h
          · rename_i k hk
            split at h
            · cases h
            · rename_i o1 ho1
              split_ifs at h with hreq
              · exfalso
                obtain ⟨ch, htok, hnames⟩ := isOptionShort_single tok hopt hs hlen
                rw [hnames] at hname
                simp only [List.head?_cons, Option.some.injEq] at hname
                obtain ⟨o0, o1', ho0, ho1', hevo, hshort, hnem⟩ := hv.short_at hev' hk
                rw [ho1] at ho1'
                cases ho1'
                refine hnd k o0 ho0 ?_ (Or.inl ⟨by rw [hshort]; exact hnem, ?_⟩)
                · rw [← hevo.requireValue_same]; exact hreq
                · rw [hshort, ← hname]; exact htok
              · cases h; rfl
    · cases h
    · cases h
  · have hlist := Parse.longOption_list P index _ _ _ _ _ hd h
    refine ⟨?_, hlist⟩
    unfold Parse.longOption at h
    split at h
    · cases h
    · rename_i k hk
      split at h
      · cases h
      · rename_i o1 ho1
        split at h
        · cases h
        · rename_i o2 hrec
          split_ifs at h with hreq
          · exfalso
            obtain ⟨htok, hnem, hstd⟩ := isOptionLong_inv tok hopt hl
            obtain ⟨o0, o1', ho0, ho1', hevo, hlong, _⟩ := hv.long_at hev hk
            rw [ho1] at ho1'
            cases ho1'
            have he2 := recordOption_evolves o1 (isOptionLong tok).2
            rw [hrec] at he2
            refine hnd k o0 ho0 ?_ (Or.inr ⟨by rw [hlong]; exact hnem, ?_, ?_⟩)
            · rw [← hevo.requireValue_same, ← he2.requireValue_same]; exact hreq
            · rw [hlong]; exact hstd
            · rw [hlong]; exact htok
          · split at h
            · cases h
            · cases h; rfl

/-! ## The values of a repeatable option -/

theorem Parse.token_designates (P : Strconv) (spec : Spec) (index : specIndex)
    (hv : ValidSpec spec index) (i : Nat) (tok : String) (rest cliAll : List String)
    (st : State) (k : Nat) (o : CliOption) (hev : Spec.Evolves spec st.spec)
    (ho : spec[k]? = some o) (hreq : o.requireValue = true) (hdes : designates o tok) :
    ∃ ok name, st.spec[k]? = some ok ∧ o.Evolves ok ∧
      Parse.token P index i tok rest cliAll st =
        if ok.isSingleton = true ∧ ok.set = true then
          .ret ⟨none, none, some (.errorDuplicatedNonFlagOption name)⟩ st
        else .next ⟨cliAll ++ [tok], true, some k⟩ ⟨st.spec.set k ok.setIt, st.heap⟩ := by
  have hom : o ∈ spec := List.mem_iff_getElem?.mpr ⟨k, ho⟩
  have hk : k < spec.length := (List.getElem?_eq_some.mp ho).1
  have hks : k < st.spec.length := by rw [hev.1]; exact hk
  have hok : st.spec[k]? = some st.spec[k] := List.getElem?_eq_getElem hks
  have hevo := hev.2 k _ _ ho hok
  have hreq' : st.spec[k].requireValue = true := by rw [hevo.requireValue_same]; exact hreq
  rcases hdes with ⟨hne, htok⟩ | ⟨hne, hstd, htok⟩
  · obtain ⟨c, hc, hstart⟩ := hv.short_char hom hne
    have hl := hv.short_of ho hne
    rw [hc] at hl htok
    refine ⟨st.spec[k], String.singleton c, hok, hevo, ?_⟩
    rw [htok]
    exact Parse.token_short_value P index i c rest cliAll st k _ hstart hl hok hreq'
  · have hl := hv.long_of ho hne
    have hlok : (isOptionLong o.Long).1 = true := by
      rcases (hv.checked o hom).long with h0 | h0
      · exact absurd h0 hne
      · exact h0
    refine ⟨st.spec[k], o.Long, hok, hevo, ?_⟩
    rw [htok]
    exact Parse.token_long_value P index i o.Long rest cliAll st k _ hne hlok hstd hl hok hreq'

theorem typesConstraints_repeatable (o : CliOption) (hsing : o.isSingleton = false)
    (hreq : o.requireValue = true) : typesConstraints o.Holder.kind = ⟨false, true⟩ := by
  rw [CliOption.isSingleton_eq] at hsing
  rw [CliOption.requireValue_eq] at hreq
  cases hk : typesConstraints o.Holder.kind with
  | mk s v =>
    rw [hk] at hsing hreq
    simp only at hsing hreq
    rw [hsing, hreq]

/-! ## The token the loop of `Parse` stops at -/

theorem Parse.reach (P : Strconv) (spec : Spec) (h h' : Heap) (index : specIndex)
    (pre post : List String) (v : Vars) (st : State)
    (hinit : Spec.init spec h = some (.ok index, h'))
    (hreach : Parse.through P index 0 pre post ⟨[], false, none⟩ ⟨spec, h'⟩ = some (v, st)) :
    Parse P (pre ++ post) spec h = Parse.loop P index pre.length post v st := by
  have h1 := Parse.loop_append P index pre 0 _ _ _ _ _ hreach
  simp only [Parse, hinit, h1, Nat.zero_add]

theorem Parse.through_snoc (P : Strconv) (index : specIndex) (pre : List String) :
    ∀ (i : Nat) (tok : String) (post : List String) (v : Vars) (st : State) (v' : Vars)
      (st' : State),
      Parse.through P index i pre (tok :: post) v st = some (v', st') →
      Parse.through P index i (pre ++ [tok]) post v st =
        match Parse.body P index (i + pre.length) tok post v' st' with
        | .next v st => some (v, st)
        | _ => none := by
  induction pre with
  | nil =>
    intro i tok post v st v' st' h
    simp only [Parse.through, Option.some.injEq, Prod.mk.injEq] at h
    obtain ⟨rfl, rfl⟩ := h
    simp only [List.nil_append, List.length_nil, Nat.add_zero]
    show (match Parse.body P index i tok ([] ++ post) v st with
      | .next v st => Parse.through P index (i + 1) [] post v st
      | _ => none) = _
    rw [List.nil_append]
    cases Parse.body P index i tok post v st <;> rfl
  | cons param pre ih =>
    intro i tok post v st v' st' h
    simp only [Parse.through] at h
    have happ : pre ++ [tok] ++ post = pre ++ tok :: post := by simp
    show (match Parse.body P index i param (pre ++ [tok] ++ post) v st with
      | .next v st => Parse.through P index (i + 1) (pre ++ [tok]) post v st
      | _ => none) = _
    rw [happ]
    cases hb : Parse.body P index i param (pre ++ tok :: post) v st with
    | next v1 st1 =>
      rw [hb] at h
      simp only at h ⊢
      rw [ih (i + 1) tok post v1 st1 v' st' h]
      have : i + 1 + pre.length = i + (param :: pre).length := by simp; omega
      rw [this]
    | ret r1 st1 => rw [hb] at h; cases h
    | panic => rw [hb] at h; cases h

theorem Parse.token_invalid (P : Strconv) (index : specIndex) (i : Nat) (tok : String)
    (rest cliAll : List String) (st : State) (hne : tok ≠ "--") (hopt : isOption tok = true)
    (hs : (isOptionShort tok).1 = false) (hl : (isOptionLong tok).1 = false) :
    Parse.token P index i tok rest cliAll st =
      .ret ⟨none, none, some (.errorInvalidOptionSpecifier tok i)⟩ st := by
  have hend : isEndOfOptionSpecifier tok = false := by simp [isEndOfOptionSpecifier, hne]
  simp [Parse.token, hend, hopt, hs, hl]

theorem isOptionShort_of_eq (tok : String) (heq : '=' ∈ tok.data) :
    (isOptionShort tok).1 = false := by
  have hmem : '=' ∈ dropDash tok.data := by
    cases hd : tok.data with
    | nil => rw [hd] at heq; cases heq
    | cons c r =>
      rw [hd] at heq
      simp only [dropDash]
      split_ifs with hc
      · rcases List.mem_cons.mp heq with h0 | h0
        · rw [hc] at h0; exact absurd h0 (by decide)
        · exact h0
      · exact heq
  unfold isOptionShort
  simp only
  split_ifs with h1 h2
  · exact absurd (List.all_eq_true.mp h1.2 _ hmem) (by decide)
  · exact absurd (List.all_eq_true.mp h1.2 _ hmem) (by decide)
  · rfl

theorem isOptionLong_of_eq (tok : String) (heq : '=' ∈ tok.data) :
    (isOptionLong tok).1 = false := by
  have hmem : '=' ∈ dropDashDash tok.data := by
    cases hd : tok.data with
    | nil => rw [hd] at heq; cases heq
    | cons c r =>
      cases r with
      | nil => rw [hd] at heq; exact heq
      | cons d r =>
        rw [hd] at heq
        simp only [dropDashDash]
        split_ifs with hc
        · rcases List.mem_cons.mp heq with h0 | h0
          · rw [hc.1] at h0; exact absurd h0 (by decide)
          · rcases List.mem_cons.mp h0 with h1 | h1
            · rw [hc.2] at h1; exact absurd h1 (by decide)
            · exact h1
        · exact heq
  unfold isOptionLong
  split
  · rename_i c r hcr
    rw [hcr] at hmem
    split_ifs with h1
    · exfalso
      rcases List.mem_cons.mp hmem with h0 | h0
      · rw [← h0] at h1; exact absurd h1.1 (by decide)
      · exact absurd (List.all_eq_true.mp h1.2 _ h0) (by decide)
    · rfl
  · rfl

/-! ## Option specifiers of neither form -/

/-- C15, counterexample. The marker `--` starts with a dash and matches neither the short form
nor the long form, yet `Parse` does not fail on it: it ends the options section. -/
theorem C15_counterexample :
    isOption "--" = true ∧ (isOptionShort "--").1 = false ∧ (isOptionLong "--").1 = false ∧
    Parse sampleStrconv ["--"] sampleSpec sampleHeap
      = some (⟨some ["--"], some [], none⟩, ⟨sampleSpec, sampleHeapInit⟩) := by
  refine ⟨by decide, by decide, by decide, rfl⟩

/-- C15, amended. When the loop of `Parse` reaches, while no value is expected, a token other
than the marker `--` that starts with a dash and matches neither the short form nor the long
form of an option specifier, `Parse` returns no token, no argument, and the error of an invalid
option specifier that carries the token and its position in the tokens given to `Parse`,
counted from zero. -/
theorem C15_invalid_option_specifier (P : Strconv) (spec : Spec) (h h' : Heap)
    (index : specIndex) (pre post : List String) (tok : String) (v : Vars) (st : State)
    (hinit : Spec.init spec h = some (.ok index, h'))
    (hreach : Parse.through P index 0 pre (tok :: post) ⟨[], false, none⟩ ⟨spec, h'⟩
      = some (v, st))
    (hvalue : v.nextShouldBeValue = false)
    (hne : tok ≠ "--") (hopt : isOption tok = true)
    (hs : (isOptionShort tok).1 = false) (hl : (isOptionLong tok).1 = false) :
    (pre ++ tok :: post)[pre.length]? = some tok ∧
    Parse P (pre ++ tok :: post) spec h
      = some (⟨none, none, some (.errorInvalidOptionSpecifier tok pre.length)⟩, st) := by
  refine ⟨by rw [List.getElem?_append_right (Nat.le_refl _)]; simp, ?_⟩
  rw [Parse.reach P spec h h' index pre _ v st hinit hreach]
  simp only [Parse.loop, Parse.body, hvalue, Bool.false_eq_true, if_false,
    Parse.token_invalid P index pre.length tok post v.cliAll st hne hopt hs hl]

/-- The amended property C15 on the sample values: the token `---input` after the flag `-v`. -/
theorem C15_invalid_option_specifier_witness :
    (["-v"] ++ "---input" :: ["x"])[1]? = some "---input" ∧
    Parse sampleStrconv (["-v"] ++ "---input" :: ["x"]) sampleSpec sampleHeap
      = some (⟨none, none, some (.errorInvalidOptionSpecifier "---input" 1)⟩,
          ⟨sampleSpec.set 0 ⟨"v", "", ⟨TypeBool, some 0⟩, true⟩, sampleHeapInit.setBool 0 true⟩) :=
  C15_invalid_option_specifier sampleStrconv sampleSpec sampleHeap sampleHeapInit sampleIndex
    ["-v"] ["x"] "---input" ⟨["-v"], false, none⟩
    ⟨sampleSpec.set 0 ⟨"v", "", ⟨TypeBool, some 0⟩, true⟩, sampleHeapInit.setBool 0 true⟩
    rfl rfl rfl (by decide) (by decide) (by decide) (by decide)

/-- C19. The value of an option cannot be joined to its name by the sign `=`: when the loop of
`Parse` reaches, while no value is expected, a token that starts with a dash and holds the sign
`=`, `Parse` returns no token, no argument, and the error of an invalid option specifier for
this token, and binds no value. -/
theorem C19_equals_sign_rejected (P : Strconv) (spec : Spec) (h h' : Heap)
    (index : specIndex) (pre post : List String) (tok : String) (v : Vars) (st : State)
    (hinit : Spec.init spec h = some (.ok index, h'))
    (hreach : Parse.through P index 0 pre (tok :: post) ⟨[], false, none⟩ ⟨spec, h'⟩
      = some (v, st))
    (hvalue : v.nextShouldBeValue = false)
    (hopt : isOption tok = true) (heq : '=' ∈ tok.data) :
    Parse P (pre ++ tok :: post) spec h
      = some (⟨none, none, some (.errorInvalidOptionSpecifier tok pre.length)⟩, st) := by
  have hne : tok ≠ "--" := by
    intro h0
    rw [h0] at heq
    exact absurd heq (by decide)
  rw [Parse.reach P spec h h' index pre _ v st hinit hreach]
  simp only [Parse.loop, Parse.body, hvalue, Bool.false_eq_true, if_false,
    Parse.token_invalid P index pre.length tok post v.cliAll st hne hopt
      (isOptionShort_of_eq tok heq) (isOptionLong_of_eq tok heq)]

/-- The property C19 on the sample values: the option `-i`/`--input` and the value
`/path/to/input`, written in the four ways of the documentation of the package.  The two ways
with a space bind the value; the two ways with the sign `=` fail and leave the holder as it
was. -/
theorem C19_equals_sign_rejected_witness :
    (Parse sampleStrconv ([] ++ "-i=/path/to/input" :: []) sampleSpec sampleHeap
        = some (⟨none, none, some (.errorInvalidOptionSpecifier "-i=/path/to/input" 0)⟩,
            ⟨sampleSpec, sampleHeapInit⟩) ∧
      Parse sampleStrconv ([] ++ "--input=/path/to/input" :: []) sampleSpec sampleHeap
        = some (⟨none, none, some (.errorInvalidOptionSpecifier "--input=/path/to/input" 0)⟩,
            ⟨sampleSpec, sampleHeapInit⟩)) ∧
    Parse sampleStrconv ["-i", "/path/to/input"] sampleSpec sampleHeap
      = some (⟨some ["-i", "/path/to/input"], some [], none⟩,
          ⟨sampleSpec.set 2 ⟨"i", "input", ⟨TypeString, some 0⟩, true⟩,
            sampleHeapInit.setString 0 "/path/to/input"⟩) ∧
    Parse sampleStrconv ["--input", "/path/to/input"] sampleSpec sampleHeap
      = some (⟨some ["--input", "/path/to/input"], some [], none⟩,
          ⟨sampleSpec.set 2 ⟨"i", "input", ⟨TypeString, some 0⟩, true⟩,
            sampleHeapInit.setString 0 "/path/to/input"⟩) :=
  ⟨⟨C19_equals_sign_rejected sampleStrconv sampleSpec sampleHeap sampleHeapInit sampleIndex
      [] [] "-i=/path/to/input" ⟨[], false, none⟩ ⟨sampleSpec, sampleHeapInit⟩
      rfl rfl rfl (by decide) (by decide),
    C19_equals_sign_rejected sampleStrconv sampleSpec sampleHeap sampleHeapInit sampleIndex
      [] [] "--input=/path/to/input" ⟨[], false, none⟩ ⟨sampleSpec, sampleHeapInit⟩
      rfl rfl rfl (by decide) (by decide)⟩, rfl, rfl⟩

/-! ## What `Parse` returns with an error -/

theorem Parse.shortLoop_ret_nil (P : Strconv) (index : specIndex) (n : Nat)
    (names : List String) : ∀ (cliAll : List String) (st : State) (r : Return) (st' : State),
      Parse.shortLoop P index n names cliAll st = .ret r st' →
      r.cli = none ∧ r.args = none := by
  induction names with
  | nil => intro cliAll st r st' h; simp [Parse.shortLoop] at h
  | cons name rest ih =>
    intro cliAll st r st' h
    rw [Parse.shortLoop] at h
    split at h
    · cases h; simp
    · split at h
      · cases h
      · split_ifs at h
        · cases h; simp
        · split at h
          · cases h; simp
          · split at h
            · cases h
            · exact ih _ _ _ _ h

theorem Parse.longOption_ret_nil (P : Strconv) (index : specIndex) (name : String)
    (cliAll : List String) (st : State) (r : Return) (st' : State)
    (h : Parse.longOption P index name cliAll st = .ret r st') :
    r.cli = none ∧ r.args = none := by
  unfold Parse.longOption at h
  split at h
  · cases h; simp
  · split at h
    · cases h
    · split at h
      · cases h; simp
      · split_ifs at h
        split at h <;> cases h

theorem Parse.afterShort_ret (index : specIndex) (options cliAll : List String) (st : State)
    (r : Return) (st' : State) : Parse.afterShort index options cliAll st ≠ .ret r st' := by
  intro h
  unfold Parse.afterShort at h
  split_ifs at h
  split at h
  · cases h
  · split at h
    · cases h
    · split at h
      · cases h
      · split_ifs at h

theorem Parse.body_ret_nil (P : Strconv) (index : specIndex) (i : Nat) (tok : String)
    (rest : List String) (v : Vars) (st : State) (r : Return) (st' : State)
    (h : Parse.body P index i tok rest v st = .ret r st') (herr : r.err ≠ none) :
    r.cli = none ∧ r.args = none := by
  unfold Parse.body at h
  split_ifs at h
  · unfold Parse.value at h
    split_ifs at h
    · cases h; simp
    · cases h; simp
    · split at h
      · cases h
      · split at h <;> cases h
  · unfold Parse.token at h
    split_ifs at h
    · cases h; simp at herr
    · split at h
      · exact absurd h (Parse.afterShort_ret index _ _ _ _ _)
      · rename_i r1 s hs
        cases h
        exact Parse.shortLoop_ret_nil P index _ _ _ _ _ _ hs
      · cases h
    · exact Parse.longOption_ret_nil P index _ _ _ _ _ h
    · cases h; simp
    · cases h; simp at herr

theorem Parse.loop_ret_nil (P : Strconv) (index : specIndex) (tokens : List String) :
    ∀ (i : Nat) (v : Vars) (st : State) (r : Return) (st' : State),
      Parse.loop P index i tokens v st = some (r, st') → r.err ≠ none →
      r.cli = none ∧ r.args = none := by
  induction tokens with
  | nil =>
    intro i v st r st' h herr
    simp only [Parse.loop, Option.some.injEq, Prod.mk.injEq] at h
    rw [← h.1] at herr
    simp at herr
  | cons tok rest ih =>
    intro i v st r st' h herr
    rw [Parse.loop] at h
    cases hb : Parse.body P index i tok rest v st with
    | next v1 st1 => rw [hb] at h; exact ih _ _ _ _ _ h herr
    | ret r1 st1 =>
      rw [hb] at h
      simp only [Option.some.injEq, Prod.mk.injEq] at h
      rw [h.1] at hb
      exact Parse.body_ret_nil P index i tok rest v st r st1 hb herr
    | panic => rw [hb] at h; cases h

/-- C16. Whenever `Parse` returns an error, whether the specification is rejected or the
tokens are, the expanded tokens and the arguments it returns are both nil. -/
theorem C16_error_returns_nil (P : Strconv) (tokens : List String) (spec : Spec) (h : Heap)
    (r : Return) (st : State) (hp : Parse P tokens spec h = some (r, st))
    (herr : r.err ≠ none) : r.cli = none ∧ r.args = none := by
  unfold Parse at hp
  split at hp
  · cases hp
  · simp only [Option.some.injEq, Prod.mk.injEq] at hp
    rw [← hp.1]
    simp
  · exact Parse.loop_ret_nil P _ tokens _ _ _ _ _ hp herr

/-- The property C16 on the sample values: a specification `Spec.init` rejects (two options of
short name `v`), and tokens `Parse` rejects (the unknown option `-x` after the flag `-v`). -/
theorem C16_error_returns_nil_witness :
    (Parse sampleStrconv ["-v"]
        [⟨"v", "", ⟨TypeBool, some 0⟩, false⟩, ⟨"v", "", ⟨TypeBool, some 1⟩, false⟩] sampleHeap
      = some (⟨none, none, some (.errorInvalidCmdLineSpecDuplicatedShortNamedOption 1 "v")⟩,
          ⟨[⟨"v", "", ⟨TypeBool, some 0⟩, false⟩, ⟨"v", "", ⟨TypeBool, some 1⟩, false⟩],
            sampleHeapInit⟩) ∧
      (⟨none, none, some (.errorInvalidCmdLineSpecDuplicatedShortNamedOption 1 "v")⟩ :
        Return).cli = none ∧
      (⟨none, none, some (.errorInvalidCmdLineSpecDuplicatedShortNamedOption 1 "v")⟩ :
        Return).args = none) ∧
    (Parse sampleStrconv ["-v", "-x"] sampleSpec sampleHeap
      = some (⟨none, none, some (.errorUnexpectedShortNamedOption "x")⟩,
          ⟨sampleSpec.set 0 ⟨"v", "", ⟨TypeBool, some 0⟩, true⟩,
            sampleHeapInit.setBool 0 true⟩) ∧
      (⟨none, none, some (.errorUnexpectedShortNamedOption "x")⟩ : Return).cli = none ∧
      (⟨none, none, some (.errorUnexpectedShortNamedOption "x")⟩ : Return).args = none) :=
  ⟨⟨rfl, C16_error_returns_nil sampleStrconv ["-v"]
      [⟨"v", "", ⟨TypeBool, some 0⟩, false⟩, ⟨"v", "", ⟨TypeBool, some 1⟩, false⟩] sampleHeap
      _ _ rfl (by simp)⟩,
    ⟨rfl, C16_error_returns_nil sampleStrconv ["-v", "-x"] sampleSpec sampleHeap
      _ _ rfl (by simp)⟩⟩

/-! ## The option that awaits its value -/

theorem Parse.body_pending (P : Strconv) (index : specIndex) (i : Nat) (tok : String)
    (rest : List String) (v : Vars) (st : State) (v' : Vars) (st' : State)
    (h : Parse.body P index i tok rest v st = .next v' st') : Pending v' st' := by
  unfold Parse.body at h
  split_ifs at h
  · unfold Parse.value at h
    split_ifs at h
    split at h
    · cases h
    · split at h
      · cases h
      · cases h
        intro hn
        cases hn
  · unfold Parse.token at h
    split_ifs at h
    · split at h
      · unfold Parse.afterShort at h
        split_ifs at h
        · cases h
          intro hn
          cases hn
        · split at h
          · cases h
          · split at h
            · cases h
            · split at h
              · cases h
              · rename_i _ j _ _ o ho
                split_ifs at h with hreq
                · cases h
                  intro _
                  exact ⟨j, o, rfl, ho, hreq⟩
                · cases h
                  intro hn
                  cases hn
      · cases h
      · cases h
    · unfold Parse.longOption at h
      split at h
      · cases h
      · split at h
        · cases h
        · rename_i _ j _ _ o ho
          split at h
          · cases h
          · rename_i _ o' hrec
            split_ifs at h with hreq
            · cases h
              intro _
              refine ⟨j, o', rfl, ?_, hreq⟩
              have hj : j < st.spec.length := (List.getElem?_eq_some.mp ho).1
              simp [List.getElem?_set_self hj]
            · split at h
              · cases h
              · cases h
                intro hn
                cases hn

theorem Parse.through_pending (P : Strconv) (index : specIndex) (pre : List String) :
    ∀ (i : Nat) (post : List String) (v : Vars) (st : State) (v' : Vars) (st' : State),
      Pending v st → Parse.through P index i pre post v st = some (v', st') →
      Pending v' st' := by
  induction pre with
  | nil =>
    intro i post v st v' st' hp h
    simp only [Parse.through, Option.some.injEq, Prod.mk.injEq] at h
    obtain ⟨rfl, rfl⟩ := h
    exact hp
  | cons tok pre ih =>
    intro i post v st v' st' _ h
    simp only [Parse.through] at h
    cases hb : Parse.body P index i tok (pre ++ post) v st with
    | next v1 st1 =>
      rw [hb] at h
      exact ih _ _ _ _ _ _ (Parse.body_pending P index i tok _ v st v1 st1 hb) h
    | ret r1 st1 => rw [hb] at h; cases h
    | panic => rw [hb] at h; cases h

theorem Pending.start (st : State) : Pending ⟨[], false, none⟩ st := by
  intro hn
  cases hn

theorem isOption_head (tok : String) : isOption tok = decide (tok.data.head? = some '-') := by
  unfold isOption
  cases tok.data with
  | nil => simp
  | cons c r => simp

/-- C11, counterexample. The token that follows an option that requires a value is the marker
`--`, and `Parse` fails with another error: the option `-i` is used for the second time, or
it stands where the value of the option `-p` is expected. -/
theorem C11_counterexample :
    (Parse sampleStrconv ["-i", "a", "-i", "--"] sampleSpec sampleHeap).map (fun x => x.1)
      = some ⟨none, none, some (.errorDuplicatedNonFlagOption "i")⟩ ∧
    (Parse sampleStrconv ["-p", "-i", "--"] sampleSpec sampleHeap).map (fun x => x.1)
      = some ⟨none, none, some .errorValueExpectedOptionEncountered⟩ := by
  constructor <;> rfl

/-- C11, amended. When the loop of `Parse` reaches, while no value is expected, a token that
designates an option that requires a value (its short name alone after one dash, or its long
name after two dashes), when this option is repeatable or not yet set, and when the next token
is the marker `--`, `Parse` returns no token, no argument, and the error of an unexpected end
of the options, whatever the tokens after the marker are; the option is marked as set. -/
theorem C11_marker_in_place_of_value (P : Strconv) (spec : Spec) (h h' : Heap)
    (index : specIndex) (pre post : List String) (tok : String) (v : Vars) (st : State)
    (j : Nat) (o : CliOption)
    (hinit : Spec.init spec h = some (.ok index, h'))
    (hreach : Parse.through P index 0 pre (tok :: "--" :: post) ⟨[], false, none⟩ ⟨spec, h'⟩
      = some (v, st))
    (hvalue : v.nextShouldBeValue = false)
    (ho : st.spec[j]? = some o) (hreq : o.requireValue = true) (hdes : designates o tok)
    (hnew : o.isSingleton = true → o.set = false) :
    Parse P (pre ++ tok :: "--" :: post) spec h
      = some (⟨none, none, some .errorUnexpectedEndOfOptionsListSpec⟩,
          ⟨st.spec.set j o.setIt, st.heap⟩) := by
  have hv := Spec.init_valid spec h h' index hinit
  have hev := Parse.through_evolves P index pre 0 _ _ _ _ _ hreach
  obtain ⟨o0, ho0, hevo⟩ := Spec.specEvolves_back hev ho
  have hreq0 : o0.requireValue = true := by rw [← hevo.requireValue_same]; exact hreq
  have hdes0 : designates o0 tok := by
    unfold designates at hdes ⊢
    rw [← hevo.short, ← hevo.long]
    exact hdes
  obtain ⟨ok, name, hok, -, htok⟩ :=
    Parse.token_designates P spec index hv pre.length tok ("--" :: post) v.cliAll st j o0 hev
      ho0 hreq0 hdes0
  rw [ho] at hok
  cases hok
  have hnot : ¬ (o.isSingleton = true ∧ o.set = true) := by
    intro hc
    rw [hnew hc.1] at hc
    exact absurd hc.2 (by decide)
  rw [if_neg hnot] at htok
  rw [Parse.reach P spec h h' index pre _ v st hinit hreach]
  simp only [Parse.loop, Parse.body, hvalue, Bool.false_eq_true, if_false, htok, if_true,
    Parse.value, isEndOfOptionSpecifier, decide_True]

/-- The amended property C11 on the sample values: `-i --` after the flag `-v`. -/
theorem C11_marker_in_place_of_value_witness :
    Parse sampleStrconv (["-v"] ++ "-i" :: "--" :: ["x"]) sampleSpec sampleHeap
      = some (⟨none, none, some .errorUnexpectedEndOfOptionsListSpec⟩,
          ⟨(sampleSpec.set 0 ⟨"v", "", ⟨TypeBool, some 0⟩, true⟩).set 2
              (CliOption.setIt ⟨"i", "input", ⟨TypeString, some 0⟩, false⟩),
            sampleHeapInit.setBool 0 true⟩) :=
  C11_marker_in_place_of_value sampleStrconv sampleSpec sampleHeap sampleHeapInit sampleIndex
    ["-v"] ["x"] "-i" ⟨["-v"], false, none⟩
    ⟨sampleSpec.set 0 ⟨"v", "", ⟨TypeBool, some 0⟩, true⟩, sampleHeapInit.setBool 0 true⟩
    2 ⟨"i", "input", ⟨TypeString, some 0⟩, false⟩ rfl rfl rfl rfl rfl (by decide)
    (fun _ => rfl)

/-- C12. When the loop of `Parse` reaches a token while a value is expected: a token that
starts with a dash makes `Parse` return no token, no argument, and an error, which is the error
of an option found where a value is expected unless the token is the marker `--`; a token that
does not start with a dash is taken as the value of the option that awaits it: the token is
given to `addValue` on this option, which requires a value, it is added to the expanded tokens,
and the loop goes on with no value expected. -/
theorem C12_value_expected (P : Strconv) (spec : Spec) (h h' : Heap) (index : specIndex)
    (pre post : List String) (tok : String) (v : Vars) (st : State)
    (hinit : Spec.init spec h = some (.ok index, h'))
    (hreach : Parse.through P index 0 pre (tok :: post) ⟨[], false, none⟩ ⟨spec, h'⟩
      = some (v, st))
    (hvalue : v.nextShouldBeValue = true) :
    (tok.data.head? = some '-' →
      Parse P (pre ++ tok :: post) spec h
        = some (⟨none, none, some (if tok = "--" then .errorUnexpectedEndOfOptionsListSpec
            else .errorValueExpectedOptionEncountered)⟩, st)) ∧
    (tok.data.head? ≠ some '-' →
      ∃ (j : Nat) (o : CliOption), v.lastOption = some j ∧ st.spec[j]? = some o ∧
        o.requireValue = true ∧
        Parse.through P index 0 (pre ++ [tok]) post ⟨[], false, none⟩ ⟨spec, h'⟩
          = (State.addValue P st j (.string tok)).map
              fun st' => (⟨v.cliAll ++ [tok], false, some j⟩, st')) := by
  constructor
  · intro hdash
    have hopt : isOption tok = true := by rw [isOption_head]; simp [hdash]
    rw [Parse.reach P spec h h' index pre _ v st hinit hreach]
    by_cases hne : tok = "--"
    · simp [Parse.loop, Parse.body, hvalue, Parse.value, isEndOfOptionSpecifier, hne]
    · simp [Parse.loop, Parse.body, hvalue, Parse.value, isEndOfOptionSpecifier, hne, hopt]
  · intro hdash
    have hopt : isOption tok = false := by rw [isOption_head]; simp [hdash]
    have hne : tok ≠ "--" := by
      intro h0
      rw [h0] at hdash
      exact hdash (by decide)
    obtain ⟨j, o, hj, ho, hreq⟩ :=
      Parse.through_pending P index pre 0 _ _ _ _ _ (Pending.start _) hreach hvalue
    refine ⟨j, o, hj, ho, hreq, ?_⟩
    rw [Parse.through_snoc P index pre 0 tok post _ _ _ _ hreach]
    simp only [Parse.body, hvalue, if_true, Parse.value, isEndOfOptionSpecifier, hne, hopt,
      decide_False, Bool.false_eq_true, if_false, hj]
    cases State.addValue P st j (.string tok) <;> rfl

/-- The property C12 on the sample values, after the flag `-v` and the option `-i`: the tokens
`-5` and `-` are rejected, the token `5` is taken as the value. -/
theorem C12_value_expected_witness :
    ((("-5" : String).data.head? = some '-' →
        Parse sampleStrconv (["-v", "-i"] ++ "-5" :: ["x"]) sampleSpec sampleHeap
          = some (⟨none, none, some (if "-5" = "--" then .errorUnexpectedEndOfOptionsListSpec
                else .errorValueExpectedOptionEncountered)⟩,
              ⟨(sampleSpec.set 0 ⟨"v", "", ⟨TypeBool, some 0⟩, true⟩).set 2
                  ⟨"i", "input", ⟨TypeString, some 0⟩, true⟩,
                sampleHeapInit.setBool 0 true⟩)) ∧
      ((("-" : String).data.head? = some '-' →
        Parse sampleStrconv (["-v", "-i"] ++ "-" :: ["x"]) sampleSpec sampleHeap
          = some (⟨none, none, some (if "-" = "--" then .errorUnexpectedEndOfOptionsListSpec
                else .errorValueExpectedOptionEncountered)⟩,
              ⟨(sampleSpec.set 0 ⟨"v", "", ⟨TypeBool, some 0⟩, true⟩).set 2
                  ⟨"i", "input", ⟨TypeString, some 0⟩, true⟩,
                sampleHeapInit.setBool 0 true⟩)))) ∧
    (("5" : String).data.head? ≠ some '-' →
      ∃ (j : Nat) (o : CliOption), (some 2 : Option Nat) = some j ∧
        ((sampleSpec.set 0 ⟨"v", "", ⟨TypeBool, some 0⟩, true⟩).set 2
          ⟨"i", "input", ⟨TypeString, some 0⟩, true⟩)[j]? = some o ∧
        o.requireValue = true ∧
        Parse.through sampleStrconv sampleIndex 0 (["-v", "-i"] ++ ["5"]) ["x"]
            ⟨[], false, none⟩ ⟨sampleSpec, sampleHeapInit⟩
          = (State.addValue sampleStrconv
              ⟨(sampleSpec.set 0 ⟨"v", "", ⟨TypeBool, some 0⟩, true⟩).set 2
                  ⟨"i", "input", ⟨TypeString, some 0⟩, true⟩,
                sampleHeapInit.setBool 0 true⟩ j (.string "5")).map
              fun st' => (⟨["-v", "-i"] ++ ["5"], false, some j⟩, st')) :=
  ⟨⟨(C12_value_expected sampleStrconv sampleSpec sampleHeap sampleHeapInit sampleIndex
      ["-v", "-i"] ["x"] "-5" ⟨["-v", "-i"], true, some 2⟩
      ⟨(sampleSpec.set 0 ⟨"v", "", ⟨TypeBool, some 0⟩, true⟩).set 2
          ⟨"i", "input", ⟨TypeString, some 0⟩, true⟩, sampleHeapInit.setBool 0 true⟩
      rfl rfl rfl).1,
    (C12_value_expected sampleStrconv sampleSpec sampleHeap sampleHeapInit sampleIndex
      ["-v", "-i"] ["x"] "-" ⟨["-v", "-i"], true, some 2⟩
      ⟨(sampleSpec.set 0 ⟨"v", "", ⟨TypeBool, some 0⟩, true⟩).set 2
          ⟨"i", "input", ⟨TypeString, some 0⟩, true⟩, sampleHeapInit.setBool 0 true⟩
      rfl rfl rfl).1⟩,
    (C12_value_expected sampleStrconv sampleSpec sampleHeap sampleHeapInit sampleIndex
      ["-v", "-i"] ["x"] "5" ⟨["-v", "-i"], true, some 2⟩
      ⟨(sampleSpec.set 0 ⟨"v", "", ⟨TypeBool, some 0⟩, true⟩).set 2
          ⟨"i", "input", ⟨TypeString, some 0⟩, true⟩, sampleHeapInit.setBool 0 true⟩
      rfl rfl rfl).2⟩

/-! ## An option that requires a value, within a compound -/

theorem Parse.shortLoop_cons_value (P : Strconv) (index : specIndex) (n : Nat) (name : String)
    (rest cliAll : List String) (st : State) (j : Nat) (o : CliOption)
    (hl : index.getShortByName name = some j) (ho : st.spec[j]? = some o)
    (hreq : o.requireValue = true) (hn : n > 1) :
    Parse.shortLoop P index n (name :: rest) cliAll st =
      .ret ⟨none, none, some (.errorNonFlagOptionWithinCompound name)⟩ st := by
  rw [Parse.shortLoop, hl]
  simp only [ho, hreq, hn, and_self, if_true]

/-- C13. When the loop of `Parse` reaches, while no value is expected, a compound token (a dash
and two or more characters of short names) in which the names before some position are
distinct short names of declared flags that are not yet set, and the name at this position is
the short name of a declared option that requires a value, `Parse` returns no token, no
argument, and the error of a value option within a compound, which carries this name. -/
theorem C13_value_option_in_compound (P : Strconv) (spec : Spec) (h h' : Heap)
    (index : specIndex) (pre post : List String) (cs1 cs2 : List Char) (c : Char) (v : Vars)
    (st : State) (k : Nat) (ok : CliOption)
    (hinit : Spec.init spec h = some (.ok index, h'))
    (hreach : Parse.through P index 0 pre (("-" ++ String.mk (cs1 ++ c :: cs2)) :: post)
      ⟨[], false, none⟩ ⟨spec, h'⟩ = some (v, st))
    (hvalue : v.nextShouldBeValue = false)
    (hlen : 2 ≤ (cs1 ++ c :: cs2).length)
    (hrest : cs2.all isNameStart = true)
    (hnodup : cs1.Nodup)
    (hflags : ∀ d ∈ cs1, ∃ (j : Nat) (o : CliOption), st.spec[j]? = some o ∧
      o.Short = String.singleton d ∧ o.Holder.kind = TypeBool ∧ o.set = false)
    (hk : st.spec[k]? = some ok) (hs : ok.Short = String.singleton c)
    (hreq : ok.requireValue = true) :
    ∃ st', Parse P (pre ++ ("-" ++ String.mk (cs1 ++ c :: cs2)) :: post) spec h
      = some (⟨none, none, some (.errorNonFlagOptionWithinCompound (String.singleton c))⟩,
          st') := by
  have hv := Spec.init_valid spec h h' index hinit
  have hev := Parse.through_evolves P index pre 0 _ _ _ _ _ hreach
  have hback : ∀ (j : Nat) (o : CliOption) (d : Char), st.spec[j]? = some o →
      o.Short = String.singleton d →
      isNameStart d = true ∧ index.getShortByName (String.singleton d) = some j ∧
        (o.Holder.kind = TypeBool → ∃ p, o.Holder.ptr = some p) := by
    intro j o d ho hsd
    obtain ⟨o0, ho0, hevo⟩ := Spec.specEvolves_back hev ho
    have ho0m : o0 ∈ spec := List.mem_iff_getElem?.mpr ⟨j, ho0⟩
    have hs0 : o0.Short = String.singleton d := by rw [← hevo.short]; exact hsd
    have hne0 : o0.Short ≠ "" := by rw [hs0]; exact String.singleton_ne_empty d
    obtain ⟨d', hd', hstart⟩ := hv.short_char ho0m hne0
    rw [hs0] at hd'
    have hl := hv.short_of ho0 hne0
    rw [hs0] at hl
    refine ⟨by rw [String.singleton_inj hd']; exact hstart, hl, ?_⟩
    intro hkind
    have hk0 : o0.Holder.kind = TypeBool := by rw [← hevo.kind]; exact hkind
    cases hp : o0.Holder.ptr with
    | none => exact absurd hp ((hv.checked o0 ho0m).flag hk0)
    | some p => exact ⟨p, hevo.ptr p hp⟩
  obtain ⟨hcstart, hlk, -⟩ := hback k ok c hk hs
  have hall : (cs1 ++ c :: cs2).all isNameStart = true := by
    rw [List.all_append, List.all_cons, hrest, hcstart]
    simp only [Bool.and_self, Bool.and_true]
    rw [List.all_eq_true]
    intro d hd
    obtain ⟨j, o, ho, hsd, _⟩ := hflags d hd
    exact (hback j o d ho hsd).1
  have hne : cs1 ++ c :: cs2 ≠ [] := by simp
  have hshort := isOptionShort_dash _ hne hall
  have hnd : (cs1.map fun d => String.singleton d).Nodup :=
    List.Nodup.map (fun _ _ hcd => String.singleton_inj hcd) hnodup
  have hfl : ∀ name ∈ cs1.map fun d => String.singleton d, ∃ j o p,
      index.getShortByName name = some j ∧ st.spec[j]? = some o ∧
      o.Short = name ∧ o.Holder.kind = TypeBool ∧ o.Holder.ptr = some p ∧ o.set = false := by
    intro name hname
    obtain ⟨d, hd, rfl⟩ := List.mem_map.mp hname
    obtain ⟨j, o, ho, hsd, hkind, hset⟩ := hflags d hd
    obtain ⟨_, hl, hp⟩ := hback j o d ho hsd
    obtain ⟨p, hp⟩ := hp hkind
    exact ⟨j, o, p, hl, ho, hsd, hkind, hp, hset⟩
  generalize hn : ((cs1 ++ c :: cs2).map fun d => String.singleton d).length = n at *
  have hn1 : n > 1 := by
    rw [← hn, List.length_map]
    omega
  obtain ⟨st1, hrun, hframe, -, -⟩ :=
    Parse.shortLoop_fresh_flags P index n _ hnd v.cliAll st hfl
  have hk1 : st1.spec[k]? = some ok := by
    rw [hframe k]
    · exact hk
    · intro name hname hl
      obtain ⟨j, o, p, hl2, ho, _, hkind, _, _⟩ := hfl name hname
      rw [hl] at hl2
      cases hl2
      rw [hk] at ho
      cases ho
      rw [CliOption.requireValue_eq, hkind] at hreq
      exact absurd hreq (by decide)
  refine ⟨st1, ?_⟩
  rw [Parse.reach P spec h h' index pre _ v st hinit hreach]
  simp only [Parse.loop, Parse.body, hvalue, Bool.false_eq_true, if_false, Parse.token,
    isEnd_dash_mk _ hlen, isOption_dash, hshort, if_true, hn]
  simp only [List.map_append, List.map_cons, Parse.shortLoop_append, hrun,
    Parse.shortLoop_cons_value P index n _ _ _ st1 k ok hlk hk1 hreq hn1]

/-- The property C13 on the sample values: the compound `-hip` after the flag `-v`. -/
theorem C13_value_option_in_compound_witness :
    ∃ st', Parse sampleStrconv
        (["-v"] ++ ("-" ++ String.mk (['h'] ++ 'i' :: ['p'])) :: ["x"]) sampleSpec sampleHeap
      = some (⟨none, none, some (.errorNonFlagOptionWithinCompound (String.singleton 'i'))⟩,
          st') :=
  C13_value_option_in_compound sampleStrconv sampleSpec sampleHeap sampleHeapInit sampleIndex
    ["-v"] ["x"] ['h'] ['p'] 'i' ⟨["-v"], false, none⟩
    ⟨sampleSpec.set 0 ⟨"v", "", ⟨TypeBool, some 0⟩, true⟩, sampleHeapInit.setBool 0 true⟩
    2 ⟨"i", "input", ⟨TypeString, some 0⟩, false⟩ rfl rfl rfl (by decide) (by decide)
    (by decide)
    (fun d hd => ⟨1, ⟨"h", "", ⟨TypeBool, some 1⟩, false⟩, by
      have hd1 : d = 'h' := by simpa using hd
      subst hd1
      exact ⟨rfl, rfl, rfl, rfl⟩⟩)
    rfl rfl rfl

/-! ## Names that are in neither map -/

theorem ValidSpec.short_absent {spec : Spec} {index : specIndex} (hv : ValidSpec spec index)
    (name : String) :
    index.getShortByName name = none ↔ ∀ o ∈ spec, o.Short = "" ∨ o.Short ≠ name := by
  constructor
  · intro hnone o ho
    by_cases hne : o.Short = ""
    · exact Or.inl hne
    · right
      intro heq
      obtain ⟨j, hj⟩ := List.mem_iff_getElem?.mp ho
      have hl := hv.short_of hj hne
      rw [heq, hnone] at hl
      cases hl
  · intro hall
    cases hl : index.getShortByName name with
    | none => rfl
    | some j =>
      obtain ⟨o, ho, hk⟩ := (hv.shorts name j).mp hl
      have hom : o ∈ spec := List.mem_iff_getElem?.mpr ⟨j, ho⟩
      unfold shortKey at hk
      split_ifs at hk with hne
      rcases hall o hom with h0 | h0
      · exact absurd h0 hne
      · exact absurd (Option.some.inj hk) h0

theorem ValidSpec.long_absent {spec : Spec} {index : specIndex} (hv : ValidSpec spec index)
    (name : String) :
    index.getLongByName name = none ↔ ∀ o ∈ spec, o.Long = "" ∨ o.Long ≠ name := by
  constructor
  · intro hnone o ho
    by_cases hne : o.Long = ""
    · exact Or.inl hne
    · right
      intro heq
      obtain ⟨j, hj⟩ := List.mem_iff_getElem?.mp ho
      have hl := hv.long_of hj hne
      rw [heq, hnone] at hl
      cases hl
  · intro hall
    cases hl : index.getLongByName name with
    | none => rfl
    | some j =>
      obtain ⟨o, ho, hk⟩ := (hv.longs name j).mp hl
      have hom : o ∈ spec := List.mem_iff_getElem?.mpr ⟨j, ho⟩
      unfold longKey at hk
      split_ifs at hk with hne
      rcases hall o hom with h0 | h0
      · exact absurd h0 hne
      · exact absurd (Option.some.inj hk) h0

theorem Parse.shortLoop_cons_unknown (P : Strconv) (index : specIndex) (n : Nat)
    (name : String) (rest cliAll : List String) (st : State)
    (hl : index.getShortByName name = none) :
    Parse.shortLoop P index n (name :: rest) cliAll st =
      .ret ⟨none, none, some (.errorUnexpectedShortNamedOption name)⟩ st := by
  rw [Parse.shortLoop, hl]

/-- C14. When the loop of `Parse` reaches, while no value is expected, a token that starts with
a dash.  If the token is a short form, the names before the name `c` raise no error and `c` is
not in the map of the short names, `Parse` returns no token, no argument, and the error of an
unknown short option that carries `c`.  If the token is a long form of name `L`, it is `--L`,
and if `L` is not in the map of the long names, `Parse` returns no token, no argument, and the
error of an unknown long option that carries `L`.  A name is absent from the map of the short
names exactly when no option declares it as its short name, and absent from the map of the
long names exactly when no option declares it as its long name. -/
theorem C14_unknown_option (P : Strconv) (spec : Spec) (h h' : Heap) (index : specIndex)
    (pre post : List String) (tok c L : String) (names1 names2 cliAll1 : List String)
    (v : Vars) (st st1 : State)
    (hinit : Spec.init spec h = some (.ok index, h'))
    (hreach : Parse.through P index 0 pre (tok :: post) ⟨[], false, none⟩ ⟨spec, h'⟩
      = some (v, st))
    (hvalue : v.nextShouldBeValue = false)
    (hopt : isOption tok = true) :
    (isOptionShort tok = (true, names1 ++ c :: names2) →
      Parse.shortLoop P index (names1 ++ c :: names2).length names1 v.cliAll st
        = .next cliAll1 st1 →
      index.getShortByName c = none →
      Parse P (pre ++ tok :: post) spec h
        = some (⟨none, none, some (.errorUnexpectedShortNamedOption c)⟩, st1)) ∧
    (isOptionLong tok = (true, L) → index.getLongByName L = none →
      tok = "--" ++ L ∧
      Parse P (pre ++ tok :: post) spec h
        = some (⟨none, none, some (.errorUnexpectedLongNamedOption L)⟩, st)) ∧
    (∀ name : String,
      (index.getShortByName name = none ↔ ∀ o ∈ spec, o.Short = "" ∨ o.Short ≠ name) ∧
      (index.getLongByName name = none ↔ ∀ o ∈ spec, o.Long = "" ∨ o.Long ≠ name)) := by
  have hv := Spec.init_valid spec h h' index hinit
  refine ⟨?_, ?_, fun name => ⟨hv.short_absent name, hv.long_absent name⟩⟩
  · intro hs hrun hl
    have hne : tok ≠ "--" := by
      intro h0
      rw [h0] at hs
      have := congrArg Prod.fst hs
      simp [isOptionShort, dropDash, isNameStart] at this
    have hend : isEndOfOptionSpecifier tok = false := by simp [isEndOfOptionSpecifier, hne]
    rw [Parse.reach P spec h h' index pre _ v st hinit hreach]
    simp only [Parse.loop, Parse.body, hvalue, Bool.false_eq_true, if_false, Parse.token,
      hend, hopt, hs, if_true, Parse.shortLoop_append, hrun,
      Parse.shortLoop_cons_unknown P index _ c names2 cliAll1 st1 hl]
  · intro hlong hl
    have hl1 : (isOptionLong tok).1 = true := by rw [hlong]
    obtain ⟨htok, hne, -⟩ := isOptionLong_inv tok hopt hl1
    rw [hlong] at htok hne
    simp only at htok hne
    refine ⟨htok, ?_⟩
    rw [Parse.reach P spec h h' index pre _ v st hinit hreach]
    have hlong' : isOptionLong ("--" ++ L) = (true, L) := by rw [← htok]; exact hlong
    rw [htok]
    simp only [Parse.loop, Parse.body, hvalue, Bool.false_eq_true, if_false, Parse.token,
      isEnd_dashdash L hne, isOption_dashdash, isOptionShort_dashdash, hlong', if_true,
      Parse.longOption, hl]

/-- The property C14 on the sample values, after the flag `-v`: the compound `-hx`, where `x`
is not a short name, and the token `--v`, where `v` is a short name and not a long name. -/
theorem C14_unknown_option_witness :
    Parse sampleStrconv (["-v"] ++ "-hx" :: ["y"]) sampleSpec sampleHeap
      = some (⟨none, none, some (.errorUnexpectedShortNamedOption "x")⟩,
          ⟨(sampleSpec.set 0 ⟨"v", "", ⟨TypeBool, some 0⟩, true⟩).set 1
              ⟨"h", "", ⟨TypeBool, some 1⟩, true⟩,
            (sampleHeapInit.setBool 0 true).setBool 1 true⟩) ∧
    ("--v" = "--" ++ "v" ∧
      Parse sampleStrconv (["-v"] ++ "--v" :: ["y"]) sampleSpec sampleHeap
        = some (⟨none, none, some (.errorUnexpectedLongNamedOption "v")⟩,
            ⟨sampleSpec.set 0 ⟨"v", "", ⟨TypeBool, some 0⟩, true⟩,
              sampleHeapInit.setBool 0 true⟩)) :=
  ⟨(C14_unknown_option sampleStrconv sampleSpec sampleHeap sampleHeapInit sampleIndex
      ["-v"] ["y"] "-hx" "x" "" ["h"] [] ["-v", "-h"] ⟨["-v"], false, none⟩
      ⟨sampleSpec.set 0 ⟨"v", "", ⟨TypeBool, some 0⟩, true⟩, sampleHeapInit.setBool 0 true⟩
      ⟨(sampleSpec.set 0 ⟨"v", "", ⟨TypeBool, some 0⟩, true⟩).set 1
          ⟨"h", "", ⟨TypeBool, some 1⟩, true⟩,
        (sampleHeapInit.setBool 0 true).setBool 1 true⟩
      rfl rfl rfl (by decide)).1 (by decide) rfl rfl,
    (C14_unknown_option sampleStrconv sampleSpec sampleHeap sampleHeapInit sampleIndex
      ["-v"] ["y"] "--v" "" "v" [] [] [] ⟨["-v"], false, none⟩
      ⟨sampleSpec.set 0 ⟨"v", "", ⟨TypeBool, some 0⟩, true⟩, sampleHeapInit.setBool 0 true⟩
      ⟨sampleSpec, sampleHeapInit⟩
      rfl rfl rfl (by decide)).2.1 (by decide) rfl⟩

/-! ## The expanded tokens when no token is a compound -/

theorem Parse.shortLoop_cliAll (P : Strconv) (index : specIndex) (n : Nat)
    (names : List String) : ∀ (cliAll : List String) (st : State) (c : List String)
      (s : State), Parse.shortLoop P index n names cliAll st = .next c s →
      c = cliAll ++ names.map fun name => "-" ++ name := by
  induction names with
  | nil =>
    intro cliAll st c s h
    simp only [Parse.shortLoop, Step.next.injEq] at h
    simp [h.1]
  | cons name rest ih =>
    intro cliAll st c s h
    rw [Parse.shortLoop] at h
    split at h
    · cases h
    · split at h
      · cases h
      · split_ifs at h
        split at h
        · cases h
        · split at h
          · cases h
          · rw [ih _ _ _ _ h]
            simp

theorem Parse.afterShort_cliAll (index : specIndex) (options cliAll : List String)
    (st : State) (v : Vars) (st' : State)
    (h : Parse.afterShort index options cliAll st = .next v st') : v.cliAll = cliAll := by
  unfold Parse.afterShort at h
  split_ifs at h
  · cases h; rfl
  · split at h
    · cases h
    · split at h
      · cases h
      · split at h
        · cases h
        · split_ifs at h <;> cases h <;> rfl

theorem Parse.body_cliAll (P : Strconv) (index : specIndex) (i : Nat) (tok : String)
    (rest : List String) (v : Vars) (st : State) (v' : Vars) (st' : State)
    (hno : compound tok = false)
    (h : Parse.body P index i tok rest v st = .next v' st') :
    v'.cliAll = v.cliAll ++ [tok] := by
  unfold Parse.body at h
  split_ifs at h
  · unfold Parse.value at h
    split_ifs at h
    split at h
    · cases h
    · split at h
      · cases h
      · cases h; rfl
  · unfold Parse.token at h
    split_ifs at h with hend hopt hs hl
    · have hlen : ¬ (isOptionShort tok).2.length > 1 := by
        intro hc
        simp [compound, hopt, hs, hc] at hno
      obtain ⟨c, htok, hnames⟩ := isOptionShort_single tok hopt hs hlen
      split at h
      · rename_i c1 s1 hrun
        rw [Parse.afterShort_cliAll index _ _ _ _ _ h,
          Parse.shortLoop_cliAll P index _ _ _ _ _ _ hrun, hnames, htok]
        rfl
      · cases h
      · cases h
    · obtain ⟨htok, -, -⟩ := isOptionLong_inv tok hopt hl
      unfold Parse.longOption at h
      split at h
      · cases h
      · split at h
        · cases h
        · split at h
          · cases h
          · split_ifs at h
            · cases h
              simp only
              rw [← htok]
            · split at h
              · cases h
              · cases h
                simp only
                rw [← htok]

theorem Parse.through_cliAll (P : Strconv) (index : specIndex) (pre : List String) :
    ∀ (i : Nat) (post : List String) (v : Vars) (st : State) (v' : Vars) (st' : State),
      (∀ t ∈ pre, compound t = false) →
      Parse.through P index i pre post v st = some (v', st') →
      v'.cliAll = v.cliAll ++ pre := by
  induction pre with
  | nil =>
    intro i post v st v' st' _ h
    simp only [Parse.through, Option.some.injEq, Prod.mk.injEq] at h
    rw [← h.1]
    simp
  | cons tok pre ih =>
    intro i post v st v' st' hno h
    simp only [Parse.through] at h
    cases hb : Parse.body P index i tok (pre ++ post) v st with
    | next v1 st1 =>
      rw [hb] at h
      rw [ih _ _ _ _ _ _ (fun t ht => hno t (List.mem_cons_of_mem _ ht)) h,
        Parse.body_cliAll P index i tok _ v st v1 st1 (hno tok (List.mem_cons_self _ _)) hb]
      simp
    | ret r1 st1 => rw [hb] at h; cases h
    | panic => rw [hb] at h; cases h

/-- C17. When the loop of `Parse` goes through all the tokens without returning (every token
is taken as an option or as the value of an option: no marker `--`, no argument, no error) and
no token is a compound, `Parse` returns the tokens it was given as the expanded tokens, token
for token, an empty list of arguments and no error. -/
theorem C17_expanded_tokens_verbatim (P : Strconv) (spec : Spec) (h h' : Heap)
    (index : specIndex) (tokens : List String) (v : Vars) (st : State)
    (hinit : Spec.init spec h = some (.ok index, h'))
    (hreach : Parse.through P index 0 tokens [] ⟨[], false, none⟩ ⟨spec, h'⟩ = some (v, st))
    (hno : ∀ t ∈ tokens, compound t = false) :
    Parse P tokens spec h = some (⟨some tokens, some [], none⟩, st) := by
  have h1 := Parse.reach P spec h h' index tokens [] v st hinit hreach
  have h2 := Parse.through_cliAll P index tokens 0 [] _ _ _ _ hno hreach
  simp only [List.append_nil, List.nil_append] at h1 h2
  rw [h1, Parse.loop, h2]

/-- The property C17 on the sample values: a flag, a short option and its value, a long option
and its value, and a long option whose value is missing. -/
theorem C17_expanded_tokens_verbatim_witness :
    Parse sampleStrconv ["-v", "-i", "a", "--path", "b", "--int8"] sampleSpec sampleHeap
      = some (⟨some ["-v", "-i", "a", "--path", "b", "--int8"], some [], none⟩,
          ⟨[⟨"v", "", ⟨TypeBool, some 0⟩, true⟩,
            ⟨"h", "", ⟨TypeBool, some 1⟩, false⟩,
            ⟨"i", "input", ⟨TypeString, some 0⟩, true⟩,
            ⟨"p", "path", ⟨TypeStrings, some 0⟩, true⟩,
            ⟨"n", "int8", ⟨TypeInteger8, some 0⟩, true⟩],
           ((sampleHeapInit.setBool 0 true).setString 0 "a").appendString 0 "b"⟩) :=
  C17_expanded_tokens_verbatim sampleStrconv sampleSpec sampleHeap sampleHeapInit sampleIndex
    ["-v", "-i", "a", "--path", "b", "--int8"]
    ⟨["-v", "-i", "a", "--path", "b", "--int8"], true, some 4⟩
    ⟨[⟨"v", "", ⟨TypeBool, some 0⟩, true⟩,
      ⟨"h", "", ⟨TypeBool, some 1⟩, false⟩,
      ⟨"i", "input", ⟨TypeString, some 0⟩, true⟩,
      ⟨"p", "path", ⟨TypeStrings, some 0⟩, true⟩,
      ⟨"n", "int8", ⟨TypeInteger8, some 0⟩, true⟩],
     ((sampleHeapInit.setBool 0 true).setString 0 "a").appendString 0 "b"⟩
    rfl rfl (by decide)

/-! ## The declared names on the command line -/

theorem CliOption.flag_kind (o : CliOption) (hreq : o.requireValue = false)
    (hk : o.Holder.kind ≠ TypeUnexpected) : o.Holder.kind = TypeBool := by
  rw [CliOption.requireValue_eq] at hreq
  cases hkind : o.Holder.kind <;> rw [hkind] at hreq hk <;>
    first
    | rfl
    | exact absurd rfl hk
    | exact absurd hreq (by decide)

theorem Parse.token_long_flag (P : Strconv) (index : specIndex) (i : Nat) (l : String)
    (rest cliAll : List String) (st : State) (j : Nat) (o : CliOption) (p : Nat)
    (hne : l ≠ "") (hok : (isOptionLong l).1 = true) (hstd : dropDashDash l.data = l.data)
    (hl : index.getLongByName l = some j) (ho : st.spec[j]? = some o)
    (hk : o.Holder.kind = TypeBool) (hp : o.Holder.ptr = some p) :
    Parse.token P index i ("--" ++ l) rest cliAll st =
      if o.set then .ret ⟨none, none, some (.errorDuplicatedFlagOption l)⟩ st
      else .next ⟨cliAll ++ ["--" ++ l], false, none⟩
        ⟨st.spec.set j o.setIt, st.heap.setBool p true⟩ := by
  have hj : j < st.spec.length := (List.getElem?_eq_some.mp ho).1
  have hreq : o.setIt.requireValue = false := by
    rw [CliOption.requireValue_eq]
    show (typesConstraints o.Holder.kind).value = false
    rw [hk]
    rfl
  simp only [Parse.token, isEnd_dashdash l hne, isOption_dashdash, isOptionShort_dashdash,
    isOptionLong_dashdash l hok hstd, Bool.false_eq_true, if_false, if_true, Parse.longOption,
    hl, ho, recordOption_flag o l hk]
  by_cases hset : o.set = true
  · simp [hset, List.set_same _ _ _ ho]
  · simp only [hset, if_false, hreq, Bool.false_eq_true]
    rw [State.addValue_flag P ⟨st.spec.set j o.setIt, st.heap⟩ j o.setIt p true
      (by simp [List.getElem?_set_self hj]) hk hp]

/-- C20, counterexample. `Spec.init` accepts the option declared with the long name `--input`;
the token made of two dashes and this long name is an invalid option specifier, and the token
`--input` is an unknown long option, of name `input`. -/
theorem C20_counterexample :
    (Spec.init sampleSpecDashed sampleHeap).map (fun x => x.1)
      = some (.ok ⟨[("i", 0)], [("--input", 0)]⟩) ∧
    (Parse sampleStrconv ["--" ++ "--input"] sampleSpecDashed sampleHeap).map (fun x => x.1)
      = some ⟨none, none, some (.errorInvalidOptionSpecifier "----input" 0)⟩ ∧
    (Parse sampleStrconv ["--input"] sampleSpecDashed sampleHeap).map (fun x => x.1)
      = some ⟨none, none, some (.errorUnexpectedLongNamedOption "input")⟩ := by
  refine ⟨rfl, rfl, rfl⟩

/-- C20, amended. For a specification accepted by `Spec.init` and an option declared at
position `j`, the token made of one dash and the short name of the option, and the token made
of two dashes and its long name when this name does not start with two dashes, are resolved to
this option: the token is an option specifier of the short form, of the long form
respectively, whose name is bound to `j` in the map of the short names, of the long names
respectively; when the loop of `Parse` reaches such a token while no value is expected, either
the loop goes on with the token added to the expanded tokens and the option at position `j` set,
or `Parse` returns a duplication error; it does not panic and returns no other error. -/
theorem C20_declared_names_resolve (P : Strconv) (spec : Spec) (h h' : Heap)
    (index : specIndex) (pre post : List String) (tok : String) (v : Vars) (st : State)
    (j : Nat) (o : CliOption)
    (hinit : Spec.init spec h = some (.ok index, h'))
    (hreach : Parse.through P index 0 pre (tok :: post) ⟨[], false, none⟩ ⟨spec, h'⟩
      = some (v, st))
    (hvalue : v.nextShouldBeValue = false)
    (ho : spec[j]? = some o) (hdes : designates o tok) :
    isOption tok = true ∧ isEndOfOptionSpecifier tok = false ∧
    ((isOptionShort tok = (true, [o.Short]) ∧ index.getShortByName o.Short = some j) ∨
      ((isOptionShort tok).1 = false ∧ isOptionLong tok = (true, o.Long) ∧
        index.getLongByName o.Long = some j)) ∧
    match Parse.body P index pre.length tok post v st with
    | .next v' st' =>
      v'.cliAll = v.cliAll ++ [tok] ∧ ∃ ok, st'.spec[j]? = some ok ∧ ok.set = true
    | .ret r _ =>
      ∃ name, r.err = some (.errorDuplicatedFlagOption name) ∨
        r.err = some (.errorDuplicatedNonFlagOption name)
    | .panic => False := by
  have hv := Spec.init_valid spec h h' index hinit
  have hev := Parse.through_evolves P index pre 0 _ _ _ _ _ hreach
  have hom : o ∈ spec := List.mem_iff_getElem?.mpr ⟨j, ho⟩
  have hj : j < spec.length := (List.getElem?_eq_some.mp ho).1
  have hjs : j < st.spec.length := by rw [hev.1]; exact hj
  have hok : st.spec[j]? = some st.spec[j] := List.getElem?_eq_getElem hjs
  have hevo := hev.2 j _ _ ho hok
  generalize st.spec[j] = ok at hok hevo
  have hset : (st.spec.set j ok.setIt)[j]? = some ok.setIt := by
    simp [List.getElem?_set_self hjs]
  have hflag : ok.requireValue = false →
      ok.Holder.kind = TypeBool ∧ ∃ p, ok.Holder.ptr = some p := by
    intro hreq
    have hk : ok.Holder.kind = TypeBool :=
      ok.flag_kind hreq (by rw [hevo.kind]; exact (hv.checked o hom).kind)
    have hk0 : o.Holder.kind = TypeBool := by rw [← hevo.kind]; exact hk
    cases hp : o.Holder.ptr with
    | none => exact absurd hp ((hv.checked o hom).flag hk0)
    | some p => exact ⟨hk, p, hevo.ptr p hp⟩
  simp only [Parse.body, hvalue, Bool.false_eq_true, if_false]
  rcases hdes with ⟨hne, htok⟩ | ⟨hne, hstd, htok⟩
  · obtain ⟨c, hc, hstart⟩ := hv.short_char hom hne
    have hl := hv.short_of ho hne
    rw [hc] at hl htok ⊢
    rw [htok]
    refine ⟨isOption_dash _, isEnd_dash_singleton c hstart,
      Or.inl ⟨isOptionShort_dash_singleton c hstart, hl⟩, ?_⟩
    cases hreq : ok.requireValue with
    | true =>
      rw [Parse.token_short_value P index _ c post v.cliAll st j ok hstart hl hok hreq]
      split_ifs
      · exact ⟨_, Or.inr rfl⟩
      · exact ⟨rfl, _, hset, rfl⟩
    | false =>
      obtain ⟨hk, p, hp⟩ := hflag hreq
      rw [Parse.token_flag P index _ c post v.cliAll st j ok p hstart hl hok hk hp]
      split_ifs
      · exact ⟨_, Or.inl rfl⟩
      · exact ⟨rfl, _, hset, rfl⟩
  · have hl := hv.long_of ho hne
    have hlok : (isOptionLong o.Long).1 = true := by
      rcases (hv.checked o hom).long with h0 | h0
      · exact absurd h0 hne
      · exact h0
    rw [htok]
    refine ⟨isOption_dashdash _, isEnd_dashdash _ hne,
      Or.inr ⟨isOptionShort_dashdash _, isOptionLong_dashdash _ hlok hstd, hl⟩, ?_⟩
    cases hreq : ok.requireValue with
    | true =>
      rw [Parse.token_long_value P index _ o.Long post v.cliAll st j ok hne hlok hstd hl hok
        hreq]
      split_ifs
      · exact ⟨_, Or.inr rfl⟩
      · exact ⟨rfl, _, hset, rfl⟩
    | false =>
      obtain ⟨hk, p, hp⟩ := hflag hreq
      rw [Parse.token_long_flag P index _ o.Long post v.cliAll st j ok p hne hlok hstd hl hok
        hk hp]
      split_ifs
      · exact ⟨_, Or.inl rfl⟩
      · exact ⟨rfl, _, hset, rfl⟩

/-- The amended property C20 on the sample values: the token `--input` after the flag `-v`. -/
theorem C20_declared_names_resolve_witness :
    isOption "--input" = true ∧ isEndOfOptionSpecifier "--input" = false ∧
    ((isOptionShort "--input" = (true, ["i"]) ∧ sampleIndex.getShortByName "i" = some 2) ∨
      ((isOptionShort "--input").1 = false ∧ isOptionLong "--input" = (true, "input") ∧
        sampleIndex.getLongByName "input" = some 2)) ∧
    match Parse.body sampleStrconv sampleIndex 1 "--input" ["x"] ⟨["-v"], false, none⟩
        ⟨sampleSpec.set 0 ⟨"v", "", ⟨TypeBool, some 0⟩, true⟩, sampleHeapInit.setBool 0 true⟩ with
    | .next v' st' =>
      v'.cliAll = ["-v"] ++ ["--input"] ∧ ∃ ok, st'.spec[2]? = some ok ∧ ok.set = true
    | .ret r _ =>
      ∃ name, r.err = some (.errorDuplicatedFlagOption name) ∨
        r.err = some (.errorDuplicatedNonFlagOption name)
    | .panic => False :=
  C20_declared_names_resolve sampleStrconv sampleSpec sampleHeap sampleHeapInit sampleIndex
    ["-v"] ["x"] "--input" ⟨["-v"], false, none⟩
    ⟨sampleSpec.set 0 ⟨"v", "", ⟨TypeBool, some 0⟩, true⟩, sampleHeapInit.setBool 0 true⟩
    2 ⟨"i", "input", ⟨TypeString, some 0⟩, false⟩ rfl rfl rfl rfl (by decide)

/-! ## The holders of the flags -/

theorem CliOption.addInt_bools (P : Strconv) (o : CliOption) (k : typeOption) (bitSize : Nat)
    (v : String) (h : Heap) : (o.addInt P k bitSize v h).2.2.bools = h.bools := by
  unfold CliOption.addInt
  cases o.Holder.ptr <;> simp only <;> split <;> rfl

theorem CliOption.addUint_bools (P : Strconv) (o : CliOption) (k : typeOption) (bitSize : Nat)
    (v : String) (h : Heap) : (o.addUint P k bitSize v h).2.2.bools = h.bools := by
  unfold CliOption.addUint
  cases o.Holder.ptr <;> simp only <;> split <;> rfl

theorem CliOption.addFloat_bools (P : Strconv) (o : CliOption) (k : typeOption) (bitSize : Nat)
    (v : String) (h : Heap) : (o.addFloat P k bitSize v h).2.2.bools = h.bools := by
  unfold CliOption.addFloat
  cases o.Holder.ptr <;> simp only <;> split <;> rfl

theorem CliOption.addInts_bools (P : Strconv) (o : CliOption) (k : typeOption) (bitSize : Nat)
    (v : String) (h : Heap) (e : Option Error) (o' : CliOption) (h' : Heap)
    (ha : o.addInts P k bitSize v h = some (e, o', h')) : h'.bools = h.bools := by
  unfold CliOption.addInts at ha
  split at ha
  · cases ha; rfl
  · split at ha
    · cases ha
    · cases ha; rfl

theorem CliOption.addUints_bools (P : Strconv) (o : CliOption) (k : typeOption) (bitSize : Nat)
    (v : String) (h : Heap) (e : Option Error) (o' : CliOption) (h' : Heap)
    (ha : o.addUints P k bitSize v h = some (e, o', h')) : h'.bools = h.bools := by
  unfold CliOption.addUints at ha
  split at ha
  · cases ha; rfl
  · split at ha
    · cases ha
    · cases ha; rfl

theorem CliOption.addFloats_bools (P : Strconv) (o : CliOption) (k : typeOption) (bitSize : Nat)
    (v : String) (h : Heap) (e : Option Error) (o' : CliOption) (h' : Heap)
    (ha : o.addFloats P k bitSize v h = some (e, o', h')) : h'.bools = h.bools := by
  unfold CliOption.addFloats at ha
  split at ha
  · cases ha; rfl
  · split at ha
    · cases ha
    · cases ha; rfl

theorem CliOption.addValue_string_bools (P : Strconv) (o : CliOption) (val : String)
    (h : Heap) (e : Option Error) (o' : CliOption) (h' : Heap)
    (ha : o.addValue P (.string val) h = some (e, o', h')) : h'.bools = h.bools := by
  unfold CliOption.addValue at ha
  simp only at ha
  split_ifs at ha
  · cases ha; rfl
  · split at ha
    all_goals first
      | (cases ha; rfl)
      | (split at ha <;> first | (cases ha; rfl) | cases ha)
      | (simp only [Option.some.injEq] at ha
         show (e, o', h').2.2.bools = _
         rw [← ha]
         first
           | exact CliOption.addInt_bools P o _ _ val h
           | exact CliOption.addUint_bools P o _ _ val h
           | exact CliOption.addFloat_bools P o _ _ val h)
      | exact CliOption.addInts_bools P o _ _ val h e o' h' ha
      | exact CliOption.addUints_bools P o _ _ val h e o' h' ha
      | exact CliOption.addFloats_bools P o _ _ val h e o' h' ha

theorem State.addValue_string_heapBools (P : Strconv) (st st' : State) (j : Nat) (val : String)
    (ha : State.addValue P st j (.string val) = some st') : st'.heap.bools = st.heap.bools := by
  unfold State.addValue at ha
  split at ha
  · cases ha
  · split at ha
    · cases ha
    · rename_i e o' h' hadd
      cases ha
      exact CliOption.addValue_string_bools P _ val st.heap e o' h' hadd

theorem CliOption.init_bools (o : CliOption) (h h' : Heap) (e : Option Error)
    (hi : o.init h = some (e, h')) (p : Nat) :
    (h.bools p = false → h'.bools p = false) ∧
    (e = none → o.Holder.kind = TypeBool → o.Holder.ptr = some p → h'.bools p = false) := by
  unfold CliOption.init at hi
  split_ifs at hi
  all_goals first
    | (simp only [Option.some.injEq, Prod.mk.injEq] at hi
       rw [← hi.2]
       refine ⟨fun hp => hp, fun he => ?_⟩
       rw [← hi.1] at he
       cases he)
    | (simp only at hi
       split_ifs at hi with hb
       · split at hi
         · rename_i q hq
           simp only [Option.some.injEq, Prod.mk.injEq] at hi
           rw [← hi.2]
           constructor
           · intro hp
             simp only [Heap.setBool]
             split_ifs
             · rfl
             · exact hp
           · intro _ _ hptr
             have hqp : q = p := by
               have : some q = some p := by rw [← hq, ← hptr]
               exact Option.some.inj this
             simp [Heap.setBool, hqp]
         · cases hi
       · simp only [Option.some.injEq, Prod.mk.injEq] at hi
         rw [← hi.2]
         refine ⟨fun hp => hp, fun _ hk _ => ?_⟩
         exact absurd (by rw [CliOption.getType_fst]; exact hk) hb)

theorem Spec.initLoop_bools (p : Nat) (rest : List CliOption) :
    ∀ (i : Nat) (shorts longs : List (String × Nat)) (holders : List (Holder × Nat))
      (h h' : Heap) (index : specIndex),
      Spec.initLoop i rest shorts longs holders h = some (.ok index, h') →
      (h.bools p = false → h'.bools p = false) ∧
      (∀ o ∈ rest, o.Holder.kind = TypeBool → o.Holder.ptr = some p → h'.bools p = false) := by
  induction rest with
  | nil =>
    intro i shorts longs holders h h' index hi
    simp only [Spec.initLoop, Option.some.injEq, Prod.mk.injEq] at hi
    rw [← hi.2]
    exact ⟨fun hp => hp, fun o ho => by cases ho⟩
  | cons o rest ih =>
    intro i shorts longs holders h h' index hi
    rw [Spec.initLoop] at hi
    cases hoi : o.init h with
    | none => rw [hoi] at hi; cases hi
    | some r =>
      obtain ⟨e, h1⟩ := r
      have hl := CliOption.init_bools o h h1 e hoi p
      rw [hoi] at hi
      cases e with
      | some err => simp at hi
      | none =>
        simp only at hi
        split_ifs at hi
        all_goals first
          | (exact absurd hi (by simp))
          | (obtain ⟨ih1, ih2⟩ := ih _ _ _ _ _ _ _ hi
             refine ⟨fun hp => ih1 (hl.1 hp), ?_⟩
             intro o' ho' hk hp
             rcases List.mem_cons.mp ho' with heq | hmem
             · rw [heq] at hk hp
               exact ih1 (hl.2 rfl hk hp)
             · exact ih2 o' hmem hk hp)

theorem Spec.init_flagsFalse (spec : Spec) (h h' : Heap) (index : specIndex)
    (hinit : Spec.init spec h = some (.ok index, h')) (o : CliOption) (ho : o ∈ spec)
    (p : Nat) (hk : o.Holder.kind = TypeBool) (hp : o.Holder.ptr = some p) :
    h'.bools p = false :=
  (Spec.initLoop_bools p spec 0 [] [] [] h h' index hinit).2 o ho hk hp

theorem State.addValue_true_bools (P : Strconv) (spec : Spec) (index : specIndex)
    (hv : ValidSpec spec index) (j : Nat) (o : CliOption) (p : Nat)
    (ho : spec[j]? = some o) (hkind : o.Holder.kind = TypeBool) (hptr : o.Holder.ptr = some p)
    (st st1 : State) (k : Nat) (hev : Spec.Evolves spec st.spec)
    (ha : State.addValue P st k (.bool true) = some st1) :
    st1.heap.bools p = (decide (k = j) || st.heap.bools p) := by
  cases hok : st.spec[k]? with
  | none => simp [State.addValue, hok] at ha
  | some ok =>
    obtain ⟨o0, ho0, hevo⟩ := Spec.specEvolves_back hev hok
    have ho0m : o0 ∈ spec := List.mem_iff_getElem?.mpr ⟨k, ho0⟩
    cases hreq : ok.requireValue with
    | true =>
      have hkj : k ≠ j := by
        intro hkj
        rw [hkj, ho] at ho0
        cases ho0
        rw [CliOption.requireValue_eq, hevo.kind, hkind] at hreq
        exact absurd hreq (by decide)
      simp only [State.addValue, hok, CliOption.addValue_bool_value P ok true st.heap hreq,
        Option.some.injEq] at ha
      rw [← ha]
      simp [hkj]
    | false =>
      have hk : ok.Holder.kind = TypeBool :=
        ok.flag_kind hreq (by rw [hevo.kind]; exact (hv.checked o0 ho0m).kind)
      have hk0 : o0.Holder.kind = TypeBool := by rw [← hevo.kind]; exact hk
      cases hq : o0.Holder.ptr with
      | none => exact absurd hq ((hv.checked o0 ho0m).flag hk0)
      | some q =>
        have hqk := hevo.ptr q hq
        rw [State.addValue_flag P st k ok q true hok hk hqk, Option.some.injEq] at ha
        rw [← ha]
        simp only [Heap.setBool]
        by_cases hkj : k = j
        · rw [hkj, ho] at ho0
          cases ho0
          rw [hptr] at hq
          cases hq
          simp [hkj]
        · have hpq : p ≠ q := by
            intro hpq
            apply hkj
            apply hv.holders k j o0 o ho0 ho
            obtain ⟨S0, L0, ⟨k0, q0⟩, s0⟩ := o0
            obtain ⟨S1, L1, ⟨k1, q1⟩, s1⟩ := o
            simp only at hk0 hq hkind hptr
            rw [hk0, hq, hkind, hptr, hpq]
          simp [hkj, hpq]

theorem recordOption_none (o o' : CliOption) (name : String)
    (h : recordOption o name = (none, o')) : o' = o.setIt := by
  unfold recordOption at h
  split_ifs at h <;> simp only [Prod.mk.injEq, reduceCtorEq, false_and] at h
  all_goals exact h.2.symm

theorem Parse.shortLoop_bools (P : Strconv) (spec : Spec) (index : specIndex)
    (hv : ValidSpec spec index) (j : Nat) (o : CliOption) (p : Nat)
    (ho : spec[j]? = some o) (hkind : o.Holder.kind = TypeBool) (hptr : o.Holder.ptr = some p)
    (n : Nat) (names : List String) :
    ∀ (cliAll : List String) (st : State) (c : List String) (s1 : State),
      Spec.Evolves spec st.spec → Parse.shortLoop P index n names cliAll st = .next c s1 →
      s1.heap.bools p =
        (names.any (fun name => decide (index.getShortByName name = some j))
          || st.heap.bools p) := by
  induction names with
  | nil =>
    intro cliAll st c s1 _ h
    simp only [Parse.shortLoop, Step.next.injEq] at h
    rw [← h.2]
    simp
  | cons name rest ih =>
    intro cliAll st c s1 hev h
    rw [Parse.shortLoop] at h
    split at h
    · cases h
    · rename_i k hl
      split at h
      · cases h
      · rename_i ok hok
        split_ifs at h
        split at h
        · cases h
        · rename_i ok' hrec
          split at h
          · cases h
          · rename_i st2 hadd
            have hev1 : Spec.Evolves spec (st.spec.set k ok') := by
              have := recordOption_evolves ok name
              rw [hrec] at this
              exact Spec.specEvolves_trans hev (Spec.specEvolves_set hok this)
            have hev2 : Spec.Evolves spec st2.spec :=
              Spec.specEvolves_trans hev1 (State.addValue_specEvolves P _ _ _ _ hadd)
            rw [ih _ _ _ _ hev2 h,
              State.addValue_true_bools P spec index hv j o p ho hkind hptr _ st2 k hev1 hadd]
            simp only [List.any_cons, hl, Option.some.injEq]
            cases rest.any (fun name => decide (index.getShortByName name = some j)) <;>
              cases decide (k = j) <;> simp

theorem Parse.longOption_bools (P : Strconv) (spec : Spec) (index : specIndex)
    (hv : ValidSpec spec index) (j : Nat) (o : CliOption) (p : Nat)
    (ho : spec[j]? = some o) (hkind : o.Holder.kind = TypeBool) (hptr : o.Holder.ptr = some p)
    (name : String) (cliAll : List String) (st : State) (v1 : Vars) (s1 : State)
    (hev : Spec.Evolves spec st.spec)
    (h : Parse.longOption P index name cliAll st = .next v1 s1) :
    s1.heap.bools p = (decide (index.getLongByName name = some j) || st.heap.bools p) := by
  unfold Parse.longOption at h
  split at h
  · cases h
  · rename_i k hl
    split at h
    · cases h
    · rename_i ok hok
      split at h
      · cases h
      · rename_i ok' hrec
        have hevr := recordOption_evolves ok name
        rw [hrec] at hevr
        simp only at hevr
        have hev1 : Spec.Evolves spec (st.spec.set k ok') :=
          Spec.specEvolves_trans hev (Spec.specEvolves_set hok hevr)
        split_ifs at h with hreq
        · cases h
          have hkj : k ≠ j := by
            intro hkj
            obtain ⟨o0, ho0, hevo⟩ := Spec.specEvolves_back hev hok
            rw [hkj, ho] at ho0
            cases ho0
            rw [CliOption.requireValue_eq, hevr.kind, hevo.kind, hkind] at hreq
            exact absurd hreq (by decide)
          simp [hl, hkj]
        · split at h
          · cases h
          · rename_i st2 hadd
            cases h
            rw [State.addValue_true_bools P spec index hv j o p ho hkind hptr _ _ k hev1 hadd,
              hl]
            simp

theorem isOptionShort_names_ne (tok : String) :
    ∀ name ∈ (isOptionShort tok).2, name ≠ "" := by
  intro name hname
  unfold isOptionShort at hname
  simp only at hname
  split_ifs at hname with h1 h2
  · simp only [List.mem_singleton] at hname
    rw [hname]
    intro h0
    have := congrArg String.data h0
    exact h1.1 this
  · obtain ⟨c, _, rfl⟩ := List.mem_map.mp hname
    exact String.singleton_ne_empty c
  · cases hname

theorem ValidSpec.short_iff {spec : Spec} {index : specIndex} (hv : ValidSpec spec index)
    {j : Nat} {o : CliOption} (ho : spec[j]? = some o) (name : String) (hne : name ≠ "") :
    index.getShortByName name = some j ↔ o.Short = name := by
  constructor
  · intro hl
    obtain ⟨o', ho', hk⟩ := (hv.shorts name j).mp hl
    rw [ho] at ho'
    cases ho'
    unfold shortKey at hk
    split_ifs at hk
    exact Option.some.inj hk
  · intro hs
    rw [← hs]
    exact hv.short_of ho (by rw [hs]; exact hne)

theorem ValidSpec.long_iff {spec : Spec} {index : specIndex} (hv : ValidSpec spec index)
    {j : Nat} {o : CliOption} (ho : spec[j]? = some o) (name : String) (hne : name ≠ "") :
    index.getLongByName name = some j ↔ o.Long = name := by
  constructor
  · intro hl
    obtain ⟨o', ho', hk⟩ := (hv.longs name j).mp hl
    rw [ho] at ho'
    cases ho'
    unfold longKey at hk
    split_ifs at hk
    exact Option.some.inj hk
  · intro hs
    rw [← hs]
    exact hv.long_of ho (by rw [hs]; exact hne)

theorem Parse.token_bools (P : Strconv) (spec : Spec) (index : specIndex)
    (hv : ValidSpec spec index) (j : Nat) (o : CliOption) (p : Nat)
    (ho : spec[j]? = some o) (hkind : o.Holder.kind = TypeBool) (hptr : o.Holder.ptr = some p)
    (i : Nat) (tok : String) (rest cliAll : List String) (st : State) (v1 : Vars)
    (s1 : State) (hev : Spec.Evolves spec st.spec)
    (hne : tok ≠ "--") (hopt : isOption tok = true)
    (h : Parse.token P index i tok rest cliAll st = .next v1 s1) :
    s1.heap.bools p = (mentions o tok || st.heap.bools p) := by
  have hend : isEndOfOptionSpecifier tok = false := by simp [isEndOfOptionSpecifier, hne]
  unfold Parse.token at h
  simp only [hend, hopt, Bool.false_eq_true, if_false, if_true] at h
  unfold mentions
  split_ifs at h ⊢ with hs hl
  · split at h
    · rename_i c s2 hrun
      have hst := Parse.afterShort_evolves index _ _ _ _ _ h
      subst hst
      rw [Parse.shortLoop_bools P spec index hv j o p ho hkind hptr _ _ _ _ _ _ hev hrun]
      congr 1
      rw [Bool.eq_iff_iff, List.any_eq_true, decide_eq_true_iff]
      constructor
      · rintro ⟨name, hname, hdec⟩
        rw [decide_eq_true_iff] at hdec
        rw [(hv.short_iff ho name (isOptionShort_names_ne tok name hname)).mp hdec]
        exact hname
      · intro hmem
        refine ⟨o.Short, hmem, ?_⟩
        rw [decide_eq_true_iff]
        exact (hv.short_iff ho o.Short (isOptionShort_names_ne tok _ hmem)).mpr rfl
    · cases h
    · cases h
  · rw [Parse.longOption_bools P spec index hv j o p ho hkind hptr _ _ _ _ _ hev h]
    obtain ⟨-, hnn, -⟩ := isOptionLong_inv tok hopt hl
    congr 1
    rw [hl, Bool.true_and, Bool.eq_iff_iff, decide_eq_true_iff, decide_eq_true_iff]
    constructor
    · intro h1
      exact ((hv.long_iff ho _ hnn).mp h1).symm
    · intro h1
      exact (hv.long_iff ho _ hnn).mpr h1.symm

theorem Parse.token_mode (P : Strconv) (spec : Spec) (index : specIndex)
    (hv : ValidSpec spec index) (i : Nat) (tok : String) (rest cliAll : List String)
    (st : State) (v1 : Vars) (s1 : State) (hev : Spec.Evolves spec st.spec)
    (hne : tok ≠ "--") (hopt : isOption tok = true)
    (h : Parse.token P index i tok rest cliAll st = .next v1 s1) :
    v1.nextShouldBeValue = takesValue spec tok := by
  cases ht : takesValue spec tok with
  | true =>
    unfold takesValue at ht
    rw [List.any_eq_true] at ht
    obtain ⟨o', ho', hcond⟩ := ht
    rw [Bool.and_eq_true, decide_eq_true_iff] at hcond
    obtain ⟨k, hk⟩ := List.mem_iff_getElem?.mp ho'
    obtain ⟨ok, name, -, -, htok⟩ :=
      Parse.token_designates P spec index hv i tok rest cliAll st k o' hev hk hcond.1 hcond.2
    rw [htok] at h
    split_ifs at h
    cases h
    rfl
  | false =>
    unfold takesValue at ht
    rw [List.any_eq_false] at ht
    refine (Parse.token_skip P spec index hv i tok rest cliAll st v1 s1 ⟨TypeBool, none⟩ hev hne
      hopt ?_ h).1
    intro k o' hk hreq hdes
    have := ht o' (List.mem_iff_getElem?.mpr ⟨k, hk⟩)
    simp [hreq, hdes] at this

theorem Parse.loop_bools (P : Strconv) (spec : Spec) (index : specIndex)
    (hv : ValidSpec spec index) (j : Nat) (o : CliOption) (p : Nat)
    (ho : spec[j]? = some o) (hkind : o.Holder.kind = TypeBool) (hptr : o.Holder.ptr = some p)
    (tokens : List String) :
    ∀ (i : Nat) (v : Vars) (st : State) (r : Return) (st' : State),
      Spec.Evolves spec st.spec → Parse.loop P index i tokens v st = some (r, st') →
      r.err = none →
      st'.heap.bools p = (appearsFrom spec o v.nextShouldBeValue tokens || st.heap.bools p) := by
  induction tokens with
  | nil =>
    intro i v st r st' _ h _
    simp only [Parse.loop, Option.some.injEq, Prod.mk.injEq] at h
    rw [← h.2]
    cases v.nextShouldBeValue <;> simp [appearsFrom]
  | cons tok rest ih =>
    intro i v st r st' hev h herr
    rw [Parse.loop] at h
    cases hb : Parse.body P index i tok rest v st with
    | panic => rw [hb] at h; cases h
    | ret r1 s1 =>
      rw [hb] at h
      simp only [Option.some.injEq, Prod.mk.injEq] at h
      obtain ⟨hr, hs⟩ := h
      subst hr hs
      unfold Parse.body at hb
      split_ifs at hb with hn
      · unfold Parse.value at hb
        split_ifs at hb
        · cases hb; simp at herr
        · cases hb; simp at herr
        · split at hb
          · cases hb
          · split at hb <;> cases hb
      · have hn' : v.nextShouldBeValue = false := by simpa using hn
        rw [hn']
        by_cases hstop : tok = "--" ∨ isOption tok = false
        · have hs1 : s1 = st := by
            unfold Parse.token at hb
            rcases hstop with h0 | h0
            · simp only [isEndOfOptionSpecifier, h0, decide_True, if_true] at hb
              cases hb
              rfl
            · have hne : tok ≠ "--" := by
                intro h1
                rw [h1] at h0
                exact absurd h0 (by decide)
              simp only [isEndOfOptionSpecifier, hne, decide_False, h0, Bool.false_eq_true,
                if_false] at hb
              cases hb
              rfl
          rw [hs1]
          simp [appearsFrom, hstop]
        · rw [not_or] at hstop
          have hopt : isOption tok = true := by simpa using hstop.2
          exact absurd herr (Parse.token_ret P index i tok rest v.cliAll st r1 s1 hstop.1 hopt hb)
    | next v1 s1 =>
      rw [hb] at h
      have hev1 := Spec.specEvolves_trans hev (Parse.body_evolves P index i tok rest v st v1 s1 hb)
      have hrec := ih _ _ _ _ _ hev1 h herr
      unfold Parse.body at hb
      split_ifs at hb with hn
      · rw [hn]
        unfold Parse.value at hb
        split_ifs at hb
        split at hb
        · cases hb
        · split at hb
          · cases hb
          · rename_i st2 hadd
            cases hb
            rw [hrec, State.addValue_string_heapBools P st _ _ tok hadd]
            simp [appearsFrom]
      · have hn' : v.nextShouldBeValue = false := by simpa using hn
        rw [hn']
        by_cases hstop : tok = "--" ∨ isOption tok = false
        · exfalso
          unfold Parse.token at hb
          rcases hstop with h0 | h0
          · simp only [isEndOfOptionSpecifier, h0, decide_True, if_true] at hb
            cases hb
          · have hne : tok ≠ "--" := by
              intro h1
              rw [h1] at h0
              exact absurd h0 (by decide)
            simp only [isEndOfOptionSpecifier, hne, decide_False, h0, Bool.false_eq_true,
              if_false] at hb
            cases hb
        · have hstop' := hstop
          rw [not_or] at hstop'
          have hopt : isOption tok = true := by simpa using hstop'.2
          have hbools := Parse.token_bools P spec index hv j o p ho hkind hptr i tok rest
            v.cliAll st v1 s1 hev hstop'.1 hopt hb
          have hmode := Parse.token_mode P spec index hv i tok rest v.cliAll st v1 s1 hev
            hstop'.1 hopt hb
          rw [hrec, hbools, hmode]
          simp only [appearsFrom, hstop, if_false]
          cases mentions o tok <;> simp

/-- C18. After a call of `Parse` that returns no error, the holder of every option whose
holder is a pointer to a boolean is not nil and holds true when the option appears in the
options section of the tokens (see `appears`), false when it does not, whatever the memory
held before the call. -/
theorem C18_flag_holders (P : Strconv) (tokens : List String) (spec : Spec) (h : Heap)
    (r : Return) (st : State) (j : Nat) (o : CliOption)
    (hp : Parse P tokens spec h = some (r, st)) (herr : r.err = none)
    (ho : spec[j]? = some o) (hkind : o.Holder.kind = TypeBool) :
    ∃ p, o.Holder.ptr = some p ∧ st.heap.bools p = appears spec o tokens := by
  unfold Parse at hp
  split at hp
  · cases hp
  · simp only [Option.some.injEq, Prod.mk.injEq] at hp
    rw [← hp.1] at herr
    cases herr
  · rename_i index h' hinit
    have hv := Spec.init_valid spec h h' index hinit
    have hom : o ∈ spec := List.mem_iff_getElem?.mpr ⟨j, ho⟩
    cases hptr : o.Holder.ptr with
    | none => exact absurd hptr ((hv.checked o hom).flag hkind)
    | some p =>
      refine ⟨p, rfl, ?_⟩
      rw [Parse.loop_bools P spec index hv j o p ho hkind hptr tokens 0 _ ⟨spec, h'⟩ r st
        (Spec.specEvolves_refl spec) hp herr,
        Spec.init_flagsFalse spec h h' index hinit o hom p hkind hptr]
      simp [appears]

/-- The property C18 on the sample values, from a memory where the holder of `-v` holds true:
the flag `-h` appears in the options section, the flag `-v` appears after the marker only. -/
theorem C18_flag_holders_witness :
    (∃ p, (⟨"h", "", ⟨TypeBool, some 1⟩, false⟩ : CliOption).Holder.ptr = some p ∧
      ((((((sampleHeap.setBool 0 true).setBool 0 false).setBool 1 false).setBool 1
        true).setString 0 "a").bools p
        = appears sampleSpec ⟨"h", "", ⟨TypeBool, some 1⟩, false⟩
            ["-h", "-i", "a", "--", "-v"])) ∧
    appears sampleSpec ⟨"h", "", ⟨TypeBool, some 1⟩, false⟩ ["-h", "-i", "a", "--", "-v"]
      = true ∧
    (∃ p, (⟨"v", "", ⟨TypeBool, some 0⟩, false⟩ : CliOption).Holder.ptr = some p ∧
      ((((((sampleHeap.setBool 0 true).setBool 0 false).setBool 1 false).setBool 1
        true).setString 0 "a").bools p
        = appears sampleSpec ⟨"v", "", ⟨TypeBool, some 0⟩, false⟩
            ["-h", "-i", "a", "--", "-v"])) ∧
    appears sampleSpec ⟨"v", "", ⟨TypeBool, some 0⟩, false⟩ ["-h", "-i", "a", "--", "-v"]
      = false :=
  ⟨C18_flag_holders sampleStrconv ["-h", "-i", "a", "--", "-v"] sampleSpec
      (sampleHeap.setBool 0 true) ⟨some ["-h", "-i", "a", "--", "-v"], some ["-v"], none⟩
      ⟨(sampleSpec.set 1 ⟨"h", "", ⟨TypeBool, some 1⟩, true⟩).set 2
          ⟨"i", "input", ⟨TypeString, some 0⟩, true⟩,
        (((((sampleHeap.setBool 0 true).setBool 0 false).setBool 1 false).setBool 1
          true).setString 0 "a")⟩
      1 ⟨"h", "", ⟨TypeBool, some 1⟩, false⟩ rfl rfl rfl rfl,
    by decide,
    C18_flag_holders sampleStrconv ["-h", "-i", "a", "--", "-v"] sampleSpec
      (sampleHeap.setBool 0 true) ⟨some ["-h", "-i", "a", "--", "-v"], some ["-v"], none⟩
      ⟨(sampleSpec.set 1 ⟨"h", "", ⟨TypeBool, some 1⟩, true⟩).set 2
          ⟨"i", "input", ⟨TypeString, some 0⟩, true⟩,
        (((((sampleHeap.setBool 0 true).setBool 0 false).setBool 1 false).setBool 1
          true).setString 0 "a")⟩
      0 ⟨"v", "", ⟨TypeBool, some 0⟩, false⟩ rfl rfl rfl rfl,
    by decide⟩

/-! ## The predicate `isOption` -/

/-- C21, counterexample. The token made of one dash alone is not a dash, or two dashes,
followed by one character or more, and `isOption` is true for it. -/
theorem C21_counterexample :
    isOption "-" = true ∧
    ¬ ((∃ r : List Char, r ≠ [] ∧ ("-" : String).data = '-' :: r) ∨
      (∃ r : List Char, r ≠ [] ∧ ("-" : String).data = '-' :: '-' :: r)) := by
  refine ⟨by decide, ?_⟩
  rintro (⟨r, hr, h⟩ | ⟨r, _, h⟩)
  · have : r = [] := by simpa using h.symm
    exact hr this
  · simp at h

/-- C21, amended. `isOption` is true for a token if and only if the token starts with a dash,
whatever follows the dash, nothing included; it is false for `o` and `vh`, and true for `-o`,
`-vh` and `--option`. -/
theorem C21_isOption_iff (tok : String) :
    (isOption tok = true ↔ ∃ r : List Char, tok.data = '-' :: r) ∧
    isOption "o" = false ∧ isOption "vh" = false ∧
    isOption "-o" = true ∧ isOption "-vh" = true ∧ isOption "--option" = true := by
  refine ⟨?_, by decide, by decide, by decide, by decide, by decide⟩
  unfold isOption
  cases tok.data with
  | nil => simp
  | cons c r => simp

/-! ## The bare name and the prefixed token -/

/-- C24. For every text `n` that does not start with a dash, `isOptionShort` gives the same
status and the same names for `n` and for `n` after one dash, and `isOptionLong` gives the same
status and the same name for `n` and for `n` after two dashes. -/
theorem C24_bare_and_prefixed (n : String) (hn : n.data.head? ≠ some '-') :
    isOptionShort ("-" ++ n) = isOptionShort n ∧ isOptionLong ("--" ++ n) = isOptionLong n := by
  have h1 : dropDash n.data = n.data := by
    cases hd : n.data with
    | nil => rfl
    | cons c r =>
      rw [hd] at hn
      have hc : c ≠ '-' := by
        intro h0
        rw [h0] at hn
        exact hn rfl
      simp [dropDash, hc]
  have h2 : dropDashDash n.data = n.data := by
    cases hd : n.data with
    | nil => rfl
    | cons c r =>
      rw [hd] at hn
      have hc : c ≠ '-' := by
        intro h0
        rw [h0] at hn
        exact hn rfl
      cases r with
      | nil => rfl
      | cons d r => simp [dropDashDash, hc]
  constructor
  · unfold isOptionShort
    rw [data_dash_append, h1]
    rfl
  · unfold isOptionLong
    rw [data_dashdash_append, h2]
    rfl

/-- The property C24 on sample values: the names `vh` and `option-`. -/
theorem C24_bare_and_prefixed_witness :
    (isOptionShort ("-" ++ "vh") = isOptionShort "vh" ∧
      isOptionLong ("--" ++ "vh") = isOptionLong "vh") ∧
    (isOptionShort ("-" ++ "option-") = isOptionShort "option-" ∧
      isOptionLong ("--" ++ "option-") = isOptionLong "option-") ∧
    isOptionShort "vh" = (true, ["v", "h"]) ∧ isOptionLong "option-" = (true, "option-") :=
  ⟨C24_bare_and_prefixed "vh" (by decide), C24_bare_and_prefixed "option-" (by decide),
    by decide, by decide⟩

/-! ## The constraints of the types of holders -/

/-- C28. The constraints depend on the type of the holder alone: `isSingleton` and
`requireValue` of an option are the two fields of `typesConstraints` at the type of its holder;
for the type bool the option is a singleton and requires no value; for each of the 13 scalar
types it is a singleton and requires a value; for each of the 13 repeatable types it is not a
singleton and requires a value; hence an option whose holder has one of these 27 types requires
no value if and only if its holder is a pointer to a bool. -/
theorem C28_type_constraints :
    typesConstraints TypeBool = ⟨true, false⟩ ∧
    (∀ k ∈ [TypeString, TypeInteger, TypeInteger8, TypeInteger16, TypeInteger32, TypeInteger64,
        TypeUInteger, TypeUInteger8, TypeUInteger16, TypeUInteger32, TypeUInteger64,
        TypeFloat32, TypeFloat64], typesConstraints k = ⟨true, true⟩) ∧
    (∀ k ∈ [TypeStrings, TypeIntegers, TypeIntegers8, TypeIntegers16, TypeIntegers32,
        TypeIntegers64, TypeUIntegers, TypeUIntegers8, TypeUIntegers16, TypeUIntegers32,
        TypeUIntegers64, TypeFloats32, TypeFloats64], typesConstraints k = ⟨false, true⟩) ∧
    (∀ o : CliOption, o.isSingleton = (typesConstraints o.Holder.kind).singleton ∧
      o.requireValue = (typesConstraints o.Holder.kind).value) ∧
    (∀ o : CliOption, o.Holder.kind ≠ TypeUnexpected →
      (o.requireValue = false ↔ o.Holder.kind = TypeBool)) := by
  refine ⟨rfl, by decide, by decide, fun o => ⟨o.isSingleton_eq, o.requireValue_eq⟩, ?_⟩
  intro o hk
  rw [CliOption.requireValue_eq]
  cases hkind : o.Holder.kind <;> rw [hkind] at hk <;> simp [typesConstraints] at hk ⊢

/-- The property C28 on the sample values: the flag `-v` and the option `-i`. -/
theorem C28_type_constraints_witness :
    ((⟨"v", "", ⟨TypeBool, some 0⟩, false⟩ : CliOption).requireValue = false ↔
      (⟨"v", "", ⟨TypeBool, some 0⟩, false⟩ : CliOption).Holder.kind = TypeBool) ∧
    ((⟨"i", "input", ⟨TypeString, some 0⟩, false⟩ : CliOption).requireValue = false ↔
      (⟨"i", "input", ⟨TypeString, some 0⟩, false⟩ : CliOption).Holder.kind = TypeBool) ∧
    (⟨"v", "", ⟨TypeBool, some 0⟩, false⟩ : CliOption).requireValue = false ∧
    (⟨"i", "input", ⟨TypeString, some 0⟩, false⟩ : CliOption).requireValue = true :=
  ⟨C28_type_constraints.2.2.2.2 ⟨"v", "", ⟨TypeBool, some 0⟩, false⟩ (by decide),
    C28_type_constraints.2.2.2.2 ⟨"i", "input", ⟨TypeString, some 0⟩, false⟩ (by decide),
    by decide, by decide⟩

/-! ## `addValue` on failure -/

theorem CliOption.addInt_some (P : Strconv) (o : CliOption) (k : typeOption) (bitSize : Nat)
    (v : String) (h : Heap) (p : Nat) (hp : o.Holder.ptr = some p) :
    o.addInt P k bitSize v h = match ParseInt P v bitSize with
      | .error err => (some (.numError err), o, h)
      | .ok n => (none, o, h.setInt k p n) := by
  simp only [CliOption.addInt, hp]

theorem CliOption.addUint_some (P : Strconv) (o : CliOption) (k : typeOption) (bitSize : Nat)
    (v : String) (h : Heap) (p : Nat) (hp : o.Holder.ptr = some p) :
    o.addUint P k bitSize v h = match ParseUint P v bitSize with
      | .error err => (some (.numError err), o, h)
      | .ok n => (none, o, h.setInt k p (n : Int)) := by
  simp only [CliOption.addUint, hp]

theorem CliOption.addFloat_some (P : Strconv) (o : CliOption) (k : typeOption) (bitSize : Nat)
    (v : String) (h : Heap) (p : Nat) (hp : o.Holder.ptr = some p) :
    o.addFloat P k bitSize v h = match P.ParseFloat v bitSize with
      | .error err => (some (.numError err), o, h)
      | .ok x => (none, o, h.setFloat k p x) := by
  simp only [CliOption.addFloat, hp]

theorem CliOption.addInt_error (P : Strconv) (o : CliOption) (k : typeOption) (bitSize : Nat)
    (v : String) (h : Heap) (p : Nat) (hp : o.Holder.ptr = some p) (e : Error)
    (o' : CliOption) (h' : Heap) (ha : o.addInt P k bitSize v h = (some e, o', h')) :
    o' = o ∧ h' = h := by
  rw [CliOption.addInt_some P o k bitSize v h p hp] at ha
  split at ha <;> simp only [Prod.mk.injEq, reduceCtorEq, false_and] at ha
  exact ⟨ha.2.1.symm, ha.2.2.symm⟩

theorem CliOption.addUint_error (P : Strconv) (o : CliOption) (k : typeOption) (bitSize : Nat)
    (v : String) (h : Heap) (p : Nat) (hp : o.Holder.ptr = some p) (e : Error)
    (o' : CliOption) (h' : Heap) (ha : o.addUint P k bitSize v h = (some e, o', h')) :
    o' = o ∧ h' = h := by
  rw [CliOption.addUint_some P o k bitSize v h p hp] at ha
  split at ha <;> simp only [Prod.mk.injEq, reduceCtorEq, false_and] at ha
  exact ⟨ha.2.1.symm, ha.2.2.symm⟩

theorem CliOption.addFloat_error (P : Strconv) (o : CliOption) (k : typeOption) (bitSize : Nat)
    (v : String) (h : Heap) (p : Nat) (hp : o.Holder.ptr = some p) (e : Error)
    (o' : CliOption) (h' : Heap) (ha : o.addFloat P k bitSize v h = (some e, o', h')) :
    o' = o ∧ h' = h := by
  rw [CliOption.addFloat_some P o k bitSize v h p hp] at ha
  split at ha <;> simp only [Prod.mk.injEq, reduceCtorEq, false_and] at ha
  exact ⟨ha.2.1.symm, ha.2.2.symm⟩

theorem CliOption.addInts_error (P : Strconv) (o : CliOption) (k : typeOption) (bitSize : Nat)
    (v : String) (h : Heap) (e : Error) (o' : CliOption) (h' : Heap)
    (ha : o.addInts P k bitSize v h = some (some e, o', h')) : o' = o ∧ h' = h := by
  unfold CliOption.addInts at ha
  split at ha
  · simp only [Option.some.injEq, Prod.mk.injEq] at ha
    exact ⟨ha.2.1.symm, ha.2.2.symm⟩
  · split at ha
    · cases ha
    · simp at ha

theorem CliOption.addUints_error (P : Strconv) (o : CliOption) (k : typeOption) (bitSize : Nat)
    (v : String) (h : Heap) (e : Error) (o' : CliOption) (h' : Heap)
    (ha : o.addUints P k bitSize v h = some (some e, o', h')) : o' = o ∧ h' = h := by
  unfold CliOption.addUints at ha
  split at ha
  · simp only [Option.some.injEq, Prod.mk.injEq] at ha
    exact ⟨ha.2.1.symm, ha.2.2.symm⟩
  · split at ha
    · cases ha
    · simp at ha

theorem CliOption.addFloats_error (P : Strconv) (o : CliOption) (k : typeOption) (bitSize : Nat)
    (v : String) (h : Heap) (e : Error) (o' : CliOption) (h' : Heap)
    (ha : o.addFloats P k bitSize v h = some (some e, o', h')) : o' = o ∧ h' = h := by
  unfold CliOption.addFloats at ha
  split at ha
  · simp only [Option.some.injEq, Prod.mk.injEq] at ha
    exact ⟨ha.2.1.symm, ha.2.2.symm⟩
  · split at ha
    · cases ha
    · simp at ha

/-- C30. When `addValue` on an option whose holder is not nil returns an error, the option
and the whole memory are what they were before the call: the variable the holder points to is
unchanged, and for a repeatable type the slice it points to holds the same elements, with none
added. -/
theorem C30_no_partial_mutation (P : Strconv) (o : CliOption) (v : Value) (h : Heap)
    (e : Error) (o' : CliOption) (h' : Heap) (hp : o.Holder.ptr ≠ none)
    (ha : o.addValue P v h = some (some e, o', h')) :
    o' = o ∧ h' = h ∧ h'.list o.Holder = h.list o.Holder := by
  obtain ⟨p, hp⟩ := Option.ne_none_iff_exists'.mp hp
  have key : o' = o ∧ h' = h := by
    unfold CliOption.addValue at ha
    simp only [hp] at ha
    split_ifs at ha
    · split at ha
      · simp at ha
      · simp only [Option.some.injEq, Prod.mk.injEq] at ha
        exact ⟨ha.2.1.symm, ha.2.2.symm⟩
    · split at ha
      · split at ha
        all_goals first
          | exact CliOption.addInt_error P o _ _ _ h p hp e o' h' (Option.some.inj ha)
          | exact CliOption.addUint_error P o _ _ _ h p hp e o' h' (Option.some.inj ha)
          | exact CliOption.addFloat_error P o _ _ _ h p hp e o' h' (Option.some.inj ha)
          | exact CliOption.addInts_error P o _ _ _ h e o' h' ha
          | exact CliOption.addUints_error P o _ _ _ h e o' h' ha
          | exact CliOption.addFloats_error P o _ _ _ h e o' h' ha
          | cases ha
      · simp only [Option.some.injEq, Prod.mk.injEq] at ha
        exact ⟨ha.2.1.symm, ha.2.2.symm⟩
  exact ⟨key.1, key.2, by rw [key.2]⟩

/-- The property C30 on sample values: the text `300` for a holder of type `[]int8` that
holds the numbers 1 and 2. -/
theorem C30_no_partial_mutation_witness :
    (⟨"n", "num", ⟨TypeIntegers8, some 0⟩, true⟩ : CliOption).addValue sampleStrconv
        (.string "300") ((sampleHeap.appendInt TypeIntegers8 0 1).appendInt TypeIntegers8 0 2)
      = some (some (.numError ⟨"ParseInt", "300", .ErrRange⟩),
          ⟨"n", "num", ⟨TypeIntegers8, some 0⟩, true⟩,
          (sampleHeap.appendInt TypeIntegers8 0 1).appendInt TypeIntegers8 0 2) ∧
    ((⟨"n", "num", ⟨TypeIntegers8, some 0⟩, true⟩ : CliOption)
        = ⟨"n", "num", ⟨TypeIntegers8, some 0⟩, true⟩ ∧
      (sampleHeap.appendInt TypeIntegers8 0 1).appendInt TypeIntegers8 0 2
        = (sampleHeap.appendInt TypeIntegers8 0 1).appendInt TypeIntegers8 0 2 ∧
      Heap.list ((sampleHeap.appendInt TypeIntegers8 0 1).appendInt TypeIntegers8 0 2)
          ⟨TypeIntegers8, some 0⟩
        = Heap.list ((sampleHeap.appendInt TypeIntegers8 0 1).appendInt TypeIntegers8 0 2)
          ⟨TypeIntegers8, some 0⟩) ∧
    Heap.list ((sampleHeap.appendInt TypeIntegers8 0 1).appendInt TypeIntegers8 0 2)
        ⟨TypeIntegers8, some 0⟩ = [.int 1, .int 2] :=
  ⟨rfl,
    C30_no_partial_mutation sampleStrconv ⟨"n", "num", ⟨TypeIntegers8, some 0⟩, true⟩
      (.string "300") ((sampleHeap.appendInt TypeIntegers8 0 1).appendInt TypeIntegers8 0 2)
      (.numError ⟨"ParseInt", "300", .ErrRange⟩) ⟨"n", "num", ⟨TypeIntegers8, some 0⟩, true⟩
      ((sampleHeap.appendInt TypeIntegers8 0 1).appendInt TypeIntegers8 0 2) (by decide) rfl,
    by decide⟩

/-! ## The predicates `isOptionShort` and `isOptionLong` -/

theorem isNameStart_iff (c : Char) :
    isNameStart c = true ↔ asciiNameStart c = true ∨ foldedLetter c = true := by
  unfold isNameStart asciiNameStart foldedLetter
  simp only [Bool.or_eq_true]
  tauto

theorem isNameChar_iff (c : Char) :
    isNameChar c = true ↔ asciiNameChar c = true ∨ foldedLetter c = true := by
  unfold isNameChar asciiNameChar foldedLetter
  simp only [Bool.or_eq_true]
  tauto

theorem isOptionShort_of_dropDash (s : String) (hne : dropDash s.data ≠ [])
    (hall : (dropDash s.data).all isNameStart = true) :
    isOptionShort s = (true, (dropDash s.data).map fun c => String.singleton c) := by
  have h1 := isOptionShort_dash (dropDash s.data) hne hall
  rw [← h1]
  unfold isOptionShort
  rw [data_dash_append]
  rfl

theorem dropDash_cases (l : List Char) : l = dropDash l ∨ l = '-' :: dropDash l := by
  cases l with
  | nil => left; rfl
  | cons c r =>
    by_cases hc : c = '-'
    · right; simp [dropDash, hc]
    · left; simp [dropDash, hc]

theorem dropDashDash_cases (l : List Char) :
    l = dropDashDash l ∨ l = '-' :: '-' :: dropDashDash l := by
  match l with
  | [] => left; rfl
  | [_] => left; rfl
  | c :: d :: r =>
    by_cases hc : c = '-' ∧ d = '-'
    · right; simp [dropDashDash, hc]
    · left; simp [dropDashDash, hc]

/-- C22, counterexample. The text made of the character U+017F alone is accepted by
`isOptionShort`, with this character as its name, and this character is not in the class
`[A-Za-z0-9!?]`. -/
theorem C22_counterexample :
    isOptionShort (String.mk [Char.ofNat 0x17F]) = (true, [String.mk [Char.ofNat 0x17F]]) ∧
    asciiNameStart (Char.ofNat 0x17F) = false := by
  constructor <;> decide

/-- C22, amended. `isOptionShort` returns true and the names `names` for a text if and only if
the text is made of an optional dash and then of one character or more, each in the class
`[A-Za-z0-9!?]` or one of the characters U+017F and U+212A, and `names` is the list of these
characters, each as a text of one character, in the same order; for every other text it
returns false and no name, as it does for `--option`, `-o-` and `a.b`. -/
theorem C22_isOptionShort_iff (s : String) (names : List String) :
    (isOptionShort s = (true, names) ↔
      ∃ cs : List Char, cs ≠ [] ∧ (s.data = cs ∨ s.data = '-' :: cs) ∧
        (∀ c ∈ cs, asciiNameStart c = true ∨ foldedLetter c = true) ∧
        names = cs.map fun c => String.singleton c) ∧
    ((isOptionShort s).1 = true ∨ isOptionShort s = (false, [])) ∧
    isOptionShort "--option" = (false, []) ∧ isOptionShort "-o-" = (false, []) ∧
    isOptionShort "a.b" = (false, []) := by
  refine ⟨⟨?_, ?_⟩, ?_, by decide, by decide, by decide⟩
  · intro h
    have hc : dropDash s.data ≠ [] ∧ (dropDash s.data).all isNameStart = true := by
      by_contra hc
      unfold isOptionShort at h
      simp only at h
      rw [if_neg hc] at h
      simp at h
    rw [isOptionShort_of_dropDash s hc.1 hc.2] at h
    refine ⟨dropDash s.data, hc.1, dropDash_cases s.data, ?_, ?_⟩
    · intro c hmem
      exact (isNameStart_iff c).mp (List.all_eq_true.mp hc.2 c hmem)
    · simp only [Prod.mk.injEq, true_and] at h
      exact h.symm
  · rintro ⟨cs, hne, hdata, hall, hnames⟩
    have hall' : cs.all isNameStart = true := by
      rw [List.all_eq_true]
      intro c hmem
      exact (isNameStart_iff c).mpr (hall c hmem)
    have hd : dropDash s.data = cs := by
      rcases hdata with h0 | h0
      · rw [h0]
        match cs, hne, hall' with
        | c :: r, _, hall' =>
          have hc : isNameStart c = true := by
            rw [List.all_cons, Bool.and_eq_true] at hall'
            exact hall'.1
          simp [dropDash, isNameStart_ne_dash c hc]
      · rw [h0]
        simp [dropDash]
    rw [isOptionShort_of_dropDash s (by rw [hd]; exact hne) (by rw [hd]; exact hall'), hd,
      hnames]
  · unfold isOptionShort
    simp only
    split_ifs
    · left; rfl
    · left; rfl
    · right; rfl

/-- C23, counterexample. The text made of the character U+017F alone is accepted by
`isOptionLong`, with itself as its name, and this character is not in the class
`[A-Za-z0-9!?]`. -/
theorem C23_counterexample :
    isOptionLong (String.mk [Char.ofNat 0x17F]) = (true, String.mk [Char.ofNat 0x17F]) ∧
    asciiNameStart (Char.ofNat 0x17F) = false := by
  constructor <;> decide

/-- C23, amended. `isOptionLong` returns true and the name `name` for a text if and only if the
text is made of two optional dashes and then of `name`, where `name` starts with a character
in the class `[A-Za-z0-9!?]` or one of U+017F and U+212A, followed by any number of characters
in the class `[A-Za-z0-9_.-]` or one of U+017F and U+212A; for every other text it returns
false and the empty name, as it does for `.o`, `--.o`, `-o`, `-option`, `---option` and
`---`. -/
theorem C23_isOptionLong_iff (s name : String) :
    (isOptionLong s = (true, name) ↔
      ∃ (c : Char) (r : List Char), (s.data = c :: r ∨ s.data = '-' :: '-' :: c :: r) ∧
        (asciiNameStart c = true ∨ foldedLetter c = true) ∧
        (∀ d ∈ r, asciiNameChar d = true ∨ foldedLetter d = true) ∧
        name = String.mk (c :: r)) ∧
    ((isOptionLong s).1 = true ∨ isOptionLong s = (false, "")) ∧
    isOptionLong ".o" = (false, "") ∧ isOptionLong "--.o" = (false, "") ∧
    isOptionLong "-o" = (false, "") ∧ isOptionLong "-option" = (false, "") ∧
    isOptionLong "---option" = (false, "") ∧ isOptionLong "---" = (false, "") := by
  refine ⟨⟨?_, ?_⟩, ?_, by decide, by decide, by decide, by decide, by decide, by decide⟩
  · intro h
    unfold isOptionLong at h
    split at h
    · rename_i c r hcr
      split_ifs at h with hok
      · refine ⟨c, r, ?_, (isNameStart_iff c).mp hok.1, ?_, ?_⟩
        · rw [← hcr]
          exact dropDashDash_cases s.data
        · intro d hd
          exact (isNameChar_iff d).mp (List.all_eq_true.mp hok.2 d hd)
        · simp only [Prod.mk.injEq, true_and] at h
          exact h.symm
      · simp at h
    · simp at h
  · rintro ⟨c, r, hdata, hc, hr, hname⟩
    have hc' : isNameStart c = true := (isNameStart_iff c).mpr hc
    have hr' : r.all isNameChar = true := by
      rw [List.all_eq_true]
      intro d hd
      exact (isNameChar_iff d).mpr (hr d hd)
    have hd : dropDashDash s.data = c :: r := by
      rcases hdata with h0 | h0
      · rw [h0]
        cases r with
        | nil => rfl
        | cons d r => simp [dropDashDash, isNameStart_ne_dash c hc']
      · rw [h0]
        simp [dropDashDash]
    unfold isOptionLong
    rw [hd]
    simp only [hc', hr', and_self, if_true, hname]
  · unfold isOptionLong
    split
    · split_ifs
      · left; rfl
      · right; rfl
    · right; rfl

/-! ## The checks of `Option.init` -/

/-- C27, counterexample. A short name made of one character that takes two bytes (U+00E9) is
reported as too long, not as holding an invalid character; and for a nil pointer to a bool no
check fails and `Option.init` does not return: it panics. -/
theorem C27_counterexample :
    (String.mk [Char.ofNat 0xE9]).length = 1 ∧
    (isOptionShort (String.mk [Char.ofNat 0xE9])).1 = false ∧
    (⟨String.mk [Char.ofNat 0xE9], "", ⟨TypeString, some 0⟩, false⟩ : CliOption).init sampleHeap
      = some (some (.errorShortNameTooLong (String.mk [Char.ofNat 0xE9])), sampleHeap) ∧
    (⟨"v", "verbose", ⟨TypeBool, none⟩, false⟩ : CliOption).init sampleHeap = none := by
  refine ⟨by decide, by decide, rfl, rfl⟩

/-- C27, amended. `Option.init` returns the error of the first check that fails, in this order:
no name when both names are empty; short name too long when the short name is not empty and
takes more than one byte; invalid short name when the short name, of one byte, does not satisfy
`isOptionShort`; invalid long name when the long name is not empty and does not satisfy
`isOptionLong`; unexpected type of holder when the type of the holder is none of the 27
supported types.  In each of these cases the memory is unchanged.  When no check fails and the
holder is not a nil pointer to a bool, it returns no error. -/
theorem C27_option_init_checks (o : CliOption) (h : Heap) :
    (o.Short = "" ∧ o.Long = "" →
      o.init h = some (some .errorInvalidOptionSpecificationNoName, h)) ∧
    (¬ (o.Short = "" ∧ o.Long = "") → o.Short ≠ "" → o.Short.utf8ByteSize > 1 →
      o.init h = some (some (.errorShortNameTooLong o.Short), h)) ∧
    (¬ (o.Short = "" ∧ o.Long = "") → o.Short ≠ "" → o.Short.utf8ByteSize ≤ 1 →
      (isOptionShort o.Short).1 = false →
      o.init h = some (some (.errorShortNameUnexpectedCharacter o.Short), h)) ∧
    (¬ (o.Short = "" ∧ o.Long = "") →
      (o.Short = "" ∨ (o.Short.utf8ByteSize ≤ 1 ∧ (isOptionShort o.Short).1 = true)) →
      o.Long ≠ "" → (isOptionLong o.Long).1 = false →
      o.init h = some (some (.errorLongNameUnexpectedCharacter o.Long), h)) ∧
    (¬ (o.Short = "" ∧ o.Long = "") →
      (o.Short = "" ∨ (o.Short.utf8ByteSize ≤ 1 ∧ (isOptionShort o.Short).1 = true)) →
      (o.Long = "" ∨ (isOptionLong o.Long).1 = true) →
      o.Holder.kind ∉ [TypeBool, TypeString, TypeInteger, TypeInteger8, TypeInteger16,
        TypeInteger32, TypeInteger64, TypeUInteger, TypeUInteger8, TypeUInteger16,
        TypeUInteger32, TypeUInteger64, TypeFloat32, TypeFloat64, TypeStrings, TypeIntegers,
        TypeIntegers8, TypeIntegers16, TypeIntegers32, TypeIntegers64, TypeUIntegers,
        TypeUIntegers8, TypeUIntegers16, TypeUIntegers32, TypeUIntegers64, TypeFloats32,
        TypeFloats64] →
      o.init h = some (some .errorInvalidOptionSpecificationUnexpectedHolderType, h)) ∧
    (¬ (o.Short = "" ∧ o.Long = "") →
      (o.Short = "" ∨ (o.Short.utf8ByteSize ≤ 1 ∧ (isOptionShort o.Short).1 = true)) →
      (o.Long = "" ∨ (isOptionLong o.Long).1 = true) →
      o.Holder.kind ∈ [TypeBool, TypeString, TypeInteger, TypeInteger8, TypeInteger16,
        TypeInteger32, TypeInteger64, TypeUInteger, TypeUInteger8, TypeUInteger16,
        TypeUInteger32, TypeUInteger64, TypeFloat32, TypeFloat64, TypeStrings, TypeIntegers,
        TypeIntegers8, TypeIntegers16, TypeIntegers32, TypeIntegers64, TypeUIntegers,
        TypeUIntegers8, TypeUIntegers16, TypeUIntegers32, TypeUIntegers64, TypeFloats32,
        TypeFloats64] →
      ¬ (o.Holder.kind = TypeBool ∧ o.Holder.ptr = none) →
      ∃ h', o.init h = some (none, h')) := by
  have hkind : ∀ k : typeOption, k = TypeUnexpected ↔
      k ∉ [TypeBool, TypeString, TypeInteger, TypeInteger8, TypeInteger16,
        TypeInteger32, TypeInteger64, TypeUInteger, TypeUInteger8, TypeUInteger16,
        TypeUInteger32, TypeUInteger64, TypeFloat32, TypeFloat64, TypeStrings, TypeIntegers,
        TypeIntegers8, TypeIntegers16, TypeIntegers32, TypeIntegers64, TypeUIntegers,
        TypeUIntegers8, TypeUIntegers16, TypeUIntegers32, TypeUIntegers64, TypeFloats32,
        TypeFloats64] := by
    intro k
    cases k <;> decide
  have hshort : (o.Short = "" ∨ (o.Short.utf8ByteSize ≤ 1 ∧ (isOptionShort o.Short).1 = true)) →
      ¬ (o.Short ≠ "" ∧ o.Short.utf8ByteSize > 1) ∧
      ¬ (o.Short ≠ "" ∧ (isOptionShort o.Short).1 = false) := by
    rintro (h0 | ⟨h1, h2⟩)
    · exact ⟨fun hc => hc.1 h0, fun hc => hc.1 h0⟩
    · refine ⟨fun hc => ?_, fun hc => ?_⟩
      · omega
      · rw [h2] at hc
        exact absurd hc.2 (by decide)
  have hlong : (o.Long = "" ∨ (isOptionLong o.Long).1 = true) →
      ¬ (o.Long ≠ "" ∧ (isOptionLong o.Long).1 = false) := by
    rintro (h0 | h1) hc
    · exact hc.1 h0
    · rw [h1] at hc
      exact absurd hc.2 (by decide)
  refine ⟨?_, ?_, ?_, ?_, ?_, ?_⟩
  · intro h1
    unfold CliOption.init
    rw [if_pos h1]
  · intro h1 h2 h3
    unfold CliOption.init
    rw [if_neg h1, if_pos ⟨h2, h3⟩]
  · intro h1 h2 h3 h4
    unfold CliOption.init
    rw [if_neg h1, if_neg (fun hc => by omega), if_pos ⟨h2, h4⟩]
  · intro h1 h2 h3 h4
    unfold CliOption.init
    rw [if_neg h1, if_neg (hshort h2).1, if_neg (hshort h2).2, if_pos ⟨h3, h4⟩]
  · intro h1 h2 h3 h4
    have hk := (hkind o.Holder.kind).mpr h4
    have hty : o.getType.2 ≠ none := by simp [CliOption.getType, hk]
    unfold CliOption.init
    rw [if_neg h1, if_neg (hshort h2).1, if_neg (hshort h2).2, if_neg (hlong h3), if_pos hty]
  · intro h1 h2 h3 h4 h5
    have hk : o.Holder.kind ≠ TypeUnexpected := fun hc => (hkind o.Holder.kind).mp hc h4
    have hty : ¬ o.getType.2 ≠ none := by simp [CliOption.getType, hk]
    unfold CliOption.init
    rw [if_neg h1, if_neg (hshort h2).1, if_neg (hshort h2).2, if_neg (hlong h3), if_neg hty]
    simp only [CliOption.getType_fst]
    by_cases hb : o.Holder.kind = TypeBool
    · cases hp : o.Holder.ptr with
      | none => exact absurd ⟨hb, hp⟩ h5
      | some p =>
        refine ⟨h.setBool p false, ?_⟩
        simp [CliOption.getType, hb, hp]
    · refine ⟨h, ?_⟩
      simp [CliOption.getType, hb, hk]

/-- The amended property C27 on sample values: one option for each check that fails, and the
options with a short name only, a long name only, and both names. -/
theorem C27_option_init_checks_witness :
    (⟨"", "", ⟨TypeString, some 0⟩, false⟩ : CliOption).init sampleHeap
      = some (some .errorInvalidOptionSpecificationNoName, sampleHeap) ∧
    (⟨"vh", "", ⟨TypeString, some 0⟩, false⟩ : CliOption).init sampleHeap
      = some (some (.errorShortNameTooLong "vh"), sampleHeap) ∧
    (⟨"#", "", ⟨TypeString, some 0⟩, false⟩ : CliOption).init sampleHeap
      = some (some (.errorShortNameUnexpectedCharacter "#"), sampleHeap) ∧
    (⟨"v", "v#", ⟨TypeString, some 0⟩, false⟩ : CliOption).init sampleHeap
      = some (some (.errorLongNameUnexpectedCharacter "v#"), sampleHeap) ∧
    (⟨"v", "verbose", ⟨TypeUnexpected, some 0⟩, false⟩ : CliOption).init sampleHeap
      = some (some .errorInvalidOptionSpecificationUnexpectedHolderType, sampleHeap) ∧
    (∃ h', (⟨"v", "", ⟨TypeBool, some 0⟩, false⟩ : CliOption).init sampleHeap
      = some (none, h')) ∧
    (∃ h', (⟨"", "verbose", ⟨TypeBool, some 0⟩, false⟩ : CliOption).init sampleHeap
      = some (none, h')) ∧
    (∃ h', (⟨"v", "verbose", ⟨TypeStrings, none⟩, false⟩ : CliOption).init sampleHeap
      = some (none, h')) :=
  ⟨(C27_option_init_checks ⟨"", "", ⟨TypeString, some 0⟩, false⟩ sampleHeap).1 (by decide),
    (C27_option_init_checks ⟨"vh", "", ⟨TypeString, some 0⟩, false⟩ sampleHeap).2.1
      (by decide) (by decide) (by decide),
    (C27_option_init_checks ⟨"#", "", ⟨TypeString, some 0⟩, false⟩ sampleHeap).2.2.1
      (by decide) (by decide) (by decide) (by decide),
    (C27_option_init_checks ⟨"v", "v#", ⟨TypeString, some 0⟩, false⟩ sampleHeap).2.2.2.1
      (by decide) (by decide) (by decide) (by decide),
    (C27_option_init_checks ⟨"v", "verbose", ⟨TypeUnexpected, some 0⟩, false⟩
      sampleHeap).2.2.2.2.1 (by decide) (by decide) (by decide) (by decide),
    (C27_option_init_checks ⟨"v", "", ⟨TypeBool, some 0⟩, false⟩ sampleHeap).2.2.2.2.2
      (by decide) (by decide) (by decide) (by decide) (by decide),
    (C27_option_init_checks ⟨"", "verbose", ⟨TypeBool, some 0⟩, false⟩ sampleHeap).2.2.2.2.2
      (by decide) (by decide) (by decide) (by decide) (by decide),
    (C27_option_init_checks ⟨"v", "verbose", ⟨TypeStrings, none⟩, false⟩ sampleHeap).2.2.2.2.2
      (by decide) (by decide) (by decide) (by decide) (by decide)⟩

/-! ## The conversion of a text to an integer -/

theorem decimal_foldl_ge (ds : List Char) :
    ∀ n : Nat, n ≤ ds.foldl (fun n d => n * 10 + (d.toNat - 48)) n := by
  induction ds with
  | nil => intro n; exact Nat.le_refl n
  | cons d ds ih =>
    intro n
    simp only [List.foldl_cons]
    have := ih (n * 10 + (d.toNat - 48))
    omega

theorem ParseUint.loop_ok (maxVal : Nat) (hM : maxVal < 2 ^ 64) (ds : List Char) :
    ∀ (n m : Nat), n ≤ maxVal →
      (ParseUint.loop maxVal ds n = .ok m ↔
        (ds.all fun d => 48 ≤ d.toNat && d.toNat ≤ 57) = true ∧
          ds.foldl (fun n d => n * 10 + (d.toNat - 48)) n = m ∧ m ≤ maxVal) := by
  have h64 : (2 : Nat) ^ 64 = 18446744073709551616 := by norm_num
  rw [h64] at hM
  induction ds with
  | nil =>
    intro n m hn
    simp only [ParseUint.loop, Except.ok.injEq, List.all_nil, List.foldl_nil, true_and]
    constructor
    · rintro rfl
      exact ⟨rfl, hn⟩
    · rintro ⟨rfl, _⟩
      rfl
  | cons d ds ih =>
    intro n m hn
    simp only [ParseUint.loop, List.all_cons, List.foldl_cons, Bool.and_eq_true,
      decide_eq_true_eq]
    by_cases hd : 48 ≤ d.toNat ∧ d.toNat ≤ 57
    · rw [if_pos hd]
      have hge := decimal_foldl_ge ds (n * 10 + (d.toNat - 48))
      by_cases hcut : n ≥ (2 ^ 64 - 1) / 10 + 1
      · rw [if_pos hcut]
        rw [h64] at hcut
        constructor
        · intro h0; cases h0
        · rintro ⟨_, hv, hm⟩
          omega
      · rw [if_neg hcut]
        rw [h64] at hcut
        by_cases hover : n * 10 + (d.toNat - 48) ≥ 2 ^ 64 ∨ n * 10 + (d.toNat - 48) > maxVal
        · rw [if_pos hover]
          rw [h64] at hover
          constructor
          · intro h0; cases h0
          · rintro ⟨_, hv, hm⟩
            omega
        · rw [if_neg hover]
          rw [h64] at hover
          rw [ih _ m (by omega)]
          constructor
          · rintro ⟨h1, h2, h3⟩
            exact ⟨⟨hd, h1⟩, h2, h3⟩
          · rintro ⟨⟨_, h1⟩, h2, h3⟩
            exact ⟨h1, h2, h3⟩
    · rw [if_neg hd]
      constructor
      · intro h0; cases h0
      · rintro ⟨⟨h1, _⟩, _⟩
        exact absurd h1 hd

theorem isDecimal_iff (ds : List Char) :
    isDecimal ds = true ↔ ds ≠ [] ∧ (ds.all fun d => 48 ≤ d.toNat && d.toNat ≤ 57) = true := by
  unfold isDecimal
  cases ds with
  | nil => simp
  | cons d ds => simp

theorem ParseUint_ok (P : Strconv) (s : String) (w : Nat) (hw : 0 < w) (hw64 : w ≤ 64)
    (n : Nat) :
    ParseUint P s w = .ok n ↔
      isDecimal s.data = true ∧ decimalValue s.data = n ∧ n ≤ 2 ^ w - 1 := by
  have hM : 2 ^ w - 1 < 2 ^ 64 := by
    have h1 : 2 ^ w ≤ 2 ^ 64 := Nat.pow_le_pow_right (by norm_num) hw64
    have h2 : 0 < 2 ^ w := Nat.two_pow_pos w
    omega
  have hw0 : ¬ w = 0 := by omega
  unfold ParseUint
  simp only [hw0, if_false]
  rw [isDecimal_iff]
  by_cases he : s.data = []
  · rw [if_pos he]
    constructor
    · intro h0; cases h0
    · rintro ⟨⟨h1, _⟩, _⟩
      exact absurd he h1
  · rw [if_neg he]
    have hl := ParseUint.loop_ok (2 ^ w - 1) hM s.data 0 n (Nat.zero_le _)
    unfold decimalValue
    cases hloop : ParseUint.loop (2 ^ w - 1) s.data 0 with
    | ok m =>
      simp only [Except.ok.injEq]
      constructor
      · rintro rfl
        have := hl.mp hloop
        exact ⟨⟨he, this.1⟩, this.2⟩
      · rintro ⟨⟨_, h1⟩, h2⟩
        have := hl.mpr ⟨h1, h2⟩
        rw [hloop] at this
        exact Except.ok.inj this
    | error e =>
      simp only
      constructor
      · intro h0; cases h0
      · rintro ⟨⟨_, h1⟩, h2⟩
        have := hl.mpr ⟨h1, h2⟩
        rw [hloop] at this
        cases this

theorem ParseUint_readUnsigned (P : Strconv) (s : String) (w : Nat) (hw : 0 < w)
    (hw64 : w ≤ 64) :
    (ParseUint P s w).toOption = readUnsigned w s := by
  unfold readUnsigned
  cases hp : ParseUint P s w with
  | ok n =>
    have := (ParseUint_ok P s w hw hw64 n).mp hp
    rw [if_pos ⟨this.1, by rw [this.2.1]; exact this.2.2⟩, this.2.1]
    rfl
  | error e =>
    split_ifs with hc
    · have := (ParseUint_ok P s w hw hw64 (decimalValue s.data)).mpr ⟨hc.1, rfl, hc.2⟩
      rw [hp] at this
      cases this
    · rfl

theorem ParseInt_readSigned (P : Strconv) (s : String) (w : Nat) (hw : 0 < w)
    (hw64 : w ≤ 64) :
    (ParseInt P s w).toOption = readSigned w s := by
  have hpow : 2 ^ w = 2 * 2 ^ (w - 1) := by
    obtain ⟨v, rfl⟩ : ∃ v, w = v + 1 := ⟨w - 1, by omega⟩
    simp [Nat.pow_succ, Nat.mul_comm]
  have hpos : 0 < 2 ^ (w - 1) := Nat.two_pow_pos _
  have hw0 : ¬ w = 0 := by omega
  unfold ParseInt readSigned
  cases hd : s.data with
  | nil => rfl
  | cons c r =>
    simp only [hw0, if_false]
    by_cases hneg : c = '-'
    · have hplus : ¬ c = '+' := by rw [hneg]; decide
      simp only [hneg, or_true, if_true, decide_True, Bool.not_true, Bool.false_eq_true,
        false_and, true_and]
      have hu := ParseUint_readUnsigned P (String.mk r) w hw hw64
      unfold readUnsigned at hu
      simp only at hu
      cases hp : ParseUint P (String.mk r) w with
      | error e =>
        rw [hp] at hu
        have hnot : ¬ (isDecimal r = true ∧ decimalValue r ≤ 2 ^ (w - 1)) := by
          intro hc
          rw [if_pos ⟨hc.1, by omega⟩] at hu
          cases hu
        rw [if_neg hnot]
        dsimp only
        split_ifs <;> rfl
      | ok un =>
        rw [hp] at hu
        simp only [if_false]
        by_cases hc : isDecimal r = true ∧ decimalValue r ≤ 2 ^ w - 1
        · rw [if_pos hc] at hu
          have hun : un = decimalValue r := Option.some.inj hu
          rw [hun]
          by_cases hr : decimalValue r > 2 ^ (w - 1)
          · rw [if_pos hr, if_neg (show ¬ (isDecimal r = true ∧ decimalValue r ≤ 2 ^ (w - 1))
              from fun hx => absurd hx.2 (by omega))]
            rfl
          · rw [if_neg hr, if_pos (show isDecimal r = true ∧ decimalValue r ≤ 2 ^ (w - 1)
              from ⟨hc.1, by omega⟩)]
            rfl
        · rw [if_neg hc] at hu
          cases hu
    · by_cases hplus : c = '+'
      · simp only [hneg, hplus, true_or, if_true, decide_False, Bool.not_false, true_and,
          Bool.false_eq_true, false_and, if_false]
        have hm : ¬ ('+' : Char) = '-' := by decide
        simp only [hm, if_false, decide_False, Bool.not_false, true_and, Bool.false_eq_true,
          false_and]
        have hu := ParseUint_readUnsigned P (String.mk r) w hw hw64
        unfold readUnsigned at hu
        simp only at hu
        cases hp : ParseUint P (String.mk r) w with
        | error e =>
          rw [hp] at hu
          have hnot : ¬ (isDecimal r = true ∧ decimalValue r ≤ 2 ^ (w - 1) - 1) := by
            intro hc
            rw [if_pos ⟨hc.1, by omega⟩] at hu
            cases hu
          rw [if_neg hnot]
          dsimp only
          split_ifs <;> rfl
        | ok un =>
          rw [hp] at hu
          simp only [if_false]
          by_cases hc : isDecimal r = true ∧ decimalValue r ≤ 2 ^ w - 1
          · rw [if_pos hc] at hu
            have hun : un = decimalValue r := Option.some.inj hu
            rw [hun]
            by_cases hr : decimalValue r ≥ 2 ^ (w - 1)
            · rw [if_pos hr, if_neg (show ¬ (isDecimal r = true ∧
                decimalValue r ≤ 2 ^ (w - 1) - 1) from fun hx => absurd hx.2 (by omega))]
              rfl
            · rw [if_neg hr, if_pos (show isDecimal r = true ∧
                decimalValue r ≤ 2 ^ (w - 1) - 1 from ⟨hc.1, by omega⟩)]
              rfl
          · rw [if_neg hc] at hu
            cases hu
      · simp only [hneg, hplus, or_self, if_false, decide_False, Bool.not_false, true_and,
          Bool.false_eq_true, false_and]
        have hu := ParseUint_readUnsigned P (String.mk (c :: r)) w hw hw64
        unfold readUnsigned at hu
        simp only at hu
        cases hp : ParseUint P (String.mk (c :: r)) w with
        | error e =>
          rw [hp] at hu
          have hnot : ¬ (isDecimal (c :: r) = true ∧
              decimalValue (c :: r) ≤ 2 ^ (w - 1) - 1) := by
            intro hc
            rw [if_pos ⟨hc.1, by omega⟩] at hu
            cases hu
          rw [if_neg hnot]
          dsimp only
          split_ifs <;> rfl
        | ok un =>
          rw [hp] at hu
          simp only [if_false]
          by_cases hc : isDecimal (c :: r) = true ∧ decimalValue (c :: r) ≤ 2 ^ w - 1
          · rw [if_pos hc] at hu
            have hun : un = decimalValue (c :: r) := Option.some.inj hu
            rw [hun]
            by_cases hr : decimalValue (c :: r) ≥ 2 ^ (w - 1)
            · rw [if_pos hr, if_neg (show ¬ (isDecimal (c :: r) = true ∧
                decimalValue (c :: r) ≤ 2 ^ (w - 1) - 1) from fun hx => absurd hx.2 (by omega))]
              rfl
            · rw [if_neg hr, if_pos (show isDecimal (c :: r) = true ∧
                decimalValue (c :: r) ≤ 2 ^ (w - 1) - 1 from ⟨hc.1, by omega⟩)]
              rfl
          · rw [if_neg hc] at hu
            cases hu

theorem CliOption.addInt_read (P : Strconv) (o : CliOption) (k : typeOption) (w : Nat)
    (text : String) (h : Heap) (hw : 0 < w) (hw64 : w ≤ 64) (hk : o.Holder.kind = k) :
    ∃ e o' h', o.addInt P k w text h = (e, o', h') ∧
      (e = none ↔ ∃ n, readSigned w text = some n) ∧
      ∀ n, readSigned w text = some n → ∃ p, o'.Holder = ⟨k, some p⟩ ∧
        (∀ q, o.Holder.ptr = some q → q = p) ∧ h'.ints k p = n := by
  have hr := ParseInt_readSigned P text w hw hw64
  unfold CliOption.addInt
  cases hp : o.Holder.ptr with
  | some p =>
    have hh : o.Holder = ⟨k, some p⟩ := by
      obtain ⟨S, L, ⟨k0, q⟩, s⟩ := o
      simp only at hk hp
      rw [hk, hp]
    cases hpi : ParseInt P text w with
    | error err =>
      rw [hpi] at hr
      refine ⟨some (.numError err), o, h, rfl, ?_, ?_⟩
      · constructor
        · intro h0; cases h0
        · rintro ⟨n, hn⟩
          rw [hn] at hr
          cases hr
      · intro n hn
        rw [hn] at hr
        cases hr
    | ok m =>
      rw [hpi] at hr
      refine ⟨none, o, h.setInt k p m, rfl, ?_, ?_⟩
      · exact ⟨fun _ => ⟨m, hr.symm⟩, fun _ => rfl⟩
      · intro n hn
        rw [hn] at hr
        have hmn : m = n := Option.some.inj hr
        refine ⟨p, hh, fun q hq => (Option.some.inj hq).symm, ?_⟩
        simp [Heap.setInt, hmn]
  | none =>
    cases hpi : ParseInt P text w with
    | error err =>
      rw [hpi] at hr
      refine ⟨some (.numError err), _, _, rfl, ?_, ?_⟩
      · constructor
        · intro h0; cases h0
        · rintro ⟨n, hn⟩
          rw [hn] at hr
          cases hr
      · intro n hn
        rw [hn] at hr
        cases hr
    | ok m =>
      rw [hpi] at hr
      refine ⟨none, _, _, rfl, ?_, ?_⟩
      · exact ⟨fun _ => ⟨m, hr.symm⟩, fun _ => rfl⟩
      · intro n hn
        rw [hn] at hr
        have hmn : m = n := Option.some.inj hr
        refine ⟨h.next, rfl, fun q hq => Option.noConfusion hq, ?_⟩
        simp [Heap.setInt, Heap.newInt, hmn]

theorem CliOption.addUint_read (P : Strconv) (o : CliOption) (k : typeOption) (w : Nat)
    (text : String) (h : Heap) (hw : 0 < w) (hw64 : w ≤ 64) (hk : o.Holder.kind = k) :
    ∃ e o' h', o.addUint P k w text h = (e, o', h') ∧
      (e = none ↔ ∃ n, readUnsigned w text = some n) ∧
      ∀ n, readUnsigned w text = some n → ∃ p, o'.Holder = ⟨k, some p⟩ ∧
        (∀ q, o.Holder.ptr = some q → q = p) ∧ h'.ints k p = (n : Int) := by
  have hr := ParseUint_readUnsigned P text w hw hw64
  unfold CliOption.addUint
  cases hp : o.Holder.ptr with
  | some p =>
    have hh : o.Holder = ⟨k, some p⟩ := by
      obtain ⟨S, L, ⟨k0, q⟩, s⟩ := o
      simp only at hk hp
      rw [hk, hp]
    cases hpi : ParseUint P text w with
    | error err =>
      rw [hpi] at hr
      refine ⟨some (.numError err), o, h, rfl, ?_, ?_⟩
      · constructor
        · intro h0; cases h0
        · rintro ⟨n, hn⟩
          rw [hn] at hr
          cases hr
      · intro n hn
        rw [hn] at hr
        cases hr
    | ok m =>
      rw [hpi] at hr
      refine ⟨none, o, h.setInt k p m, rfl, ?_, ?_⟩
      · exact ⟨fun _ => ⟨m, hr.symm⟩, fun _ => rfl⟩
      · intro n hn
        rw [hn] at hr
        have hmn : m = n := Option.some.inj hr
        refine ⟨p, hh, fun q hq => (Option.some.inj hq).symm, ?_⟩
        simp [Heap.setInt, hmn]
  | none =>
    cases hpi : ParseUint P text w with
    | error err =>
      rw [hpi] at hr
      refine ⟨some (.numError err), _, _, rfl, ?_, ?_⟩
      · constructor
        · intro h0; cases h0
        · rintro ⟨n, hn⟩
          rw [hn] at hr
          cases hr
      · intro n hn
        rw [hn] at hr
        cases hr
    | ok m =>
      rw [hpi] at hr
      refine ⟨none, _, _, rfl, ?_, ?_⟩
      · exact ⟨fun _ => ⟨m, hr.symm⟩, fun _ => rfl⟩
      · intro n hn
        rw [hn] at hr
        have hmn : m = n := Option.some.inj hr
        refine ⟨h.next, rfl, fun q hq => Option.noConfusion hq, ?_⟩
        simp [Heap.setInt, Heap.newInt, hmn]

/-- C29. For a holder that points to an integer of 8, 16, 32 or 64 bits, `addValue` on a text
returns no error if and only if the text denotes an integer of this type: for a signed type,
an optional sign then one decimal digit or more, with a value between `-2^(w-1)` and
`2^(w-1) - 1` (see `readSigned`); for an unsigned type, one decimal digit or more, with a value
at most `2^w - 1` (see `readUnsigned`).  The call never panics; when it returns no error, the
holder points to a variable that holds exactly this integer, and it is the variable the holder
pointed to when the holder was not nil.  The digits are read in base 10. -/
theorem C29_fixed_width_integers (P : Strconv) (o : CliOption) (text : String) (h : Heap)
    (k : typeOption) (w : Nat) (hk : o.Holder.kind = k) :
    ((k, w) ∈ [(TypeInteger8, 8), (TypeInteger16, 16), (TypeInteger32, 32),
        (TypeInteger64, 64)] →
      ∃ e o' h', o.addValue P (.string text) h = some (e, o', h') ∧
        (e = none ↔ ∃ n, readSigned w text = some n) ∧
        ∀ n, readSigned w text = some n → ∃ p, o'.Holder = ⟨k, some p⟩ ∧
          (∀ q, o.Holder.ptr = some q → q = p) ∧ h'.ints k p = n) ∧
    ((k, w) ∈ [(TypeUInteger8, 8), (TypeUInteger16, 16), (TypeUInteger32, 32),
        (TypeUInteger64, 64)] →
      ∃ e o' h', o.addValue P (.string text) h = some (e, o', h') ∧
        (e = none ↔ ∃ n, readUnsigned w text = some n) ∧
        ∀ n, readUnsigned w text = some n → ∃ p, o'.Holder = ⟨k, some p⟩ ∧
          (∀ q, o.Holder.ptr = some q → q = p) ∧ h'.ints k p = (n : Int)) := by
  constructor
  · intro hmem
    simp only [List.mem_cons, Prod.mk.injEq, List.mem_singleton, List.not_mem_nil,
      or_false] at hmem
    rcases hmem with ⟨rfl, rfl⟩ | ⟨rfl, rfl⟩ | ⟨rfl, rfl⟩ | ⟨rfl, rfl⟩
    · obtain ⟨e, o', h', ha, h1, h2⟩ :=
        CliOption.addInt_read P o TypeInteger8 8 text h (by norm_num) (by norm_num) hk
      refine ⟨e, o', h', ?_, h1, h2⟩
      unfold CliOption.addValue
      simp only [CliOption.getType_fst, hk, reduceCtorEq, if_false]
      rw [ha]
    · obtain ⟨e, o', h', ha, h1, h2⟩ :=
        CliOption.addInt_read P o TypeInteger16 16 text h (by norm_num) (by norm_num) hk
      refine ⟨e, o', h', ?_, h1, h2⟩
      unfold CliOption.addValue
      simp only [CliOption.getType_fst, hk, reduceCtorEq, if_false]
      rw [ha]
    · obtain ⟨e, o', h', ha, h1, h2⟩ :=
        CliOption.addInt_read P o TypeInteger32 32 text h (by norm_num) (by norm_num) hk
      refine ⟨e, o', h', ?_, h1, h2⟩
      unfold CliOption.addValue
      simp only [CliOption.getType_fst, hk, reduceCtorEq, if_false]
      rw [ha]
    · obtain ⟨e, o', h', ha, h1, h2⟩ :=
        CliOption.addInt_read P o TypeInteger64 64 text h (by norm_num) (by norm_num) hk
      refine ⟨e, o', h', ?_, h1, h2⟩
      unfold CliOption.addValue
      simp only [CliOption.getType_fst, hk, reduceCtorEq, if_false]
      rw [ha]
  · intro hmem
    simp only [List.mem_cons, Prod.mk.injEq, List.mem_singleton, List.not_mem_nil,
      or_false] at hmem
    rcases hmem with ⟨rfl, rfl⟩ | ⟨rfl, rfl⟩ | ⟨rfl, rfl⟩ | ⟨rfl, rfl⟩
    · obtain ⟨e, o', h', ha, h1, h2⟩ :=
        CliOption.addUint_read P o TypeUInteger8 8 text h (by norm_num) (by norm_num) hk
      refine ⟨e, o', h', ?_, h1, h2⟩
      unfold CliOption.addValue
      simp only [CliOption.getType_fst, hk, reduceCtorEq, if_false]
      rw [ha]
    · obtain ⟨e, o', h', ha, h1, h2⟩ :=
        CliOption.addUint_read P o TypeUInteger16 16 text h (by norm_num) (by norm_num) hk
      refine ⟨e, o', h', ?_, h1, h2⟩
      unfold CliOption.addValue
      simp only [CliOption.getType_fst, hk, reduceCtorEq, if_false]
      rw [ha]
    · obtain ⟨e, o', h', ha, h1, h2⟩ :=
        CliOption.addUint_read P o TypeUInteger32 32 text h (by norm_num) (by norm_num) hk
      refine ⟨e, o', h', ?_, h1, h2⟩
      unfold CliOption.addValue
      simp only [CliOption.getType_fst, hk, reduceCtorEq, if_false]
      rw [ha]
    · obtain ⟨e, o', h', ha, h1, h2⟩ :=
        CliOption.addUint_read P o TypeUInteger64 64 text h (by norm_num) (by norm_num) hk
      refine ⟨e, o', h', ?_, h1, h2⟩
      unfold CliOption.addValue
      simp only [CliOption.getType_fst, hk, reduceCtorEq, if_false]
      rw [ha]

/-- The property C29 on sample values: the texts `127` and `128` for a holder of type `int8`,
the texts `255` and `256` for a holder of type `uint8`. -/
theorem C29_fixed_width_integers_witness :
    (∃ e o' h', (⟨"n", "int8", ⟨TypeInteger8, some 0⟩, false⟩ : CliOption).addValue
          sampleStrconv (.string "127") sampleHeap = some (e, o', h') ∧
        (e = none ↔ ∃ n, readSigned 8 "127" = some n) ∧
        ∀ n, readSigned 8 "127" = some n → ∃ p, o'.Holder = ⟨TypeInteger8, some p⟩ ∧
          (∀ q, (⟨"n", "int8", ⟨TypeInteger8, some 0⟩, false⟩ : CliOption).Holder.ptr = some q →
            q = p) ∧ h'.ints TypeInteger8 p = n) ∧
    (∃ e o' h', (⟨"u", "uint8", ⟨TypeUInteger8, some 0⟩, false⟩ : CliOption).addValue
          sampleStrconv (.string "256") sampleHeap = some (e, o', h') ∧
        (e = none ↔ ∃ n, readUnsigned 8 "256" = some n) ∧
        ∀ n, readUnsigned 8 "256" = some n → ∃ p, o'.Holder = ⟨TypeUInteger8, some p⟩ ∧
          (∀ q, (⟨"u", "uint8", ⟨TypeUInteger8, some 0⟩, false⟩ : CliOption).Holder.ptr
            = some q → q = p) ∧ h'.ints TypeUInteger8 p = (n : Int)) ∧
    readSigned 8 "127" = some 127 ∧ readSigned 8 "128" = none ∧
    readSigned 8 "-128" = some (-128) ∧ readSigned 8 "+7" = some 7 ∧
    readUnsigned 8 "255" = some 255 ∧ readUnsigned 8 "256" = none ∧
    readUnsigned 8 "+7" = none ∧ readSigned 8 "0x10" = none ∧
    (⟨"n", "int8", ⟨TypeInteger8, some 0⟩, false⟩ : CliOption).addValue
        sampleStrconv (.string "127") sampleHeap
      = some (none, ⟨"n", "int8", ⟨TypeInteger8, some 0⟩, false⟩,
          sampleHeap.setInt TypeInteger8 0 127) ∧
    (⟨"n", "int8", ⟨TypeInteger8, some 0⟩, false⟩ : CliOption).addValue
        sampleStrconv (.string "128") sampleHeap
      = some (some (.numError ⟨"ParseInt", "128", .ErrRange⟩),
          ⟨"n", "int8", ⟨TypeInteger8, some 0⟩, false⟩, sampleHeap) :=
  ⟨(C29_fixed_width_integers sampleStrconv ⟨"n", "int8", ⟨TypeInteger8, some 0⟩, false⟩ "127"
      sampleHeap TypeInteger8 8 rfl).1 (by decide),
    (C29_fixed_width_integers sampleStrconv ⟨"u", "uint8", ⟨TypeUInteger8, some 0⟩, false⟩ "256"
      sampleHeap TypeUInteger8 8 rfl).2 (by decide),
    by decide, by decide, by decide, by decide, by decide, by decide, by decide, by decide,
    rfl, rfl⟩

/-! ## The result of `Spec.init` -/

theorem CliOption.init_heap (o : CliOption) (h h2 : Heap) :
    (o.init h).map (fun x => x.1) = (o.init h2).map (fun x => x.1) := by
  unfold CliOption.init
  split_ifs <;> try rfl
  all_goals
    simp only
    split_ifs <;> try rfl
    split <;> rfl

theorem CliOption.init_accepted (o : CliOption) (h h1 : Heap)
    (hi : o.init h = some (none, h1)) : o.accepted := by
  intro h2
  have := CliOption.init_heap o h h2
  rw [hi] at this
  cases h2i : o.init h2 with
  | none => rw [h2i] at this; cases this
  | some r =>
    obtain ⟨e, h3⟩ := r
    rw [h2i] at this
    simp only [Option.map_some', Option.some.injEq] at this
    exact ⟨h3, by rw [← this]⟩

theorem CliOption.init_rejected (o : CliOption) (h h1 : Heap) (cause : Error)
    (hi : o.init h = some (some cause, h1)) :
    (∀ h0 : Heap, ∃ h2, o.init h0 = some (some cause, h2)) ∧ ¬ o.accepted := by
  have key : ∀ h0 : Heap, ∃ h2, o.init h0 = some (some cause, h2) := by
    intro h2
    have := CliOption.init_heap o h h2
    rw [hi] at this
    cases h2i : o.init h2 with
    | none => rw [h2i] at this; cases this
    | some r =>
      obtain ⟨e, h3⟩ := r
      rw [h2i] at this
      simp only [Option.map_some', Option.some.injEq] at this
      exact ⟨h3, by rw [← this]⟩
  refine ⟨key, fun hacc => ?_⟩
  obtain ⟨h2, h2i⟩ := hacc h
  rw [hi] at h2i
  cases h2i

theorem MapOf.isSome_iff {κ : Type} [BEq κ] {f : CliOption → Option κ}
    {done : List CliOption} {m : List (κ × Nat)} (hm : MapOf f done m) (k : κ) :
    (m.lookup k).isSome = true ↔
      ∃ (j : Nat) (a : CliOption), j < done.length ∧ done[j]? = some a ∧ f a = some k := by
  constructor
  · intro hs
    obtain ⟨j, hj⟩ := Option.isSome_iff_exists.mp hs
    obtain ⟨a, ha, hfa⟩ := (hm k j).mp hj
    exact ⟨j, a, (List.getElem?_eq_some.mp ha).1, ha, hfa⟩
  · rintro ⟨j, a, _, ha, hfa⟩
    rw [(hm k j).mpr ⟨a, ha, hfa⟩]
    rfl

theorem List.lookup_isSome_of_mem (l : List (String × Nat)) (k : String)
    (h : k ∈ l.map Prod.fst) : (l.lookup k).isSome = true := by
  induction l with
  | nil => cases h
  | cons x l ih =>
    obtain ⟨k', v⟩ := x
    rw [List.lookup_cons]
    by_cases hk : k = k'
    · simp [hk]
    · have hb : (k == k') = false := by simpa using hk
      simp only [hb]
      apply ih
      simp only [List.map_cons, List.mem_cons] at h
      rcases h with h | h
      · exact absurd h hk
      · exact h

theorem Spec.initLoop_ok (rest : List CliOption) :
    ∀ (n : Nat) (shorts longs : List (String × Nat)) (holders : List (Holder × Nat))
      (h h' : Heap) (index : specIndex),
      Spec.initLoop n rest shorts longs holders h = some (.ok index, h') →
      (∀ o ∈ rest, o.accepted) ∧
      index.Short.length = shorts.length + (rest.filter fun o => decide (o.Short ≠ "")).length ∧
      index.Long.length = longs.length + (rest.filter fun o => decide (o.Long ≠ "")).length ∧
      ((shorts.map Prod.fst).Nodup → (index.Short.map Prod.fst).Nodup) ∧
      ((longs.map Prod.fst).Nodup → (index.Long.map Prod.fst).Nodup) := by
  induction rest with
  | nil =>
    intro n shorts longs holders h h' index hi
    simp only [Spec.initLoop, Option.some.injEq, Prod.mk.injEq, Except.ok.injEq] at hi
    obtain ⟨rfl, _⟩ := hi
    exact ⟨fun o ho => absurd ho (List.not_mem_nil o), by simp, by simp, fun x => x, fun x => x⟩
  | cons o rest ih =>
    intro n shorts longs holders h h' index hi
    rw [Spec.initLoop] at hi
    cases hoi : o.init h with
    | none => rw [hoi] at hi; cases hi
    | some r =>
      obtain ⟨e, h1⟩ := r
      cases e with
      | some err => rw [hoi] at hi; simp at hi
      | none =>
        rw [hoi] at hi
        simp only at hi
        by_cases c1 : o.Short ≠ "" ∧ (List.lookup o.Short shorts).isSome = true
        · rw [if_pos c1] at hi; simp at hi
        rw [if_neg c1] at hi
        by_cases c2 : o.Long ≠ "" ∧ (List.lookup o.Long longs).isSome = true
        · rw [if_pos c2] at hi; simp at hi
        rw [if_neg c2] at hi
        by_cases c3 : (List.lookup o.Holder holders).isSome = true
        · rw [if_pos c3] at hi; simp at hi
        rw [if_neg c3] at hi
        obtain ⟨ha, hs, hl, hsn, hln⟩ := ih _ _ _ _ _ _ _ hi
        refine ⟨?_, ?_, ?_, ?_, ?_⟩
        · intro a hmem
          rcases List.mem_cons.mp hmem with heq | hmem
          · rw [heq]; exact CliOption.init_accepted o h h1 hoi
          · exact ha a hmem
        · rw [hs]
          by_cases hn : o.Short = ""
          · simp [hn]
          · simp [hn]; omega
        · rw [hl]
          by_cases hn : o.Long = ""
          · simp [hn]
          · simp [hn]; omega
        · intro hnd
          apply hsn
          by_cases hn : o.Short = ""
          · simpa [hn] using hnd
          · simp only [hn, ne_eq, not_false_eq_true, if_true, List.map_cons, List.nodup_cons]
            refine ⟨fun hmem => c1 ⟨hn, List.lookup_isSome_of_mem _ _ hmem⟩, hnd⟩
        · intro hnd
          apply hln
          by_cases hn : o.Long = ""
          · simpa [hn] using hnd
          · simp only [hn, ne_eq, not_false_eq_true, if_true, List.map_cons, List.nodup_cons]
            refine ⟨fun hmem => c2 ⟨hn, List.lookup_isSome_of_mem _ _ hmem⟩, hnd⟩

theorem Spec.JointlyValid.of_append {a b : List CliOption}
    (hv : Spec.JointlyValid (a ++ b)) : Spec.JointlyValid a := by
  have hget : ∀ (i : Nat) (x : CliOption), a[i]? = some x → (a ++ b)[i]? = some x := by
    intro i x hx
    rw [List.getElem?_append_left (List.getElem?_eq_some.mp hx).1]
    exact hx
  exact ⟨fun o ho => hv.accepted o (List.mem_append_left _ ho),
    fun i j x y hx hy => hv.shorts i j x y (hget i x hx) (hget j y hy),
    fun i j x y hx hy => hv.longs i j x y (hget i x hx) (hget j y hy),
    fun i j x y hx hy => hv.holders i j x y (hget i x hx) (hget j y hy)⟩

theorem Spec.initLoop_total (rest : List CliOption) :
    ∀ (done : List CliOption) (shorts longs : List (String × Nat))
      (holders : List (Holder × Nat)) (h : Heap),
      MapOf shortKey done shorts → MapOf longKey done longs →
      MapOf (fun o => some o.Holder) done holders →
      Spec.JointlyValid (done ++ rest) →
      ∃ index h', Spec.initLoop done.length rest shorts longs holders h
        = some (.ok index, h') := by
  induction rest with
  | nil =>
    intro done shorts longs holders h _ _ _ _
    exact ⟨⟨shorts, longs⟩, h, rfl⟩
  | cons o rest ih =>
    intro done shorts longs holders h hs hl hh hv
    have ho : (done ++ o :: rest)[done.length]? = some o := by
      rw [List.getElem?_append_right (Nat.le_refl _)]
      simp
    have hget : ∀ (j : Nat) (a : CliOption), done[j]? = some a →
        (done ++ o :: rest)[j]? = some a ∧ j ≠ done.length := by
      intro j a ha
      have hj := (List.getElem?_eq_some.mp ha).1
      rw [List.getElem?_append_left hj]
      exact ⟨ha, by omega⟩
    obtain ⟨h1, hoi⟩ := hv.accepted o (by simp) h
    have c1 : ¬ (o.Short ≠ "" ∧ (List.lookup o.Short shorts).isSome = true) := by
      rintro ⟨hne, hsome⟩
      obtain ⟨j, a, _, ha, hfa⟩ := (hs.isSome_iff o.Short).mp hsome
      have hsa : a.Short = o.Short := by
        unfold shortKey at hfa
        split_ifs at hfa
        exact Option.some.inj hfa
      obtain ⟨h1, h2⟩ := hget j a ha
      exact h2 (hv.shorts j done.length a o h1 ho (by rw [hsa]; exact hne) hsa)
    have c2 : ¬ (o.Long ≠ "" ∧ (List.lookup o.Long longs).isSome = true) := by
      rintro ⟨hne, hsome⟩
      obtain ⟨j, a, _, ha, hfa⟩ := (hl.isSome_iff o.Long).mp hsome
      have hsa : a.Long = o.Long := by
        unfold longKey at hfa
        split_ifs at hfa
        exact Option.some.inj hfa
      obtain ⟨h1, h2⟩ := hget j a ha
      exact h2 (hv.longs j done.length a o h1 ho (by rw [hsa]; exact hne) hsa)
    have c3 : ¬ (List.lookup o.Holder holders).isSome = true := by
      intro hsome
      obtain ⟨j, a, _, ha, hfa⟩ := (hh.isSome_iff o.Holder).mp hsome
      obtain ⟨h1, h2⟩ := hget j a ha
      exact h2 (hv.holders j done.length a o h1 ho (Option.some.inj hfa))
    have hlen : (done ++ [o]).length = done.length + 1 := by simp
    have hs' : MapOf shortKey (done ++ [o])
        (if o.Short ≠ "" then (o.Short, done.length) :: shorts else shorts) := by
      by_cases hn : o.Short = ""
      · simp only [hn, ne_eq, not_true_eq_false, if_false]
        exact MapOf.step_none hs (by simp [shortKey, hn])
      · simp only [hn, ne_eq, not_false_eq_true, if_true]
        exact MapOf.step_some hs (by simp [shortKey, hn]) (fun hh => c1 ⟨hn, hh⟩)
    have hl' : MapOf longKey (done ++ [o])
        (if o.Long ≠ "" then (o.Long, done.length) :: longs else longs) := by
      by_cases hn : o.Long = ""
      · simp only [hn, ne_eq, not_true_eq_false, if_false]
        exact MapOf.step_none hl (by simp [longKey, hn])
      · simp only [hn, ne_eq, not_false_eq_true, if_true]
        exact MapOf.step_some hl (by simp [longKey, hn]) (fun hh => c2 ⟨hn, hh⟩)
    have hh' : MapOf (fun o => some o.Holder) (done ++ [o])
        ((o.Holder, done.length) :: holders) :=
      MapOf.step_some hh rfl c3
    have hv' : Spec.JointlyValid ((done ++ [o]) ++ rest) := by
      rw [List.append_assoc]
      exact hv
    obtain ⟨index, h', hrec⟩ := ih (done ++ [o]) _ _ _ h1 hs' hl' hh' hv'
    refine ⟨index, h', ?_⟩
    rw [Spec.initLoop, hoi]
    simp only
    rw [if_neg c1, if_neg c2, if_neg c3, ← hlen]
    exact hrec

theorem shortKey_eq_some (a : CliOption) (name : String) :
    shortKey a = some name ↔ a.Short = name ∧ name ≠ "" := by
  unfold shortKey
  constructor
  · intro h
    split_ifs at h with hne
    have := Option.some.inj h
    exact ⟨this, by rw [← this]; exact hne⟩
  · rintro ⟨rfl, hne⟩
    rw [if_pos hne]

theorem longKey_eq_some (a : CliOption) (name : String) :
    longKey a = some name ↔ a.Long = name ∧ name ≠ "" := by
  unfold longKey
  constructor
  · intro h
    split_ifs at h with hne
    have := Option.some.inj h
    exact ⟨this, by rw [← this]; exact hne⟩
  · rintro ⟨rfl, hne⟩
    rw [if_pos hne]

theorem MapOf.short_dup_iff {done : List CliOption} {m : List (String × Nat)}
    (hm : MapOf shortKey done m) (tail : List CliOption) (name : String) :
    (name ≠ "" ∧ (m.lookup name).isSome = true) ↔
      Spec.shortDeclaredBefore (done ++ tail) done.length name := by
  unfold Spec.shortDeclaredBefore
  constructor
  · rintro ⟨hne, hs⟩
    obtain ⟨j, a, hj, ha, hfa⟩ := (hm.isSome_iff name).mp hs
    refine ⟨hne, j, a, hj, ?_, ((shortKey_eq_some a name).mp hfa).1⟩
    rw [List.getElem?_append_left hj]
    exact ha
  · rintro ⟨hne, j, a, hj, ha, hsa⟩
    rw [List.getElem?_append_left hj] at ha
    exact ⟨hne, (hm.isSome_iff name).mpr ⟨j, a, hj, ha, (shortKey_eq_some a name).mpr ⟨hsa, hne⟩⟩⟩

theorem MapOf.long_dup_iff {done : List CliOption} {m : List (String × Nat)}
    (hm : MapOf longKey done m) (tail : List CliOption) (name : String) :
    (name ≠ "" ∧ (m.lookup name).isSome = true) ↔
      Spec.longDeclaredBefore (done ++ tail) done.length name := by
  unfold Spec.longDeclaredBefore
  constructor
  · rintro ⟨hne, hs⟩
    obtain ⟨j, a, hj, ha, hfa⟩ := (hm.isSome_iff name).mp hs
    refine ⟨hne, j, a, hj, ?_, ((longKey_eq_some a name).mp hfa).1⟩
    rw [List.getElem?_append_left hj]
    exact ha
  · rintro ⟨hne, j, a, hj, ha, hsa⟩
    rw [List.getElem?_append_left hj] at ha
    exact ⟨hne, (hm.isSome_iff name).mpr ⟨j, a, hj, ha, (longKey_eq_some a name).mpr ⟨hsa, hne⟩⟩⟩

theorem MapOf.holder_dup_iff {done : List CliOption} {m : List (Holder × Nat)}
    (hm : MapOf (fun o => some o.Holder) done m) (tail : List CliOption) (hd : Holder) :
    (m.lookup hd).isSome = true ↔ Spec.holderBoundBefore (done ++ tail) done.length hd := by
  unfold Spec.holderBoundBefore
  constructor
  · intro hs
    obtain ⟨j, a, hj, ha, hfa⟩ := (hm.isSome_iff hd).mp hs
    refine ⟨j, a, hj, ?_, Option.some.inj hfa⟩
    rw [List.getElem?_append_left hj]
    exact ha
  · rintro ⟨j, a, hj, ha, hsa⟩
    rw [List.getElem?_append_left hj] at ha
    exact (hm.isSome_iff hd).mpr ⟨j, a, hj, ha, by rw [hsa]⟩

theorem Spec.JointlyValid.snoc {done : List CliOption} {o : CliOption}
    (hv : Spec.JointlyValid done) (hacc : o.accepted)
    (hs : ¬ Spec.shortDeclaredBefore (done ++ [o]) done.length o.Short)
    (hl : ¬ Spec.longDeclaredBefore (done ++ [o]) done.length o.Long)
    (hh : ¬ Spec.holderBoundBefore (done ++ [o]) done.length o.Holder) :
    Spec.JointlyValid (done ++ [o]) := by
  have hcase : ∀ (i : Nat) (a : CliOption), (done ++ [o])[i]? = some a →
      (i < done.length ∧ done[i]? = some a) ∨ (i = done.length ∧ a = o) := by
    intro i a ha
    rcases Nat.lt_or_ge i done.length with hi | hi
    · left
      rw [List.getElem?_append_left hi] at ha
      exact ⟨hi, ha⟩
    · right
      rw [List.getElem?_append_right hi] at ha
      cases hd : i - done.length with
      | zero =>
        rw [hd] at ha
        simp only [List.getElem?_cons_zero, Option.some.injEq] at ha
        exact ⟨by omega, ha.symm⟩
      | succ n => rw [hd] at ha; simp at ha
  refine ⟨?_, ?_, ?_, ?_⟩
  · intro a ha
    rcases List.mem_append.mp ha with ha | ha
    · exact hv.accepted a ha
    · rw [List.mem_singleton.mp ha]; exact hacc
  · intro i j a b ha hb hne hab
    rcases hcase i a ha with ⟨hi, ha'⟩ | ⟨hi, rfl⟩ <;> rcases hcase j b hb with ⟨hj, hb'⟩ | ⟨hj, rfl⟩
    · exact hv.shorts i j a b ha' hb' hne hab
    · exact absurd ⟨by rw [← hab]; exact hne, i, a, hi, ha, hab⟩ hs
    · exact absurd ⟨hne, j, b, hj, hb, hab.symm⟩ hs
    · rw [hi, hj]
  · intro i j a b ha hb hne hab
    rcases hcase i a ha with ⟨hi, ha'⟩ | ⟨hi, rfl⟩ <;> rcases hcase j b hb with ⟨hj, hb'⟩ | ⟨hj, rfl⟩
    · exact hv.longs i j a b ha' hb' hne hab
    · exact absurd ⟨by rw [← hab]; exact hne, i, a, hi, ha, hab⟩ hl
    · exact absurd ⟨hne, j, b, hj, hb, hab.symm⟩ hl
    · rw [hi, hj]
  · intro i j a b ha hb hab
    rcases hcase i a ha with ⟨hi, ha'⟩ | ⟨hi, rfl⟩ <;> rcases hcase j b hb with ⟨hj, hb'⟩ | ⟨hj, rfl⟩
    · exact hv.holders i j a b ha' hb' hab
    · exact absurd ⟨i, a, hi, ha, hab⟩ hh
    · exact absurd ⟨j, b, hj, hb, hab.symm⟩ hh
    · rw [hi, hj]

theorem Spec.declaredBefore_snoc (done tail : List CliOption) (o : CliOption) :
    (∀ name, Spec.shortDeclaredBefore (done ++ o :: tail) done.length name ↔
      Spec.shortDeclaredBefore (done ++ [o]) done.length name) ∧
    (∀ name, Spec.longDeclaredBefore (done ++ o :: tail) done.length name ↔
      Spec.longDeclaredBefore (done ++ [o]) done.length name) ∧
    (∀ hd, Spec.holderBoundBefore (done ++ o :: tail) done.length hd ↔
      Spec.holderBoundBefore (done ++ [o]) done.length hd) := by
  have hget : ∀ (j : Nat), j < done.length →
      (done ++ o :: tail)[j]? = (done ++ [o])[j]? := by
    intro j hj
    rw [List.getElem?_append_left hj, List.getElem?_append_left hj]
  refine ⟨fun name => ?_, fun name => ?_, fun hd => ?_⟩
  · unfold Spec.shortDeclaredBefore
    constructor
    · rintro ⟨hne, j, a, hj, ha, hs⟩
      exact ⟨hne, j, a, hj, by rw [← hget j hj]; exact ha, hs⟩
    · rintro ⟨hne, j, a, hj, ha, hs⟩
      exact ⟨hne, j, a, hj, by rw [hget j hj]; exact ha, hs⟩
  · unfold Spec.longDeclaredBefore
    constructor
    · rintro ⟨hne, j, a, hj, ha, hs⟩
      exact ⟨hne, j, a, hj, by rw [← hget j hj]; exact ha, hs⟩
    · rintro ⟨hne, j, a, hj, ha, hs⟩
      exact ⟨hne, j, a, hj, by rw [hget j hj]; exact ha, hs⟩
  · unfold Spec.holderBoundBefore
    constructor
    · rintro ⟨j, a, hj, ha, hs⟩
      exact ⟨j, a, hj, by rw [← hget j hj]; exact ha, hs⟩
    · rintro ⟨j, a, hj, ha, hs⟩
      exact ⟨j, a, hj, by rw [hget j hj]; exact ha, hs⟩

theorem Spec.initLoop_error (rest : List CliOption) :
    ∀ (done : List CliOption) (shorts longs : List (String × Nat))
      (holders : List (Holder × Nat)) (h h' : Heap) (e : Error),
      MapOf shortKey done shorts → MapOf longKey done longs →
      MapOf (fun o => some o.Holder) done holders → Spec.JointlyValid done →
      Spec.initLoop done.length rest shorts longs holders h = some (.error e, h') →
      ∃ (i : Nat) (o : CliOption), (done ++ rest)[i]? = some o ∧
        Spec.JointlyValid ((done ++ rest).take i) ∧ Spec.firstFailure (done ++ rest) i o e := by
  induction rest with
  | nil =>
    intro done shorts longs holders h h' e _ _ _ _ hi
    simp [Spec.initLoop] at hi
  | cons o rest ih =>
    intro done shorts longs holders h h' e hs hl hh hv hi
    have ho : (done ++ o :: rest)[done.length]? = some o := by
      rw [List.getElem?_append_right (Nat.le_refl _)]
      simp
    have htake : (done ++ o :: rest).take done.length = done := by simp
    rw [Spec.initLoop] at hi
    cases hoi : o.init h with
    | none => rw [hoi] at hi; cases hi
    | some r =>
      obtain ⟨c, h1⟩ := r
      rw [hoi] at hi
      cases c with
      | some cause =>
        simp only [Option.some.injEq, Prod.mk.injEq, Except.error.injEq] at hi
        refine ⟨done.length, o, ho, by rw [htake]; exact hv, Or.inl ⟨cause, ?_, hi.1.symm⟩⟩
        exact (CliOption.init_rejected o h h1 cause hoi).1
      | none =>
        simp only at hi
        have hacc := CliOption.init_accepted o h h1 hoi
        by_cases c1 : o.Short ≠ "" ∧ (List.lookup o.Short shorts).isSome = true
        · rw [if_pos c1] at hi
          simp only [Option.some.injEq, Prod.mk.injEq, Except.error.injEq] at hi
          exact ⟨done.length, o, ho, by rw [htake]; exact hv,
            Or.inr (Or.inl ⟨hacc, (hs.short_dup_iff _ _).mp c1, hi.1.symm⟩)⟩
        rw [if_neg c1] at hi
        have n1 := fun hx => c1 ((hs.short_dup_iff (o :: rest) o.Short).mpr hx)
        by_cases c2 : o.Long ≠ "" ∧ (List.lookup o.Long longs).isSome = true
        · rw [if_pos c2] at hi
          simp only [Option.some.injEq, Prod.mk.injEq, Except.error.injEq] at hi
          exact ⟨done.length, o, ho, by rw [htake]; exact hv,
            Or.inr (Or.inr (Or.inl ⟨hacc, n1, (hl.long_dup_iff _ _).mp c2, hi.1.symm⟩))⟩
        rw [if_neg c2] at hi
        have n2 := fun hx => c2 ((hl.long_dup_iff (o :: rest) o.Long).mpr hx)
        by_cases c3 : (List.lookup o.Holder holders).isSome = true
        · rw [if_pos c3] at hi
          simp only [Option.some.injEq, Prod.mk.injEq, Except.error.injEq] at hi
          exact ⟨done.length, o, ho, by rw [htake]; exact hv,
            Or.inr (Or.inr (Or.inr ⟨hacc, n1, n2, (hh.holder_dup_iff _ _).mp c3, hi.1.symm⟩))⟩
        rw [if_neg c3] at hi
        have hlen : (done ++ [o]).length = done.length + 1 := by simp
        have hs' : MapOf shortKey (done ++ [o])
            (if o.Short ≠ "" then (o.Short, done.length) :: shorts else shorts) := by
          by_cases hn : o.Short = ""
          · simp only [hn, ne_eq, not_true_eq_false, if_false]
            exact MapOf.step_none hs (by simp [shortKey, hn])
          · simp only [hn, ne_eq, not_false_eq_true, if_true]
            exact MapOf.step_some hs (by simp [shortKey, hn]) (fun hh => c1 ⟨hn, hh⟩)
        have hl' : MapOf longKey (done ++ [o])
            (if o.Long ≠ "" then (o.Long, done.length) :: longs else longs) := by
          by_cases hn : o.Long = ""
          · simp only [hn, ne_eq, not_true_eq_false, if_false]
            exact MapOf.step_none hl (by simp [longKey, hn])
          · simp only [hn, ne_eq, not_false_eq_true, if_true]
            exact MapOf.step_some hl (by simp [longKey, hn]) (fun hh => c2 ⟨hn, hh⟩)
        have hh' : MapOf (fun o => some o.Holder) (done ++ [o])
            ((o.Holder, done.length) :: holders) :=
          MapOf.step_some hh rfl c3
        have hv' : Spec.JointlyValid (done ++ [o]) :=
          hv.snoc hacc
            (fun hx => c1 ((hs.short_dup_iff [o] o.Short).mpr hx))
            (fun hx => c2 ((hl.long_dup_iff [o] o.Long).mpr hx))
            (fun hx => c3 ((hh.holder_dup_iff [o] o.Holder).mpr hx))
        rw [← hlen] at hi
        have hrec := ih (done ++ [o]) _ _ _ h1 h' e hs' hl' hh' hv' hi
        have happ : (done ++ [o]) ++ rest = done ++ o :: rest := by simp
        rw [happ] at hrec
        exact hrec

theorem Spec.JointlyValid.take {spec : Spec} (hv : Spec.JointlyValid spec) (k : Nat) :
    Spec.JointlyValid (spec.take k) := by
  have : spec = spec.take k ++ spec.drop k := (List.take_append_drop k spec).symm
  rw [this] at hv
  exact hv.of_append

theorem Spec.JointlyValid.empty : Spec.JointlyValid [] :=
  ⟨fun o ho => absurd ho (List.not_mem_nil o), fun i j a b ha => by simp at ha,
    fun i j a b ha => by simp at ha, fun i j a b ha => by simp at ha⟩

/-- C25. `Spec.init` returns an index if and only if the options are jointly valid: every
option passes `Option.init`, the short names that are not empty are pairwise distinct, the long
names that are not empty are pairwise distinct, and the holders are pairwise distinct.  The
index it returns binds a short name to a position if and only if the name is not empty and is
the short name of the option at this position, and likewise for the long names; each map has
one entry per option that declares a name of its kind, and no key twice. -/
theorem C25_spec_init_iff (spec : Spec) (h : Heap) :
    ((∃ index h', Spec.init spec h = some (.ok index, h')) ↔ Spec.JointlyValid spec) ∧
    (∀ (index : specIndex) (h' : Heap), Spec.init spec h = some (.ok index, h') →
      (∀ (name : String) (j : Nat), index.getShortByName name = some j ↔
        ∃ o, spec[j]? = some o ∧ o.Short = name ∧ name ≠ "") ∧
      (∀ (name : String) (j : Nat), index.getLongByName name = some j ↔
        ∃ o, spec[j]? = some o ∧ o.Long = name ∧ name ≠ "") ∧
      index.Short.length = (spec.filter fun o => decide (o.Short ≠ "")).length ∧
      index.Long.length = (spec.filter fun o => decide (o.Long ≠ "")).length ∧
      (index.Short.map Prod.fst).Nodup ∧ (index.Long.map Prod.fst).Nodup) := by
  constructor
  · constructor
    · rintro ⟨index, h', hi⟩
      have hv := Spec.init_valid spec h h' index hi
      have hok := Spec.initLoop_ok spec 0 [] [] [] h h' index hi
      refine ⟨hok.1, ?_, ?_, hv.holders⟩
      · intro i j a b ha hb hne hab
        exact MapOf.unique hv.shorts ha hb ((shortKey_eq_some a a.Short).mpr ⟨rfl, hne⟩)
          ((shortKey_eq_some b a.Short).mpr ⟨hab.symm, hne⟩)
      · intro i j a b ha hb hne hab
        exact MapOf.unique hv.longs ha hb ((longKey_eq_some a a.Long).mpr ⟨rfl, hne⟩)
          ((longKey_eq_some b a.Long).mpr ⟨hab.symm, hne⟩)
    · intro hv
      exact Spec.initLoop_total spec [] [] [] [] h (MapOf.nil _) (MapOf.nil _) (MapOf.nil _)
        (by simpa using hv)
  · intro index h' hi
    have hv := Spec.init_valid spec h h' index hi
    have hok := Spec.initLoop_ok spec 0 [] [] [] h h' index hi
    refine ⟨?_, ?_, by simpa using hok.2.1, by simpa using hok.2.2.1,
      hok.2.2.2.1 (by simp), hok.2.2.2.2 (by simp)⟩
    · intro name j
      rw [specIndex.getShortByName, hv.shorts name j]
      constructor
      · rintro ⟨o, ho, hk⟩
        exact ⟨o, ho, (shortKey_eq_some o name).mp hk⟩
      · rintro ⟨o, ho, hk⟩
        exact ⟨o, ho, (shortKey_eq_some o name).mpr hk⟩
    · intro name j
      rw [specIndex.getLongByName, hv.longs name j]
      constructor
      · rintro ⟨o, ho, hk⟩
        exact ⟨o, ho, (longKey_eq_some o name).mp hk⟩
      · rintro ⟨o, ho, hk⟩
        exact ⟨o, ho, (longKey_eq_some o name).mpr hk⟩

/-- C26. When `Spec.init` returns an error, there is a position `i` such that the options
before `i` are jointly valid, and so is every shorter prefix, whereas the options up to `i`
included are not; the error carries `i` and is the one of the first check that fails for the
option at `i` (see `Spec.firstFailure`): an invalid definition with the cause returned by
`Option.init`, else a short name declared before, else a long name declared before, else a
holder bound before. -/
theorem C26_first_failure (spec : Spec) (h h' : Heap) (e : Error)
    (hfail : Spec.init spec h = some (.error e, h')) :
    ∃ (i : Nat) (o : CliOption), spec[i]? = some o ∧
      (∀ k ≤ i, Spec.JointlyValid (spec.take k)) ∧
      ¬ Spec.JointlyValid (spec.take (i + 1)) ∧
      Spec.firstFailure spec i o e := by
  obtain ⟨i, o, ho, hv, hf⟩ :=
    Spec.initLoop_error spec [] [] [] [] h h' e (MapOf.nil _) (MapOf.nil _) (MapOf.nil _)
      Spec.JointlyValid.empty hfail
  simp only [List.nil_append] at ho hv hf
  have hi : i < spec.length := (List.getElem?_eq_some.mp ho).1
  have hoi : (spec.take (i + 1))[i]? = some o := by
    rw [List.getElem?_take_of_lt (by omega)]
    exact ho
  have hget : ∀ (j : Nat) (a : CliOption), j < i → spec[j]? = some a →
      (spec.take (i + 1))[j]? = some a := by
    intro j a hj ha
    rw [List.getElem?_take_of_lt (by omega)]
    exact ha
  refine ⟨i, o, ho, ?_, ?_, hf⟩
  · intro k hk
    have : spec.take k = (spec.take i).take k := by
      rw [List.take_take, Nat.min_eq_left hk]
    rw [this]
    exact hv.take k
  · intro hv1
    rcases hf with ⟨cause, hc, _⟩ | ⟨_, ⟨hne, j, a, hj, ha, hs⟩, _⟩ |
      ⟨_, _, ⟨hne, j, a, hj, ha, hs⟩, _⟩ | ⟨_, _, _, ⟨j, a, hj, ha, hs⟩, _⟩
    · obtain ⟨h1, hh1⟩ := hc h
      obtain ⟨h2, hh2⟩ := hv1.accepted o (List.mem_iff_getElem?.mpr ⟨i, hoi⟩) h
      rw [hh1] at hh2
      cases hh2
    · have := hv1.shorts j i a o (hget j a hj ha) hoi (by rw [hs]; exact hne) hs
      omega
    · have := hv1.longs j i a o (hget j a hj ha) hoi (by rw [hs]; exact hne) hs
      omega
    · have := hv1.holders j i a o (hget j a hj ha) hoi hs
      omega

/-- The property C25 on the sample specification and the index `Spec.init` returns for it. -/
theorem C25_spec_init_iff_witness :
    Spec.JointlyValid sampleSpec ∧
    ((∀ (name : String) (j : Nat), sampleIndex.getShortByName name = some j ↔
        ∃ o, sampleSpec[j]? = some o ∧ o.Short = name ∧ name ≠ "") ∧
      (∀ (name : String) (j : Nat), sampleIndex.getLongByName name = some j ↔
        ∃ o, sampleSpec[j]? = some o ∧ o.Long = name ∧ name ≠ "") ∧
      sampleIndex.Short.length = (sampleSpec.filter fun o => decide (o.Short ≠ "")).length ∧
      sampleIndex.Long.length = (sampleSpec.filter fun o => decide (o.Long ≠ "")).length ∧
      (sampleIndex.Short.map Prod.fst).Nodup ∧ (sampleIndex.Long.map Prod.fst).Nodup) ∧
    sampleIndex.Short.length = 5 ∧ sampleIndex.Long.length = 3 :=
  ⟨(C25_spec_init_iff sampleSpec sampleHeap).1.mp ⟨sampleIndex, sampleHeapInit, rfl⟩,
    (C25_spec_init_iff sampleSpec sampleHeap).2 sampleIndex sampleHeapInit rfl,
    by decide, by decide⟩

/-- The property C26 on a sample specification: the second option declares the short name `v`
again, and a holder that is already bound; the error is the one of the short name. -/
theorem C26_first_failure_witness :
    ∃ (i : Nat) (o : CliOption),
      ([⟨"v", "", ⟨TypeBool, some 0⟩, false⟩, ⟨"h", "", ⟨TypeBool, some 1⟩, false⟩,
        ⟨"v", "verbose", ⟨TypeBool, some 1⟩, false⟩] : Spec)[i]? = some o ∧
      (∀ k ≤ i, Spec.JointlyValid
        (([⟨"v", "", ⟨TypeBool, some 0⟩, false⟩, ⟨"h", "", ⟨TypeBool, some 1⟩, false⟩,
          ⟨"v", "verbose", ⟨TypeBool, some 1⟩, false⟩] : Spec).take k)) ∧
      ¬ Spec.JointlyValid
        (([⟨"v", "", ⟨TypeBool, some 0⟩, false⟩, ⟨"h", "", ⟨TypeBool, some 1⟩, false⟩,
          ⟨"v", "verbose", ⟨TypeBool, some 1⟩, false⟩] : Spec).take (i + 1)) ∧
      Spec.firstFailure
        [⟨"v", "", ⟨TypeBool, some 0⟩, false⟩, ⟨"h", "", ⟨TypeBool, some 1⟩, false⟩,
          ⟨"v", "verbose", ⟨TypeBool, some 1⟩, false⟩]
        i o (.errorInvalidCmdLineSpecDuplicatedShortNamedOption 2 "v") :=
  C26_first_failure
    [⟨"v", "", ⟨TypeBool, some 0⟩, false⟩, ⟨"h", "", ⟨TypeBool, some 1⟩, false⟩,
      ⟨"v", "verbose", ⟨TypeBool, some 1⟩, false⟩]
    sampleHeap (sampleHeapInit.setBool 1 false)
    (.errorInvalidCmdLineSpecDuplicatedShortNamedOption 2 "v") rfl

/-! ## The short form and the long form of a token -/

theorem isOption_short_long (t : String) (ht : isOption t = true)
    (hs : (isOptionShort t).1 = true) : (isOptionLong t).1 = false := by
  obtain ⟨l⟩ := t
  cases l with
  | nil => simp [isOption] at ht
  | cons c r =>
    simp only [isOption, decide_eq_true_eq] at ht
    subst ht
    cases r with
    | nil => simp [isOptionLong, dropDashDash, isNameStart]
    | cons d r =>
      by_cases hd : d = '-'
      · subst hd
        simp [isOptionShort, dropDash, isNameStart] at hs
      · simp [isOptionLong, dropDashDash, hd, isNameStart]

/-- C38. A token that starts with a dash is never at once a short form and a long form, so
the body of the loop of `Parse` gives the same result when the long form is tried first;
`-pv` is a short form only, the compound of `p` and `v`, and `--pv` is a long form only, of
name `pv`. -/
theorem C38_short_long_exclusive (P : Strconv) (index : specIndex) (i : Nat) (t : String)
    (rest cliAll : List String) (st : State) :
    (isOption t = true → ¬ ((isOptionShort t).1 = true ∧ (isOptionLong t).1 = true)) ∧
    Parse.tokenLongFirst P index i t rest cliAll st = Parse.token P index i t rest cliAll st ∧
    isOptionShort "-pv" = (true, ["p", "v"]) ∧ (isOptionLong "-pv").1 = false ∧
    (isOptionShort "--pv").1 = false ∧ isOptionLong "--pv" = (true, "pv") := by
  refine ⟨?_, ?_, by decide, by decide, by decide, by decide⟩
  · intro ht h
    have := isOption_short_long t ht h.1
    rw [h.2] at this
    cases this
  · unfold Parse.tokenLongFirst Parse.token
    cases ht : isOption t with
    | false => rfl
    | true =>
      cases hs : (isOptionShort t).1 with
      | false => rfl
      | true =>
        rw [isOption_short_long t ht hs]
        rfl

/-- C40. A failed call of `Parse` is not atomic: with the sample options (the flag `-v`, bound
to the boolean at address 0, and the option `-i` that takes a string), the tokens `["-vi"]`
fail with the error of a value-requiring option within a compound, without expanded tokens and
without arguments, and yet the holder of `-v`, false before the call, is true after it and
the option `-v` is marked as set. -/
theorem C40_failed_parse_not_atomic :
    Spec.init sampleSpec sampleHeap = some (.ok sampleIndex, sampleHeapInit) ∧
    sampleHeap.bools 0 = false ∧
    ∃ st, Parse sampleStrconv ["-vi"] sampleSpec sampleHeap
        = some (⟨none, none, some (.errorNonFlagOptionWithinCompound "i")⟩, st) ∧
      st.heap.bools 0 = true ∧
      st.spec[0]? = some ⟨"v", "", ⟨TypeBool, some 0⟩, true⟩ :=
  ⟨rfl, rfl, _, rfl, rfl, rfl⟩

/-! ## Recording an option as used -/

/-- C35. `recordOption` fails exactly when the option is already set and is a flag or a
singleton; the error is the one of a duplicated flag when the option takes no value and the
one of a duplicated singleton otherwise, with the name given to the call, and the option is
left as it was; in every other case the option is marked as set.  A repeatable option is
accepted however many times `recordOption` is called on it.  With a flag of names `v` and
`verbose`, the tokens `-v --verbose` report the name `verbose`. -/
theorem C35_recordOption (o : CliOption) (name : String) :
    recordOption o name
      = (if o.set = true ∧ (o.requireValue = false ∨ o.isSingleton = true) then
          (some (if o.requireValue = false then Error.errorDuplicatedFlagOption name
            else Error.errorDuplicatedNonFlagOption name), o)
        else (none, o.setIt)) ∧
    o.setIt.set = true ∧
    (o.requireValue = true ∧ o.isSingleton = false →
      ∀ n : Nat, (recordOption ((fun x => (recordOption x name).2)^[n] o) name).1 = none) ∧
    ∃ st, Parse sampleStrconv ["-v", "--verbose"] [⟨"v", "verbose", ⟨TypeBool, some 0⟩, false⟩]
        sampleHeap
      = some (⟨none, none, some (.errorDuplicatedFlagOption "verbose")⟩, st) := by
  refine ⟨?_, rfl, ?_, _, rfl⟩
  · unfold recordOption CliOption.isSet
    cases o.set <;> cases o.requireValue <;> cases o.isSingleton <;> rfl
  · rintro ⟨hreq, hsing⟩ n
    have key : ∀ (n : Nat) (x : CliOption), x.requireValue = true → x.isSingleton = false →
        (recordOption ((fun x => (recordOption x name).2)^[n] x) name).1 = none := by
      intro n
      induction n with
      | zero =>
        intro x h1 h2
        simp [recordOption, h1, h2]
      | succ n ih =>
        intro x h1 h2
        rw [Function.iterate_succ_apply]
        have hx : (recordOption x name).2 = x.setIt := by simp [recordOption, h1, h2]
        rw [hx]
        exact ih x.setIt h1 h2
    exact key n o hreq hsing

/-- The property C35 on the sample values: the option `-p`/`--path`, repeatable, is accepted
a fourth time. -/
theorem C35_recordOption_witness :
    (recordOption ((fun x => (recordOption x "p").2)^[3]
      (⟨"p", "path", ⟨TypeStrings, some 0⟩, false⟩ : CliOption)) "p").1 = none :=
  (C35_recordOption ⟨"p", "path", ⟨TypeStrings, some 0⟩, false⟩ "p").2.2.1 ⟨rfl, rfl⟩ 3

/-! ## Values of the wrong dynamic type and nil holders -/

/-- C33. `addValue` rejects a value of the wrong dynamic type and changes nothing: on a holder
of a boolean, a value that is not a boolean gives the error of an expected boolean; on any
other holder, a value that is not a string (the boolean `true` for one) gives the error of an
expected string; the option and the memory are returned as they were. -/
theorem C33_wrong_dynamic_type (P : Strconv) (o : CliOption) (v : Value) (h : Heap) :
    (o.Holder.kind = TypeBool → (∀ b, v ≠ .bool b) →
      o.addValue P v h = some (some .errorInvalidValueBoolExpected, o, h)) ∧
    (o.Holder.kind ≠ TypeBool → (∀ s, v ≠ .string s) →
      o.addValue P v h = some (some .errorInvalidValueStringExpected, o, h)) := by
  constructor
  · intro hk hv
    have hg : o.getType.1 = TypeBool := by rw [CliOption.getType_fst, hk]
    cases v with
    | bool b => exact absurd rfl (hv b)
    | string s => simp only [CliOption.addValue, hg, if_true]
    | other => simp only [CliOption.addValue, hg, if_true]
  · intro hk hv
    have hg : ¬ o.getType.1 = TypeBool := by rw [CliOption.getType_fst]; exact hk
    cases v with
    | bool b => simp only [CliOption.addValue, hg, if_false]
    | string s => exact absurd rfl (hv s)
    | other => simp only [CliOption.addValue, hg, if_false]

/-- The property C33 on sample values: the number 10 given to a flag, the boolean `true`
given to an option that takes a string. -/
theorem C33_wrong_dynamic_type_witness :
    CliOption.addValue sampleStrconv ⟨"v", "", ⟨TypeBool, some 0⟩, false⟩ .other sampleHeap
      = some (some .errorInvalidValueBoolExpected, ⟨"v", "", ⟨TypeBool, some 0⟩, false⟩,
          sampleHeap) ∧
    CliOption.addValue sampleStrconv ⟨"i", "input", ⟨TypeString, none⟩, false⟩ (.bool true)
        sampleHeap
      = some (some .errorInvalidValueStringExpected, ⟨"i", "input", ⟨TypeString, none⟩, false⟩,
          sampleHeap) :=
  ⟨(C33_wrong_dynamic_type sampleStrconv ⟨"v", "", ⟨TypeBool, some 0⟩, false⟩ .other
      sampleHeap).1 rfl (fun _ hh => Value.noConfusion hh),
   (C33_wrong_dynamic_type sampleStrconv ⟨"i", "input", ⟨TypeString, none⟩, false⟩ (.bool true)
      sampleHeap).2 (by decide) (fun _ hh => Value.noConfusion hh)⟩

/-- C32, on the code.  `addValue` on an option whose holder is a nil pointer: for the holder
of a boolean and for the holder of a string the variable is allocated at the next free
address, the value is stored in it and `Holder` points to it; for every other scalar holder
the variable is allocated and `Holder` points to it; but for every repeatable holder, a well
formed value makes `addValue` panic (`*p = make(...)` with `p` nil), where the comment of the
structure `Option` promises the allocation. -/
theorem C32_nil_holder (P : Strconv) (s l : String) (set : Bool) (k : typeOption) (v : String)
    (h : Heap) :
    (∀ b, CliOption.addValue P ⟨s, l, ⟨TypeBool, none⟩, set⟩ (.bool b) h
      = some (none, ⟨s, l, ⟨TypeBool, some h.next⟩, set⟩, h.newBool.2.setBool h.next b)) ∧
    CliOption.addValue P ⟨s, l, ⟨TypeString, none⟩, set⟩ (.string v) h
      = some (none, ⟨s, l, ⟨TypeString, some h.next⟩, set⟩,
          h.newString.2.setString h.next v) ∧
    (typesConstraints k = ⟨true, true⟩ →
      ∃ e h', CliOption.addValue P ⟨s, l, ⟨k, none⟩, set⟩ (.string v) h
        = some (e, ⟨s, l, ⟨k, some h.next⟩, set⟩, h')) ∧
    (typesConstraints k = ⟨false, true⟩ → (parseElem P k v).isSome = true →
      CliOption.addValue P ⟨s, l, ⟨k, none⟩, set⟩ (.string v) h = none) := by
  refine ⟨fun b => rfl, rfl, ?_, ?_⟩
  · intro hk
    cases k <;> simp only [typesConstraints, typeConstraints.mk.injEq, Bool.false_eq_true,
      Bool.true_eq_false, and_false, false_and, and_self] at hk
    all_goals first
      | exact ⟨_, _, rfl⟩
      | (simp only [CliOption.addValue, CliOption.getType, reduceCtorEq, if_false,
          CliOption.addInt, Heap.newInt]
         cases ParseInt P v _ <;> exact ⟨_, _, rfl⟩)
      | (simp only [CliOption.addValue, CliOption.getType, reduceCtorEq, if_false,
          CliOption.addUint, Heap.newInt]
         cases ParseUint P v _ <;> exact ⟨_, _, rfl⟩)
      | (simp only [CliOption.addValue, CliOption.getType, reduceCtorEq, if_false,
          CliOption.addFloat, Heap.newFloat]
         cases P.ParseFloat v _ <;> exact ⟨_, _, rfl⟩)
  · intro hk hv
    cases k <;> simp only [typesConstraints, typeConstraints.mk.injEq, Bool.false_eq_true,
      Bool.true_eq_false, and_false, false_and, and_self] at hk
    all_goals first
      | rfl
      | (simp only [parseElem] at hv
         simp only [CliOption.addValue, CliOption.getType, reduceCtorEq, if_false,
           CliOption.addInts]
         cases hp : ParseInt P v _ with
         | error e => rw [hp] at hv; cases hv
         | ok n => rfl)
      | (simp only [parseElem] at hv
         simp only [CliOption.addValue, CliOption.getType, reduceCtorEq, if_false,
           CliOption.addUints]
         cases hp : ParseUint P v _ with
         | error e => rw [hp] at hv; cases hv
         | ok n => rfl)
      | (simp only [parseElem] at hv
         simp only [CliOption.addValue, CliOption.getType, reduceCtorEq, if_false,
           CliOption.addFloats]
         cases hp : P.ParseFloat v _ with
         | error e => rw [hp] at hv; cases hv
         | ok n => rfl)

/-! ## The end of the tokens while a value is expected -/

theorem Parse.through_append (P : Strconv) (index : specIndex) (a : List String) :
    ∀ (i : Nat) (b post : List String) (v : Vars) (st : State),
      Parse.through P index i (a ++ b) post v st =
        match Parse.through P index i a (b ++ post) v st with
        | some (v', st') => Parse.through P index (i + a.length) b post v' st'
        | none => none := by
  induction a with
  | nil =>
    intro i b post v st
    rfl
  | cons t a ih =>
    intro i b post v st
    show (match Parse.body P index i t ((a ++ b) ++ post) v st with
      | .next v st => Parse.through P index (i + 1) (a ++ b) post v st
      | _ => none) = match (match Parse.body P index i t (a ++ (b ++ post)) v st with
        | .next v st => Parse.through P index (i + 1) a (b ++ post) v st
        | _ => none) with
      | some (v', st') => Parse.through P index (i + (a.length + 1)) b post v' st'
      | none => none
    rw [List.append_assoc]
    cases Parse.body P index i t (a ++ (b ++ post)) v st with
    | next v1 s1 =>
      show Parse.through P index (i + 1) (a ++ b) post v1 s1 = _
      rw [ih (i + 1) b post v1 s1, Nat.add_assoc, Nat.add_comm 1 a.length]
    | ret r s => rfl
    | panic => rfl

theorem Parse.token_expects (P : Strconv) (spec : Spec) (index : specIndex)
    (hv : ValidSpec spec index) (i : Nat) (tok : String) (rest cliAll : List String)
    (st : State) (v' : Vars) (st' : State) (hev : Spec.Evolves spec st.spec)
    (h : Parse.token P index i tok rest cliAll st = .next v' st')
    (hp : v'.nextShouldBeValue = true) :
    ∃ j o, st.spec[j]? = some o ∧ o.requireValue = true ∧
      (tok = "-" ++ o.Short ∨ tok = "--" ++ o.Long) ∧
      v' = ⟨cliAll ++ [tok], true, some j⟩ ∧ st' = ⟨st.spec.set j o.setIt, st.heap⟩ := by
  have hne : tok ≠ "--" := by
    intro he
    subst he
    simp [Parse.token, isEndOfOptionSpecifier] at h
  have hopt : isOption tok = true := by
    cases ho : isOption tok with
    | true => rfl
    | false =>
      unfold Parse.token at h
      rw [ho] at h
      simp only [Bool.false_eq_true, if_false] at h
      split_ifs at h
  have hm := Parse.token_mode P spec index hv i tok rest cliAll st v' st' hev hne hopt h
  rw [hp] at hm
  unfold takesValue at hm
  obtain ⟨o0, hmem, hx⟩ := List.any_eq_true.mp hm.symm
  simp only [Bool.and_eq_true, decide_eq_true_eq] at hx
  obtain ⟨k, hk⟩ := List.mem_iff_getElem?.mp hmem
  obtain ⟨ok, name, hok, hevo, htok⟩ :=
    Parse.token_designates P spec index hv i tok rest cliAll st k o0 hev hk hx.1 hx.2
  rw [htok] at h
  split_ifs at h with hdup
  simp only [Step.next.injEq] at h
  refine ⟨k, ok, hok, ?_, ?_, h.1.symm, h.2.symm⟩
  · rw [hevo.requireValue_same]
    exact hx.1
  · rw [hevo.short, hevo.long]
    rcases hx.2 with hd | hd
    · exact Or.inl hd.2
    · exact Or.inr hd.2.2

/-- C37. When the loop of `Parse` reaches the end of the tokens while a value is expected,
`Parse` returns no error, the expanded tokens and no argument.  The last token is then an option
that takes a value, written with its short name after one dash or with its long name after two
dashes, at a place where no value was expected: it is appended as it is to the expanded tokens,
the option is marked as set, and the memory is what it was before this token (so no holder
changes and a repeatable holder receives no element for this use). -/
theorem C37_end_while_value_expected (P : Strconv) (spec : Spec) (h h' : Heap)
    (index : specIndex) (tokens : List String) (v : Vars) (st : State)
    (hinit : Spec.init spec h = some (.ok index, h'))
    (hreach : Parse.through P index 0 tokens [] ⟨[], false, none⟩ ⟨spec, h'⟩ = some (v, st))
    (hpend : v.nextShouldBeValue = true) :
    Parse P tokens spec h = some (⟨some v.cliAll, some [], none⟩, st) ∧
    ∃ pre tok v0 st0 j o, tokens = pre ++ [tok] ∧
      Parse.through P index 0 pre [tok] ⟨[], false, none⟩ ⟨spec, h'⟩ = some (v0, st0) ∧
      v0.nextShouldBeValue = false ∧ st0.spec[j]? = some o ∧ o.requireValue = true ∧
      (tok = "-" ++ o.Short ∨ tok = "--" ++ o.Long) ∧
      v = ⟨v0.cliAll ++ [tok], true, some j⟩ ∧ st.spec = st0.spec.set j o.setIt ∧
      st.spec[j]? = some o.setIt ∧ o.setIt.set = true ∧ st.heap = st0.heap := by
  have hv := Spec.init_valid spec h h' index hinit
  constructor
  · have := Parse.reach P spec h h' index tokens [] v st hinit hreach
    rw [List.append_nil] at this
    rw [this]
    rfl
  · rcases List.eq_nil_or_concat tokens with hnil | ⟨pre, tok, hcat⟩
    · subst hnil
      simp only [Parse.through, Option.some.injEq, Prod.mk.injEq] at hreach
      rw [← hreach.1] at hpend
      cases hpend
    · rw [List.concat_eq_append] at hcat
      subst hcat
      rw [Parse.through_append] at hreach
      cases hpre : Parse.through P index 0 pre ([tok] ++ []) ⟨[], false, none⟩ ⟨spec, h'⟩ with
      | none => rw [hpre] at hreach; cases hreach
      | some r =>
        obtain ⟨v0, st0⟩ := r
        rw [hpre] at hreach
        have hev := Parse.through_evolves P index pre 0 _ _ _ v0 st0 hpre
        simp only at hev
        have hb : Parse.body P index (0 + pre.length) tok [] v0 st0 = .next v st := by
          have hr : Parse.through P index (0 + pre.length) [tok] [] v0 st0 = some (v, st) :=
            hreach
          unfold Parse.through at hr
          rw [List.nil_append] at hr
          cases hbody : Parse.body P index (0 + pre.length) tok [] v0 st0 with
          | next v1 s1 =>
            rw [hbody] at hr
            simp only [Parse.through, Option.some.injEq, Prod.mk.injEq] at hr
            rw [hr.1, hr.2]
          | ret r s => rw [hbody] at hr; cases hr
          | panic => rw [hbody] at hr; cases hr
        cases hn : v0.nextShouldBeValue with
        | true =>
          unfold Parse.body Parse.value at hb
          rw [hn] at hb
          simp only [if_true] at hb
          split_ifs at hb
          cases hlo : v0.lastOption with
          | none => rw [hlo] at hb; cases hb
          | some j =>
            rw [hlo] at hb
            simp only at hb
            cases ha : State.addValue P st0 j (.string tok) with
            | none => rw [ha] at hb; cases hb
            | some s2 =>
              rw [ha] at hb
              simp only [Step.next.injEq] at hb
              rw [← hb.1] at hpend
              cases hpend
        | false =>
          unfold Parse.body at hb
          rw [hn] at hb
          simp only [Bool.false_eq_true, if_false] at hb
          obtain ⟨j, o, ho, hreq, hdes, hv', hst'⟩ :=
            Parse.token_expects P spec index hv _ tok [] v0.cliAll st0 v st hev hb hpend
          have hj : j < st0.spec.length := (List.getElem?_eq_some.mp ho).1
          refine ⟨pre, tok, v0, st0, j, o, rfl, hpre, hn, ho, hreq, hdes, hv', ?_, ?_, rfl, ?_⟩
          · rw [hst']
          · rw [hst']
            simp [List.getElem?_set_self hj]
          · rw [hst']

/-! ## The loop of `Parse` does not panic -/

theorem CliOption.addValue_bool_some (P : Strconv) (o : CliOption) (b : Bool) (h : Heap) :
    ∃ r, o.addValue P (.bool b) h = some r := by
  obtain ⟨s, l, ⟨k, p⟩, set⟩ := o
  cases p <;> cases k <;> exact ⟨_, rfl⟩

theorem CliOption.addValue_some (P : Strconv) (o : CliOption) (v : Value) (h : Heap)
    (hp : o.Holder.ptr ≠ none) : ∃ r, o.addValue P v h = some r := by
  cases v with
  | bool b => exact CliOption.addValue_bool_some P o b h
  | other =>
    obtain ⟨s, l, ⟨k, p⟩, set⟩ := o
    cases k <;> exact ⟨_, rfl⟩
  | string v =>
    obtain ⟨s, l, ⟨k, p⟩, set⟩ := o
    cases p with
    | none => exact absurd rfl hp
    | some p =>
      cases k
      all_goals first
        | exact ⟨_, rfl⟩
        | (simp only [CliOption.addValue, CliOption.getType, reduceCtorEq, if_false,
            CliOption.addInts]
           cases ParseInt P v _ <;> exact ⟨_, rfl⟩)
        | (simp only [CliOption.addValue, CliOption.getType, reduceCtorEq, if_false,
            CliOption.addUints]
           cases ParseUint P v _ <;> exact ⟨_, rfl⟩)
        | (simp only [CliOption.addValue, CliOption.getType, reduceCtorEq, if_false,
            CliOption.addFloats]
           cases P.ParseFloat v _ <;> exact ⟨_, rfl⟩)

theorem State.addValue_returns (P : Strconv) (st : State) (j : Nat) (o : CliOption) (v : Value)
    (ho : st.spec[j]? = some o) (hp : o.Holder.ptr ≠ none ∨ ∃ b, v = .bool b) :
    ∃ st', State.addValue P st j v = some st' := by
  have : ∃ r, o.addValue P v st.heap = some r := by
    rcases hp with hp | ⟨b, rfl⟩
    · exact CliOption.addValue_some P o v st.heap hp
    · exact CliOption.addValue_bool_some P o b st.heap
  obtain ⟨⟨e, o', h'⟩, hr⟩ := this
  unfold State.addValue
  rw [ho]
  simp only [hr]
  exact ⟨_, rfl⟩

theorem Parse.shortLoop_ne_panic (P : Strconv) (spec : Spec) (index : specIndex)
    (hv : ValidSpec spec index) (n : Nat) (names : List String) :
    ∀ (cliAll : List String) (st : State), Spec.Evolves spec st.spec →
      Parse.shortLoop P index n names cliAll st ≠ .panic := by
  induction names with
  | nil =>
    intro cliAll st _ h
    simp [Parse.shortLoop] at h
  | cons name rest ih =>
    intro cliAll st hev
    unfold Parse.shortLoop
    cases hl : index.getShortByName name with
    | none => simp
    | some j =>
      obtain ⟨o0, o, _, ho, _, _, _⟩ := hv.short_at hev hl
      have hj : j < st.spec.length := (List.getElem?_eq_some.mp ho).1
      simp only [ho]
      split_ifs
      · simp
      · cases hr : recordOption o name with
        | mk e o1 =>
          cases e with
          | some err => simp
          | none =>
            simp only
            have hget : (⟨st.spec.set j o1, st.heap⟩ : State).spec[j]? = some o1 := by
              simp [List.getElem?_set_self hj]
            obtain ⟨st2, hst2⟩ := State.addValue_returns P ⟨st.spec.set j o1, st.heap⟩ j o1
              (.bool true) hget (Or.inr ⟨true, rfl⟩)
            rw [hst2]
            simp only
            have ho1 : o.Evolves o1 := by
              have := recordOption_evolves o name
              rw [hr] at this
              exact this
            have hev1 : Spec.Evolves st.spec (st.spec.set j o1) := Spec.specEvolves_set ho ho1
            have hev2 := State.addValue_specEvolves P _ st2 j _ hst2
            exact ih _ st2 (Spec.specEvolves_trans hev (Spec.specEvolves_trans hev1 hev2))

theorem Parse.token_ne_panic (P : Strconv) (spec : Spec) (index : specIndex)
    (hv : ValidSpec spec index) (i : Nat) (tok : String) (rest cliAll : List String)
    (st : State) (hev : Spec.Evolves spec st.spec) :
    Parse.token P index i tok rest cliAll st ≠ .panic := by
  unfold Parse.token
  split_ifs with h1 hopt hs hlong
  · simp
  · cases hsl : Parse.shortLoop P index (isOptionShort tok).2.length (isOptionShort tok).2
        cliAll st with
    | panic => exact absurd hsl (Parse.shortLoop_ne_panic P spec index hv _ _ _ _ hev)
    | ret r s => simp
    | next c s =>
      simp only
      have hevs := Spec.specEvolves_trans hev (Parse.shortLoop_evolves P index _ _ _ _ _ _ hsl)
      unfold Parse.afterShort
      split_ifs with hlen
      · simp
      · obtain ⟨ch, _, hnames⟩ := isOptionShort_single tok hopt hs hlen
        rw [hnames] at hsl ⊢
        simp only [List.head?_cons]
        cases hl : index.getShortByName (String.singleton ch) with
        | none =>
          rw [Parse.shortLoop_cons_unknown P index _ _ _ _ _ hl] at hsl
          cases hsl
        | some j =>
          obtain ⟨o0, o, _, ho, _, _, _⟩ := hv.short_at hevs hl
          simp only [ho]
          split_ifs <;> simp
  · unfold Parse.longOption
    cases hl : index.getLongByName (isOptionLong tok).2 with
    | none => simp
    | some j =>
      obtain ⟨o0, o, _, ho, _, _, _⟩ := hv.long_at hev hl
      have hj : j < st.spec.length := (List.getElem?_eq_some.mp ho).1
      simp only [ho]
      cases hr : recordOption o (isOptionLong tok).2 with
      | mk e o1 =>
        cases e with
        | some err => simp
        | none =>
          simp only
          split_ifs
          · simp
          · have hget : (⟨st.spec.set j o1, st.heap⟩ : State).spec[j]? = some o1 := by
              simp [List.getElem?_set_self hj]
            obtain ⟨st2, hst2⟩ := State.addValue_returns P ⟨st.spec.set j o1, st.heap⟩ j o1
              (.bool true) hget (Or.inr ⟨true, rfl⟩)
            rw [hst2]
            simp
  · simp
  · simp

theorem Spec.holdersAllocated_evolves {s s' : Spec} (ha : Spec.holdersAllocated s)
    (hev : Spec.Evolves s s') : Spec.holdersAllocated s' := by
  intro o' hmem
  obtain ⟨j, hj⟩ := List.mem_iff_getElem?.mp hmem
  have hlt : j < s'.length := (List.getElem?_eq_some.mp hj).1
  rw [hev.1] at hlt
  have ho : s[j]? = some s[j] := List.getElem?_eq_getElem hlt
  have hevo := hev.2 j _ _ ho hj
  cases hp : s[j].Holder.ptr with
  | none => exact absurd hp (ha _ (List.getElem_mem hlt))
  | some p =>
    rw [hevo.ptr p hp]
    simp

theorem Parse.body_ne_panic (P : Strconv) (spec : Spec) (index : specIndex)
    (hv : ValidSpec spec index) (ha : Spec.holdersAllocated spec) (i : Nat) (tok : String)
    (rest : List String) (v : Vars) (st : State) (hev : Spec.Evolves spec st.spec)
    (hp : Pending v st) : Parse.body P index i tok rest v st ≠ .panic := by
  unfold Parse.body
  split_ifs with hn
  · obtain ⟨j, o, hlo, ho, _⟩ := hp hn
    unfold Parse.value
    split_ifs
    · simp
    · simp
    · rw [hlo]
      simp only
      have hnn := Spec.holdersAllocated_evolves ha hev o (List.mem_iff_getElem?.mpr ⟨j, ho⟩)
      obtain ⟨st2, hst2⟩ := State.addValue_returns P st j o (.string tok) ho (Or.inl hnn)
      rw [hst2]
      simp
  · exact Parse.token_ne_panic P spec index hv i tok rest v.cliAll st hev

theorem Parse.body_ret_ok (P : Strconv) (index : specIndex) (i : Nat) (tok : String)
    (rest : List String) (v : Vars) (st : State) (r : Return) (st' : State)
    (h : Parse.body P index i tok rest v st = .ret r st') (herr : r.err = none) :
    r.cli ≠ none ∧ r.args ≠ none := by
  unfold Parse.body at h
  split_ifs at h
  · unfold Parse.value at h
    split_ifs at h
    · cases h; simp at herr
    · cases h; simp at herr
    · split at h
      · cases h
      · split at h <;> cases h
  · by_cases hm : tok = "--"
    · subst hm
      simp only [Parse.token, isEndOfOptionSpecifier, decide_True, if_true,
        Step.ret.injEq] at h
      rw [← h.1]
      simp
    · cases hopt : isOption tok with
      | true => exact absurd herr (Parse.token_ret P index i tok rest v.cliAll st r st' hm hopt h)
      | false =>
        simp only [Parse.token, isEndOfOptionSpecifier, hm, decide_False, hopt,
          Bool.false_eq_true, if_false, Step.ret.injEq] at h
        rw [← h.1]
        simp

theorem Parse.loop_returns (P : Strconv) (spec : Spec) (index : specIndex)
    (hv : ValidSpec spec index) (ha : Spec.holdersAllocated spec) (tokens : List String) :
    ∀ (i : Nat) (v : Vars) (st : State), Spec.Evolves spec st.spec → Pending v st →
      ∃ r st', Parse.loop P index i tokens v st = some (r, st') ∧
        ((r.err = none ∧ r.cli ≠ none ∧ r.args ≠ none) ∨
          (r.err ≠ none ∧ r.cli = none ∧ r.args = none)) := by
  induction tokens with
  | nil =>
    intro i v st _ _
    exact ⟨_, _, rfl, Or.inl ⟨rfl, by simp, by simp⟩⟩
  | cons tok rest ih =>
    intro i v st hev hp
    rw [Parse.loop]
    cases hb : Parse.body P index i tok rest v st with
    | panic => exact absurd hb (Parse.body_ne_panic P spec index hv ha i tok rest v st hev hp)
    | next v1 s1 =>
      exact ih (i + 1) v1 s1
        (Spec.specEvolves_trans hev (Parse.body_evolves P index i tok rest v st v1 s1 hb))
        (Parse.body_pending P index i tok rest v st v1 s1 hb)
    | ret r s1 =>
      refine ⟨r, s1, rfl, ?_⟩
      cases he : r.err with
      | none => exact Or.inl ⟨rfl, Parse.body_ret_ok P index i tok rest v st r s1 hb he⟩
      | some e =>
        have hne : r.err ≠ none := by rw [he]; simp
        exact Or.inr ⟨by simp, Parse.body_ret_nil P index i tok rest v st r s1 hb hne⟩

/-- C36. For a specification accepted by `Spec.init` whose holders are not nil: at the start of
every iteration of the loop of `Parse`, when a value is expected, `lastOption` points to an
option of the specification that requires a value, and the iteration does not panic (no nil
option is dereferenced); so `Parse` returns for every list of tokens, either no error with the
expanded tokens and the arguments, or an error with neither. -/
theorem C36_loop_invariant (P : Strconv) (spec : Spec) (h h' : Heap) (index : specIndex)
    (tokens : List String)
    (hinit : Spec.init spec h = some (.ok index, h'))
    (hnn : Spec.holdersAllocated spec) :
    (∀ (pre post : List String) (v : Vars) (st : State),
      Parse.through P index 0 pre post ⟨[], false, none⟩ ⟨spec, h'⟩ = some (v, st) →
      Pending v st ∧
        ∀ (tok : String) (rest : List String),
          Parse.body P index pre.length tok rest v st ≠ .panic) ∧
    ∃ r st, Parse P tokens spec h = some (r, st) ∧
      ((r.err = none ∧ r.cli ≠ none ∧ r.args ≠ none) ∨
        (r.err ≠ none ∧ r.cli = none ∧ r.args = none)) := by
  have hv := Spec.init_valid spec h h' index hinit
  constructor
  · intro pre post v st hth
    have hp := Parse.through_pending P index pre 0 post _ _ v st (Pending.start _) hth
    have hev := Parse.through_evolves P index pre 0 post _ _ v st hth
    exact ⟨hp, fun tok rest => Parse.body_ne_panic P spec index hv hnn _ tok rest v st hev hp⟩
  · unfold Parse
    rw [hinit]
    exact Parse.loop_returns P spec index hv hnn tokens 0 _ _ (Spec.specEvolves_refl spec)
      (Pending.start _)

/-- The property C32 on sample values: a value given to an option whose holder is a nil
pointer to a slice of strings. -/
theorem C32_nil_holder_witness :
    CliOption.addValue sampleStrconv ⟨"p", "path", ⟨TypeStrings, none⟩, false⟩ (.string "a")
      sampleHeap = none :=
  (C32_nil_holder sampleStrconv "p" "path" false TypeStrings "a" sampleHeap).2.2.2 rfl rfl

/-- The property C37 on the sample values: the tokens `-v -p` end with the option `-p`, which
takes a value. -/
theorem C37_end_while_value_expected_witness :
    Parse sampleStrconv ["-v", "-p"] sampleSpec sampleHeap
      = some (⟨some ["-v", "-p"], some [], none⟩,
        ⟨[⟨"v", "", ⟨TypeBool, some 0⟩, true⟩,
          ⟨"h", "", ⟨TypeBool, some 1⟩, false⟩,
          ⟨"i", "input", ⟨TypeString, some 0⟩, false⟩,
          ⟨"p", "path", ⟨TypeStrings, some 0⟩, true⟩,
          ⟨"n", "int8", ⟨TypeInteger8, some 0⟩, false⟩],
          sampleHeapInit.setBool 0 true⟩) :=
  (C37_end_while_value_expected sampleStrconv sampleSpec sampleHeap sampleHeapInit sampleIndex
    ["-v", "-p"] ⟨["-v", "-p"], true, some 3⟩ _ rfl rfl rfl).1

/-- The property C36 on the sample values, whose holders are not nil. -/
theorem C36_loop_invariant_witness :
    ∃ r st, Parse sampleStrconv ["-p", "a", "-vi", "x"] sampleSpec sampleHeap = some (r, st) ∧
      ((r.err = none ∧ r.cli ≠ none ∧ r.args ≠ none) ∨
        (r.err ≠ none ∧ r.cli = none ∧ r.args = none)) :=
  (C36_loop_invariant sampleStrconv sampleSpec sampleHeap sampleHeapInit sampleIndex
    ["-p", "a", "-vi", "x"] rfl (by unfold Spec.holdersAllocated; decide)).2

/-! ## The expanded tokens parsed again -/

theorem Parse.shortLoop_rebase (P : Strconv) (index : specIndex) (n : Nat)
    (names : List String) : ∀ (cliAll c2 : List String) (st : State),
      Parse.shortLoop P index n names c2 st =
        match Parse.shortLoop P index n names cliAll st with
        | .next _ s => .next (c2 ++ names.map fun name => "-" ++ name) s
        | .ret r s => .ret r s
        | .panic => .panic := by
  induction names with
  | nil =>
    intro cliAll c2 st
    simp [Parse.shortLoop]
  | cons name rest ih =>
    intro cliAll c2 st
    rw [Parse.shortLoop, Parse.shortLoop]
    cases index.getShortByName name with
    | none => rfl
    | some j =>
      dsimp only
      cases st.spec[j]? with
      | none => rfl
      | some o =>
        dsimp only
        split_ifs
        · rfl
        · cases recordOption o name with
          | mk e o1 =>
            cases e with
            | some err => rfl
            | none =>
              dsimp only
              cases State.addValue P ⟨st.spec.set j o1, st.heap⟩ j (.bool true) with
              | none => rfl
              | some s2 =>
                dsimp only
                rw [ih (cliAll ++ ["-" ++ name]) (c2 ++ ["-" ++ name]) s2]
                cases Parse.shortLoop P index n rest (cliAll ++ ["-" ++ name]) s2 <;> simp

theorem Parse.afterShort_rebase (index : specIndex) (options c c2 : List String) (s : State)
    (v1 : Vars) (s1 : State) (h : Parse.afterShort index options c s = .next v1 s1) :
    v1.cliAll = c ∧
      Parse.afterShort index options c2 s = .next ⟨c2, v1.nextShouldBeValue, v1.lastOption⟩ s1 := by
  unfold Parse.afterShort at h ⊢
  split_ifs at h ⊢
  · cases h
    exact ⟨rfl, rfl⟩
  · revert h
    cases options.head? with
    | none => intro h; cases h
    | some name =>
      dsimp only
      cases index.getShortByName name with
      | none => intro h; cases h
      | some j =>
        dsimp only
        cases s.spec[j]? with
        | none => intro h; cases h
        | some o =>
          dsimp only
          intro h
          split_ifs at h ⊢ <;>
            (cases h
             exact ⟨rfl, rfl⟩)

theorem Parse.longOption_rebase (P : Strconv) (index : specIndex) (name : String)
    (cliAll c2 : List String) (st : State) (v1 : Vars) (s1 : State)
    (h : Parse.longOption P index name cliAll st = .next v1 s1) :
    v1.cliAll = cliAll ++ ["--" ++ name] ∧
      Parse.longOption P index name c2 st
        = .next ⟨c2 ++ ["--" ++ name], v1.nextShouldBeValue, v1.lastOption⟩ s1 := by
  unfold Parse.longOption at h ⊢
  revert h
  cases index.getLongByName name with
  | none => intro h; cases h
  | some j =>
    dsimp only
    cases st.spec[j]? with
    | none => intro h; cases h
    | some o =>
      dsimp only
      cases recordOption o name with
      | mk e o1 =>
        cases e with
        | some err => intro h; cases h
        | none =>
          dsimp only
          split_ifs
          · intro h
            cases h
            exact ⟨rfl, rfl⟩
          · cases State.addValue P ⟨st.spec.set j o1, st.heap⟩ j (.bool true) with
            | none => intro h; cases h
            | some s2 =>
              dsimp only
              intro h
              cases h
              exact ⟨rfl, rfl⟩

theorem Parse.token_rebase (P : Strconv) (index : specIndex) (i i' : Nat) (tok : String)
    (rest rest' cliAll c2 : List String) (st : State) (v1 : Vars) (s1 : State)
    (h : Parse.token P index i tok rest cliAll st = .next v1 s1) :
    ∃ x, v1.cliAll = cliAll ++ x ∧
      Parse.token P index i' tok rest' c2 st
        = .next ⟨c2 ++ x, v1.nextShouldBeValue, v1.lastOption⟩ s1 := by
  unfold Parse.token at h ⊢
  split_ifs at h ⊢ with h1 h2 h3 h4
  · cases hsl : Parse.shortLoop P index (isOptionShort tok).2.length (isOptionShort tok).2
        cliAll st with
    | panic => rw [hsl] at h; cases h
    | ret r s => rw [hsl] at h; cases h
    | next c s =>
      rw [hsl] at h
      dsimp only at h
      rw [Parse.shortLoop_rebase P index _ _ cliAll c2 st, hsl]
      dsimp only
      have hc := Parse.shortLoop_cliAll P index _ _ _ _ _ _ hsl
      obtain ⟨ha, hb⟩ := Parse.afterShort_rebase index _ c
        (c2 ++ (isOptionShort tok).2.map fun name => "-" ++ name) s v1 s1 h
      exact ⟨_, ha.trans hc, hb⟩
  · obtain ⟨ha, hb⟩ := Parse.longOption_rebase P index _ cliAll c2 st v1 s1 h
    exact ⟨_, ha, hb⟩

theorem Parse.value_rebase (P : Strconv) (tok : String) (cliAll c2 : List String)
    (lo : Option Nat) (st : State) (v1 : Vars) (s1 : State)
    (h : Parse.value P tok cliAll lo st = .next v1 s1) :
    v1 = ⟨cliAll ++ [tok], false, lo⟩ ∧
      Parse.value P tok c2 lo st = .next ⟨c2 ++ [tok], false, lo⟩ s1 := by
  unfold Parse.value at h ⊢
  split_ifs at h ⊢
  revert h
  cases lo with
  | none => intro h; cases h
  | some j =>
    dsimp only
    cases State.addValue P st j (.string tok) with
    | none => intro h; cases h
    | some s2 =>
      dsimp only
      intro h
      cases h
      exact ⟨rfl, rfl⟩

theorem isOptionShort_compound (tok : String) (hs : (isOptionShort tok).1 = true)
    (hlen : (isOptionShort tok).2.length > 1) :
    (isOptionShort tok).2 = (dropDash tok.data).map (fun c => String.singleton c) ∧
      ∀ c ∈ dropDash tok.data, isNameStart c = true := by
  unfold isOptionShort at hs hlen ⊢
  dsimp only at hs hlen ⊢
  split_ifs at hs hlen ⊢ with h1 h2
  · simp at hlen
  · exact ⟨rfl, fun c hc => List.all_eq_true.mp h1.2 c hc⟩

theorem Parse.shortLoop_next_flags (P : Strconv) (spec : Spec) (index : specIndex)
    (hv : ValidSpec spec index) (n : Nat) (hn : n > 1) (names : List String) :
    ∀ (cliAll : List String) (st : State) (c : List String) (s : State),
      Spec.Evolves spec st.spec →
      Parse.shortLoop P index n names cliAll st = .next c s →
      ∀ name ∈ names, ∃ j o0, index.getShortByName name = some j ∧ spec[j]? = some o0 ∧
        o0.requireValue = false := by
  induction names with
  | nil =>
    intro cliAll st c s _ _ name hm
    cases hm
  | cons nm rest ih =>
    intro cliAll st c s hev h name hm
    rw [Parse.shortLoop] at h
    cases hl : index.getShortByName nm with
    | none => rw [hl] at h; cases h
    | some j =>
      rw [hl] at h
      dsimp only at h
      obtain ⟨o0, o, ho0, ho, hevo, _, _⟩ := hv.short_at hev hl
      rw [ho] at h
      dsimp only at h
      split_ifs at h with hreq
      have hreq0 : o0.requireValue = false := by
        rw [← hevo.requireValue_same]
        cases hr : o.requireValue with
        | false => rfl
        | true => exact absurd ⟨hr, hn⟩ hreq
      cases hr : recordOption o nm with
      | mk e o1 =>
        rw [hr] at h
        cases e with
        | some err => cases h
        | none =>
          dsimp only at h
          cases ha : State.addValue P ⟨st.spec.set j o1, st.heap⟩ j (.bool true) with
          | none => rw [ha] at h; cases h
          | some s2 =>
            rw [ha] at h
            dsimp only at h
            rcases List.mem_cons.mp hm with rfl | hm'
            · exact ⟨j, o0, hl, ho0, hreq0⟩
            · have ho1 : o.Evolves o1 := by
                have := recordOption_evolves o nm
                rw [hr] at this
                exact this
              have hev1 : Spec.Evolves st.spec (st.spec.set j o1) :=
                Spec.specEvolves_set ho ho1
              have hev2 := State.addValue_specEvolves P _ s2 j _ ha
              exact ih _ s2 c s
                (Spec.specEvolves_trans hev (Spec.specEvolves_trans hev1 hev2)) h name hm'

theorem erasePosition_ok (x : Option (Return × State)) (cli args : List String) (s : State)
    (h : erasePosition x = some (⟨some cli, some args, none⟩, s)) :
    x = some (⟨some cli, some args, none⟩, s) := by
  cases x with
  | none => cases h
  | some y =>
    obtain ⟨⟨c, a, e⟩, s'⟩ := y
    simp only [erasePosition, Option.map_some', Option.some.injEq, Prod.mk.injEq,
      Return.mk.injEq, Option.map_eq_none'] at h
    obtain ⟨⟨rfl, rfl, rfl⟩, rfl⟩ := h
    rfl

theorem Parse.loop_expansion (P : Strconv) (spec : Spec) (index : specIndex)
    (hv : ValidSpec spec index) (tokens : List String) :
    ∀ (i : Nat) (v : Vars) (st : State) (cli args : List String) (st' : State),
      Spec.Evolves spec st.spec →
      Parse.loop P index i tokens v st = some (⟨some cli, some args, none⟩, st') →
      ∃ e, cli = v.cliAll ++ e ∧ ∀ (i' : Nat) (c2 : List String),
        Parse.loop P index i' e ⟨c2, v.nextShouldBeValue, v.lastOption⟩ st
          = some (⟨some (c2 ++ e), some args, none⟩, st') := by
  induction tokens with
  | nil =>
    intro i v st cli args st' _ h
    simp only [Parse.loop, Option.some.injEq, Prod.mk.injEq, Return.mk.injEq] at h
    obtain ⟨⟨rfl, rfl, -⟩, rfl⟩ := h
    refine ⟨[], by simp, fun i' c2 => ?_⟩
    simp [Parse.loop]
  | cons tok rest ih =>
    intro i v st cli args st' hev h
    rw [Parse.loop] at h
    cases hb : Parse.body P index i tok rest v st with
    | panic => rw [hb] at h; cases h
    | ret r s1 =>
      rw [hb] at h
      simp only [Option.some.injEq, Prod.mk.injEq] at h
      obtain ⟨rfl, rfl⟩ := h
      unfold Parse.body at hb
      cases hn : v.nextShouldBeValue with
      | true =>
        rw [hn] at hb
        simp only [if_true] at hb
        unfold Parse.value at hb
        split_ifs at hb
        · cases hb
        · cases hb
        · split at hb
          · cases hb
          · split at hb <;> cases hb
      | false =>
        rw [hn] at hb
        simp only [Bool.false_eq_true, if_false] at hb
        by_cases hm : tok = "--"
        · subst hm
          simp only [Parse.token, isEndOfOptionSpecifier, decide_True, if_true, Step.ret.injEq,
            Return.mk.injEq, Option.some.injEq] at hb
          obtain ⟨⟨rfl, rfl, -⟩, rfl⟩ := hb
          refine ⟨"--" :: rest, rfl, fun i' c2 => ?_⟩
          simp [Parse.loop, Parse.body, Parse.token, isEndOfOptionSpecifier]
        · cases hopt : isOption tok with
          | true =>
            exact absurd rfl (Parse.token_ret P index i tok rest v.cliAll st _ s1 hm hopt hb)
          | false =>
            simp only [Parse.token, isEndOfOptionSpecifier, hm, decide_False, hopt,
              Bool.false_eq_true, if_false, Step.ret.injEq, Return.mk.injEq,
              Option.some.injEq] at hb
            obtain ⟨⟨rfl, rfl, -⟩, rfl⟩ := hb
            refine ⟨tok :: rest, rfl, fun i' c2 => ?_⟩
            simp [Parse.loop, Parse.body, Parse.token, isEndOfOptionSpecifier, hm, hopt]
    | next v1 s1 =>
      rw [hb] at h
      dsimp only at h
      have hev1 := Spec.specEvolves_trans hev (Parse.body_evolves P index i tok rest v st v1 s1 hb)
      obtain ⟨e1, hcli, hre⟩ := ih (i + 1) v1 s1 cli args st' hev1 h
      unfold Parse.body at hb
      cases hn : v.nextShouldBeValue with
      | true =>
        rw [hn] at hb
        simp only [if_true] at hb
        obtain ⟨hv1, hval⟩ := Parse.value_rebase P tok v.cliAll v.cliAll v.lastOption st v1 s1 hb
        subst hv1
        refine ⟨tok :: e1, by rw [hcli]; simp, fun i' c2 => ?_⟩
        have hval2 := (Parse.value_rebase P tok v.cliAll c2 v.lastOption st _ s1 hb).2
        rw [Parse.loop]
        unfold Parse.body
        simp only [if_true]
        rw [hval2]
        dsimp only
        rw [hre (i' + 1) (c2 ++ [tok])]
        simp
      | false =>
        rw [hn] at hb
        simp only [Bool.false_eq_true, if_false] at hb
        cases hcomp : compound tok with
        | false =>
          have hc1 : v1.cliAll = v.cliAll ++ [tok] :=
            Parse.body_cliAll P index i tok rest ⟨v.cliAll, false, v.lastOption⟩ st v1 s1 hcomp
              (by unfold Parse.body; simpa using hb)
          refine ⟨tok :: e1, by rw [hcli, hc1]; simp, fun i' c2 => ?_⟩
          obtain ⟨x, hx, htok⟩ := Parse.token_rebase P index i i' tok rest e1 v.cliAll c2 st v1 s1 hb
          have hx1 : x = [tok] := List.append_cancel_left (hx.symm.trans hc1)
          subst hx1
          rw [Parse.loop]
          unfold Parse.body
          simp only [Bool.false_eq_true, if_false]
          rw [htok]
          dsimp only
          rw [hre (i' + 1) (c2 ++ [tok])]
          simp
        | true =>
          simp only [compound, Bool.and_eq_true, decide_eq_true_eq] at hcomp
          obtain ⟨⟨hopt, hs⟩, hlen⟩ := hcomp
          obtain ⟨hnames, hcs⟩ := isOptionShort_compound tok hs hlen
          have hm : isEndOfOptionSpecifier tok = false := by
            cases hme : isEndOfOptionSpecifier tok with
            | false => rfl
            | true =>
              simp only [Parse.token, hme, if_true] at hb
              cases hb
          simp only [Parse.token, hm, Bool.false_eq_true, if_false, hopt, hs, if_true] at hb
          cases hsl : Parse.shortLoop P index (isOptionShort tok).2.length (isOptionShort tok).2
              v.cliAll st with
          | panic => rw [hsl] at hb; cases hb
          | ret r s => rw [hsl] at hb; cases hb
          | next c s =>
            rw [hsl] at hb
            simp only [Parse.afterShort, hlen, if_true, Step.next.injEq] at hb
            obtain ⟨rfl, rfl⟩ := hb
            have hc := Parse.shortLoop_cliAll P index _ _ _ _ _ _ hsl
            have hfl := Parse.shortLoop_next_flags P spec index hv _ hlen _ _ _ _ _ hev hsl
            have hmap : ((isOptionShort tok).2.map fun name => "-" ++ name)
                = (dropDash tok.data).map fun c => "-" ++ String.singleton c := by
              rw [hnames, List.map_map]
              rfl
            have hF : ∀ ch ∈ dropDash tok.data, isNameStart ch = true ∧ ∃ j o p,
                index.getShortByName (String.singleton ch) = some j ∧ st.spec[j]? = some o ∧
                o.Holder.kind = TypeBool ∧ o.Holder.ptr = some p := by
              intro ch hch
              refine ⟨hcs ch hch, ?_⟩
              have hmem : String.singleton ch ∈ (isOptionShort tok).2 := by
                rw [hnames]
                exact List.mem_map_of_mem _ hch
              obtain ⟨j, o0, hl, ho0, hreq0⟩ := hfl _ hmem
              obtain ⟨o0', o, ho0', ho, hevo, _, _⟩ := hv.short_at hev hl
              rw [ho0] at ho0'
              cases ho0'
              have hck := hv.checked o0 (List.mem_iff_getElem?.mpr ⟨j, ho0⟩)
              have hk0 := CliOption.flag_kind o0 hreq0 hck.kind
              cases hp0 : o0.Holder.ptr with
              | none => exact absurd hp0 (hck.flag hk0)
              | some p =>
                exact ⟨j, o, p, hl, ho, by rw [hevo.kind, hk0], hevo.ptr p hp0⟩
            refine ⟨((dropDash tok.data).map fun c => "-" ++ String.singleton c) ++ e1, ?_,
              fun i' c2 => ?_⟩
            · rw [hcli]
              simp only
              rw [hc, hmap, List.append_assoc]
            · apply erasePosition_ok
              rw [Parse.loop_flags P index (isOptionShort tok).2.length e1 (dropDash tok.data)
                i' (i' + 1) c2 v.lastOption st hF, ← hnames,
                Parse.shortLoop_rebase P index _ _ v.cliAll c2 st, hsl]
              dsimp only
              rw [hmap, hre (i' + 1) _, List.append_assoc]
              rfl

theorem Parse.loop_ret_ok (P : Strconv) (index : specIndex) (tokens : List String) :
    ∀ (i : Nat) (v : Vars) (st : State) (r : Return) (st' : State),
      Parse.loop P index i tokens v st = some (r, st') → r.err = none →
      ∃ cli args, r = ⟨some cli, some args, none⟩ := by
  induction tokens with
  | nil =>
    intro i v st r st' h _
    simp only [Parse.loop, Option.some.injEq, Prod.mk.injEq] at h
    exact ⟨_, _, h.1.symm⟩
  | cons tok rest ih =>
    intro i v st r st' h herr
    rw [Parse.loop] at h
    cases hb : Parse.body P index i tok rest v st with
    | next v1 st1 => rw [hb] at h; exact ih _ _ _ _ _ h herr
    | ret r1 st1 =>
      rw [hb] at h
      simp only [Option.some.injEq, Prod.mk.injEq] at h
      rw [h.1] at hb
      obtain ⟨hc, ha⟩ := Parse.body_ret_ok P index i tok rest v st r st1 hb herr
      obtain ⟨c, a, e⟩ := r
      simp only at herr hc ha
      subst herr
      cases c with
      | none => exact absurd rfl hc
      | some c =>
        cases a with
        | none => exact absurd rfl ha
        | some a => exact ⟨c, a, rfl⟩
    | panic => rw [hb] at h; cases h

/-- C39. When `Parse` returns no error on the tokens, it returns expanded tokens and
arguments, and `Parse` called on these expanded tokens with the same options and the same
memory returns no error, the same expanded tokens and the same arguments, and leaves the
options and the memory (so every holder) in the same final state. -/
theorem C39_expansion_idempotent (P : Strconv) (tokens : List String) (spec : Spec) (h : Heap)
    (r : Return) (st : State)
    (hparse : Parse P tokens spec h = some (r, st)) (herr : r.err = none) :
    ∃ cli args, r = ⟨some cli, some args, none⟩ ∧ Parse P cli spec h = some (r, st) := by
  unfold Parse at hparse
  cases hinit : Spec.init spec h with
  | none => rw [hinit] at hparse; cases hparse
  | some x =>
    obtain ⟨res, h'⟩ := x
    cases res with
    | error e =>
      rw [hinit] at hparse
      simp only [Option.some.injEq, Prod.mk.injEq] at hparse
      rw [← hparse.1] at herr
      cases herr
    | ok index =>
      rw [hinit] at hparse
      dsimp only at hparse
      have hv := Spec.init_valid spec h h' index hinit
      obtain ⟨cli, args, rfl⟩ := Parse.loop_ret_ok P index tokens 0 _ _ r st hparse herr
      obtain ⟨e, hcli, hre⟩ := Parse.loop_expansion P spec index hv tokens 0 _ _ cli args st
        (Spec.specEvolves_refl spec) hparse
      rw [List.nil_append] at hcli
      subst hcli
      refine ⟨cli, args, rfl, ?_⟩
      unfold Parse
      rw [hinit]
      dsimp only
      have := hre 0 []
      rw [List.nil_append] at this
      exact this

/-- The property C39 on the sample values: a compound, a repeatable option with its value, the
marker and an argument. -/
theorem C39_expansion_idempotent_witness :
    ∃ cli args, (⟨some ["-v", "-h", "--path", "a", "--", "-x"], some ["-x"], none⟩ : Return)
        = ⟨some cli, some args, none⟩ ∧
      Parse sampleStrconv cli sampleSpec sampleHeap
        = some (⟨some ["-v", "-h", "--path", "a", "--", "-x"], some ["-x"], none⟩,
          ⟨[⟨"v", "", ⟨TypeBool, some 0⟩, true⟩,
            ⟨"h", "", ⟨TypeBool, some 1⟩, true⟩,
            ⟨"i", "input", ⟨TypeString, some 0⟩, false⟩,
            ⟨"p", "path", ⟨TypeStrings, some 0⟩, true⟩,
            ⟨"n", "int8", ⟨TypeInteger8, some 0⟩, false⟩],
            ((sampleHeapInit.setBool 0 true).setBool 1 true).appendString 0 "a"⟩) :=
  C39_expansion_idempotent sampleStrconv ["-vh", "--path", "a", "--", "-x"] sampleSpec sampleHeap
    _ _ rfl rfl

/-! ## The expanded tokens parsed without any option -/

theorem Parse.token_empty_index (P : Strconv) (i : Nat) (tok : String)
    (rest cliAll : List String) (st : State) (hne : tok ≠ "--") (hopt : isOption tok = true) :
    ∃ e, Parse.token P ⟨[], []⟩ i tok rest cliAll st = .ret ⟨none, none, some e⟩ st := by
  have hm : isEndOfOptionSpecifier tok = false := by simp [isEndOfOptionSpecifier, hne]
  simp only [Parse.token, hm, Bool.false_eq_true, if_false, hopt, if_true]
  split_ifs with hs hl
  · cases hnames : (isOptionShort tok).2 with
    | nil =>
      unfold isOptionShort at hs hnames
      dsimp only at hs hnames
      split_ifs at hs hnames with h1 h2
      simp only [List.map_eq_nil_iff] at hnames
      exact absurd hnames h1.1
    | cons name l =>
      rw [Parse.shortLoop_cons_unknown P ⟨[], []⟩ _ name l cliAll st rfl]
      exact ⟨_, rfl⟩
  · exact ⟨_, rfl⟩
  · exact ⟨_, rfl⟩

/-- C34, as stated, fails: with the sample options, `Parse` accepts the tokens `-v a`, with the
expanded tokens `-v a` and the argument `a`, but `Parse` on these expanded tokens with no
option at all fails, because `-v` is then an unknown option. -/
theorem C34_counterexample :
    (∃ st, Parse sampleStrconv ["-v", "a"] sampleSpec sampleHeap
      = some (⟨some ["-v", "a"], some ["a"], none⟩, st)) ∧
    ∀ m : Heap, Parse sampleStrconv ["-v", "a"] [] m
      = some (⟨none, none, some (.errorUnexpectedShortNamedOption "v")⟩, ⟨[], m⟩) :=
  ⟨⟨_, rfl⟩, fun _ => rfl⟩

/-- C34, amended. When `Parse` returns no error on the tokens, it returns expanded tokens and
arguments; if the tokens have no option before their arguments (there is no token, or the first
one is the marker or does not start with a dash), `Parse` on the expanded tokens with no option
at all returns no error, the same expanded tokens and the same arguments; otherwise the
expanded tokens start with an option and `Parse` with no option at all returns an error. -/
theorem C34_reparse_without_options (P : Strconv) (tokens : List String) (spec : Spec)
    (h : Heap) (r : Return) (st : State)
    (hparse : Parse P tokens spec h = some (r, st)) (herr : r.err = none) :
    ∃ cli args, r = ⟨some cli, some args, none⟩ ∧ ∀ m : Heap,
      (noOptions tokens = true → Parse P cli [] m = some (r, ⟨[], m⟩)) ∧
      (noOptions tokens = false →
        ∃ e, Parse P cli [] m = some (⟨none, none, some e⟩, ⟨[], m⟩)) := by
  unfold Parse at hparse
  cases hinit : Spec.init spec h with
  | none => rw [hinit] at hparse; cases hparse
  | some x =>
    obtain ⟨res, h'⟩ := x
    cases res with
    | error e =>
      rw [hinit] at hparse
      simp only [Option.some.injEq, Prod.mk.injEq] at hparse
      rw [← hparse.1] at herr
      cases herr
    | ok index =>
      rw [hinit] at hparse
      dsimp only at hparse
      have hv := Spec.init_valid spec h h' index hinit
      obtain ⟨cli, args, rfl⟩ := Parse.loop_ret_ok P index tokens 0 _ _ r st hparse herr
      refine ⟨cli, args, rfl, fun m => ?_⟩
      have hempty : Spec.init [] m = some (.ok ⟨[], []⟩, m) := rfl
      cases tokens with
      | nil =>
        simp only [Parse.loop, Option.some.injEq, Prod.mk.injEq, Return.mk.injEq] at hparse
        obtain ⟨⟨rfl, rfl, -⟩, -⟩ := hparse
        exact ⟨fun _ => rfl, fun hno => by simp [noOptions] at hno⟩
      | cons tok rest =>
        rw [Parse.loop] at hparse
        unfold Parse.body at hparse
        simp only [Bool.false_eq_true, if_false] at hparse
        by_cases hm : tok = "--"
        · subst hm
          simp only [Parse.token, isEndOfOptionSpecifier, decide_True, if_true,
            Option.some.injEq, Prod.mk.injEq, Return.mk.injEq, List.nil_append] at hparse
          obtain ⟨⟨rfl, rfl, -⟩, -⟩ := hparse
          refine ⟨fun _ => ?_, fun hno => by simp [noOptions] at hno⟩
          simp [Parse, hempty, Parse.loop, Parse.body, Parse.token, isEndOfOptionSpecifier]
        · cases hopt : isOption tok with
          | false =>
            simp only [Parse.token, isEndOfOptionSpecifier, hm, decide_False, hopt,
              Bool.false_eq_true, if_false, Option.some.injEq, Prod.mk.injEq, Return.mk.injEq,
              List.nil_append] at hparse
            obtain ⟨⟨rfl, rfl, -⟩, -⟩ := hparse
            refine ⟨fun _ => ?_, fun hno => by simp [noOptions, hopt] at hno⟩
            simp [Parse, hempty, Parse.loop, Parse.body, Parse.token, isEndOfOptionSpecifier, hm,
              hopt]
          | true =>
            refine ⟨fun hno => by simp [noOptions, hm, hopt] at hno, fun _ => ?_⟩
            cases hb : Parse.token P index 0 tok rest [] ⟨spec, h'⟩ with
            | panic => rw [hb] at hparse; cases hparse
            | ret r1 s1 =>
              rw [hb] at hparse
              simp only [Option.some.injEq, Prod.mk.injEq] at hparse
              have := Parse.token_ret P index 0 tok rest [] ⟨spec, h'⟩ r1 s1 hm hopt hb
              rw [hparse.1] at this
              exact absurd rfl this
            | next v1 s1 =>
              rw [hb] at hparse
              dsimp only at hparse
              have hev1 := Parse.token_evolves P index 0 tok rest [] ⟨spec, h'⟩ v1 s1 hb
              obtain ⟨e1, hcli, -⟩ := Parse.loop_expansion P spec index hv rest 1 v1 s1 cli args
                st hev1 hparse
              have hhead : ∃ t x, v1.cliAll = t :: x ∧ t ≠ "--" ∧ isOption t = true := by
                cases hcomp : compound tok with
                | false =>
                  have hc1 := Parse.body_cliAll P index 0 tok rest ⟨[], false, none⟩ ⟨spec, h'⟩
                    v1 s1 hcomp (by unfold Parse.body; simpa using hb)
                  exact ⟨tok, [], by simpa using hc1, hm, hopt⟩
                | true =>
                  simp only [compound, Bool.and_eq_true, decide_eq_true_eq] at hcomp
                  obtain ⟨⟨-, hs⟩, hlen⟩ := hcomp
                  obtain ⟨hnames, hcs⟩ := isOptionShort_compound tok hs hlen
                  have hme : isEndOfOptionSpecifier tok = false := by
                    simp [isEndOfOptionSpecifier, hm]
                  simp only [Parse.token, hme, Bool.false_eq_true, if_false, hopt, hs,
                    if_true] at hb
                  cases hsl : Parse.shortLoop P index (isOptionShort tok).2.length
                      (isOptionShort tok).2 [] ⟨spec, h'⟩ with
                  | panic => rw [hsl] at hb; cases hb
                  | ret r s => rw [hsl] at hb; cases hb
                  | next c s =>
                    rw [hsl] at hb
                    simp only [Parse.afterShort, hlen, if_true, Step.next.injEq] at hb
                    obtain ⟨rfl, rfl⟩ := hb
                    have hc := Parse.shortLoop_cliAll P index _ _ _ _ _ _ hsl
                    rw [hnames] at hc hlen
                    cases hd : dropDash tok.data with
                    | nil => rw [hd] at hlen; simp at hlen
                    | cons ch l =>
                      rw [hd] at hc
                      have hch := hcs ch (by rw [hd]; exact List.mem_cons_self _ _)
                      refine ⟨"-" ++ String.singleton ch, _, by simpa using hc, ?_,
                        isOption_dash _⟩
                      intro heq
                      have := isEnd_dash_singleton ch hch
                      simp [isEndOfOptionSpecifier, heq] at this
              obtain ⟨t, x, hx, htne, htopt⟩ := hhead
              obtain ⟨e, he⟩ := Parse.token_empty_index P 0 t (x ++ e1) [] ⟨[], m⟩ htne htopt
              refine ⟨e, ?_⟩
              rw [hcli, hx]
              unfold Parse
              rw [hempty]
              dsimp only
              rw [List.cons_append, Parse.loop]
              unfold Parse.body
              simp only [Bool.false_eq_true, if_false]
              rw [he]

/-- The amended property C34 on the sample values: the marker, then two arguments. -/
theorem C34_reparse_without_options_witness :
    ∃ cli args, (⟨some ["--", "-v", "a"], some ["-v", "a"], none⟩ : Return)
        = ⟨some cli, some args, none⟩ ∧ ∀ m : Heap,
      (noOptions ["--", "-v", "a"] = true →
        Parse sampleStrconv cli [] m
          = some (⟨some ["--", "-v", "a"], some ["-v", "a"], none⟩, ⟨[], m⟩)) ∧
      (noOptions ["--", "-v", "a"] = false →
        ∃ e, Parse sampleStrconv cli [] m = some (⟨none, none, some e⟩, ⟨[], m⟩)) :=
  C34_reparse_without_options sampleStrconv ["--", "-v", "a"] sampleSpec sampleHeap _
    ⟨sampleSpec, sampleHeapInit⟩ rfl rfl

/-! ## Slices that share their storage -/

theorem Slice.append_next {α : Type} (s : Slice) (mem : Nat → α) (next : Nat)
    (spare : Nat → Nat) (v : α) : next ≤ (s.append mem next spare v).2.2 := by
  unfold Slice.append
  split_ifs
  · exact Nat.le_refl _
  · exact Nat.le_add_right _ _

theorem Slice.append_mem {α : Type} (s : Slice) (mem : Nat → α) (next : Nat)
    (spare : Nat → Nat) (v : α) (a : Nat) (ha : a < next)
    (hout : ¬ (s.base ≤ a ∧ a < s.base + s.cap)) :
    (s.append mem next spare v).2.1 a = mem a := by
  unfold Slice.append
  split_ifs with hr
  · have hne : ¬ a = s.base + s.len := by
      intro heq
      apply hout
      unfold Slice.cap
      omega
    simp only [if_neg hne]
  · have h1 : ¬ (next ≤ a ∧ a < next + s.len) := by omega
    have h2 : ¬ a = next + s.len := by omega
    simp only [if_neg h1, if_neg h2]

theorem Slice.append_window {α : Type} (s : Slice) (mem : Nat → α) (next : Nat)
    (spare : Nat → Nat) (v : α) (a : Nat)
    (h1 : (s.append mem next spare v).1.base ≤ a)
    (h2 : a < (s.append mem next spare v).1.base + (s.append mem next spare v).1.cap) :
    (s.base ≤ a ∧ a < s.base + s.cap) ∨ (next ≤ a ∧ a < (s.append mem next spare v).2.2) := by
  unfold Slice.append at h1 h2 ⊢
  unfold Slice.cap at h2 ⊢
  split_ifs at h1 h2 ⊢ with hr
  · left
    simp only at h1 h2
    omega
  · right
    simp only at h1 h2 ⊢
    omega

theorem Slice.append_read {α : Type} (s : Slice) (mem : Nat → α) (next : Nat)
    (spare : Nat → Nat) (v : α) :
    (s.append mem next spare v).1.read (s.append mem next spare v).2.1 = s.read mem ++ [v] := by
  unfold Slice.append Slice.read
  split_ifs with hr
  · simp only [List.range_succ, List.map_append, List.map_cons, List.map_nil, if_true]
    congr 1
    apply List.map_congr_left
    intro i hi
    have : i < s.len := List.mem_range.mp hi
    have hne : ¬ s.base + i = s.base + s.len := by omega
    simp only [if_neg hne]
  · simp only [List.range_succ, List.map_append, List.map_cons, List.map_nil]
    congr 1
    · apply List.map_congr_left
      intro i hi
      have : i < s.len := List.mem_range.mp hi
      have h1 : next ≤ next + i ∧ next + i < next + s.len := by omega
      simp only [if_pos h1, Nat.add_sub_cancel_left]
    · have h1 : ¬ (next ≤ next + s.len ∧ next + s.len < next + s.len) := by omega
      simp only [if_neg h1, if_true]

theorem Heap.Frame.refl (h : Heap) (hd : Holder) : Heap.Frame h h hd hd :=
  ⟨Nat.le_refl _, fun _ _ _ _ => rfl, fun _ _ _ => rfl, fun _ ha => Or.inl ha, rfl, fun _ => rfl⟩

theorem Heap.Frame.bools (h : Heap) (f : Nat → Bool) (hd : Holder) :
    Heap.Frame h { h with bools := f } hd hd :=
  ⟨Nat.le_refl _, fun _ _ _ _ => rfl, fun _ _ _ => rfl, fun _ ha => Or.inl ha, rfl, fun _ => rfl⟩

theorem Heap.Frame.newBool (h : Heap) (b : Bool) :
    Heap.Frame h (h.newBool.2.setBool h.next b) ⟨TypeBool, none⟩ ⟨TypeBool, some h.next⟩ := by
  refine ⟨Nat.le_succ _, fun _ _ _ _ => rfl, fun _ _ _ => rfl, ?_, rfl, ?_⟩
  · intro a ha
    right
    have : a = h.next := ha
    subst this
    exact ⟨Nat.le_refl _, Nat.lt_succ_self _⟩
  · intro hh
    rcases hh with hh | hh
    · exact absurd rfl hh
    · cases hh

theorem Heap.cell_setString (h : Heap) (p : Nat) (v : String) (e : typeOption) (a : Nat)
    (hne : ¬ (e = TypeString ∧ a = p)) : (h.setString p v).cell e a = h.cell e a := by
  cases e <;> first
    | rfl
    | (have hap : ¬ a = p := fun heq => hne ⟨rfl, heq⟩
       simp only [Heap.cell, Heap.setString, if_neg hap])

theorem Heap.cell_setInt (h : Heap) (k : typeOption) (p : Nat) (n : Int) (e : typeOption)
    (a : Nat) (hne : ¬ (e = k ∧ a = p)) : (h.setInt k p n).cell e a = h.cell e a := by
  cases e <;> first
    | rfl
    | simp only [Heap.cell, Heap.setInt, if_neg hne]

theorem Heap.cell_setFloat (h : Heap) (k : typeOption) (p : Nat) (x : FloatVal)
    (e : typeOption) (a : Nat) (hne : ¬ (e = k ∧ a = p)) :
    (h.setFloat k p x).cell e a = h.cell e a := by
  cases e <;> first
    | rfl
    | simp only [Heap.cell, Heap.setFloat, if_neg hne]

theorem Heap.storage_scalar (h : Heap) (k : typeOption) (p a : Nat)
    (hs : (typesConstraints k).singleton = true) : h.storage ⟨k, some p⟩ a ↔ a = p := by
  simp only [Heap.storage, hs, if_true]

theorem Heap.storage_slice (h : Heap) (k : typeOption) (p a : Nat)
    (hs : (typesConstraints k).singleton = false) :
    h.storage ⟨k, some p⟩ a ↔
      ((h.slice k p).base ≤ a ∧ a < (h.slice k p).base + (h.slice k p).cap) := by
  simp only [Heap.storage, hs, Bool.false_eq_true, if_false]

theorem Heap.Frame.set (h h' : Heap) (k : typeOption) (p : Nat)
    (hs : (typesConstraints k).singleton = true) (he : elemType k = k)
    (hnext : h'.next = h.next)
    (hcell : ∀ e a, ¬ (e = k ∧ a = p) → h'.cell e a = h.cell e a)
    (hslice : ∀ k' q, h'.slice k' q = h.slice k' q) :
    Heap.Frame h h' ⟨k, some p⟩ ⟨k, some p⟩ := by
  refine ⟨Nat.le_of_eq hnext.symm, ?_, fun k' q _ => hslice k' q, ?_, rfl, fun _ => rfl⟩
  · intro e a _ hout
    apply hcell
    intro hh
    apply hout
    refine ⟨hh.1.trans he.symm, ?_⟩
    exact (Heap.storage_scalar h k p a hs).mpr hh.2
  · intro a ha
    left
    rw [Heap.storage_scalar h' k p a hs] at ha
    exact (Heap.storage_scalar h k p a hs).mpr ha

theorem Heap.Frame.alloc (h h' : Heap) (k : typeOption)
    (hs : (typesConstraints k).singleton = true)
    (hnext : h'.next = h.next + 1)
    (hcell : ∀ e a, ¬ (e = k ∧ a = h.next) → h'.cell e a = h.cell e a)
    (hslice : ∀ k' q, h'.slice k' q = h.slice k' q) :
    Heap.Frame h h' ⟨k, none⟩ ⟨k, some h.next⟩ := by
  refine ⟨by omega, ?_, fun k' q _ => hslice k' q, ?_, rfl, ?_⟩
  · intro e a ha _
    apply hcell
    intro hh
    omega
  · intro a ha
    right
    rw [Heap.storage_scalar h' k h.next a hs] at ha
    omega
  · intro hh
    rcases hh with hh | hh
    · exact absurd rfl hh
    · rw [hs] at hh
      cases hh

theorem Heap.Frame.append (h h' : Heap) (k : typeOption) (p : Nat) {α : Type}
    (mem : Nat → α) (v : α) (f : α → Elem)
    (hs : (typesConstraints k).singleton = false)
    (hnext : h'.next = ((h.slice k p).append mem h.next h.spare v).2.2)
    (hown : h'.slice k p = ((h.slice k p).append mem h.next h.spare v).1)
    (hslice : ∀ k' q, ¬ (k' = k ∧ q = p) → h'.slice k' q = h.slice k' q)
    (hmem : ∀ a, h.cell (elemType k) a = f (mem a))
    (hmem' : ∀ a, h'.cell (elemType k) a
      = f (((h.slice k p).append mem h.next h.spare v).2.1 a))
    (hcell : ∀ e a, e ≠ elemType k → h'.cell e a = h.cell e a) :
    Heap.Frame h h' ⟨k, some p⟩ ⟨k, some p⟩ := by
  refine ⟨?_, ?_, ?_, ?_, rfl, fun _ => rfl⟩
  · rw [hnext]
    exact Slice.append_next _ _ _ _ _
  · intro e a ha hout
    by_cases hek : e = elemType k
    · subst hek
      rw [hmem', hmem, Slice.append_mem _ _ _ _ _ a ha]
      intro hw
      exact hout ⟨rfl, (Heap.storage_slice h k p a hs).mpr hw⟩
    · exact hcell e a hek
  · intro k' q hne
    apply hslice
    intro hh
    apply hne
    rw [hh.1, hh.2]
  · intro a ha
    rw [Heap.storage_slice h' k p a hs, hown] at ha
    rcases Slice.append_window _ _ _ _ _ a ha.1 ha.2 with hw | hw
    · exact Or.inl ((Heap.storage_slice h k p a hs).mpr hw)
    · right
      rw [hnext]
      exact hw

theorem Heap.Frame.appendString (h : Heap) (p : Nat) (v : String) :
    Heap.Frame h (h.appendString p v) ⟨TypeStrings, some p⟩ ⟨TypeStrings, some p⟩ := by
  apply Heap.Frame.append h (h.appendString p v) TypeStrings p h.strings v Elem.str rfl rfl
  · simp [Heap.slice, Heap.appendString]
  · intro k' q hne
    cases k' <;> first
      | rfl
      | (have hq : ¬ q = p := fun heq => hne ⟨rfl, heq⟩
         simp only [Heap.slice, Heap.appendString, if_neg hq])
  · intro a
    rfl
  · intro a
    rfl
  · intro e a hne
    cases e <;> first
      | rfl
      | exact absurd rfl hne

theorem Heap.Frame.appendInt_of (h : Heap) (k : typeOption) (p : Nat) (n : Int)
    (hs : (typesConstraints k).singleton = false)
    (hsl : ∀ (m : Heap) (q : Nat), m.slice k q = m.intSlices k q)
    (hcl : ∀ (m : Heap) (a : Nat), m.cell (elemType k) a = .int (m.ints (elemType k) a)) :
    Heap.Frame h (h.appendInt k p n) ⟨k, some p⟩ ⟨k, some p⟩ := by
  apply Heap.Frame.append h _ k p (h.ints (elemType k)) n Elem.int hs
  · rw [hsl]
    rfl
  · rw [hsl, hsl]
    simp [Heap.appendInt]
  · intro k' q hne
    cases k' <;> first
      | rfl
      | simp only [Heap.slice, Heap.appendInt, if_neg hne]
  · intro a
    exact hcl h a
  · intro a
    rw [hcl, hsl]
    simp [Heap.appendInt]
  · intro e a hne
    cases e <;> first
      | rfl
      | simp only [Heap.cell, Heap.appendInt, if_neg hne]

theorem Heap.Frame.appendInt (h : Heap) (k : typeOption) (p : Nat) (n : Int)
    (hk : k = TypeIntegers ∨ k = TypeIntegers8 ∨ k = TypeIntegers16 ∨
      k = TypeIntegers32 ∨ k = TypeIntegers64 ∨ k = TypeUIntegers ∨ k = TypeUIntegers8 ∨
      k = TypeUIntegers16 ∨ k = TypeUIntegers32 ∨ k = TypeUIntegers64) :
    Heap.Frame h (h.appendInt k p n) ⟨k, some p⟩ ⟨k, some p⟩ := by
  rcases hk with rfl | rfl | rfl | rfl | rfl | rfl | rfl | rfl | rfl | rfl <;>
    exact Heap.Frame.appendInt_of h _ p n rfl (fun _ _ => rfl) (fun _ _ => rfl)

theorem Heap.Frame.appendFloat_of (h : Heap) (k : typeOption) (p : Nat) (x : FloatVal)
    (hs : (typesConstraints k).singleton = false)
    (hsl : ∀ (m : Heap) (q : Nat), m.slice k q = m.floatSlices k q)
    (hcl : ∀ (m : Heap) (a : Nat), m.cell (elemType k) a = .float (m.floats (elemType k) a)) :
    Heap.Frame h (h.appendFloat k p x) ⟨k, some p⟩ ⟨k, some p⟩ := by
  apply Heap.Frame.append h _ k p (h.floats (elemType k)) x Elem.float hs
  · rw [hsl]
    rfl
  · rw [hsl, hsl]
    simp [Heap.appendFloat]
  · intro k' q hne
    cases k' <;> first
      | rfl
      | simp only [Heap.slice, Heap.appendFloat, if_neg hne]
  · intro a
    exact hcl h a
  · intro a
    rw [hcl, hsl]
    simp [Heap.appendFloat]
  · intro e a hne
    cases e <;> first
      | rfl
      | simp only [Heap.cell, Heap.appendFloat, if_neg hne]

theorem Heap.Frame.appendFloat (h : Heap) (k : typeOption) (p : Nat) (x : FloatVal)
    (hk : k = TypeFloats32 ∨ k = TypeFloats64) :
    Heap.Frame h (h.appendFloat k p x) ⟨k, some p⟩ ⟨k, some p⟩ := by
  rcases hk with rfl | rfl <;>
    exact Heap.Frame.appendFloat_of h _ p x rfl (fun _ _ => rfl) (fun _ _ => rfl)

theorem Heap.Frame.setString (h : Heap) (p : Nat) (v : String) :
    Heap.Frame h (h.setString p v) ⟨TypeString, some p⟩ ⟨TypeString, some p⟩ :=
  Heap.Frame.set h _ TypeString p rfl rfl rfl (Heap.cell_setString h p v) (fun _ _ => rfl)

theorem Heap.Frame.newString (h : Heap) (v : String) :
    Heap.Frame h (h.newString.2.setString h.next v) ⟨TypeString, none⟩
      ⟨TypeString, some h.next⟩ := by
  apply Heap.Frame.alloc h _ TypeString rfl rfl
  · intro e a hne
    rw [Heap.cell_setString _ _ _ _ _ hne]
    exact Heap.cell_setString h h.next "" e a hne
  · intro k' q
    rfl

theorem CliOption.addInt_frame (P : Strconv) (o : CliOption) (k : typeOption) (bitSize : Nat)
    (v : String) (h : Heap) (hok : o.Holder.kind = k)
    (hs : (typesConstraints k).singleton = true) (he : elemType k = k) :
    Heap.Frame h (o.addInt P k bitSize v h).2.2 o.Holder (o.addInt P k bitSize v h).2.1.Holder := by
  obtain ⟨S, L, ⟨k0, q⟩, st⟩ := o
  simp only at hok
  subst hok
  unfold CliOption.addInt
  cases q with
  | some p =>
    dsimp only
    cases ParseInt P v bitSize with
    | error err => exact Heap.Frame.refl h _
    | ok n =>
      exact Heap.Frame.set h _ k0 p hs he rfl (Heap.cell_setInt h k0 p n) (fun _ _ => rfl)
  | none =>
    dsimp only [Heap.newInt]
    cases ParseInt P v bitSize with
    | error err =>
      exact Heap.Frame.alloc h _ k0 hs rfl (Heap.cell_setInt h k0 h.next 0) (fun _ _ => rfl)
    | ok n =>
      apply Heap.Frame.alloc h _ k0 hs rfl
      · intro e a hne
        rw [Heap.cell_setInt _ _ _ _ _ _ hne]
        exact Heap.cell_setInt h k0 h.next 0 e a hne
      · intro k' q
        rfl

theorem CliOption.addUint_frame (P : Strconv) (o : CliOption) (k : typeOption) (bitSize : Nat)
    (v : String) (h : Heap) (hok : o.Holder.kind = k)
    (hs : (typesConstraints k).singleton = true) (he : elemType k = k) :
    Heap.Frame h (o.addUint P k bitSize v h).2.2 o.Holder
      (o.addUint P k bitSize v h).2.1.Holder := by
  obtain ⟨S, L, ⟨k0, q⟩, st⟩ := o
  simp only at hok
  subst hok
  unfold CliOption.addUint
  cases q with
  | some p =>
    dsimp only
    cases ParseUint P v bitSize with
    | error err => exact Heap.Frame.refl h _
    | ok n =>
      exact Heap.Frame.set h _ k0 p hs he rfl (Heap.cell_setInt h k0 p n) (fun _ _ => rfl)
  | none =>
    dsimp only [Heap.newInt]
    cases ParseUint P v bitSize with
    | error err =>
      exact Heap.Frame.alloc h _ k0 hs rfl (Heap.cell_setInt h k0 h.next 0) (fun _ _ => rfl)
    | ok n =>
      apply Heap.Frame.alloc h _ k0 hs rfl
      · intro e a hne
        rw [Heap.cell_setInt _ _ _ _ _ _ hne]
        exact Heap.cell_setInt h k0 h.next 0 e a hne
      · intro k' q
        rfl

theorem CliOption.addFloat_frame (P : Strconv) (o : CliOption) (k : typeOption) (bitSize : Nat)
    (v : String) (h : Heap) (hok : o.Holder.kind = k)
    (hs : (typesConstraints k).singleton = true) (he : elemType k = k) :
    Heap.Frame h (o.addFloat P k bitSize v h).2.2 o.Holder
      (o.addFloat P k bitSize v h).2.1.Holder := by
  obtain ⟨S, L, ⟨k0, q⟩, st⟩ := o
  simp only at hok
  subst hok
  unfold CliOption.addFloat
  cases q with
  | some p =>
    dsimp only
    cases P.ParseFloat v bitSize with
    | error err => exact Heap.Frame.refl h _
    | ok n =>
      exact Heap.Frame.set h _ k0 p hs he rfl (Heap.cell_setFloat h k0 p n) (fun _ _ => rfl)
  | none =>
    dsimp only [Heap.newFloat]
    cases P.ParseFloat v bitSize with
    | error err =>
      exact Heap.Frame.alloc h _ k0 hs rfl (Heap.cell_setFloat h k0 h.next ⟨0⟩) (fun _ _ => rfl)
    | ok n =>
      apply Heap.Frame.alloc h _ k0 hs rfl
      · intro e a hne
        rw [Heap.cell_setFloat _ _ _ _ _ _ hne]
        exact Heap.cell_setFloat h k0 h.next ⟨0⟩ e a hne
      · intro k' q
        rfl

theorem Holder.eq_mk (hd : Holder) (k : typeOption) (q : Option Nat) (hk : hd.kind = k)
    (hp : hd.ptr = q) : hd = ⟨k, q⟩ := by
  obtain ⟨k0, q0⟩ := hd
  simp only at hk hp
  rw [hk, hp]

theorem Heap.stringLists_appendString (h : Heap) (p : Nat) (v : String) :
    (h.appendString p v).stringLists p = h.stringLists p ++ [v] := by
  simp only [Heap.stringLists, Heap.appendString, if_true]
  exact Slice.append_read _ _ _ _ _

theorem Heap.intLists_appendInt (h : Heap) (k : typeOption) (p : Nat) (n : Int) :
    (h.appendInt k p n).intLists k p = h.intLists k p ++ [n] := by
  simp only [Heap.intLists, Heap.appendInt, and_self, if_true]
  exact Slice.append_read _ _ _ _ _

theorem Heap.floatLists_appendFloat (h : Heap) (k : typeOption) (p : Nat) (x : FloatVal) :
    (h.appendFloat k p x).floatLists k p = h.floatLists k p ++ [x] := by
  simp only [Heap.floatLists, Heap.appendFloat, and_self, if_true]
  exact Slice.append_read _ _ _ _ _

theorem Heap.list_appendString (h : Heap) (p : Nat) (v : String) :
    (h.appendString p v).list ⟨TypeStrings, some p⟩
      = h.list ⟨TypeStrings, some p⟩ ++ [.str v] := by
  simp [Heap.list, Heap.stringLists_appendString]

theorem Heap.list_appendInt (h : Heap) (k : typeOption) (p : Nat) (n : Int)
    (hk : k = TypeIntegers ∨ k = TypeIntegers8 ∨ k = TypeIntegers16 ∨
      k = TypeIntegers32 ∨ k = TypeIntegers64 ∨ k = TypeUIntegers ∨ k = TypeUIntegers8 ∨
      k = TypeUIntegers16 ∨ k = TypeUIntegers32 ∨ k = TypeUIntegers64) :
    (h.appendInt k p n).list ⟨k, some p⟩ = h.list ⟨k, some p⟩ ++ [.int n] := by
  rcases hk with rfl | rfl | rfl | rfl | rfl | rfl | rfl | rfl | rfl | rfl <;>
    simp [Heap.list, Heap.intLists_appendInt]

theorem Heap.list_appendFloat (h : Heap) (k : typeOption) (p : Nat) (x : FloatVal)
    (hk : k = TypeFloats32 ∨ k = TypeFloats64) :
    (h.appendFloat k p x).list ⟨k, some p⟩ = h.list ⟨k, some p⟩ ++ [.float x] := by
  rcases hk with rfl | rfl <;> simp [Heap.list, Heap.floatLists_appendFloat]

theorem CliOption.addInts_frame (P : Strconv) (o : CliOption) (k : typeOption) (bitSize : Nat)
    (v : String) (h : Heap) (e : Option Error) (o' : CliOption) (h' : Heap)
    (ha : o.addInts P k bitSize v h = some (e, o', h')) (hok : o.Holder.kind = k)
    (hk : k = TypeIntegers ∨ k = TypeIntegers8 ∨ k = TypeIntegers16 ∨
      k = TypeIntegers32 ∨ k = TypeIntegers64 ∨ k = TypeUIntegers ∨ k = TypeUIntegers8 ∨
      k = TypeUIntegers16 ∨ k = TypeUIntegers32 ∨ k = TypeUIntegers64) :
    Heap.Frame h h' o.Holder o'.Holder ∧
      h'.list o.Holder
        = h.list o.Holder ++ ((ParseInt P v bitSize).toOption.map Elem.int).toList := by
  unfold CliOption.addInts at ha
  split at ha
  · rename_i err herr
    simp only [Option.some.injEq, Prod.mk.injEq] at ha
    obtain ⟨-, rfl, rfl⟩ := ha
    rw [herr]
    exact ⟨Heap.Frame.refl h _, by simp [Except.toOption]⟩
  · rename_i n hn
    split at ha
    · cases ha
    · rename_i p hp
      simp only [Option.some.injEq, Prod.mk.injEq] at ha
      obtain ⟨-, rfl, rfl⟩ := ha
      rw [Holder.eq_mk o.Holder k (some p) hok hp, hn]
      exact ⟨Heap.Frame.appendInt h k p n hk, by
        rw [Heap.list_appendInt h k p n hk]; simp [Except.toOption]⟩

theorem CliOption.addUints_frame (P : Strconv) (o : CliOption) (k : typeOption) (bitSize : Nat)
    (v : String) (h : Heap) (e : Option Error) (o' : CliOption) (h' : Heap)
    (ha : o.addUints P k bitSize v h = some (e, o', h')) (hok : o.Holder.kind = k)
    (hk : k = TypeIntegers ∨ k = TypeIntegers8 ∨ k = TypeIntegers16 ∨
      k = TypeIntegers32 ∨ k = TypeIntegers64 ∨ k = TypeUIntegers ∨ k = TypeUIntegers8 ∨
      k = TypeUIntegers16 ∨ k = TypeUIntegers32 ∨ k = TypeUIntegers64) :
    Heap.Frame h h' o.Holder o'.Holder ∧
      h'.list o.Holder
        = h.list o.Holder
          ++ ((ParseUint P v bitSize).toOption.map fun n => Elem.int n).toList := by
  unfold CliOption.addUints at ha
  split at ha
  · rename_i err herr
    simp only [Option.some.injEq, Prod.mk.injEq] at ha
    obtain ⟨-, rfl, rfl⟩ := ha
    rw [herr]
    exact ⟨Heap.Frame.refl h _, by simp [Except.toOption]⟩
  · rename_i n hn
    split at ha
    · cases ha
    · rename_i p hp
      simp only [Option.some.injEq, Prod.mk.injEq] at ha
      obtain ⟨-, rfl, rfl⟩ := ha
      rw [Holder.eq_mk o.Holder k (some p) hok hp, hn]
      exact ⟨Heap.Frame.appendInt h k p n hk, by
        rw [Heap.list_appendInt h k p n hk]; simp [Except.toOption]⟩

theorem CliOption.addFloats_frame (P : Strconv) (o : CliOption) (k : typeOption)
    (bitSize : Nat) (v : String) (h : Heap) (e : Option Error) (o' : CliOption) (h' : Heap)
    (ha : o.addFloats P k bitSize v h = some (e, o', h')) (hok : o.Holder.kind = k)
    (hk : k = TypeFloats32 ∨ k = TypeFloats64) :
    Heap.Frame h h' o.Holder o'.Holder ∧
      h'.list o.Holder
        = h.list o.Holder ++ ((P.ParseFloat v bitSize).toOption.map Elem.float).toList := by
  unfold CliOption.addFloats at ha
  split at ha
  · rename_i err herr
    simp only [Option.some.injEq, Prod.mk.injEq] at ha
    obtain ⟨-, rfl, rfl⟩ := ha
    rw [herr]
    exact ⟨Heap.Frame.refl h _, by simp [Except.toOption]⟩
  · rename_i x hx
    split at ha
    · cases ha
    · rename_i p hp
      simp only [Option.some.injEq, Prod.mk.injEq] at ha
      obtain ⟨-, rfl, rfl⟩ := ha
      rw [Holder.eq_mk o.Holder k (some p) hok hp, hx]
      exact ⟨Heap.Frame.appendFloat h k p x hk, by
        rw [Heap.list_appendFloat h k p x hk]; simp [Except.toOption]⟩

theorem CliOption.addValue_frame (P : Strconv) (o : CliOption) (v : Value) (h : Heap)
    (e : Option Error) (o' : CliOption) (h' : Heap)
    (ha : o.addValue P v h = some (e, o', h')) : Heap.Frame h h' o.Holder o'.Holder := by
  cases v with
  | bool b =>
    unfold CliOption.addValue at ha
    simp only [CliOption.getType_fst] at ha
    split_ifs at ha with hb
    · split at ha
      · rename_i p hp
        simp only [Option.some.injEq, Prod.mk.injEq] at ha
        obtain ⟨-, rfl, rfl⟩ := ha
        exact Heap.Frame.bools h _ _
      · rename_i hp
        simp only [Option.some.injEq, Prod.mk.injEq] at ha
        obtain ⟨-, rfl, rfl⟩ := ha
        rw [Holder.eq_mk o.Holder TypeBool none hb hp]
        exact Heap.Frame.newBool h b
    · simp only [Option.some.injEq, Prod.mk.injEq] at ha
      obtain ⟨-, rfl, rfl⟩ := ha
      exact Heap.Frame.refl h _
  | other =>
    unfold CliOption.addValue at ha
    simp only [CliOption.getType_fst] at ha
    split_ifs at ha <;>
      (simp only [Option.some.injEq, Prod.mk.injEq] at ha
       obtain ⟨-, rfl, rfl⟩ := ha
       exact Heap.Frame.refl h _)
  | string val =>
    unfold CliOption.addValue at ha
    simp only [CliOption.getType_fst] at ha
    split_ifs at ha with hb
    · simp only [Option.some.injEq, Prod.mk.injEq] at ha
      obtain ⟨-, rfl, rfl⟩ := ha
      exact Heap.Frame.refl h _
    · split at ha
      all_goals
        rename_i hk
        first
          | (simp only [Option.some.injEq] at ha
             show Heap.Frame h (e, o', h').2.2 o.Holder (e, o', h').2.1.Holder
             rw [← ha]
             exact CliOption.addInt_frame P o _ _ val h hk rfl rfl)
          | (simp only [Option.some.injEq] at ha
             show Heap.Frame h (e, o', h').2.2 o.Holder (e, o', h').2.1.Holder
             rw [← ha]
             exact CliOption.addUint_frame P o _ _ val h hk rfl rfl)
          | (simp only [Option.some.injEq] at ha
             show Heap.Frame h (e, o', h').2.2 o.Holder (e, o', h').2.1.Holder
             rw [← ha]
             exact CliOption.addFloat_frame P o _ _ val h hk rfl rfl)
          | exact (CliOption.addInts_frame P o _ _ val h e o' h' ha hk (by simp)).1
          | exact (CliOption.addUints_frame P o _ _ val h e o' h' ha hk (by simp)).1
          | exact (CliOption.addFloats_frame P o _ _ val h e o' h' ha hk (by simp)).1
          | (split at ha <;> rename_i hp <;>
               simp only [Option.some.injEq, Prod.mk.injEq] at ha <;>
               obtain ⟨-, rfl, rfl⟩ := ha <;>
               rw [Holder.eq_mk o.Holder TypeString _ hk hp] <;>
               first
                 | exact Heap.Frame.setString h _ val
                 | exact Heap.Frame.newString h val)
          | (split at ha <;> first
               | (cases ha; done)
               | (rename_i p hp
                  simp only [Option.some.injEq, Prod.mk.injEq] at ha
                  obtain ⟨-, rfl, rfl⟩ := ha
                  rw [Holder.eq_mk o.Holder TypeStrings (some p) hk hp]
                  exact Heap.Frame.appendString h p val))
          | (simp only [Option.some.injEq, Prod.mk.injEq] at ha
             obtain ⟨-, rfl, rfl⟩ := ha
             exact Heap.Frame.refl h _)

theorem CliOption.addValue_own (P : Strconv) (o : CliOption) (v : Value) (h : Heap)
    (e : Option Error) (o' : CliOption) (h' : Heap)
    (ha : o.addValue P v h = some (e, o', h'))
    (hrep : typesConstraints o.Holder.kind = ⟨false, true⟩) :
    h'.list o.Holder = h.list o.Holder ++ v.elems P o.Holder.kind := by
  have hnb : ¬ o.Holder.kind = TypeBool := by
    intro hb
    rw [hb] at hrep
    simp [typesConstraints] at hrep
  cases v with
  | bool b =>
    unfold CliOption.addValue at ha
    simp only [CliOption.getType_fst, if_neg hnb, Option.some.injEq, Prod.mk.injEq] at ha
    obtain ⟨-, rfl, rfl⟩ := ha
    simp [Value.elems]
  | other =>
    unfold CliOption.addValue at ha
    simp only [CliOption.getType_fst, if_neg hnb, Option.some.injEq, Prod.mk.injEq] at ha
    obtain ⟨-, rfl, rfl⟩ := ha
    simp [Value.elems]
  | string val =>
    unfold CliOption.addValue at ha
    simp only [CliOption.getType_fst, if_neg hnb] at ha
    split at ha
    all_goals
      rename_i hk
      first
        | (rw [(CliOption.addInts_frame P o _ _ val h e o' h' ha hk (by simp)).2, hk]
           rfl)
        | (rw [(CliOption.addUints_frame P o _ _ val h e o' h' ha hk (by simp)).2, hk]
           rfl)
        | (rw [(CliOption.addFloats_frame P o _ _ val h e o' h' ha hk (by simp)).2, hk]
           rfl)
        | (rw [hk] at hrep
           simp [typesConstraints] at hrep
           done)
        | (split at ha <;> first
             | (cases ha; done)
             | (rename_i p hp
                simp only [Option.some.injEq, Prod.mk.injEq] at ha
                obtain ⟨-, rfl, rfl⟩ := ha
                rw [Holder.eq_mk o.Holder TypeStrings (some p) hk hp, Heap.list_appendString]
                rfl))
        | (exfalso
           cases hkk : o.Holder.kind <;> first
             | exact absurd hkk (by assumption)
             | (rw [hkk] at hrep; simp [typesConstraints] at hrep))

theorem Heap.storage_congr (h h' : Heap) (hd : Holder) (a : Nat)
    (hs : ∀ p, hd.ptr = some p → h'.slice hd.kind p = h.slice hd.kind p) :
    h'.storage hd a ↔ h.storage hd a := by
  unfold Heap.storage
  cases hp : hd.ptr with
  | none => exact Iff.rfl
  | some p =>
    dsimp only
    rw [hs p hp]

theorem Heap.storage_nil (h : Heap) (hd : Holder) (a : Nat) (hp : hd.ptr = none) :
    ¬ h.storage hd a := by
  unfold Heap.storage
  rw [hp]
  exact fun hf => hf

theorem Heap.list_cells (h : Heap) (k : typeOption) (p : Nat)
    (hrep : typesConstraints k = ⟨false, true⟩) :
    h.list ⟨k, some p⟩ = (h.slice k p).read (h.cell (elemType k)) := by
  cases k <;> first
    | (simp [typesConstraints] at hrep; done)
    | simp [Heap.list, Heap.stringLists, Heap.intLists, Heap.floatLists, Slice.read,
        Heap.slice, Heap.cell, elemType, List.map_map, Function.comp]

theorem Heap.list_congr (h h' : Heap) (hd : Holder)
    (hrep : typesConstraints hd.kind = ⟨false, true⟩)
    (hs : ∀ p, hd.ptr = some p → h'.slice hd.kind p = h.slice hd.kind p)
    (hc : ∀ a, h.storage hd a → h'.cell (elemType hd.kind) a = h.cell (elemType hd.kind) a) :
    h'.list hd = h.list hd := by
  obtain ⟨k, q⟩ := hd
  cases q with
  | none => rfl
  | some p =>
    simp only at hrep hs hc
    rw [Heap.list_cells h' k p hrep, Heap.list_cells h k p hrep, hs p rfl]
    unfold Slice.read
    apply List.map_congr_left
    intro i hi
    have hi' : i < (h.slice k p).len := List.mem_range.mp hi
    apply hc
    have hsing : (typesConstraints k).singleton = false := by rw [hrep]
    rw [Heap.storage_slice h k p _ hsing]
    unfold Slice.cap
    omega

theorem Spec.unshared_set (s : Spec) (h : Heap) (hd : Holder) (k : Nat) (o o1 : CliOption)
    (ho : s[k]? = some o) (hH : o1.Holder = o.Holder) (hun : Spec.unshared s h hd) :
    Spec.unshared (s.set k o1) h hd := by
  refine ⟨hun.1, ?_⟩
  intro o2 hmem hne hel a ha
  rcases List.mem_or_eq_of_mem_set hmem with hm | rfl
  · exact hun.2 o2 hm hne hel a ha
  · rw [hH] at hne hel ha
    exact hun.2 o (List.mem_iff_getElem?.mpr ⟨k, ho⟩) hne hel a ha

theorem State.addValue_unshared (P : Strconv) (st st' : State) (k : Nat) (v : Value)
    (hd : Holder) (hrep : typesConstraints hd.kind = ⟨false, true⟩)
    (hun : Spec.unshared st.spec st.heap hd)
    (ha : State.addValue P st k v = some st') :
    Spec.unshared st'.spec st'.heap hd ∧
    ∃ o, st.spec[k]? = some o ∧
      st'.heap.list hd = st.heap.list hd ++
        (if o.Holder = hd then v.elems P hd.kind else []) := by
  have hsing : (typesConstraints hd.kind).singleton = false := by rw [hrep]
  unfold State.addValue at ha
  cases ho : st.spec[k]? with
  | none => rw [ho] at ha; cases ha
  | some o =>
    rw [ho] at ha
    dsimp only at ha
    cases hav : o.addValue P v st.heap with
    | none => rw [hav] at ha; cases ha
    | some r =>
      obtain ⟨e, o', h'⟩ := r
      rw [hav] at ha
      simp only [Option.some.injEq] at ha
      subst ha
      have F := CliOption.addValue_frame P o v st.heap e o' h' hav
      have hom : o ∈ st.spec := List.mem_iff_getElem?.mpr ⟨k, ho⟩
      by_cases hA : o.Holder = hd
      · -- the step is made through the holder `hd` itself
        have ho' : o'.Holder = hd := by
          rw [F.same (Or.inr (by rw [hA]; exact hsing)), hA]
        have hst : ∀ a, h'.storage hd a → st.heap.storage hd a ∨
            (st.heap.next ≤ a ∧ a < h'.next) := by
          intro a ha'
          have := F.storage a (by rw [ho']; exact ha')
          rw [hA] at this
          exact this
        refine ⟨⟨?_, ?_⟩, o, rfl, ?_⟩
        · intro a ha'
          rcases hst a ha' with h1 | h1
          · exact Nat.lt_of_lt_of_le (hun.1 a h1) F.next
          · exact h1.2
        · intro o2 hmem hne hel a ha'
          rcases List.mem_or_eq_of_mem_set hmem with hm | rfl
          · have hne2 : o2.Holder ≠ o.Holder := by rw [hA]; exact hne
            have hsl : ∀ p, o2.Holder.ptr = some p →
                h'.slice o2.Holder.kind p = st.heap.slice o2.Holder.kind p := by
              intro p hp
              apply F.slice
              intro heq
              apply hne2
              rw [← heq]
              exact Holder.eq_mk _ _ _ rfl hp
            rw [Heap.storage_congr st.heap h' o2.Holder a hsl] at ha'
            obtain ⟨h1, h2⟩ := hun.2 o2 hm hne hel a ha'
            refine ⟨Nat.lt_of_lt_of_le h1 F.next, ?_⟩
            intro h3
            rcases hst a h3 with h4 | h4
            · exact h2 h4
            · omega
          · exact absurd ho' hne
        · simp only [if_pos hA]
          rw [← hA]
          rw [← hA] at hrep
          exact CliOption.addValue_own P o v st.heap e o' h' hav hrep
      · -- the step is made through another holder
        have hsl0 : ∀ p, hd.ptr = some p → h'.slice hd.kind p = st.heap.slice hd.kind p := by
          intro p hp
          apply F.slice
          intro heq
          apply hA
          rw [← heq]
          exact (Holder.eq_mk _ _ _ rfl hp).symm
        have hst0 : ∀ a, h'.storage hd a ↔ st.heap.storage hd a :=
          fun a => Heap.storage_congr st.heap h' hd a hsl0
        refine ⟨⟨?_, ?_⟩, o, rfl, ?_⟩
        · intro a ha'
          rw [hst0] at ha'
          exact Nat.lt_of_lt_of_le (hun.1 a ha') F.next
        · intro o2 hmem hne hel a ha'
          rw [hst0]
          by_cases h2 : o2.Holder = o'.Holder
          · rw [h2] at ha' hel
            rw [F.kind] at hel
            rcases F.storage a ha' with h3 | h3
            · obtain ⟨h4, h5⟩ := hun.2 o hom hA hel a h3
              exact ⟨Nat.lt_of_lt_of_le h4 F.next, h5⟩
            · refine ⟨h3.2, fun h6 => ?_⟩
              have := hun.1 a h6
              omega
          · have hm : o2 ∈ st.spec := by
              rcases List.mem_or_eq_of_mem_set hmem with hm | rfl
              · exact hm
              · exact absurd rfl h2
            by_cases h3 : o2.Holder = o.Holder
            · have hnil : o.Holder.ptr = none := by
                cases hp : o.Holder.ptr with
                | none => rfl
                | some p =>
                  exfalso
                  apply h2
                  rw [h3, F.same (Or.inl (by rw [hp]; simp))]
              rw [h3] at ha'
              exact absurd ha' (Heap.storage_nil h' o.Holder a hnil)
            · have hsl : ∀ p, o2.Holder.ptr = some p →
                  h'.slice o2.Holder.kind p = st.heap.slice o2.Holder.kind p := by
                intro p hp
                apply F.slice
                intro heq
                apply h3
                rw [← heq]
                exact Holder.eq_mk _ _ _ rfl hp
              rw [Heap.storage_congr st.heap h' o2.Holder a hsl] at ha'
              obtain ⟨h4, h5⟩ := hun.2 o2 hm hne hel a ha'
              exact ⟨Nat.lt_of_lt_of_le h4 F.next, h5⟩
        · simp only [if_neg hA, List.append_nil]
          apply Heap.list_congr st.heap h' hd hrep hsl0
          intro a ha'
          apply F.cell _ a (hun.1 a ha')
          intro hh
          exact (hun.2 o hom hA hh.1.symm a hh.2).2 ha'

theorem State.addValue_bool_unshared (P : Strconv) (st st' : State) (k : Nat) (b : Bool)
    (hd : Holder) (hrep : typesConstraints hd.kind = ⟨false, true⟩)
    (hun : Spec.unshared st.spec st.heap hd)
    (ha : State.addValue P st k (.bool b) = some st') :
    Spec.unshared st'.spec st'.heap hd :=
  (State.addValue_unshared P st st' k (.bool b) hd hrep hun ha).1

theorem Parse.shortLoop_unshared (P : Strconv) (index : specIndex) (n : Nat) (hd : Holder)
    (hrep : typesConstraints hd.kind = ⟨false, true⟩) (names : List String) :
    ∀ (cliAll : List String) (st : State) (c : List String) (st' : State),
      Spec.unshared st.spec st.heap hd →
      Parse.shortLoop P index n names cliAll st = .next c st' →
      Spec.unshared st'.spec st'.heap hd := by
  induction names with
  | nil =>
    intro cliAll st c st' hun h
    simp only [Parse.shortLoop, Step.next.injEq] at h
    rw [← h.2]
    exact hun
  | cons nm rest ih =>
    intro cliAll st c st' hun h
    rw [Parse.shortLoop] at h
    cases hl : index.getShortByName nm with
    | none => rw [hl] at h; cases h
    | some j =>
      rw [hl] at h
      dsimp only at h
      cases ho : st.spec[j]? with
      | none => rw [ho] at h; cases h
      | some o =>
        rw [ho] at h
        dsimp only at h
        split_ifs at h with hreq
        cases hr : recordOption o nm with
        | mk e o1 =>
          rw [hr] at h
          cases e with
          | some err => cases h
          | none =>
            dsimp only at h
            cases ha : State.addValue P ⟨st.spec.set j o1, st.heap⟩ j (.bool true) with
            | none => rw [ha] at h; cases h
            | some s2 =>
              rw [ha] at h
              dsimp only at h
              have ho1 : o1 = o.setIt := recordOption_none o o1 nm hr
              have hun1 : Spec.unshared (st.spec.set j o1) st.heap hd :=
                Spec.unshared_set st.spec st.heap hd j o o1 ho (by rw [ho1]; rfl) hun
              exact ih _ s2 c st'
                (State.addValue_bool_unshared P _ s2 j true hd hrep hun1 ha) h

theorem Parse.longOption_unshared (P : Strconv) (index : specIndex) (name : String)
    (cliAll : List String) (st : State) (v : Vars) (st' : State) (hd : Holder)
    (hrep : typesConstraints hd.kind = ⟨false, true⟩)
    (hun : Spec.unshared st.spec st.heap hd)
    (h : Parse.longOption P index name cliAll st = .next v st') :
    Spec.unshared st'.spec st'.heap hd := by
  unfold Parse.longOption at h
  cases hl : index.getLongByName name with
  | none => rw [hl] at h; cases h
  | some j =>
    rw [hl] at h
    dsimp only at h
    cases ho : st.spec[j]? with
    | none => rw [ho] at h; cases h
    | some o =>
      rw [ho] at h
      dsimp only at h
      cases hr : recordOption o name with
      | mk e o1 =>
        rw [hr] at h
        cases e with
        | some err => cases h
        | none =>
          dsimp only at h
          have ho1 : o1 = o.setIt := recordOption_none o o1 name hr
          have hun1 : Spec.unshared (st.spec.set j o1) st.heap hd :=
            Spec.unshared_set st.spec st.heap hd j o o1 ho (by rw [ho1]; rfl) hun
          split_ifs at h with hreq
          · cases h
            exact hun1
          · cases ha : State.addValue P ⟨st.spec.set j o1, st.heap⟩ j (.bool true) with
            | none => rw [ha] at h; cases h
            | some s2 =>
              rw [ha] at h
              dsimp only at h
              cases h
              exact State.addValue_bool_unshared P _ _ j true hd hrep hun1 ha

theorem Parse.token_unshared (P : Strconv) (index : specIndex) (i : Nat) (tok : String)
    (rest cliAll : List String) (st : State) (v : Vars) (st' : State) (hd : Holder)
    (hrep : typesConstraints hd.kind = ⟨false, true⟩)
    (hun : Spec.unshared st.spec st.heap hd)
    (h : Parse.token P index i tok rest cliAll st = .next v st') :
    Spec.unshared st'.spec st'.heap hd := by
  unfold Parse.token at h
  split_ifs at h with h1 h2 h3 h4
  · cases hsl : Parse.shortLoop P index (isOptionShort tok).2.length (isOptionShort tok).2
        cliAll st with
    | panic => rw [hsl] at h; cases h
    | ret r s => rw [hsl] at h; cases h
    | next c s =>
      rw [hsl] at h
      dsimp only at h
      rw [Parse.afterShort_evolves index _ c s v st' h]
      exact Parse.shortLoop_unshared P index _ hd hrep _ _ _ _ _ hun hsl
  · exact Parse.longOption_unshared P index _ cliAll st v st' hd hrep hun h

theorem CliOption.init_unshared (o : CliOption) (h h' : Heap) (e : Option Error) (s : Spec)
    (hd : cli.Holder) (hi : o.init h = some (e, h')) (hun : Spec.unshared s h hd) :
    Spec.unshared s h' hd := by
  unfold CliOption.init at hi
  split_ifs at hi
  all_goals first
    | (simp only [Option.some.injEq, Prod.mk.injEq] at hi; rw [← hi.2]; exact hun)
    | (simp only at hi
       split_ifs at hi <;> first
         | (simp only [Option.some.injEq, Prod.mk.injEq] at hi; rw [← hi.2]; exact hun)
         | (split at hi <;> first
              | (cases hi; done)
              | (simp only [Option.some.injEq, Prod.mk.injEq] at hi
                 rw [← hi.2]
                 exact hun)))

theorem Spec.initLoop_unshared (s : Spec) (hd : Holder) (rest : List CliOption) :
    ∀ (i : Nat) (shorts longs : List (String × Nat)) (holders : List (Holder × Nat))
      (h h' : Heap) (x : Except Error specIndex),
      Spec.initLoop i rest shorts longs holders h = some (x, h') →
      Spec.unshared s h hd → Spec.unshared s h' hd := by
  induction rest with
  | nil =>
    intro i shorts longs holders h h' x hi hun
    simp only [Spec.initLoop, Option.some.injEq, Prod.mk.injEq] at hi
    rw [← hi.2]
    exact hun
  | cons o rest ih =>
    intro i shorts longs holders h h' x hi hun
    rw [Spec.initLoop] at hi
    cases hoi : o.init h with
    | none => rw [hoi] at hi; cases hi
    | some r =>
      obtain ⟨e, h1⟩ := r
      have hl := CliOption.init_unshared o h h1 e s hd hoi hun
      rw [hoi] at hi
      cases e with
      | some err =>
        simp only [Option.some.injEq, Prod.mk.injEq] at hi
        rw [← hi.2]
        exact hl
      | none =>
        simp only at hi
        split_ifs at hi
        all_goals first
          | (simp only [Option.some.injEq, Prod.mk.injEq] at hi; rw [← hi.2]; exact hl)
          | exact ih _ _ _ _ _ _ _ hi hl

theorem Parse.loop_receives (P : Strconv) (spec : Spec) (index : specIndex)
    (hv : ValidSpec spec index) (j : Nat) (o : CliOption) (ho : spec[j]? = some o)
    (hsing : o.isSingleton = false) (hreq : o.requireValue = true)
    (tokens vs : List String) (hu : Receives spec j tokens vs) :
    ∀ (i : Nat) (cliAll : List String) (lo : Option Nat) (st : State) (r : Return) (st' : State),
      Spec.Evolves spec st.spec → Spec.unshared st.spec st.heap o.Holder →
      Parse.loop P index i tokens ⟨cliAll, false, lo⟩ st = some (r, st') → r.err = none →
      st'.heap.list o.Holder
        = st.heap.list o.Holder ++ vs.filterMap (parseElem P o.Holder.kind) := by
  have hrepk := typesConstraints_repeatable o hsing hreq
  induction hu with
  | done =>
    intro i cliAll lo st r st' _ _ hl _
    simp only [Parse.loop, Option.some.injEq, Prod.mk.injEq] at hl
    rw [← hl.2]
    simp
  | stop tok rest hstop =>
    intro i cliAll lo st r st' _ _ hl _
    simp only [Parse.loop, Parse.body, Bool.false_eq_true, if_false, Parse.token] at hl
    rcases hstop with rfl | hno
    · simp only [isEndOfOptionSpecifier, decide_True, if_true, Option.some.injEq,
        Prod.mk.injEq] at hl
      rw [← hl.2]
      simp
    · simp only [hno, Bool.false_eq_true, if_false] at hl
      split_ifs at hl <;>
        (simp only [Option.some.injEq, Prod.mk.injEq] at hl
         rw [← hl.2]
         simp)
  | use tok val rest vs o' ho' hdes _ ih =>
    intro i cliAll lo st r st' hev hun hl herr
    rw [ho] at ho'
    cases ho'
    obtain ⟨ok, name, hok, hevo, htok⟩ :=
      Parse.token_designates P spec index hv i tok (val :: rest) cliAll st j o hev ho hreq hdes
    have hks : j < st.spec.length := (List.getElem?_eq_some.mp hok).1
    have hnd : ¬ (ok.isSingleton = true ∧ ok.set = true) := by
      rw [hevo.isSingleton_same, hsing]
      simp
    simp only [Parse.loop, Parse.body, Bool.false_eq_true, if_false, htok, hnd, if_true,
      Parse.value] at hl
    split_ifs at hl with h1 h2
    · simp only [Option.some.injEq, Prod.mk.injEq] at hl
      rw [← hl.1] at herr
      simp at herr
    · simp only [Option.some.injEq, Prod.mk.injEq] at hl
      rw [← hl.1] at herr
      simp at herr
    · cases hadd : State.addValue P ⟨st.spec.set j ok.setIt, st.heap⟩ j (.string val) with
      | none => rw [hadd] at hl; cases hl
      | some st2 =>
        rw [hadd] at hl
        simp only at hl
        have hev1 : Spec.Evolves st.spec (st.spec.set j ok.setIt) :=
          Spec.specEvolves_set hok ⟨rfl, rfl, rfl, fun _ hh => hh, fun _ => rfl, fun _ => rfl⟩
        have hev2 := State.addValue_specEvolves P _ st2 j _ hadd
        have hget : (⟨st.spec.set j ok.setIt, st.heap⟩ : State).spec[j]? = some ok.setIt := by
          simp [List.getElem?_set_self hks]
        have hh : ok.setIt.Holder = o.Holder := hevo.list hsing
        have hun1 : Spec.unshared (st.spec.set j ok.setIt) st.heap o.Holder :=
          Spec.unshared_set st.spec st.heap o.Holder j ok ok.setIt hok rfl hun
        obtain ⟨hun2, o2, ho2, hlist⟩ :=
          State.addValue_unshared P ⟨st.spec.set j ok.setIt, st.heap⟩ st2 j (.string val)
            o.Holder hrepk hun1 hadd
        rw [hget] at ho2
        cases ho2
        rw [if_pos hh] at hlist
        simp only [Value.elems] at hlist
        rw [ih _ _ _ st2 r st' (Spec.specEvolves_trans hev (Spec.specEvolves_trans hev1 hev2))
          hun2 hl herr, hlist]
        simp only [List.filterMap_cons]
        cases parseElem P o.Holder.kind val <;> simp
  | other tok val rest vs k ok0 hkj hok0 hreqk hdes _ ih =>
    intro i cliAll lo st r st' hev hun hl herr
    obtain ⟨ok, name, hok, hevo, htok⟩ :=
      Parse.token_designates P spec index hv i tok (val :: rest) cliAll st k ok0 hev hok0 hreqk
        hdes
    have hks : k < st.spec.length := (List.getElem?_eq_some.mp hok).1
    simp only [Parse.loop, Parse.body, Bool.false_eq_true, if_false, htok] at hl
    split_ifs at hl with hdup
    · simp only [Option.some.injEq, Prod.mk.injEq] at hl
      rw [← hl.1] at herr
      simp at herr
    · simp only [if_true, Parse.value] at hl
      split_ifs at hl with h1 h2
      · simp only [Option.some.injEq, Prod.mk.injEq] at hl
        rw [← hl.1] at herr
        simp at herr
      · simp only [Option.some.injEq, Prod.mk.injEq] at hl
        rw [← hl.1] at herr
        simp at herr
      · cases hadd : State.addValue P ⟨st.spec.set k ok.setIt, st.heap⟩ k (.string val) with
        | none => rw [hadd] at hl; cases hl
        | some st2 =>
          rw [hadd] at hl
          simp only at hl
          have hev1 : Spec.Evolves st.spec (st.spec.set k ok.setIt) :=
            Spec.specEvolves_set hok ⟨rfl, rfl, rfl, fun _ hh => hh, fun _ => rfl, fun _ => rfl⟩
          have hev2 := State.addValue_specEvolves P _ st2 k _ hadd
          have hget : (⟨st.spec.set k ok.setIt, st.heap⟩ : State).spec[k]? = some ok.setIt := by
            simp [List.getElem?_set_self hks]
          have hun1 : Spec.unshared (st.spec.set k ok.setIt) st.heap o.Holder :=
            Spec.unshared_set st.spec st.heap o.Holder k ok ok.setIt hok rfl hun
          obtain ⟨hun2, o2, ho2, hlist⟩ :=
            State.addValue_unshared P ⟨st.spec.set k ok.setIt, st.heap⟩ st2 k (.string val)
              o.Holder hrepk hun1 hadd
          rw [hget] at ho2
          cases ho2
          have hh : ¬ ok.setIt.Holder = o.Holder := by
            intro heq
            have hkind : ok0.Holder.kind = o.Holder.kind := by
              rw [← hevo.kind]
              exact congrArg Holder.kind heq
            have hs0 : ok0.isSingleton = false := by
              rw [CliOption.isSingleton_eq, hkind, ← CliOption.isSingleton_eq]
              exact hsing
            have h0 : ok.Holder = ok0.Holder := hevo.list hs0
            exact hkj (hv.holders k j ok0 o hok0 ho (h0.symm.trans heq))
          rw [if_neg hh, List.append_nil] at hlist
          rw [ih _ _ _ st2 r st' (Spec.specEvolves_trans hev (Spec.specEvolves_trans hev1 hev2))
            hun2 hl herr, hlist]
  | last tok k ok0 hok0 hreqk hdes =>
    intro i cliAll lo st r st' hev hun hl herr
    obtain ⟨ok, name, hok, hevo, htok⟩ :=
      Parse.token_designates P spec index hv i tok [] cliAll st k ok0 hev hok0 hreqk hdes
    simp only [Parse.loop, Parse.body, Bool.false_eq_true, if_false, htok] at hl
    split_ifs at hl with hdup
    · simp only [Option.some.injEq, Prod.mk.injEq] at hl
      rw [← hl.1] at herr
      simp at herr
    · simp only [Option.some.injEq, Prod.mk.injEq] at hl
      rw [← hl.2]
      simp
  | skip tok rest vs hne hopt hnd _ ih =>
    intro i cliAll lo st r st' hev hun hl herr
    simp only [Parse.loop, Parse.body, Bool.false_eq_true, if_false] at hl
    cases htok : Parse.token P index i tok rest cliAll st with
    | panic => rw [htok] at hl; cases hl
    | ret r1 s1 =>
      rw [htok] at hl
      simp only [Option.some.injEq, Prod.mk.injEq] at hl
      rw [← hl.1] at herr
      exact absurd herr (Parse.token_ret P index i tok rest cliAll st r1 s1 hne hopt htok)
    | next v1 s1 =>
      rw [htok] at hl
      simp only at hl
      obtain ⟨hnsv, hlist⟩ :=
        Parse.token_skip P spec index hv i tok rest cliAll st v1 s1 o.Holder hev hne hopt
          (fun k ok hk => hnd ok (List.mem_iff_getElem?.mpr ⟨k, hk⟩)) htok
      have hev1 := Parse.token_evolves P index i tok rest cliAll st v1 s1 htok
      obtain ⟨c1, n1, l1⟩ := v1
      simp only at hnsv
      subst hnsv
      have hun1 := Parse.token_unshared P index i tok rest cliAll st ⟨c1, false, l1⟩ s1 o.Holder
        hrepk hun htok
      rw [ih _ _ _ s1 r st' (Spec.specEvolves_trans hev hev1) hun1 hl herr, hlist]

theorem Uses.receives {spec : Spec} {j : Nat} {tokens vs : List String}
    (hu : Uses spec j tokens vs) : Receives spec j tokens vs := by
  induction hu with
  | done => exact .done
  | stop tok rest hs => exact .stop tok rest hs
  | use tok val rest vs o ho hd _ ih => exact .use tok val rest vs o ho hd ih
  | other tok val rest vs k o hk ho hr hd _ ih => exact .other tok val rest vs k o hk ho hr hd ih
  | otherLast tok k o _ ho hr hd => exact .last tok k o ho hr hd
  | skip tok rest vs hne hopt hnd _ ih => exact .skip tok rest vs hne hopt hnd ih

theorem Parse.loop_uses (P : Strconv) (spec : Spec) (index : specIndex)
    (hv : ValidSpec spec index) (j : Nat) (o : CliOption) (ho : spec[j]? = some o)
    (hsing : o.isSingleton = false) (hreq : o.requireValue = true)
    (tokens vs : List String) (hu : Uses spec j tokens vs) :
    ∀ (i : Nat) (cliAll : List String) (lo : Option Nat) (st : State) (r : Return) (st' : State),
      Spec.Evolves spec st.spec → Spec.unshared st.spec st.heap o.Holder →
      Parse.loop P index i tokens ⟨cliAll, false, lo⟩ st = some (r, st') → r.err = none →
      st'.heap.list o.Holder
        = st.heap.list o.Holder ++ vs.filterMap (parseElem P o.Holder.kind) :=
  Parse.loop_receives P spec index hv j o ho hsing hreq tokens vs hu.receives

theorem List.map_eq_map_some_filterMap {α β : Type} (f : α → Option β) (l : List α)
    (h : ∀ a ∈ l, (f a).isSome = true) : l.map f = (l.filterMap f).map some := by
  induction l with
  | nil => rfl
  | cons a l ih =>
    have ha := h a (List.mem_cons_self _ _)
    have hl := ih (fun b hb => h b (List.mem_cons_of_mem _ hb))
    cases hfa : f a with
    | none => rw [hfa] at ha; cases ha
    | some b => simp [List.filterMap_cons, hfa, hl]

/-! ## The values that a repeatable holder receives -/

/-- C9, as stated, fails when two holders share their storage: with two repeatable options
`-n` and `-m` whose holders are two empty slices on one array of capacity 2, `Parse` accepts
`-n 1 -m 2`, where `-n` is used once with the value `1`, and the holder of `-n` ends as the one
element `2`: the value of `-m` was appended in the element that the two slices share. -/
theorem C9_counterexample :
    ∃ st, Parse sampleStrconv ["-n", "1", "-m", "2"] sampleSpecNumberPair
        sampleHeapSharedNumbers
        = some (⟨some ["-n", "1", "-m", "2"], some [], none⟩, st) ∧
      sampleHeapSharedNumbers.list ⟨TypeIntegers8, some 0⟩ = [] ∧
      Uses sampleSpecNumberPair 0 ["-n", "1", "-m", "2"] ["1"] ∧
      st.heap.list ⟨TypeIntegers8, some 0⟩ = [.int 2] :=
  ⟨_, rfl, rfl,
    Uses.use "-n" "1" _ _ ⟨"n", "", ⟨TypeIntegers8, some 0⟩, false⟩ rfl
      (Or.inl ⟨by decide, rfl⟩)
      (Uses.other "-m" "2" [] [] 1 ⟨"m", "", ⟨TypeIntegers8, some 1⟩, false⟩ (by decide) rfl rfl
        (Or.inl ⟨by decide, rfl⟩) Uses.done),
    rfl⟩

/-- C9, amended. For a specification accepted by `Spec.init` and a repeatable option of it
whose holder shares no storage with the holders of the other options, if the tokens use the
option with the values `vs`, each use followed by its value, every value is well formed for
the type of the holder, and `Parse` returns no error, then the holder ends as its contents
before the call followed by the elements the values stand for, one for each use, in the order
of the uses. -/
theorem C9_repeatable_values (P : Strconv) (spec : Spec) (h h' : Heap) (index : specIndex)
    (j : Nat) (o : CliOption) (tokens vs : List String) (r : Return) (st' : State)
    (hinit : Spec.init spec h = some (.ok index, h'))
    (ho : spec[j]? = some o) (hsing : o.isSingleton = false) (hreq : o.requireValue = true)
    (hun : Spec.unshared spec h o.Holder)
    (hu : Uses spec j tokens vs)
    (hwf : ∀ v ∈ vs, (parseElem P o.Holder.kind v).isSome = true)
    (hparse : Parse P tokens spec h = some (r, st')) (herr : r.err = none) :
    ∃ es, vs.map (parseElem P o.Holder.kind) = es.map some ∧ es.length = vs.length ∧
      st'.heap.list o.Holder = h.list o.Holder ++ es := by
  have hv := Spec.init_valid spec h h' index hinit
  have hl0 : h'.list o.Holder = h.list o.Holder :=
    Spec.initLoop_list o.Holder spec 0 [] [] [] h h' _ hinit
  have hun0 : Spec.unshared spec h' o.Holder :=
    Spec.initLoop_unshared spec o.Holder spec 0 [] [] [] h h' _ hinit hun
  simp only [Parse, hinit] at hparse
  have hmain := Parse.loop_uses P spec index hv j o ho hsing hreq tokens vs hu 0 [] none
    ⟨spec, h'⟩ r st' (Spec.specEvolves_refl spec) hun0 hparse herr
  have hmap := List.map_eq_map_some_filterMap (parseElem P o.Holder.kind) vs hwf
  refine ⟨vs.filterMap (parseElem P o.Holder.kind), hmap, ?_, ?_⟩
  · have := congrArg List.length hmap
    simpa using this.symm
  · rw [hmain]
    simp only
    rw [hl0]

theorem sampleSpec_unshared (h : Heap) (hn : h.next = 8) (s : Slice)
    (hs : h.stringSlices 0 = s) (h1 : 1 ≤ s.base) (h2 : s.base + s.cap ≤ 8) :
    Spec.unshared sampleSpec h ⟨TypeStrings, some 0⟩ := by
  have hst : ∀ a, h.storage ⟨TypeStrings, some 0⟩ a ↔ (s.base ≤ a ∧ a < s.base + s.cap) := by
    intro a
    rw [Heap.storage_slice h TypeStrings 0 a rfl]
    show ((h.stringSlices 0).base ≤ a ∧ a < (h.stringSlices 0).base + (h.stringSlices 0).cap) ↔ _
    rw [hs]
  constructor
  · intro a ha
    rw [hst] at ha
    omega
  · intro o hm hne hel a ha
    rw [hst]
    simp only [sampleSpec, List.mem_cons, List.mem_singleton, List.not_mem_nil, or_false] at hm
    rcases hm with rfl | rfl | rfl | rfl | rfl
    · cases hel
    · cases hel
    · rw [Heap.storage_scalar h TypeString 0 a rfl] at ha
      omega
    · exact absurd rfl hne
    · cases hel

/-- The amended property C9 on the sample values: the option `-p`/`--path` used twice. -/
theorem C9_repeatable_values_witness :
    ∃ es : List Elem, ["a", "b"].map (parseElem sampleStrconv TypeStrings) = es.map some ∧
      es.length = ["a", "b"].length ∧
      Heap.list ((((((sampleHeapPath.setBool 0 false).setBool 1 false).setBool 0 true).appendString
          0 "a").appendString 0 "b")) ⟨TypeStrings, some 0⟩
        = sampleHeapPath.list ⟨TypeStrings, some 0⟩ ++ es :=
  C9_repeatable_values sampleStrconv sampleSpec sampleHeapPath
    ((sampleHeapPath.setBool 0 false).setBool 1 false) sampleIndex 3
    ⟨"p", "path", ⟨TypeStrings, some 0⟩, false⟩
    ["-v", "-p", "a", "--path", "b", "--", "-p"] ["a", "b"]
    ⟨some ["-v", "-p", "a", "--path", "b", "--", "-p"], some ["-p"], none⟩
    ⟨[⟨"v", "", ⟨TypeBool, some 0⟩, true⟩,
      ⟨"h", "", ⟨TypeBool, some 1⟩, false⟩,
      ⟨"i", "input", ⟨TypeString, some 0⟩, false⟩,
      ⟨"p", "path", ⟨TypeStrings, some 0⟩, true⟩,
      ⟨"n", "int8", ⟨TypeInteger8, some 0⟩, false⟩],
      ((((sampleHeapPath.setBool 0 false).setBool 1 false).setBool 0 true).appendString
        0 "a").appendString 0 "b"⟩
    rfl rfl rfl rfl
    (sampleSpec_unshared sampleHeapPath rfl ⟨4, 1, 1⟩ rfl (by decide) (by decide))
    (Uses.skip "-v" _ _ (by decide) (by decide) (by decide)
      (Uses.use "-p" "a" _ _ ⟨"p", "path", ⟨TypeStrings, some 0⟩, false⟩ rfl
        (Or.inl ⟨by decide, rfl⟩)
        (Uses.use "--path" "b" _ _ ⟨"p", "path", ⟨TypeStrings, some 0⟩, false⟩ rfl
          (Or.inr ⟨by decide, by decide, rfl⟩)
          (Uses.stop "--" ["-p"] (Or.inl rfl)))))
    (by decide) rfl rfl

theorem Heap.list_strings (h : Heap) (p : Nat) :
    h.list ⟨TypeStrings, some p⟩ = (h.stringLists p).map .str := rfl

/-- C31, as stated, fails when holders share their storage.  With two repeatable options `-a`
and `-b` whose holders are two empty slices on one array of capacity 2, `Parse` accepts
`-a x -b y`, which give `-a` the one value `x`, and the holder of `-a` ends as the one element
`y`.  With a repeatable option `-p` whose holder holds the one element `old`, and an option
`-s` whose holder points to this element, `Parse` accepts `-s new`, which give `-p` no value,
and the holder of `-p` ends as the one element `new`. -/
theorem C31_counterexample :
    (∃ st, Parse sampleStrconv ["-a", "x", "-b", "y"] sampleSpecPair sampleHeapShared
        = some (⟨some ["-a", "x", "-b", "y"], some [], none⟩, st) ∧
      sampleHeapShared.stringLists 0 = [] ∧
      Receives sampleSpecPair 0 ["-a", "x", "-b", "y"] ["x"] ∧
      st.heap.stringLists 0 = ["y"]) ∧
    (∃ st, Parse sampleStrconv ["-s", "new"] sampleSpecInside sampleHeapInside
        = some (⟨some ["-s", "new"], some [], none⟩, st) ∧
      sampleHeapInside.stringLists 0 = ["old"] ∧
      Receives sampleSpecInside 0 ["-s", "new"] [] ∧
      st.heap.stringLists 0 = ["new"]) :=
  ⟨⟨_, rfl, rfl,
      Receives.use "-a" "x" _ _ ⟨"a", "", ⟨TypeStrings, some 0⟩, false⟩ rfl
        (Or.inl ⟨by decide, rfl⟩)
        (Receives.other "-b" "y" [] [] 1 ⟨"b", "", ⟨TypeStrings, some 1⟩, false⟩ (by decide)
          rfl rfl (Or.inl ⟨by decide, rfl⟩) Receives.done),
      rfl⟩,
    ⟨_, rfl, rfl,
      Receives.other "-s" "new" [] [] 1 ⟨"s", "", ⟨TypeString, some 3⟩, false⟩ (by decide)
        rfl rfl (Or.inl ⟨by decide, rfl⟩) Receives.done,
      rfl⟩⟩

/-- C31, amended. For a specification accepted by `Spec.init` and an option of it whose holder
points to a slice of strings and shares no storage with the holders of the other options: when
`Parse` returns no error on tokens that give the option the values `vs`, in this order, the
slice ends as its contents before the call followed by `vs` (it is unchanged when `vs` is
empty); and each call of `addValue` with a string returns no error and appends this one string
at the end of the slice. -/
theorem C31_repeatable_holder_appended (P : Strconv) (spec : Spec) (h h' : Heap)
    (index : specIndex) (j : Nat) (o : CliOption) (p : Nat) (tokens vs : List String)
    (r : Return) (st' : State)
    (hinit : Spec.init spec h = some (.ok index, h'))
    (ho : spec[j]? = some o) (hk : o.Holder = ⟨TypeStrings, some p⟩)
    (hun : Spec.unshared spec h o.Holder)
    (hu : Receives spec j tokens vs)
    (hparse : Parse P tokens spec h = some (r, st')) (herr : r.err = none) :
    st'.heap.stringLists p = h.stringLists p ++ vs ∧
    ∀ (s : String) (m : Heap), o.addValue P (.string s) m = some (none, o, m.appendString p s) ∧
      (m.appendString p s).stringLists p = m.stringLists p ++ [s] := by
  have hv := Spec.init_valid spec h h' index hinit
  have hkind : o.Holder.kind = TypeStrings := by rw [hk]
  have hsing : o.isSingleton = false := by
    rw [CliOption.isSingleton_eq, hkind]
    rfl
  have hreq : o.requireValue = true := by
    rw [CliOption.requireValue_eq, hkind]
    rfl
  constructor
  · have hl0 : h'.list o.Holder = h.list o.Holder :=
      Spec.initLoop_list o.Holder spec 0 [] [] [] h h' _ hinit
    have hun0 : Spec.unshared spec h' o.Holder :=
      Spec.initLoop_unshared spec o.Holder spec 0 [] [] [] h h' _ hinit hun
    simp only [Parse, hinit] at hparse
    have hmain := Parse.loop_receives P spec index hv j o ho hsing hreq tokens vs hu 0 [] none
      ⟨spec, h'⟩ r st' (Spec.specEvolves_refl spec) hun0 hparse herr
    simp only at hmain
    rw [hl0, hk, Heap.list_strings, Heap.list_strings] at hmain
    have hfm : ∀ l : List String, l.filterMap (parseElem P TypeStrings) = l.map Elem.str := by
      intro l
      induction l with
      | nil => rfl
      | cons a l ih => simp [parseElem, ih]
    rw [hfm vs, ← List.map_append] at hmain
    exact List.map_injective_iff.mpr (fun a b hab => Elem.str.inj hab) hmain
  · intro s m
    obtain ⟨sh, lg, hd, st⟩ := o
    simp only at hk
    subst hk
    exact ⟨rfl, Heap.stringLists_appendString m p s⟩

/-- The amended property C31 on the sample values: the holder of `-p`/`--path` holds `z`, the
option receives `a` and `b`, and its last use has no value. -/
theorem C31_repeatable_holder_appended_witness :
    Heap.stringLists ((((((sampleHeapPath.setBool 0 false).setBool 1 false).setBool 0
        true).appendString 0 "a").appendString 0 "b")) 0
      = sampleHeapPath.stringLists 0 ++ ["a", "b"] :=
  (C31_repeatable_holder_appended sampleStrconv sampleSpec sampleHeapPath
    ((sampleHeapPath.setBool 0 false).setBool 1 false) sampleIndex
    3 ⟨"p", "path", ⟨TypeStrings, some 0⟩, false⟩ 0
    ["-v", "-p", "a", "--path", "b", "-p"] ["a", "b"]
    ⟨some ["-v", "-p", "a", "--path", "b", "-p"], some [], none⟩
    ⟨[⟨"v", "", ⟨TypeBool, some 0⟩, true⟩,
      ⟨"h", "", ⟨TypeBool, some 1⟩, false⟩,
      ⟨"i", "input", ⟨TypeString, some 0⟩, false⟩,
      ⟨"p", "path", ⟨TypeStrings, some 0⟩, true⟩,
      ⟨"n", "int8", ⟨TypeInteger8, some 0⟩, false⟩],
      ((((sampleHeapPath.setBool 0 false).setBool 1 false).setBool 0 true).appendString
        0 "a").appendString 0 "b"⟩
    rfl rfl rfl
    (sampleSpec_unshared sampleHeapPath rfl ⟨4, 1, 1⟩ rfl (by decide) (by decide))
    (Receives.skip "-v" _ _ (by decide) (by decide) (by decide)
      (Receives.use "-p" "a" _ _ ⟨"p", "path", ⟨TypeStrings, some 0⟩, false⟩ rfl
        (Or.inl ⟨by decide, rfl⟩)
        (Receives.use "--path" "b" _ _ ⟨"p", "path", ⟨TypeStrings, some 0⟩, false⟩ rfl
          (Or.inr ⟨by decide, by decide, rfl⟩)
          (Receives.last "-p" 3 ⟨"p", "path", ⟨TypeStrings, some 0⟩, false⟩ rfl rfl
            (Or.inl ⟨by decide, rfl⟩)))))
    rfl rfl).1

end cli
